import Mathlib

/-!
# Dungeon generator (`mazegen.cpp`): embedding and verified properties

The generator works on a global grid `tiles[width][height]` of `tile_t`, a room
table and the counter `next_region`, and runs four stages after `init`:
`make_rooms`, `make_maze` (`hunt` and `walk`), `make_connections` and
`remove_dead_ends`.

Conventions of the embedding.

* Coordinates, region ids and room indices are `Int`.  Values stored in a `char`
  field go through `to_char` (signed 8-bit wrap-around).
* The grid is a function `Int → Int → tile_t`; the source only ever touches
  cells with `0 ≤ x < width`, `0 ≤ y < height`.
* The source fixes `width = 79` and `height = 25`.  Every function takes the two
  dimensions as arguments `W H`; the source is the instance `W = width`,
  `H = height`.
* `rand()` is a finite list of natural numbers, consumed from the head.  A
  function that needs a draw when the list is empty returns `outcome.no_draws`.
* Loops without a draw per iteration carry a fuel argument and return
  `outcome.no_fuel` when it runs out.
* A failing `assert` is `outcome.assert_failed`; an index outside a `std::vector`
  is `outcome.bad_index`.
* Parity tests `v % 2` and the halving `(a + b) / 2` use Lean's `%` and `/`; they
  agree with the C++ operators on the non-negative values the program computes,
  and `v % 2 = 0` holds for the same `v` under both readings of `%`.
* `int` values are `Int`.  Coordinates, counters and indices stay far inside the
  range of an `int`; the one `int` that grows with its input, `weight_sum` of a
  selector, goes through `to_int` (32-bit wrap-around).  `rand() % n` in
  `randrange` is Lean's `%`, which agrees with the C++ operator for `n > 0`; the
  properties below use `randrange` with a positive `n` only.
-/

namespace Mazegen

/-! ## Data model -/

/-- The anonymous enum `tk_floor, tk_wall, tk_conn, tk_cull`. -/
inductive tile_kind where
  | tk_floor
  | tk_wall
  | tk_conn
  | tk_cull
deriving DecidableEq, Repr

open tile_kind

/-- The record `tile_t` of one grid cell. -/
structure tile_t where
  region : Int
  room : Int
  kind : tile_kind
  door : Bool
deriving DecidableEq, Repr

/-- The record `room_t`: a rectangle with inclusive bounds. -/
structure room_t where
  x0 : Int
  y0 : Int
  x1 : Int
  y1 : Int
deriving DecidableEq, Repr

/-- The record `xy_t`. -/
structure xy_t where
  x : Int
  y : Int
deriving DecidableEq, Repr

/-- The record `range_t`: an inclusive integer range. -/
structure range_t where
  lo : Int
  hi : Int
deriving DecidableEq, Repr

/-- The constant `width`. -/
def width : Int := 79

/-- The constant `height`. -/
def height : Int := 25

/-- The constant `max_rooms`. -/
def max_rooms : Int := 16

/-- The constant `room_width`. -/
def room_width : range_t := ⟨7, 10⟩

/-- The constant `room_height`. -/
def room_height : range_t := ⟨5, 7⟩

/-- The constant `max_tries` of `make_rooms`. -/
def max_tries : Int := 200

/-- The array `tiles`, as a function of the two indices. -/
abbrev grid := Int → Int → tile_t

/-- The global variables of the program; `rooms` holds the entries
`rooms[0 .. n_rooms-1]` of the room table. -/
structure state where
  tiles : grid
  rooms : List room_t
  n_rooms : Int
  next_region : Int

/-- How a run of a function ends. -/
inductive outcome (α : Type) where
  | ok (a : α)
  | no_draws
  | assert_failed
  | bad_index
  | no_fuel

/-- Holds when the run has returned a value. -/
def outcome.is_ok {α : Type} : outcome α → Bool
  | outcome.ok _ => true
  | _ => false

/-- Sequencing: run `k` on the value returned, or pass on why nothing returned. -/
def outcome.bind {α β : Type} : outcome α → (α → outcome β) → outcome β
  | outcome.ok a, k => k a
  | outcome.no_draws, _ => outcome.no_draws
  | outcome.assert_failed, _ => outcome.assert_failed
  | outcome.bad_index, _ => outcome.bad_index
  | outcome.no_fuel, _ => outcome.no_fuel

/-- Value stored by an assignment to a (signed) `char`. -/
def to_char (v : Int) : Int := (v + 128) % 256 - 128

/-- Value of an `int` (32 bits) after an addition whose exact result is `v`;
overflow is taken as two's-complement wrap-around. -/
def to_int (v : Int) : Int := (v + 2147483648) % 4294967296 - 2147483648

/-- Index test `0 ≤ x < W`, `0 ≤ y < H`. -/
def in_bounds (W H x y : Int) : Prop := 0 ≤ x ∧ x < W ∧ 0 ≤ y ∧ y < H

instance (W H x y : Int) : Decidable (in_bounds W H x y) := by
  unfold in_bounds; infer_instance

/-- The list `lo, lo+1, …, hi` visited by `for (v = lo; v <= hi; v += 1)`. -/
def int_range (lo hi : Int) : List Int :=
  (List.range (hi + 1 - lo).toNat).map (fun (i : Nat) => lo + (i : Int))

/-- The list `1, 3, 5, …` below `n` visited by `for (v = 1; v < n; v += 2)`. -/
def odd_range (n : Int) : List Int :=
  (List.range (n / 2).toNat).map (fun (i : Nat) => 2 * (i : Int) + 1)

/-- Cells visited by `for x in x0..x1` (outer) `for y in y0..y1` (inner). -/
def rect_cells (x0 y0 x1 y1 : Int) : List (Int × Int) :=
  (int_range x0 x1).flatMap (fun x => (int_range y0 y1).map (fun y => (x, y)))

/-- Cells visited by the two odd loops of `hunt`, `x` outer and `y` inner. -/
def odd_cells (W H : Int) : List (Int × Int) :=
  (odd_range W).flatMap (fun x => (odd_range H).map (fun y => (x, y)))

/-- An assignment to fields of `tiles[x][y]`: the cell is replaced by `f` of it. -/
def modify (g : grid) (x y : Int) (f : tile_t → tile_t) : grid :=
  fun a b => if a = x ∧ b = y then f (g a b) else g a b

/-- The double loop `for x in x0..x1, for y in y0..y1` whose body reads and writes
only `tiles[x][y]`, replacing it by `f` of it. -/
def for_rect (x0 y0 x1 y1 : Int) (f : tile_t → tile_t) (g : grid) : grid :=
  fun a b => if x0 ≤ a ∧ a ≤ x1 ∧ y0 ≤ b ∧ b ≤ y1 then f (g a b) else g a b

/-- The function `randrange`, given the value `rnd` returned by `rand()`. -/
def randrange (r : range_t) (rnd : Nat) : Int :=
  r.lo + (rnd : Int) % (r.hi - r.lo + 1)

/-! ## `weighted_selector_t` -/

/-- The template struct `weighted_selector_t<T>`. -/
structure weighted_selector_t (T : Type) where
  items : List T
  weights : List Int
  weight_sum : Int

/-- A freshly constructed selector. -/
def weighted_selector_t.new {T : Type} : weighted_selector_t T := ⟨[], [], 0⟩

/-- The method `push_back`; `weight_sum += weight` is an addition on `int`. -/
def weighted_selector_t.push_back {T : Type} (s : weighted_selector_t T) (item : T)
    (weight : Int) : weighted_selector_t T :=
  ⟨s.items ++ [item], s.weights ++ [weight], to_int (s.weight_sum + weight)⟩

/-- The loop of `select` from index `i` on, with the running value `r`; `none` is
the `assert(false)` after the loop. -/
def select_loop {T : Type} : List T → List Int → Int → Option T
  | item :: items, w :: ws, r =>
    if r - w ≤ 0 then some item else select_loop items ws (r - w)
  | _, _, _ => none

/-- The method `select`, given the value `rnd` returned by `rand()`. -/
def weighted_selector_t.select {T : Type} (s : weighted_selector_t T) (rnd : Nat) :
    Option T :=
  select_loop s.items s.weights (randrange ⟨0, s.weight_sum⟩ rnd)

/-- The method `empty`. -/
def weighted_selector_t.empty {T : Type} (s : weighted_selector_t T) : Bool :=
  s.items.isEmpty

/-! ## `init` and `make_rooms` -/

/-- The value `init` gives every tile. -/
def blank_tile : tile_t := ⟨-1, -1, tk_wall, false⟩

/-- The function `init`. -/
def init (W H : Int) (s : state) : state :=
  { tiles := for_rect 0 0 (W - 1) (H - 1) (fun _ => blank_tile) s.tiles
    rooms := []
    n_rooms := 0
    next_region := 0 }

/-- The loop `do { v = randrange(range); } while (v % 2 == 0);` on an `int`. -/
def draw_odd (range : range_t) : List Nat → Option (Int × List Nat)
  | [] => none
  | rnd :: rest =>
    if randrange range rnd % 2 = 0 then draw_odd range rest
    else some (randrange range rnd, rest)

/-- The loop `do { c = randrange(range); } while (c % 2);` on a `char`. -/
def draw_even (range : range_t) : List Nat → Option (Int × List Nat)
  | [] => none
  | rnd :: rest =>
    if to_char (randrange range rnd) % 2 ≠ 0 then draw_even range rest
    else some (to_char (randrange range rnd), rest)

/-- The candidate of one iteration of `make_rooms`, up to the two assertions:
the values `w`, `h`, the record `r` and the draws left. -/
def draw_room (W H : Int) (draws : List Nat) : Option (Int × Int × room_t × List Nat) :=
  match draw_odd room_width draws with
  | none => none
  | some (w, d1) =>
    match draw_odd room_height d1 with
    | none => none
    | some (h, d2) =>
      match draw_even ⟨0, W - w⟩ d2 with
      | none => none
      | some (x0, d3) =>
        match draw_even ⟨0, H - h⟩ d3 with
        | none => none
        | some (y0, d4) =>
          some (w, h, ⟨x0, y0, to_char (x0 + w - 1), to_char (y0 + h - 1)⟩, d4)

/-- The collision test: some tile of the rectangle of `r` is already floor. -/
def collides (g : grid) (r : room_t) : Bool :=
  (rect_cells r.x0 r.y0 r.x1 r.y1).any (fun p => (g p.1 p.2).kind = tk_floor)

/-- The accepting branch of `make_rooms`: record `r`, stamp the room index on
the rectangle, carve the interior, advance the counters. -/
def place_room (s : state) (r : room_t) : state :=
  { tiles :=
      for_rect (r.x0 + 1) (r.y0 + 1) (r.x1 - 1) (r.y1 - 1)
        (fun t => { t with kind := tk_floor, region := to_char s.next_region })
        (for_rect r.x0 r.y0 r.x1 r.y1 (fun t => { t with room := to_char s.n_rooms })
          s.tiles)
    rooms := s.rooms ++ [r]
    n_rooms := s.n_rooms + 1
    next_region := s.next_region + 1 }

/-- The `while` loop of `make_rooms`, with the local `tries`. -/
def make_rooms_loop (W H : Int) :
    Nat → state → Int → List Nat → outcome (state × List Nat)
  | 0, _, _, _ => outcome.no_fuel
  | fuel + 1, s, tries, draws =>
    if tries < max_tries ∧ s.n_rooms < max_rooms then
      match draw_room W H draws with
      | none => outcome.no_draws
      | some (_, _, r, rest) =>
        if r.x1 % 2 ≠ 0 then outcome.assert_failed
        else if r.y1 % 2 ≠ 0 then outcome.assert_failed
        else if collides s.tiles r then make_rooms_loop W H fuel s (tries + 1) rest
        else make_rooms_loop W H fuel (place_room s r) 0 rest
    else outcome.ok (s, draws)

/-- The function `make_rooms`.  Every iteration takes at least one draw, so the
fuel `draws.length + 1` is never used up. -/
def make_rooms (W H : Int) (s : state) (draws : List Nat) : outcome (state × List Nat) :=
  make_rooms_loop W H (draws.length + 1) s 0 draws

/-! ## `make_maze`: `walk` and `hunt` -/

/-- The array `dirs` of `walk` and of `hunt`. -/
def dirs : List xy_t := [⟨-2, 0⟩, ⟨2, 0⟩, ⟨0, -2⟩, ⟨0, 2⟩]

/-- The weight `walk` gives direction `d` after a step `(dx, dy)`: the `if` chain
of the source, every branch of which assigns 1. -/
def walk_weight (d : xy_t) (dx dy : Int) : Int :=
  if d.x = dx ∧ d.y = dy then 1
  else if d.x = 0 ∧ dx = d.y then 1
  else if d.x = 0 ∧ dx ≠ d.y then 1
  else if d.y = 0 ∧ dy = d.x then 1
  else if d.y = 0 ∧ dy ≠ d.x then 1
  else 1

/-- The test `kind == tk_wall && room == -1` of `walk` and `hunt`. -/
def unused (t : tile_t) : Bool := t.kind = tk_wall ∧ t.room = -1

/-- The test `kind == tk_floor && room == -1` of `hunt`. -/
def maze_floor (t : tile_t) : Bool := t.kind = tk_floor ∧ t.room = -1

/-- The selector `ns` that `walk` fills in its loop over `dirs`. -/
def walk_neighbours (W H : Int) (g : grid) (x y dx dy : Int) : weighted_selector_t xy_t :=
  dirs.foldl
    (fun ns d =>
      if in_bounds W H (x + d.x) (y + d.y) then
        if unused (g (x + d.x) (y + d.y)) then
          ns.push_back ⟨x + d.x, y + d.y⟩ (walk_weight d dx dy)
        else ns
      else ns)
    weighted_selector_t.new

/-- The assignment `kind = tk_floor; region = next_region` to a tile. -/
def carve (region : Int) (t : tile_t) : tile_t :=
  { t with kind := tk_floor, region := to_char region }

/-- The function `walk`.  A recursive call is made only after `select` has taken
a draw, so the recursion is on the list of draws. -/
def walk (W H : Int) : List Nat → state → Int → Int → Int → Int → outcome (state × List Nat)
  | [], s, x, y, dx, dy =>
    if (walk_neighbours W H (modify s.tiles x y (carve s.next_region)) x y dx dy).empty then
      outcome.ok ({ s with tiles := modify s.tiles x y (carve s.next_region) }, [])
    else outcome.no_draws
  | rnd :: rest, s, x, y, dx, dy =>
    if (walk_neighbours W H (modify s.tiles x y (carve s.next_region)) x y dx dy).empty then
      outcome.ok ({ s with tiles := modify s.tiles x y (carve s.next_region) }, rnd :: rest)
    else
      match (walk_neighbours W H (modify s.tiles x y (carve s.next_region)) x y dx dy).select
          rnd with
      | none => outcome.assert_failed
      | some n =>
        walk W H rest
          { s with tiles := modify (modify s.tiles x y (carve s.next_region))
                      ((x + n.x) / 2) ((y + n.y) / 2) (carve s.next_region) }
          n.x n.y (n.x - x) (n.y - y)

/-- The vector `ns` that `hunt` fills for the cell `(x, y)`: the step-two
neighbours that are maze floor. -/
def hunt_neighbours (W H : Int) (g : grid) (x y : Int) : List xy_t :=
  dirs.foldl
    (fun ns d =>
      if in_bounds W H (x + d.x) (y + d.y) then
        if maze_floor (g (x + d.x) (y + d.y)) then ns ++ [⟨x + d.x, y + d.y⟩] else ns
      else ns)
    []

/-- The function `hunt`.  The result `some (x, y)` stands for `true` with
`nextx = x`, `nexty = y`, and `none` for `false`.  Neither scan writes to the
grid before it returns, so each is a search for the first cell that passes
its test. -/
def hunt (W H : Int) (s : state) (draws : List Nat) :
    outcome (Option (Int × Int) × state × List Nat) :=
  match (odd_cells W H).find?
      (fun p => unused (s.tiles p.1 p.2) && decide (0 < (hunt_neighbours W H s.tiles p.1 p.2).length)) with
  | some p =>
    match draws with
    | [] => outcome.no_draws
    | rnd :: rest =>
      match (hunt_neighbours W H s.tiles p.1 p.2)[(randrange
          ⟨0, ((hunt_neighbours W H s.tiles p.1 p.2).length : Int) - 1⟩ rnd).toNat]? with
      | none => outcome.bad_index
      | some n =>
        outcome.ok (some p,
          { s with tiles := modify s.tiles ((p.1 + n.x) / 2) ((p.2 + n.y) / 2)
                      (carve s.next_region) },
          rest)
  | none =>
    match (odd_cells W H).find? (fun p => unused (s.tiles p.1 p.2)) with
    | some p => outcome.ok (some p, { s with next_region := s.next_region + 1 }, draws)
    | none => outcome.ok (none, s, draws)

/-- The loop `while (hunt(x, y)) walk(x, y, 0, 0);`. -/
def make_maze_loop (W H : Int) : Nat → state → List Nat → outcome (state × List Nat)
  | 0, _, _ => outcome.no_fuel
  | fuel + 1, s, draws =>
    (hunt W H s draws).bind fun r =>
      match r with
      | (none, s1, d1) => outcome.ok (s1, d1)
      | (some p, s1, d1) =>
        (walk W H d1 s1 p.1 p.2 0 0).bind fun r2 => make_maze_loop W H fuel r2.1 r2.2

/-- The function `make_maze`; the fuel is one more than the number of odd cells. -/
def make_maze (W H : Int) (s : state) (draws : List Nat) : outcome (state × List Nat) :=
  make_maze_loop W H ((odd_cells W H).length + 1) s draws

/-! ## `make_connections` -/

/-- The local record `connection_t`; `region0` and `region1` are `region[0]` and
`region[1]`. -/
structure connection_t where
  x : Int
  y : Int
  index : Int
  region0 : Int
  region1 : Int
deriving DecidableEq, Repr

/-- The constant `main_region`. -/
def main_region : Int := 0

/-- The first loop of `make_connections` over the tiles still to visit, on the
vector `connections`. -/
def scan_cells (g : grid) : List (Int × Int) → List connection_t → List connection_t
  | [], connections => connections
  | p :: ps, connections =>
    if (g (p.1 - 1) p.2).region ≠ (g (p.1 + 1) p.2).region ∧ (g (p.1 - 1) p.2).region ≥ 0
        ∧ (g (p.1 + 1) p.2).region ≥ 0 then
      scan_cells g ps (connections ++ [⟨p.1, p.2, connections.length,
        min (g (p.1 - 1) p.2).region (g (p.1 + 1) p.2).region,
        max (g (p.1 - 1) p.2).region (g (p.1 + 1) p.2).region⟩])
    else if (g p.1 (p.2 - 1)).region ≠ (g p.1 (p.2 + 1)).region
        ∧ (g p.1 (p.2 - 1)).region ≥ 0 ∧ (g p.1 (p.2 + 1)).region ≥ 0 then
      scan_cells g ps (connections ++ [⟨p.1, p.2, connections.length,
        min (g p.1 (p.2 - 1)).region (g p.1 (p.2 + 1)).region,
        max (g p.1 (p.2 - 1)).region (g p.1 (p.2 + 1)).region⟩])
    else scan_cells g ps connections

/-- The vector `connections` after the first loop of `make_connections`. -/
def scan_connections (W H : Int) (g : grid) : List connection_t :=
  scan_cells g (rect_cells 1 1 (W - 2) (H - 2)) []

/-- The two region rewrites applied to `connections[i]` in the last loop of a
merge iteration; `partner` is `conn.region[1]`. -/
def rewrite_connection (partner : Int) (c : connection_t) : connection_t :=
  let c1 : connection_t :=
    if c.region1 = partner then { c with region0 := main_region, region1 := c.region0 } else c
  if c1.region0 = partner then { c1 with region0 := main_region } else c1

/-- The loop `for (int i = connections.size()-1; i >= 0; i--)`; the first argument
is `i + 1`.  `std::swap(c, connections.back()); connections.pop_back();` leaves the
former last entry at index `i` and drops the last slot. -/
def update_connections (partner : Int) : Nat → List connection_t → List connection_t
  | 0, connections => connections
  | i + 1, connections =>
    match connections[i]? with
    | none => connections
    | some c =>
      if (rewrite_connection partner c).region0 = (rewrite_connection partner c).region1 then
        update_connections partner i
          (((connections.set i (rewrite_connection partner c)).set i
              ((connections.set i (rewrite_connection partner c)).getLast?.getD
                (rewrite_connection partner c))).dropLast)
      else update_connections partner i (connections.set i (rewrite_connection partner c))

/-- The relabelling scan of a merge iteration over the whole grid. -/
def relabel (W H : Int) (partner : Int) (g : grid) : grid :=
  for_rect 0 0 (W - 1) (H - 1)
    (fun t => if t.region = partner then { t with region := main_region } else t) g

/-- The assignments to `ct`, the tile of the chosen connection. -/
def open_door (t : tile_t) : tile_t :=
  { t with region := main_region, kind := tk_floor, door := true }

/-- The loop `for (;;)` of `make_connections`; every iteration that does not
leave the loop takes one draw. -/
def merge_loop (W H : Int) : List Nat → grid → List connection_t → outcome (grid × List Nat)
  | [], g, connections =>
    if (connections.filter (fun c => c.region0 = main_region)).length = 0 then
      outcome.ok (g, [])
    else outcome.no_draws
  | rnd :: rest, g, connections =>
    if (connections.filter (fun c => c.region0 = main_region)).length = 0 then
      outcome.ok (g, rnd :: rest)
    else
      match (connections.filter (fun c => c.region0 = main_region))[(randrange
          ⟨0, ((connections.filter (fun c => c.region0 = main_region)).length : Int) - 1⟩
          rnd).toNat]? with
      | none => outcome.bad_index
      | some conn =>
        merge_loop W H rest
          (relabel W H conn.region1 (modify g conn.x conn.y open_door))
          (update_connections conn.region1 connections.length connections)

/-- The function `make_connections`. -/
def make_connections (W H : Int) (s : state) (draws : List Nat) :
    outcome (state × List Nat) :=
  (merge_loop W H draws s.tiles (scan_connections W H s.tiles)).bind fun r =>
    outcome.ok ({ s with tiles := r.1 }, r.2)

/-! ## `remove_dead_ends` -/

/-- The local `floor_neighbours` computed for the tile `(x, y)`. -/
def floor_neighbours (g : grid) (x y : Int) : Int :=
  (if (g (x - 1) y).kind = tk_floor then 1 else 0)
    + (if (g (x + 1) y).kind = tk_floor then 1 else 0)
    + (if (g x (y - 1)).kind = tk_floor then 1 else 0)
    + (if (g x (y + 1)).kind = tk_floor then 1 else 0)

/-- The two nested `for` loops of `remove_dead_ends` over the tiles still to
visit, on the grid and the counter `dead_ends_removed`. -/
def cull_cells : List (Int × Int) → grid → Int → grid × Int
  | [], g, n => (g, n)
  | p :: ps, g, n =>
    if (g p.1 p.2).kind = tk_wall then cull_cells ps g n
    else if floor_neighbours g p.1 p.2 = 1 then
      cull_cells ps (modify g p.1 p.2 (fun t => { t with kind := tk_wall })) (n + 1)
    else cull_cells ps g n

/-- One pass of the `do … while` body: the scan of the interior tiles. -/
def cull_pass (W H : Int) (g : grid) : grid × Int :=
  cull_cells (rect_cells 1 1 (W - 2) (H - 2)) g 0

/-- The loop `do … while (dead_ends_removed != 0)`. -/
def remove_dead_ends_loop (W H : Int) : Nat → grid → outcome grid
  | 0, _ => outcome.no_fuel
  | fuel + 1, g =>
    if (cull_pass W H g).2 ≠ 0 then remove_dead_ends_loop W H fuel (cull_pass W H g).1
    else outcome.ok (cull_pass W H g).1

/-- The function `remove_dead_ends`; the fuel is one more than the number of
interior tiles. -/
def remove_dead_ends (W H : Int) (g : grid) : outcome grid :=
  remove_dead_ends_loop W H ((rect_cells 1 1 (W - 2) (H - 2)).length + 1) g

/-! ## The generation sequence of `main` -/

/-- The calls `init(); make_rooms(); make_maze(); make_connections();` of one
round of `main`. -/
def carve_stages (W H : Int) (s : state) (draws : List Nat) : outcome (state × List Nat) :=
  (make_rooms W H (init W H s) draws).bind fun r1 =>
    (make_maze W H r1.1 r1.2).bind fun r2 => make_connections W H r2.1 r2.2

/-- One round of `main`: the calls of `carve_stages` followed by
`remove_dead_ends();`. -/
def generate (W H : Int) (s : state) (draws : List Nat) : outcome (state × List Nat) :=
  (carve_stages W H s draws).bind fun r3 =>
    (remove_dead_ends W H r3.1.tiles).bind fun g =>
      outcome.ok ({ r3.1 with tiles := g }, r3.2)

/-! ## Properties stated about the grid -/

/-- Every tile of the outer border of the `W × H` grid is wall. -/
def border_wall (W H : Int) (g : grid) : Prop :=
  ∀ x y, in_bounds W H x y → (x = 0 ∨ x = W - 1 ∨ y = 0 ∨ y = H - 1) →
    (g x y).kind = tk_wall

/-- A dead end: a floor tile with exactly one floor tile among its four
orthogonal neighbours. -/
def dead_end (g : grid) (x y : Int) : Prop :=
  (g x y).kind = tk_floor ∧ floor_neighbours g x y = 1

/-- What a run of culling steps may do to a grid: a tile is left as it was or
only its kind is set to wall, and a floor tile that ends with two floor
neighbours has not been culled. -/
def pruned (g g' : grid) : Prop :=
  (∀ a b, g' a b = g a b ∨ g' a b = { g a b with kind := tk_wall }) ∧
  (∀ a b, (g a b).kind = tk_floor → 2 ≤ floor_neighbours g' a b →
    (g' a b).kind = tk_floor)

/-- Number of tiles of `cells` that are not wall. -/
def nonwall (cells : List (Int × Int)) (g : grid) : Nat :=
  cells.countP (fun p => decide ((g p.1 p.2).kind ≠ tk_wall))

/-- The check `P` on the value a run returned; false when nothing was
returned. -/
def outcome.holds {α : Type} (o : outcome α) (P : α → Bool) : Bool :=
  match o with
  | outcome.ok a => P a
  | _ => false

/-- Number of values `r` of `randrange(range_t{0, weight_sum})` for which the
loop of `select` returns `item`. -/
def select_count {T : Type} [DecidableEq T] (s : weighted_selector_t T) (item : T) : Nat :=
  ((int_range 0 s.weight_sum).filter
    (fun r => decide (select_loop s.items s.weights r = some item))).length

/-! ## Concrete inputs -/

/-- A state with every tile blank and no room. -/
def s_blank : state := ⟨fun _ _ => blank_tile, [], 0, 0⟩

/-- The selector `ns` that the call `walk(1, 1, 0, 0)` builds when the cells
`(3, 1)` and `(1, 3)` are unused, here on a grid of blank tiles with
`next_region = 1`. -/
def first_step_selector : weighted_selector_t xy_t :=
  walk_neighbours width height (modify (init width height s_blank).tiles 1 1 (carve 1)) 1 1 0 0

/-- A corridor of three floor tiles `(1,1)`, `(2,1)`, `(3,1)` in a blank grid, the
middle one a door. -/
def door_corridor : grid := fun x y =>
  if y = 1 ∧ (x = 1 ∨ x = 2 ∨ x = 3) then ⟨0, -1, tk_floor, decide (x = 2)⟩ else blank_tile

/-- The tile `(x, y)` lies in the inclusive rectangle of `r`, wall border
included. -/
def in_rect (r : room_t) (x y : Int) : Prop :=
  r.x0 ≤ x ∧ x ≤ r.x1 ∧ r.y0 ≤ y ∧ y ≤ r.y1

/-- The tile `(x, y)` lies in the interior of `r`, the part `make_rooms` carves. -/
def interior (r : room_t) (x y : Int) : Prop :=
  r.x0 + 1 ≤ x ∧ x ≤ r.x1 - 1 ∧ r.y0 + 1 ≤ y ∧ y ≤ r.y1 - 1

instance (r : room_t) (x y : Int) : Decidable (in_rect r x y) := by
  unfold in_rect; infer_instance

instance (r : room_t) (x y : Int) : Decidable (interior r x y) := by
  unfold interior; infer_instance

/-- The facts about a candidate `w`, `h`, `r` that the assertions of `make_rooms`
and the index ranges of its loops rely on. -/
def candidate_ok (W H w h : Int) (r : room_t) : Prop :=
  w % 2 = 1 ∧ h % 2 = 1 ∧ r.x0 % 2 = 0 ∧ r.y0 % 2 = 0 ∧
  r.x1 = r.x0 + w - 1 ∧ r.y1 = r.y0 + h - 1 ∧ r.x1 % 2 = 0 ∧ r.y1 % 2 = 0 ∧
  0 ≤ r.x0 ∧ r.x0 ≤ r.x1 ∧ r.x1 ≤ W - 1 ∧ 0 ≤ r.y0 ∧ r.y0 ≤ r.y1 ∧ r.y1 ≤ H - 1

/-- The grid sizes the room constants fit in and whose coordinates fit a `char`;
the source's `width` and `height` are among them. -/
def dims_ok (W H : Int) : Prop := 9 ≤ W ∧ W ≤ 128 ∧ 7 ≤ H ∧ H ≤ 128

instance (W H : Int) : Decidable (dims_ok W H) := by
  unfold dims_ok; infer_instance

/-- What `make_rooms` guarantees of an accepted room: even corners inside the
grid, width 7 or 9 and height 5 or 7. -/
def room_ok (W H : Int) (r : room_t) : Prop :=
  r.x0 % 2 = 0 ∧ r.y0 % 2 = 0 ∧ r.x1 % 2 = 0 ∧ r.y1 % 2 = 0 ∧
  0 ≤ r.x0 ∧ r.x0 + 6 ≤ r.x1 ∧ r.x1 ≤ r.x0 + 8 ∧ r.x1 ≤ W - 1 ∧
  0 ≤ r.y0 ∧ r.y0 + 4 ≤ r.y1 ∧ r.y1 ≤ r.y0 + 6 ∧ r.y1 ≤ H - 1

/-- Two rooms of which neither has an interior tile inside the rectangle of the
other. -/
def rooms_apart (a b : room_t) : Prop :=
  (∀ x y, interior a x y → ¬ in_rect b x y) ∧ (∀ x y, interior b x y → ¬ in_rect a x y)

/-- The tile `(x, y)` as `make_rooms` leaves it, in terms of the room table. -/
def room_tile (s : state) (x y : Int) : Prop :=
  (s.tiles x y).door = false ∧
  ((∃ r ∈ s.rooms, interior r x y) → (s.tiles x y).kind = tk_floor) ∧
  ((¬ ∃ r ∈ s.rooms, interior r x y) →
    (s.tiles x y).kind = tk_wall ∧ (s.tiles x y).region = -1) ∧
  (∀ (i : Nat) (r : room_t), s.rooms[i]? = some r → interior r x y →
    (s.tiles x y).region = i) ∧
  ((∃ r ∈ s.rooms, in_rect r x y) → 0 ≤ (s.tiles x y).room) ∧
  ((¬ ∃ r ∈ s.rooms, in_rect r x y) → (s.tiles x y).room = -1)

/-- The invariant of the loop of `make_rooms`. -/
def rooms_inv (W H : Int) (s : state) : Prop :=
  s.n_rooms = s.rooms.length ∧ s.next_region = s.rooms.length ∧
  (s.rooms.length : Int) ≤ max_rooms ∧
  (∀ r ∈ s.rooms, room_ok W H r) ∧
  s.rooms.Pairwise rooms_apart ∧
  (∀ x y, in_bounds W H x y → room_tile s x y)

/-- The draws `0,0,0,0` place the room `(0,0,6,4)`, the draws `0,0,6,0` the room
`(6,0,12,4)`, and 200 further candidates `(0,0,6,4)` are rejected. -/
def two_room_draws : List Nat := [0, 0, 0, 0, 0, 0, 6, 0] ++ List.replicate 800 0

/-- The tiles `(x, y)` and `(x', y')` are orthogonally adjacent. -/
def adjacent (x y x' y' : Int) : Prop :=
  (x' = x ∧ (y' = y + 1 ∨ y' = y - 1)) ∨ (y' = y ∧ (x' = x + 1 ∨ x' = x - 1))

instance (x y x' y' : Int) : Decidable (adjacent x y x' y') := by
  unfold adjacent; infer_instance

/-! ## Properties stated about `make_connections` -/

/-- The test of the first loop of `make_connections` on a pair of opposite
neighbours: both carry a non-negative region and the two differ. -/
def separates (a b : tile_t) : Prop :=
  a.region ≠ b.region ∧ a.region ≥ 0 ∧ b.region ≥ 0

instance (a b : tile_t) : Decidable (separates a b) := by
  unfold separates; infer_instance

/-- The entry the first loop of `make_connections` records at the tile `p`, if
any: the horizontal pair when it passes the test, otherwise the vertical pair. -/
def connector_at (g : grid) (p : Int × Int) (c : connection_t) : Prop :=
  c.x = p.1 ∧ c.y = p.2 ∧
  ((separates (g (p.1 - 1) p.2) (g (p.1 + 1) p.2) ∧
      c.region0 = min (g (p.1 - 1) p.2).region (g (p.1 + 1) p.2).region ∧
      c.region1 = max (g (p.1 - 1) p.2).region (g (p.1 + 1) p.2).region) ∨
    (¬ separates (g (p.1 - 1) p.2) (g (p.1 + 1) p.2) ∧
      separates (g p.1 (p.2 - 1)) (g p.1 (p.2 + 1)) ∧
      c.region0 = min (g p.1 (p.2 - 1)).region (g p.1 (p.2 + 1)).region ∧
      c.region1 = max (g p.1 (p.2 - 1)).region (g p.1 (p.2 + 1)).region))

/-- An entry is kept by the update loop when its two region ids differ. -/
def kept (c : connection_t) : Bool := decide (c.region0 ≠ c.region1)

/-- Draws for a run on an 11 × 7 grid: the room `(0,0,6,4)` is placed, 200 further
candidates are rejected, and the remaining draws serve `make_maze` and
`make_connections`. -/
def small_draws : List Nat := List.replicate 824 0

/-- The grid sizes with both dimensions odd, as the maze lattice needs. -/
def dims_odd (W H : Int) : Prop := W % 2 = 1 ∧ H % 2 = 1

instance (W H : Int) : Decidable (dims_odd W H) := by
  unfold dims_odd; infer_instance

/-! ## Connectivity and region labelling -/

/-- The tile `p` is a floor tile of the `W × H` grid. -/
def is_floor (W H : Int) (g : grid) (p : Int × Int) : Prop :=
  in_bounds W H p.1 p.2 ∧ (g p.1 p.2).kind = tk_floor

/-- One step between two orthogonally adjacent floor tiles. -/
def floor_step (W H : Int) (g : grid) (p q : Int × Int) : Prop :=
  is_floor W H g p ∧ is_floor W H g q ∧ adjacent p.1 p.2 q.1 q.2

/-- The tiles `p` and `q` are joined by a path of orthogonally adjacent floor
tiles. -/
def floor_path (W H : Int) (g : grid) (p q : Int × Int) : Prop :=
  Relation.ReflTransGen (floor_step W H g) p q

/-- The floor tiles form a single connected component under 4-adjacency. -/
def floor_connected (W H : Int) (g : grid) : Prop :=
  ∀ p q, is_floor W H g p → is_floor W H g q → floor_path W H g p q

/-- Region labelling: two floor tiles carry the same region id exactly when a
path of orthogonally adjacent floor tiles joins them. -/
def region_labelled (W H : Int) (g : grid) : Prop :=
  ∀ p q, is_floor W H g p → is_floor W H g q →
    ((g p.1 p.2).region = (g q.1 q.2).region ↔ floor_path W H g p q)

/-- The tile `(x, y)` is a floor tile of the maze (room index −1) with the given
region id. -/
def maze_link (W H : Int) (g : grid) (x y region : Int) : Prop :=
  in_bounds W H x y ∧ maze_floor (g x y) = true ∧ (g x y).region = region

/-- The cells at which `hunt` can start a new maze component: the odd cells of
the first column and the odd cells just right of a room. -/
def corner_cells (H : Int) (rooms : List room_t) : List (Int × Int) :=
  (odd_range H).map (fun y => ((1 : Int), y)) ++
    rooms.flatMap (fun r =>
      [(r.x1 + 1, r.y0 + 1), (r.x1 + 1, r.y0 + 3), (r.x1 + 1, r.y0 + 5)])

/-- Number of cells of `corner_cells` that are still unused. -/
def unused_corners (H : Int) (rooms : List room_t) (g : grid) : Nat :=
  (corner_cells H rooms).countP (fun p => unused (g p.1 p.2))

/-- The invariant of `make_maze` on the grid `g` with `next_region = k`, relative
to the state `s1` left by `make_rooms`. -/
structure maze_inv (W H : Int) (s1 : state) (g : grid) (k : Int) : Prop where
  frame : ∀ x y, in_bounds W H x y → (s1.tiles x y).room ≠ -1 → g x y = s1.tiles x y
  tile : ∀ x y, in_bounds W H x y → (s1.tiles x y).room = -1 →
    (g x y).room = -1 ∧ (g x y).door = false ∧
      (((g x y).kind = tk_wall ∧ (g x y).region = -1) ∨
        ((g x y).kind = tk_floor ∧ s1.next_region < (g x y).region ∧ (g x y).region ≤ k))
  shape : ∀ x y, in_bounds W H x y → maze_floor (g x y) = true →
    (x % 2 = 1 ∧ y % 2 = 1) ∨
    (x % 2 = 0 ∧ y % 2 = 1 ∧ maze_link W H g (x - 1) y (g x y).region ∧
      maze_link W H g (x + 1) y (g x y).region) ∨
    (x % 2 = 1 ∧ y % 2 = 0 ∧ maze_link W H g x (y - 1) (g x y).region ∧
      maze_link W H g x (y + 1) (g x y).region)
  frontier : ∀ x y, in_bounds W H x y → x % 2 = 1 → y % 2 = 1 →
    maze_floor (g x y) = true → ∀ d ∈ dirs, in_bounds W H (x + d.x) (y + d.y) →
      unused (g (x + d.x) (y + d.y)) = true → (g x y).region = k
  joined : ∀ (p q : Int × Int) (r : Int), maze_link W H g p.1 p.2 r →
    maze_link W H g q.1 q.2 r → floor_path W H g p q
  count : k + (unused_corners H s1.rooms g : Int)
    ≤ s1.next_region + ((corner_cells H s1.rooms).length : Int)
  lower : s1.next_region ≤ k

/-- An entry of `connections` records the pair of regions `a`, `b`, in either
order. -/
def region_edge (conns : List connection_t) (a b : Int) : Prop :=
  ∃ c ∈ conns, (c.region0 = a ∧ c.region1 = b) ∨ (c.region0 = b ∧ c.region1 = a)

/-- The regions `a` and `b` are linked by a chain of entries of `connections`. -/
def linked (conns : List connection_t) (a b : Int) : Prop :=
  Relation.ReflTransGen (region_edge conns) a b

/-- The relabelling of one merge: the absorbed region becomes the main region. -/
def absorb (partner : Int) (a : Int) : Int := if a = partner then main_region else a

/-- The invariant of the merge loop of `make_connections`, relative to the grid
`g0` on which the connections were enumerated. -/
structure merge_inv (W H : Int) (g0 g : grid) (conns : List connection_t) : Prop where
  floors : ∀ p, is_floor W H g0 p → is_floor W H g p
  region : ∀ p, is_floor W H g p →
    0 ≤ (g p.1 p.2).region ∧ linked conns main_region (g p.1 p.2).region
  ordered : ∀ c ∈ conns, 0 ≤ c.region0 ∧ c.region0 < c.region1
  joined : ∀ p q, is_floor W H g p → is_floor W H g q →
    (g p.1 p.2).region = (g q.1 q.2).region → floor_path W H g p q
  ends : ∀ c ∈ conns, in_bounds W H c.x c.y ∧ ¬ is_floor W H g0 (c.x, c.y) ∧
    ∃ e1 e2 : Int × Int, is_floor W H g0 e1 ∧ is_floor W H g0 e2 ∧
      adjacent e1.1 e1.2 c.x c.y ∧ adjacent c.x c.y e2.1 e2.2 ∧
      (g e1.1 e1.2).region = c.region0 ∧ (g e2.1 e2.2).region = c.region1

/-! ## Measures used for `make_maze` -/

/-- Number of cells with both coordinates odd that are unused (wall with room
index −1). -/
def unused_odd (W H : Int) (g : grid) : Nat :=
  (odd_cells W H).countP (fun p => unused (g p.1 p.2))

/-! ## Regions as finite sets of tiles -/

/-- The tiles of the `W × H` grid, as a finite set. -/
def grid_cells (W H : Int) : Finset (Int × Int) :=
  Finset.Icc 0 (W - 1) ×ˢ Finset.Icc 0 (H - 1)

/-- The floor tiles that carry region id `r`. -/
def region_tiles (W H : Int) (g : grid) (r : Int) : Finset (Int × Int) :=
  (grid_cells W H).filter (fun p => (g p.1 p.2).kind = tk_floor ∧ (g p.1 p.2).region = r)

/-- The floor tiles of region `r` with both coordinates odd: the cells of the maze
lattice. -/
def region_cells (W H : Int) (g : grid) (r : Int) : Finset (Int × Int) :=
  (region_tiles W H g r).filter (fun p => p.1 % 2 = 1 ∧ p.2 % 2 = 1)

/-- The floor tiles of region `r` that are not lattice cells: for a maze region,
the intervening tiles. -/
def region_mids (W H : Int) (g : grid) (r : Int) : Finset (Int × Int) :=
  (region_tiles W H g r).filter (fun p => ¬ (p.1 % 2 = 1 ∧ p.2 % 2 = 1))

/-- The orthogonally adjacent pairs of floor tiles of region `r`, each pair taken
once, with the left or upper tile first. -/
def region_pairs (W H : Int) (g : grid) (r : Int) : Finset ((Int × Int) × (Int × Int)) :=
  (region_tiles W H g r ×ˢ region_tiles W H g r).filter
    (fun e => e.2 = (e.1.1 + 1, e.1.2) ∨ e.2 = (e.1.1, e.1.2 + 1))

/-- The region id `r` is that of a maze region: some floor tile with room index −1
carries it. -/
def maze_region (W H : Int) (g : grid) (r : Int) : Prop :=
  ∃ x y, maze_link W H g x y r

/-- The 2×2 block with upper left tile `(x, y)` consists only of floor tiles of
region `r`. -/
def open_block (W H : Int) (g : grid) (r x y : Int) : Prop :=
  (x, y) ∈ region_tiles W H g r ∧ (x + 1, y) ∈ region_tiles W H g r ∧
    (x, y + 1) ∈ region_tiles W H g r ∧ (x + 1, y + 1) ∈ region_tiles W H g r

/-- The pair formed by an intervening tile and the lattice cell left of it or
above it. -/
def pair_before (m : Int × Int) : (Int × Int) × (Int × Int) :=
  if m.1 % 2 = 0 then ((m.1 - 1, m.2), m) else ((m.1, m.2 - 1), m)

/-- The pair formed by an intervening tile and the lattice cell right of it or
below it. -/
def pair_after (m : Int × Int) : (Int × Int) × (Int × Int) :=
  if m.1 % 2 = 0 then (m, (m.1 + 1, m.2)) else (m, (m.1, m.2 + 1))

/-- The tree count kept by `make_maze`: every maze region that has a tile has one
lattice cell more than it has intervening tiles. -/
def tree_inv (W H : Int) (s1 : state) (g : grid) : Prop :=
  ∀ r, s1.next_region < r →
    (region_cells W H g r = ∅ ∧ region_mids W H g r = ∅) ∨
      (region_mids W H g r).card + 1 = (region_cells W H g r).card

/-! ## The candidate list of `make_connections` -/

/-- Number of entries of `conns` recorded at the tile `p`. -/
def entries_at (conns : List connection_t) (p : Int × Int) : Nat :=
  conns.countP (fun c => decide (c.x = p.1 ∧ c.y = p.2))

/-- The tile `p` is a candidate connector as the specification words it: an
interior wall tile whose left and right neighbours, or whose upper and lower
neighbours, carry non-negative regions that differ. -/
def candidate_tile (W H : Int) (g : grid) (p : Int × Int) : Prop :=
  (1 ≤ p.1 ∧ p.1 ≤ W - 2 ∧ 1 ≤ p.2 ∧ p.2 ≤ H - 2) ∧ (g p.1 p.2).kind = tk_wall ∧
    (separates (g (p.1 - 1) p.2) (g (p.1 + 1) p.2) ∨
      separates (g p.1 (p.2 - 1)) (g p.1 (p.2 + 1)))

instance (W H : Int) (g : grid) (p : Int × Int) : Decidable (candidate_tile W H g p) := by
  unfold candidate_tile; infer_instance

/-- The entry `c` with the absorbed region `partner` replaced by the main region,
stored again as `(low, high)`. -/
def rewritten (partner : Int) (c : connection_t) : connection_t :=
  { c with
    region0 := min (absorb partner c.region0) (absorb partner c.region1)
    region1 := max (absorb partner c.region0) (absorb partner c.region1) }

/-! ## Regions and doors during `make_connections` -/

/-- The distinct non-negative region ids carried by tiles of the grid. -/
def region_ids (W H : Int) (g : grid) : Finset Int :=
  ((grid_cells W H).image (fun p => (g p.1 p.2).region)).filter (fun r => 0 ≤ r)

/-- The tiles with `door = true`. -/
def door_tiles (W H : Int) (g : grid) : Finset (Int × Int) :=
  (grid_cells W H).filter (fun p => (g p.1 p.2).door = true)

/-- Only floor tiles carry a non-negative region: a tile with a non-negative region
is floor, and a tile that is not floor has region −1. -/
def region_sign_ok (W H : Int) (g : grid) : Prop :=
  ∀ x y, in_bounds W H x y →
    (0 ≤ (g x y).region → (g x y).kind = tk_floor) ∧
      ((g x y).kind ≠ tk_floor → (g x y).region = -1)

/-- The grid and the list of connections after one iteration of the merge loop
that chose the entry `conn`. -/
def merge_step (W H : Int) (g : grid) (conns : List connection_t) (conn : connection_t) :
    grid × List connection_t :=
  (relabel W H conn.region1 (modify g conn.x conn.y open_door),
    update_connections conn.region1 conns.length conns)

/-- The second invariant of the merge loop, on doors and region ids, relative to
the grid `g0` on which the connections were enumerated. -/
structure door_inv (W H : Int) (g0 g : grid) (conns : List connection_t) : Prop where
  sign : region_sign_ok W H g
  opened : ∀ x y, in_bounds W H x y → (g x y).kind = tk_floor →
    (g0 x y).kind = tk_floor ∨ (g x y).door = true
  closed : ∀ x y, in_bounds W H x y → (g x y).door = true → (g x y).kind = tk_floor
  apart : (conns.map (fun c => (c.x, c.y))).Nodup
  walls : ∀ c ∈ conns, (g c.x c.y).kind ≠ tk_floor
  count : (door_tiles W H g).card + (region_ids W H g).card = (region_ids W H g0).card

/-! ## Selectors built by `push_back` -/

/-- The selector obtained from a fresh one by the calls `push_back(item, weight)`
for the pairs of `l`, in order. -/
def push_all {T : Type} (l : List (T × Int)) : weighted_selector_t T :=
  l.foldl (fun s p => s.push_back p.1 p.2) weighted_selector_t.new

/-- The calls `push_back(xy_t{nx, ny}, weight)` that the loop of `walk` makes for the
directions `l`: one for each direction whose neighbour is in bounds and unused. -/
def walk_pushes (W H : Int) (g : grid) (x y dx dy : Int) (l : List xy_t) :
    List (xy_t × Int) :=
  (l.filter (fun d => decide (in_bounds W H (x + d.x) (y + d.y)) &&
      unused (g (x + d.x) (y + d.y)))).map
    (fun d => (⟨x + d.x, y + d.y⟩, walk_weight d dx dy))

/-! ## Ranges of cells -/

theorem mem_int_range (lo hi x : Int) : x ∈ int_range lo hi ↔ lo ≤ x ∧ x ≤ hi := by
  unfold int_range
  simp only [List.mem_map, List.mem_range]
  constructor
  · rintro ⟨i, hi', rfl⟩
    omega
  · intro h
    exact ⟨(x - lo).toNat, by omega, by omega⟩

theorem mem_rect_cells (x0 y0 x1 y1 : Int) (p : Int × Int) :
    p ∈ rect_cells x0 y0 x1 y1 ↔ x0 ≤ p.1 ∧ p.1 ≤ x1 ∧ y0 ≤ p.2 ∧ p.2 ≤ y1 := by
  unfold rect_cells
  simp only [List.mem_flatMap, List.mem_map, mem_int_range]
  constructor
  · rintro ⟨x, hx, y, hy, rfl⟩
    exact ⟨hx.1, hx.2, hy.1, hy.2⟩
  · rintro ⟨h1, h2, h3, h4⟩
    exact ⟨p.1, ⟨h1, h2⟩, p.2, ⟨h3, h4⟩, rfl⟩

/-! ## `remove_dead_ends` -/

theorem floor_neighbours_le_of_floor_sub (g g' : grid)
    (h : ∀ a b, (g' a b).kind = tk_floor → (g a b).kind = tk_floor) (x y : Int) :
    floor_neighbours g' x y ≤ floor_neighbours g x y := by
  have key : ∀ a b, (if (g' a b).kind = tk_floor then (1 : Int) else 0)
      ≤ (if (g a b).kind = tk_floor then 1 else 0) := by
    intro a b
    by_cases hf : (g' a b).kind = tk_floor
    · simp [hf, h a b hf]
    · simp only [hf, if_false]
      split_ifs <;> omega
  unfold floor_neighbours
  have h1 := key (x - 1) y
  have h2 := key (x + 1) y
  have h3 := key x (y - 1)
  have h4 := key x (y + 1)
  omega

theorem pruned_floor_sub {g g' : grid} (h : pruned g g') (a b : Int)
    (hf : (g' a b).kind = tk_floor) : (g a b).kind = tk_floor := by
  rcases h.1 a b with e | e
  · rw [← e]; exact hf
  · rw [e] at hf; simp at hf

theorem pruned_refl (g : grid) : pruned g g :=
  ⟨fun _ _ => Or.inl rfl, fun _ _ h _ => h⟩

theorem pruned_trans {g g1 g2 : grid} (h1 : pruned g g1) (h2 : pruned g1 g2) :
    pruned g g2 := by
  refine ⟨fun a b => ?_, fun a b hf hn => ?_⟩
  · rcases h2.1 a b with e | e <;> rcases h1.1 a b with e1 | e1
    · left; rw [e, e1]
    · right; rw [e, e1]
    · right; rw [e, e1]
    · right; rw [e, e1]
  · have hle := floor_neighbours_le_of_floor_sub g1 g2 (pruned_floor_sub h2) a b
    exact h2.2 a b (h1.2 a b hf (le_trans hn hle)) hn

theorem floor_neighbours_modify_self (g : grid) (x y : Int) (f : tile_t → tile_t) :
    floor_neighbours (modify g x y f) x y = floor_neighbours g x y := by
  unfold floor_neighbours modify
  have e1 : x - 1 ≠ x := by omega
  have e2 : x + 1 ≠ x := by omega
  have e3 : y - 1 ≠ y := by omega
  have e4 : y + 1 ≠ y := by omega
  simp [e1, e2, e3, e4]

theorem pruned_cull (g : grid) (x y : Int) (h1 : floor_neighbours g x y = 1) :
    pruned g (modify g x y (fun t => { t with kind := tk_wall })) := by
  refine ⟨fun a b => ?_, fun a b hf hn => ?_⟩
  · unfold modify
    by_cases e : a = x ∧ b = y
    · right; simp [e]
    · left; simp [e]
  · by_cases e : a = x ∧ b = y
    · obtain ⟨rfl, rfl⟩ := e
      rw [floor_neighbours_modify_self] at hn
      omega
    · unfold modify; simp only [e, if_false]; exact hf

theorem cull_cells_pruned (ps : List (Int × Int)) :
    ∀ (g : grid) (n : Int), pruned g (cull_cells ps g n).1 := by
  induction ps with
  | nil => intro g n; exact pruned_refl g
  | cons p ps ih =>
    intro g n
    unfold cull_cells
    split_ifs with h1 h2
    · exact ih g n
    · exact pruned_trans (pruned_cull g p.1 p.2 h2) (ih _ _)
    · exact ih g n

theorem cull_cells_count_ge (ps : List (Int × Int)) :
    ∀ (g : grid) (n : Int), n ≤ (cull_cells ps g n).2 := by
  induction ps with
  | nil => intro g n; exact le_refl n
  | cons p ps ih =>
    intro g n
    unfold cull_cells
    split_ifs with h1 h2
    · exact ih g n
    · exact le_trans (by omega) (ih _ (n + 1))
    · exact ih g n

theorem cull_cells_zero (ps : List (Int × Int)) :
    ∀ (g : grid) (n : Int), (cull_cells ps g n).2 = n →
      (cull_cells ps g n).1 = g ∧
      ∀ p ∈ ps, (g p.1 p.2).kind = tk_wall ∨ floor_neighbours g p.1 p.2 ≠ 1 := by
  induction ps with
  | nil => intro g n _; exact ⟨rfl, fun p hp => by simp at hp⟩
  | cons p ps ih =>
    intro g n
    unfold cull_cells
    split_ifs with h1 h2
    · intro h
      obtain ⟨e, hall⟩ := ih g n h
      refine ⟨e, fun q hq => ?_⟩
      rcases List.mem_cons.mp hq with rfl | hq
      · exact Or.inl h1
      · exact hall q hq
    · intro h
      have := cull_cells_count_ge ps (modify g p.1 p.2 (fun t => { t with kind := tk_wall })) (n + 1)
      omega
    · intro h
      obtain ⟨e, hall⟩ := ih g n h
      refine ⟨e, fun q hq => ?_⟩
      rcases List.mem_cons.mp hq with rfl | hq
      · exact Or.inr h2
      · exact hall q hq

theorem countP_lt_of_flip {α : Type} (P Q : α → Bool) (M : List α) (p : α)
    (hsub : ∀ q ∈ M, Q q = true → P q = true) (hp : p ∈ M) (hP : P p = true)
    (hQ : Q p = false) : M.countP Q < M.countP P := by
  induction M with
  | nil => simp at hp
  | cons m M ih =>
    have hle : M.countP Q ≤ M.countP P := by
      apply List.countP_mono_left
      intro q hq hQq
      exact hsub q (List.mem_cons_of_mem _ hq) hQq
    rcases List.mem_cons.mp hp with rfl | hp'
    · rw [List.countP_cons_of_pos _ _ hP, List.countP_cons_of_neg _ _ (by simp [hQ])]
      omega
    · have ih' := ih (fun q hq => hsub q (List.mem_cons_of_mem _ hq)) hp'
      simp only [List.countP_cons]
      have := hsub m (List.mem_cons_self _ _)
      by_cases hm : Q m = true
      · simp [hm, this hm]; omega
      · simp [hm]; split_ifs <;> omega

theorem nonwall_cull (M : List (Int × Int)) (g : grid) (p : Int × Int) (hp : p ∈ M)
    (hk : (g p.1 p.2).kind ≠ tk_wall) :
    nonwall M (modify g p.1 p.2 (fun t => { t with kind := tk_wall })) < nonwall M g := by
  unfold nonwall
  apply countP_lt_of_flip _ _ M p _ hp
  · simpa using hk
  · simp [modify]
  · intro q _ hq
    simp only [modify, decide_eq_true_eq] at hq ⊢
    by_cases e : q.1 = p.1 ∧ q.2 = p.2
    · simp [e] at hq
    · simpa [e] using hq

theorem cull_cells_nonwall (M : List (Int × Int)) (ps : List (Int × Int)) :
    ∀ (g : grid) (n : Int), (∀ p ∈ ps, p ∈ M) →
      (nonwall M (cull_cells ps g n).1 : Int) + ((cull_cells ps g n).2 - n) ≤ nonwall M g := by
  induction ps with
  | nil => intro g n _; simp [cull_cells]
  | cons p ps ih =>
    intro g n hsub
    have hsub' : ∀ q ∈ ps, q ∈ M := fun q hq => hsub q (List.mem_cons_of_mem _ hq)
    unfold cull_cells
    split_ifs with h1 h2
    · exact ih g n hsub'
    · have := ih (modify g p.1 p.2 (fun t => { t with kind := tk_wall })) (n + 1) hsub'
      have := nonwall_cull M g p (hsub p (List.mem_cons_self _ _)) h1
      omega
    · exact ih g n hsub'

theorem remove_dead_ends_loop_spec (W H : Int) :
    ∀ (fuel : Nat) (g : grid), nonwall (rect_cells 1 1 (W - 2) (H - 2)) g < fuel →
      ∃ g', remove_dead_ends_loop W H fuel g = outcome.ok g' ∧ pruned g g' ∧
        ∀ p ∈ rect_cells 1 1 (W - 2) (H - 2),
          (g' p.1 p.2).kind = tk_wall ∨ floor_neighbours g' p.1 p.2 ≠ 1 := by
  intro fuel
  induction fuel with
  | zero => intro g h; omega
  | succ fuel ih =>
    intro g h
    unfold remove_dead_ends_loop
    have hp := cull_cells_pruned (rect_cells 1 1 (W - 2) (H - 2)) g 0
    split_ifs with hc
    · have hm := cull_cells_nonwall (rect_cells 1 1 (W - 2) (H - 2))
        (rect_cells 1 1 (W - 2) (H - 2)) g 0 (fun _ hp => hp)
      have hge := cull_cells_count_ge (rect_cells 1 1 (W - 2) (H - 2)) g 0
      have hc' : (cull_cells (rect_cells 1 1 (W - 2) (H - 2)) g 0).2 ≠ 0 := hc
      obtain ⟨g', h1, h2, h3⟩ := ih (cull_pass W H g).1 (by unfold cull_pass; omega)
      exact ⟨g', h1, pruned_trans hp h2, h3⟩
    · have hc' : (cull_cells (rect_cells 1 1 (W - 2) (H - 2)) g 0).2 = 0 := by
        simpa [cull_pass] using hc
      obtain ⟨e, hall⟩ := cull_cells_zero _ g 0 hc'
      refine ⟨(cull_pass W H g).1, rfl, hp, ?_⟩
      unfold cull_pass
      rw [e]
      exact hall

theorem remove_dead_ends_spec (W H : Int) (g : grid) :
    ∃ g', remove_dead_ends W H g = outcome.ok g' ∧ pruned g g' ∧
      ∀ p ∈ rect_cells 1 1 (W - 2) (H - 2),
        (g' p.1 p.2).kind = tk_wall ∨ floor_neighbours g' p.1 p.2 ≠ 1 := by
  unfold remove_dead_ends
  apply remove_dead_ends_loop_spec
  unfold nonwall
  have := List.countP_le_length (fun p : Int × Int => decide ((g p.1 p.2).kind ≠ tk_wall))
    (l := rect_cells 1 1 (W - 2) (H - 2))
  omega

theorem outcome_holds_elim {α : Type} {o : outcome α} {P : α → Bool}
    (h : o.holds P = true) : ∃ a, o = outcome.ok a ∧ P a = true := by
  cases o with
  | ok a => exact ⟨a, rfl, h⟩
  | no_draws => simp [outcome.holds] at h
  | assert_failed => simp [outcome.holds] at h
  | bad_index => simp [outcome.holds] at h
  | no_fuel => simp [outcome.holds] at h

theorem border_wall_door_corridor : border_wall width height door_corridor := by
  intro x y hb hedge
  unfold in_bounds width height at hb
  unfold width height at hedge
  unfold door_corridor
  split_ifs with h
  · omega
  · rfl

/-- C4: on every grid whose outer border is wall, `remove_dead_ends` returns, and
the grid it returns has no floor tile with exactly one floor tile among its
four orthogonal neighbours. -/
theorem remove_dead_ends_no_dead_end (W H : Int) (g : grid) (hb : border_wall W H g) :
    ∃ g', remove_dead_ends W H g = outcome.ok g' ∧
      ∀ x y, in_bounds W H x y → ¬ dead_end g' x y := by
  obtain ⟨g', h, hp, hall⟩ := remove_dead_ends_spec W H g
  refine ⟨g', h, fun x y hin hd => ?_⟩
  have hfloor : (g x y).kind = tk_floor := pruned_floor_sub hp x y hd.1
  unfold in_bounds at hin
  by_cases hedge : x = 0 ∨ x = W - 1 ∨ y = 0 ∨ y = H - 1
  · have := hb x y hin hedge
    rw [hfloor] at this
    exact absurd this (by decide)
  · have hmem : (x, y) ∈ rect_cells 1 1 (W - 2) (H - 2) := by
      rw [mem_rect_cells]
      simp only
      omega
    rcases hall (x, y) hmem with hw | hn
    · rw [hd.1] at hw
      exact absurd hw (by decide)
    · exact hn hd.2

/-- Witness of C4 on the source's grid size: the corridor grid has a wall
border, and what `remove_dead_ends` returns for it has no dead end. -/
theorem remove_dead_ends_no_dead_end_witness :
    border_wall width height door_corridor ∧
      ∃ g', remove_dead_ends width height door_corridor = outcome.ok g' ∧
        ∀ x y, in_bounds width height x y → ¬ dead_end g' x y :=
  ⟨border_wall_door_corridor,
    remove_dead_ends_no_dead_end width height door_corridor border_wall_door_corridor⟩

/-- C10, the code at the failing input: in the first call `walk(1, 1, 0, 0)` on a
fresh grid the selector holds `(3,1)` and `(1,3)` with weight 1 each, the draw
ranges over `0 … 2`, and `select` returns `(3,1)` for two of the three values and
`(1,3)` for one. -/
theorem select_two_neighbours_biased :
    first_step_selector.items = [⟨3, 1⟩, ⟨1, 3⟩] ∧
      first_step_selector.weights = [1, 1] ∧
      first_step_selector.weight_sum = 2 ∧
      select_count first_step_selector ⟨3, 1⟩ = 2 ∧
      select_count first_step_selector ⟨1, 3⟩ = 1 := by
  decide!

/-! ## `make_rooms`: the candidate -/

theorem to_char_of_small (v : Int) (h1 : -128 ≤ v) (h2 : v ≤ 127) : to_char v = v := by
  unfold to_char; omega

theorem randrange_bounds (r : range_t) (rnd : Nat) (h : r.lo ≤ r.hi) :
    r.lo ≤ randrange r rnd ∧ randrange r rnd ≤ r.hi := by
  unfold randrange
  have hpos : 0 < r.hi - r.lo + 1 := by omega
  have h1 := Int.emod_nonneg (rnd : Int) (ne_of_gt hpos)
  have h2 := Int.emod_lt_of_pos (rnd : Int) hpos
  omega

theorem draw_odd_spec (range : range_t) (hr : range.lo ≤ range.hi) :
    ∀ (draws : List Nat) (v : Int) (rest : List Nat),
      draw_odd range draws = some (v, rest) →
        v % 2 = 1 ∧ range.lo ≤ v ∧ v ≤ range.hi ∧ rest.length < draws.length := by
  intro draws
  induction draws with
  | nil => intro v rest h; simp [draw_odd] at h
  | cons rnd ds ih =>
    intro v rest h
    unfold draw_odd at h
    split_ifs at h with hpar
    · obtain ⟨h1, h2, h3, h4⟩ := ih v rest h
      exact ⟨h1, h2, h3, by simp; omega⟩
    · simp only [Option.some.injEq, Prod.mk.injEq] at h
      obtain ⟨rfl, rfl⟩ := h
      have := randrange_bounds range rnd hr
      exact ⟨by omega, this.1, this.2, by simp⟩

theorem draw_even_spec (range : range_t) (hr : range.lo ≤ range.hi) (hlo : -128 ≤ range.lo)
    (hhi : range.hi ≤ 127) :
    ∀ (draws : List Nat) (v : Int) (rest : List Nat),
      draw_even range draws = some (v, rest) →
        v % 2 = 0 ∧ range.lo ≤ v ∧ v ≤ range.hi ∧ rest.length < draws.length := by
  intro draws
  induction draws with
  | nil => intro v rest h; simp [draw_even] at h
  | cons rnd ds ih =>
    intro v rest h
    unfold draw_even at h
    split_ifs at h with hpar
    · obtain ⟨h1, h2, h3, h4⟩ := ih v rest h
      exact ⟨h1, h2, h3, by simp; omega⟩
    · simp only [Option.some.injEq, Prod.mk.injEq] at h
      obtain ⟨rfl, rfl⟩ := h
      have hb := randrange_bounds range rnd hr
      have e := to_char_of_small (randrange range rnd) (by omega) (by omega)
      rw [e] at hpar ⊢
      exact ⟨by omega, hb.1, hb.2, by simp⟩

theorem draw_room_spec (W H : Int) (hd : dims_ok W H) (draws : List Nat) (w h : Int)
    (r : room_t) (rest : List Nat) (hc : draw_room W H draws = some (w, h, r, rest)) :
    candidate_ok W H w h r ∧ 7 ≤ w ∧ w ≤ 9 ∧ 5 ≤ h ∧ h ≤ 7 ∧ rest.length < draws.length := by
  unfold dims_ok at hd
  unfold draw_room at hc
  split at hc
  · simp at hc
  · rename_i w' d1 hw
    split at hc
    · simp at hc
    · rename_i h' d2 hh
      split at hc
      · simp at hc
      · rename_i x0 d3 hx
        split at hc
        · simp at hc
        · rename_i y0 d4 hy
          simp only [Option.some.injEq, Prod.mk.injEq] at hc
          obtain ⟨rfl, rfl, rfl, rfl⟩ := hc
          obtain ⟨w1, w2, w3, w4⟩ := draw_odd_spec room_width (by decide) draws _ _ hw
          obtain ⟨h1, h2, h3, h4⟩ := draw_odd_spec room_height (by decide) d1 _ _ hh
          have hw7 : 7 ≤ w' := w2
          have hw10 : w' ≤ 10 := w3
          have hh5 : 5 ≤ h' := h2
          have hh7 : h' ≤ 7 := h3
          obtain ⟨x1, x2, x3, x4⟩ := draw_even_spec ⟨0, W - w'⟩ (by simp; omega) (by simp)
            (by simp; omega) d2 _ _ hx
          obtain ⟨y1, y2, y3, y4⟩ := draw_even_spec ⟨0, H - h'⟩ (by simp; omega) (by simp)
            (by simp; omega) d3 _ _ hy
          simp only at x2 x3 y2 y3
          have ex := to_char_of_small (x0 + w' - 1) (by omega) (by omega)
          have ey := to_char_of_small (y0 + h' - 1) (by omega) (by omega)
          unfold candidate_ok
          simp only [ex, ey]
          refine ⟨⟨w1, h1, x1, y1, trivial, trivial, ?_, ?_, ?_, ?_, ?_, ?_, ?_, ?_⟩, ?_, ?_, ?_, ?_, ?_⟩ <;>
            omega

theorem make_rooms_loop_no_assert (W H : Int) (hd : dims_ok W H) :
    ∀ (fuel : Nat) (s : state) (tries : Int) (draws : List Nat),
      make_rooms_loop W H fuel s tries draws ≠ outcome.assert_failed := by
  intro fuel
  induction fuel with
  | zero => intro s tries draws; simp [make_rooms_loop]
  | succ fuel ih =>
    intro s tries draws
    unfold make_rooms_loop
    split_ifs with hcond
    · split
      · simp
      · rename_i w h r rest hc
        obtain ⟨hok, _⟩ := draw_room_spec W H hd draws w h r rest hc
        unfold candidate_ok at hok
        have hx : r.x1 % 2 = 0 := hok.2.2.2.2.2.2.1
        have hy : r.y1 % 2 = 0 := hok.2.2.2.2.2.2.2.1
        simp only [hx, hy, ne_eq, not_true_eq_false, if_false]
        split_ifs
        · exact ih _ _ _
        · exact ih _ _ _
    · simp

/-- C8: for the grid sizes of `dims_ok`, `make_rooms` never stops at one of its two
assertions, and every candidate it draws has odd `w` and `h`, even `x0`, `y0`,
`x1 = x0+w−1` and `y1 = y0+h−1`, with `0 ≤ x0 ≤ x1 ≤ W−1` and `0 ≤ y0 ≤ y1 ≤ H−1`,
so that every tile of its rectangle is inside the grid. -/
theorem make_rooms_candidate_ok (W H : Int) (hd : dims_ok W H) (s : state)
    (draws : List Nat) :
    make_rooms W H s draws ≠ outcome.assert_failed ∧
      ∀ w h r rest, draw_room W H draws = some (w, h, r, rest) →
        candidate_ok W H w h r ∧
          ∀ p ∈ rect_cells r.x0 r.y0 r.x1 r.y1, in_bounds W H p.1 p.2 := by
  refine ⟨make_rooms_loop_no_assert W H hd _ _ _ _, fun w h r rest hc => ?_⟩
  obtain ⟨hok, _⟩ := draw_room_spec W H hd draws w h r rest hc
  refine ⟨hok, fun p hp => ?_⟩
  rw [mem_rect_cells] at hp
  unfold candidate_ok at hok
  unfold in_bounds
  omega

/-- Witness of C8 on the source's grid size: four draws of 0 give the candidate
`w = 7`, `h = 5`, `r = (0, 0, 6, 4)`. -/
theorem make_rooms_candidate_ok_witness :
    dims_ok width height ∧
      draw_room width height [0, 0, 0, 0] = some (7, 5, ⟨0, 0, 6, 4⟩, []) ∧
      candidate_ok width height 7 5 ⟨0, 0, 6, 4⟩ :=
  ⟨by decide, by decide,
    ((make_rooms_candidate_ok width height (by decide) s_blank [0, 0, 0, 0]).2
      7 5 ⟨0, 0, 6, 4⟩ [] (by decide)).1⟩

/-! ## `make_rooms`: the room table and the grid -/

theorem collides_false_iff (g : grid) (r : room_t) :
    collides g r = false ↔ ∀ x y, in_rect r x y → (g x y).kind ≠ tk_floor := by
  unfold collides
  rw [List.any_eq_false]
  constructor
  · intro h x y hin
    have := h (x, y) ((mem_rect_cells _ _ _ _ _).mpr hin)
    simpa using this
  · intro h p hp
    have := h p.1 p.2 ((mem_rect_cells _ _ _ _ _).mp hp)
    simpa using this

theorem interior_in_rect {r : room_t} {x y : Int} (h : interior r x y) : in_rect r x y := by
  unfold interior at h; unfold in_rect; omega

theorem rooms_inv_init (W H : Int) (s : state) : rooms_inv W H (init W H s) := by
  refine ⟨rfl, rfl, by simp [init, max_rooms], by simp [init], by simp [init], ?_⟩
  intro x y hin
  unfold in_bounds at hin
  have hc : 0 ≤ x ∧ x ≤ W - 1 ∧ 0 ≤ y ∧ y ≤ H - 1 := by omega
  simp [room_tile, init, for_rect, hc, blank_tile]

theorem room_ok_of_candidate (W H w h : Int) (r : room_t) (hc : candidate_ok W H w h r)
    (hw : 7 ≤ w ∧ w ≤ 9) (hh : 5 ≤ h ∧ h ≤ 7) : room_ok W H r := by
  unfold candidate_ok at hc
  unfold room_ok
  omega

theorem rooms_apart_new (W H : Int) (s : state) (hinv : rooms_inv W H s) (r : room_t)
    (hr : room_ok W H r) (hcol : collides s.tiles r = false) :
    ∀ a ∈ s.rooms, rooms_apart a r := by
  obtain ⟨_, _, _, hok, _, htile⟩ := hinv
  rw [collides_false_iff] at hcol
  have key : ∀ a ∈ s.rooms, ∀ x y, interior a x y → ¬ in_rect r x y := by
    intro a ha x y hi hrect
    have hb : in_bounds W H x y := by
      have := hok a ha
      unfold room_ok at this; unfold interior at hi; unfold in_bounds; omega
    exact hcol x y hrect ((htile x y hb).2.1 ⟨a, ha, hi⟩)
  intro a ha
  refine ⟨key a ha, fun x y hi hrect => ?_⟩
  have hao := hok a ha
  unfold room_ok at hao hr
  unfold interior at hi
  unfold in_rect at hrect
  refine key a ha (max (a.x0 + 1) (min x (a.x1 - 1))) (max (a.y0 + 1) (min y (a.y1 - 1))) ?_ ?_
  · unfold interior; omega
  · unfold in_rect; omega

theorem room_tile_place (W H : Int) (s : state) (hinv : rooms_inv W H s) (r : room_t)
    (hr : room_ok W H r) (hcol : collides s.tiles r = false) (hlen : s.n_rooms < max_rooms)
    (x y : Int) (hin : in_bounds W H x y) : room_tile (place_room s r) x y := by
  have hapart := rooms_apart_new W H s hinv r hr hcol
  obtain ⟨hn, hk, hmax, hok, hpw, htile⟩ := hinv
  obtain ⟨t1, t2, t3, t4, t5, t6⟩ := htile x y hin
  have hlen' : (s.rooms.length : Int) < 16 := by unfold max_rooms at hlen; omega
  have ek : to_char s.next_region = s.rooms.length := by
    rw [hk]; exact to_char_of_small _ (by omega) (by omega)
  have en : to_char s.n_rooms = s.rooms.length := by
    rw [hn]; exact to_char_of_small _ (by omega) (by omega)
  have hsplit : ∀ P : room_t → Prop,
      (∃ a ∈ s.rooms ++ [r], P a) ↔ ((∃ a ∈ s.rooms, P a) ∨ P r) := by
    intro P
    constructor
    · rintro ⟨a, ha, hP⟩
      rcases List.mem_append.mp ha with h | h
      · exact Or.inl ⟨a, h, hP⟩
      · rw [List.mem_singleton] at h; subst h; exact Or.inr hP
    · rintro (⟨a, ha, hP⟩ | hP)
      · exact ⟨a, List.mem_append_left _ ha, hP⟩
      · exact ⟨r, List.mem_append_right _ (List.mem_singleton.mpr rfl), hP⟩
  have hidx : ∀ (i : Nat) (a : room_t), (s.rooms ++ [r])[i]? = some a →
      (s.rooms[i]? = some a ∧ a ∈ s.rooms) ∨ (i = s.rooms.length ∧ a = r) := by
    intro i a hia
    by_cases hi : i < s.rooms.length
    · rw [List.getElem?_append_left hi] at hia
      exact Or.inl ⟨hia, List.getElem?_mem hia⟩
    · rw [List.getElem?_append_right (by omega)] at hia
      have h0 : i - s.rooms.length = 0 := by
        by_contra hne
        rw [List.getElem?_eq_none (by simp; omega)] at hia
        simp at hia
      rw [h0] at hia
      simp at hia
      exact Or.inr ⟨by omega, hia.symm⟩
  by_cases hint : interior r x y
  · have hrect := interior_in_rect hint
    have e1 : r.x0 + 1 ≤ x ∧ x ≤ r.x1 - 1 ∧ r.y0 + 1 ≤ y ∧ y ≤ r.y1 - 1 := hint
    have e2 : r.x0 ≤ x ∧ x ≤ r.x1 ∧ r.y0 ≤ y ∧ y ≤ r.y1 := hrect
    unfold room_tile
    simp only [place_room, for_rect, e1, e2, if_true, and_self, hsplit, ek, en]
    refine ⟨t1, fun _ => trivial, fun hno => absurd (Or.inr hint) hno, ?_, fun _ => by omega,
      fun hno => absurd (Or.inr hrect) hno⟩
    intro i a hia hai
    rcases hidx i a hia with ⟨_, hmem⟩ | ⟨rfl, _⟩
    · exact absurd hrect ((hapart a hmem).1 x y hai)
    · rfl
  · have e1 : ¬ (r.x0 + 1 ≤ x ∧ x ≤ r.x1 - 1 ∧ r.y0 + 1 ≤ y ∧ y ≤ r.y1 - 1) := hint
    unfold room_tile
    simp only [place_room, for_rect, e1, if_false, hsplit]
    by_cases hrect : in_rect r x y
    · have e2 : r.x0 ≤ x ∧ x ≤ r.x1 ∧ r.y0 ≤ y ∧ y ≤ r.y1 := hrect
      simp only [e2, and_self, if_true, en]
      refine ⟨t1, ?_, ?_, ?_, fun _ => by omega, fun hno => absurd (Or.inr hrect) hno⟩
      · rintro (h | h)
        · exact t2 h
        · exact absurd h hint
      · intro hno
        exact t3 (fun h => hno (Or.inl h))
      · intro i a hia hai
        rcases hidx i a hia with ⟨hold, _⟩ | ⟨_, rfl⟩
        · exact t4 i a hold hai
        · exact absurd hai hint
    · have e2 : ¬ (r.x0 ≤ x ∧ x ≤ r.x1 ∧ r.y0 ≤ y ∧ y ≤ r.y1) := hrect
      simp only [e2, if_false]
      refine ⟨t1, ?_, ?_, ?_, ?_, ?_⟩
      · rintro (h | h)
        · exact t2 h
        · exact absurd h hint
      · intro hno
        exact t3 (fun h => hno (Or.inl h))
      · intro i a hia hai
        rcases hidx i a hia with ⟨hold, _⟩ | ⟨_, rfl⟩
        · exact t4 i a hold hai
        · exact absurd hai hint
      · rintro (h | h)
        · exact t5 h
        · exact absurd h hrect
      · intro hno
        exact t6 (fun h => hno (Or.inl h))

theorem rooms_apart_symm {a b : room_t} (h : rooms_apart a b) : rooms_apart b a :=
  ⟨h.2, h.1⟩

theorem rooms_inv_place (W H : Int) (s : state) (hinv : rooms_inv W H s) (r : room_t)
    (hr : room_ok W H r) (hcol : collides s.tiles r = false) (hlen : s.n_rooms < max_rooms) :
    rooms_inv W H (place_room s r) := by
  have htile := room_tile_place W H s hinv r hr hcol hlen
  have hapart := rooms_apart_new W H s hinv r hr hcol
  obtain ⟨hn, hk, hmax, hok, hpw, _⟩ := hinv
  refine ⟨?_, ?_, ?_, ?_, ?_, htile⟩
  · simp [place_room, hn]
  · simp [place_room, hk]
  · simp only [place_room, List.length_append, List.length_singleton]
    push_cast
    omega
  · intro a ha
    simp only [place_room] at ha
    rcases List.mem_append.mp ha with h | h
    · exact hok a h
    · rw [List.mem_singleton] at h; subst h; exact hr
  · simp only [place_room]
    rw [List.pairwise_append]
    refine ⟨hpw, List.pairwise_singleton _ _, fun a ha b hb => ?_⟩
    rw [List.mem_singleton] at hb
    subst hb
    exact hapart a ha

theorem make_rooms_loop_inv (W H : Int) (hd : dims_ok W H) :
    ∀ (fuel : Nat) (s : state) (tries : Int) (draws : List Nat) (s' : state)
      (rest : List Nat), rooms_inv W H s →
      make_rooms_loop W H fuel s tries draws = outcome.ok (s', rest) → rooms_inv W H s' := by
  intro fuel
  induction fuel with
  | zero => intro s tries draws s' rest _ h; simp [make_rooms_loop] at h
  | succ fuel ih =>
    intro s tries draws s' rest hinv h
    unfold make_rooms_loop at h
    split_ifs at h with hcond
    · split at h
      · simp at h
      · rename_i w hh r d4 hc
        obtain ⟨hok, hw1, hw2, hh1, hh2, _⟩ := draw_room_spec W H hd draws w hh r d4 hc
        have hro := room_ok_of_candidate W H w hh r hok ⟨hw1, hw2⟩ ⟨hh1, hh2⟩
        split_ifs at h with ha1 ha2 hcol
        · exact ih _ _ _ _ _ hinv h
        · exact ih _ _ _ _ _
            (rooms_inv_place W H s hinv r hro (by simpa using hcol) hcond.2) h
    · simp only [outcome.ok.injEq, Prod.mk.injEq] at h
      rw [← h.1]
      exact hinv

theorem make_rooms_inv (W H : Int) (hd : dims_ok W H) (s : state) (draws : List Nat)
    (s' : state) (rest : List Nat)
    (h : make_rooms W H (init W H s) draws = outcome.ok (s', rest)) : rooms_inv W H s' :=
  make_rooms_loop_inv W H hd _ _ _ _ _ _ (rooms_inv_init W H s) h

theorem rooms_apart_of_index (l : List room_t) (hpw : l.Pairwise rooms_apart) (i j : Nat)
    (ri rj : room_t) (hi : l[i]? = some ri) (hj : l[j]? = some rj) (hij : i ≠ j) :
    rooms_apart ri rj := by
  rw [List.pairwise_iff_getElem] at hpw
  obtain ⟨hil, ei⟩ := List.getElem?_eq_some.mp hi
  obtain ⟨hjl, ej⟩ := List.getElem?_eq_some.mp hj
  rcases Nat.lt_or_gt_of_ne hij with hlt | hgt
  · have := hpw i j hil hjl hlt
    rw [ei, ej] at this
    exact this
  · have := hpw j i hjl hil hgt
    rw [ei, ej] at this
    exact rooms_apart_symm this

theorem two_room_run :
    ∃ s' rest, make_rooms width height (init width height s_blank) two_room_draws
        = outcome.ok (s', rest) ∧ s'.rooms = [⟨0, 0, 6, 4⟩, ⟨6, 0, 12, 4⟩] := by
  have hev : (make_rooms width height (init width height s_blank) two_room_draws).holds
      (fun r => decide (r.1.rooms = [⟨0, 0, 6, 4⟩, ⟨6, 0, 12, 4⟩])) = true := by decide!
  obtain ⟨⟨s', rest⟩, h, h2⟩ := outcome_holds_elim hev
  exact ⟨s', rest, h, by simpa using h2⟩

/-- C6 fails as stated: on the source's grid size the draws `two_room_draws` make
`make_rooms` accept the rooms `(0,0,6,4)` and `(6,0,12,4)`, whose inclusive
rectangles share the cell `(6, 0)`. -/
theorem make_rooms_rectangles_overlap :
    ∃ s' rest, make_rooms width height (init width height s_blank) two_room_draws
        = outcome.ok (s', rest) ∧
      s'.rooms[0]? = some ⟨0, 0, 6, 4⟩ ∧ s'.rooms[1]? = some ⟨6, 0, 12, 4⟩ ∧
      in_rect ⟨0, 0, 6, 4⟩ 6 0 ∧ in_rect ⟨6, 0, 12, 4⟩ 6 0 := by
  obtain ⟨s', rest, h, hr⟩ := two_room_run
  exact ⟨s', rest, h, by simp [hr], by simp [hr], by decide, by decide⟩

/-- C6, as amended: a cell that the inclusive rectangles of two distinct accepted
rooms share lies in the interior of neither room (it is on the wall border of
both) and is a wall tile when `make_rooms` returns. -/
theorem make_rooms_shared_cells_wall (W H : Int) (hd : dims_ok W H) (s : state)
    (draws : List Nat) (s' : state) (rest : List Nat)
    (h : make_rooms W H (init W H s) draws = outcome.ok (s', rest))
    (i j : Nat) (ri rj : room_t) (hi : s'.rooms[i]? = some ri) (hj : s'.rooms[j]? = some rj)
    (hij : i ≠ j) (x y : Int) (h1 : in_rect ri x y) (h2 : in_rect rj x y) :
    ¬ interior ri x y ∧ ¬ interior rj x y ∧ (s'.tiles x y).kind = tk_wall := by
  obtain ⟨_, _, _, hok, hpw, htile⟩ := make_rooms_inv W H hd s draws s' rest h
  have hap := rooms_apart_of_index s'.rooms hpw i j ri rj hi hj hij
  have hri := hok ri (List.getElem?_mem hi)
  have hb : in_bounds W H x y := by
    unfold room_ok at hri; unfold in_rect at h1; unfold in_bounds; omega
  refine ⟨fun hint => hap.1 x y hint h2, fun hint => hap.2 x y hint h1, ?_⟩
  refine ((htile x y hb).2.2.1 ?_).1
  rintro ⟨r, hr, hint⟩
  obtain ⟨k, hk⟩ := List.getElem?_of_mem hr
  by_cases hki : k = i
  · subst hki
    rw [hi] at hk
    cases hk
    exact hap.1 x y hint h2
  · exact (rooms_apart_of_index s'.rooms hpw k i r ri hk hi hki).1 x y hint h1

/-- Witness of C6 as amended, on the source's grid size: the cell `(6, 0)` shared
by the rooms `(0,0,6,4)` and `(6,0,12,4)` is a wall tile. -/
theorem make_rooms_shared_cells_wall_witness :
    ∃ s' rest, make_rooms width height (init width height s_blank) two_room_draws
        = outcome.ok (s', rest) ∧ (s'.tiles 6 0).kind = tk_wall := by
  obtain ⟨s', rest, h, hr⟩ := two_room_run
  exact ⟨s', rest, h,
    (make_rooms_shared_cells_wall width height (by decide) s_blank two_room_draws s' rest h
      0 1 ⟨0, 0, 6, 4⟩ ⟨6, 0, 12, 4⟩ (by simp [hr]) (by simp [hr]) (by decide) 6 0
      (by decide) (by decide)).2.2⟩

/-- C7: for any two distinct rooms accepted by `make_rooms`, every interior tile
of one is a floor tile outside the inclusive rectangle of the other, whichever
was placed first, and no interior tile of one is orthogonally adjacent to an
interior tile of the other. -/
theorem make_rooms_interiors_apart (W H : Int) (hd : dims_ok W H) (s : state)
    (draws : List Nat) (s' : state) (rest : List Nat)
    (h : make_rooms W H (init W H s) draws = outcome.ok (s', rest))
    (i j : Nat) (ri rj : room_t) (hi : s'.rooms[i]? = some ri) (hj : s'.rooms[j]? = some rj)
    (hij : i ≠ j) :
    (∀ x y, interior ri x y → (s'.tiles x y).kind = tk_floor ∧ ¬ in_rect rj x y) ∧
      (∀ x y, interior rj x y → (s'.tiles x y).kind = tk_floor ∧ ¬ in_rect ri x y) ∧
      (∀ x y x' y', interior ri x y → interior rj x' y' → ¬ adjacent x y x' y') := by
  obtain ⟨_, _, _, hok, hpw, htile⟩ := make_rooms_inv W H hd s draws s' rest h
  have hap := rooms_apart_of_index s'.rooms hpw i j ri rj hi hj hij
  have hfloor : ∀ (r : room_t), r ∈ s'.rooms → ∀ x y, interior r x y →
      (s'.tiles x y).kind = tk_floor := by
    intro r hr x y hint
    have hro := hok r hr
    have hb : in_bounds W H x y := by
      unfold room_ok at hro; unfold interior at hint; unfold in_bounds; omega
    exact (htile x y hb).2.1 ⟨r, hr, hint⟩
  refine ⟨fun x y hint => ⟨hfloor ri (List.getElem?_mem hi) x y hint, hap.1 x y hint⟩,
    fun x y hint => ⟨hfloor rj (List.getElem?_mem hj) x y hint, hap.2 x y hint⟩, ?_⟩
  intro x y x' y' h1 h2 hadj
  apply hap.1 x y h1
  unfold interior at h2
  unfold adjacent at hadj
  unfold in_rect
  omega

/-- Witness of C7 on the source's grid size, for the rooms `(0,0,6,4)` and
`(6,0,12,4)` of the run on `two_room_draws`: the interior tile `(5, 1)` of the
first is floor and is not adjacent to the interior tile `(7, 1)` of the second. -/
theorem make_rooms_interiors_apart_witness :
    ∃ s' rest, make_rooms width height (init width height s_blank) two_room_draws
        = outcome.ok (s', rest) ∧ (s'.tiles 5 1).kind = tk_floor ∧
        ¬ in_rect ⟨6, 0, 12, 4⟩ 5 1 ∧ ¬ adjacent 5 1 7 1 := by
  obtain ⟨s', rest, h, hr⟩ := two_room_run
  have := make_rooms_interiors_apart width height (by decide) s_blank two_room_draws s' rest h
    0 1 ⟨0, 0, 6, 4⟩ ⟨6, 0, 12, 4⟩ (by simp [hr]) (by simp [hr]) (by decide)
  exact ⟨s', rest, h, (this.1 5 1 (by decide)).1, (this.1 5 1 (by decide)).2,
    this.2.2 5 1 7 1 (by decide) (by decide)⟩

/-! ## `walk` and `hunt`: the cells they look at -/

theorem mem_odd_range (n x : Int) : x ∈ odd_range n ↔ x % 2 = 1 ∧ 1 ≤ x ∧ x < n := by
  unfold odd_range
  simp only [List.mem_map, List.mem_range]
  constructor
  · rintro ⟨i, hi, rfl⟩
    omega
  · intro h
    exact ⟨(x / 2).toNat, by omega, by omega⟩

theorem mem_odd_cells (W H : Int) (p : Int × Int) :
    p ∈ odd_cells W H ↔
      (p.1 % 2 = 1 ∧ 1 ≤ p.1 ∧ p.1 < W) ∧ (p.2 % 2 = 1 ∧ 1 ≤ p.2 ∧ p.2 < H) := by
  unfold odd_cells
  simp only [List.mem_flatMap, List.mem_map, mem_odd_range]
  constructor
  · rintro ⟨x, hx, y, hy, rfl⟩
    exact ⟨hx, hy⟩
  · rintro ⟨h1, h2⟩
    exact ⟨p.1, h1, p.2, h2, rfl⟩

theorem mem_dirs (d : xy_t) :
    d ∈ dirs ↔ d = ⟨-2, 0⟩ ∨ d = ⟨2, 0⟩ ∨ d = ⟨0, -2⟩ ∨ d = ⟨0, 2⟩ := by
  simp [dirs]

theorem select_loop_mem {T : Type} (items : List T) :
    ∀ (ws : List Int) (r : Int) (a : T), select_loop items ws r = some a → a ∈ items := by
  induction items with
  | nil => intro ws r a h; simp [select_loop] at h
  | cons item items ih =>
    intro ws r a h
    cases ws with
    | nil => simp [select_loop] at h
    | cons w ws =>
      unfold select_loop at h
      split_ifs at h
      · simp only [Option.some.injEq] at h
        rw [← h]; exact List.mem_cons_self _ _
      · exact List.mem_cons_of_mem _ (ih ws _ a h)

theorem walk_neighbours_fold_items (W H : Int) (g : grid) (x y dx dy : Int) (n : xy_t)
    (l : List xy_t) :
    ∀ (s : weighted_selector_t xy_t),
      n ∈ (l.foldl
        (fun ns d =>
          if in_bounds W H (x + d.x) (y + d.y) then
            if unused (g (x + d.x) (y + d.y)) then
              ns.push_back ⟨x + d.x, y + d.y⟩ (walk_weight d dx dy)
            else ns
          else ns) s).items ↔
      (n ∈ s.items ∨ ∃ d ∈ l, n = ⟨x + d.x, y + d.y⟩ ∧ in_bounds W H (x + d.x) (y + d.y) ∧
        unused (g (x + d.x) (y + d.y)) = true) := by
  induction l with
  | nil => intro s; simp
  | cons d l ih =>
    intro s
    simp only [List.foldl_cons]
    rw [ih]
    by_cases h1 : in_bounds W H (x + d.x) (y + d.y)
    · by_cases h2 : unused (g (x + d.x) (y + d.y)) = true
      · simp only [h1, h2, if_true, weighted_selector_t.push_back, List.mem_append,
          List.mem_singleton, List.mem_cons, exists_eq_or_imp, and_self, and_true]
        tauto
      · simp only [h1, h2, if_true, if_false, List.mem_cons, exists_eq_or_imp]
        simp only [Bool.false_eq_true, and_false, false_or, if_false]
    · simp only [h1, if_false, List.mem_cons, exists_eq_or_imp, false_and, and_false, false_or]

theorem mem_walk_neighbours (W H : Int) (g : grid) (x y dx dy : Int) (n : xy_t) :
    n ∈ (walk_neighbours W H g x y dx dy).items ↔
      ∃ d ∈ dirs, n = ⟨x + d.x, y + d.y⟩ ∧ in_bounds W H (x + d.x) (y + d.y) ∧
        unused (g (x + d.x) (y + d.y)) = true := by
  unfold walk_neighbours
  rw [walk_neighbours_fold_items]
  simp [weighted_selector_t.new]

theorem hunt_neighbours_fold (W H : Int) (g : grid) (x y : Int) (n : xy_t) (l : List xy_t) :
    ∀ (s : List xy_t),
      n ∈ (l.foldl
        (fun ns d =>
          if in_bounds W H (x + d.x) (y + d.y) then
            if maze_floor (g (x + d.x) (y + d.y)) then ns ++ [⟨x + d.x, y + d.y⟩] else ns
          else ns) s) ↔
      (n ∈ s ∨ ∃ d ∈ l, n = ⟨x + d.x, y + d.y⟩ ∧ in_bounds W H (x + d.x) (y + d.y) ∧
        maze_floor (g (x + d.x) (y + d.y)) = true) := by
  induction l with
  | nil => intro s; simp
  | cons d l ih =>
    intro s
    simp only [List.foldl_cons]
    rw [ih]
    by_cases h1 : in_bounds W H (x + d.x) (y + d.y)
    · by_cases h2 : maze_floor (g (x + d.x) (y + d.y)) = true
      · simp only [h1, h2, if_true, List.mem_append, List.mem_singleton, List.mem_cons,
          exists_eq_or_imp, and_self, and_true]
        tauto
      · simp only [h1, h2, if_true, if_false, List.mem_cons, exists_eq_or_imp]
        simp only [Bool.false_eq_true, and_false, false_or, if_false]
    · simp only [h1, if_false, List.mem_cons, exists_eq_or_imp, false_and, and_false, false_or]

theorem mem_hunt_neighbours (W H : Int) (g : grid) (x y : Int) (n : xy_t) :
    n ∈ hunt_neighbours W H g x y ↔
      ∃ d ∈ dirs, n = ⟨x + d.x, y + d.y⟩ ∧ in_bounds W H (x + d.x) (y + d.y) ∧
        maze_floor (g (x + d.x) (y + d.y)) = true := by
  unfold hunt_neighbours
  rw [hunt_neighbours_fold]
  simp

/-! ## `walk`, `hunt` and `make_maze`: how a run unfolds -/

theorem modify_other (g : grid) (x y a b : Int) (f : tile_t → tile_t)
    (h : ¬ (a = x ∧ b = y)) : modify g x y f a b = g a b := by
  unfold modify; simp only [h, if_false]

theorem modify_same (g : grid) (x y : Int) (f : tile_t → tile_t) :
    modify g x y f x y = f (g x y) := by
  unfold modify; simp

theorem dirs_step (d : xy_t) (hd : d ∈ dirs) (x y : Int) :
    ¬ (x + d.x = x ∧ y + d.y = y) := by
  rw [mem_dirs] at hd
  rcases hd with rfl | rfl | rfl | rfl <;> simp

/-- Induction along a run of `walk`: `Pre` holds at every call, `Post` when the
run stops. -/
theorem walk_ind (W H : Int) (Pre : state → Int → Int → Prop) (Post : state → Prop)
    (hstop : ∀ s x y, Pre s x y →
      (∀ d ∈ dirs, in_bounds W H (x + d.x) (y + d.y) →
        unused (s.tiles (x + d.x) (y + d.y)) = false) →
      Post { s with tiles := modify s.tiles x y (carve s.next_region) })
    (hstep : ∀ s x y d, Pre s x y → d ∈ dirs → in_bounds W H (x + d.x) (y + d.y) →
      unused (s.tiles (x + d.x) (y + d.y)) = true →
      Pre { s with
            tiles := modify (modify s.tiles x y (carve s.next_region))
              ((x + (x + d.x)) / 2) ((y + (y + d.y)) / 2) (carve s.next_region) }
        (x + d.x) (y + d.y)) :
    ∀ (draws : List Nat) (s : state) (x y dx dy : Int) (s' : state) (rest : List Nat),
      Pre s x y → walk W H draws s x y dx dy = outcome.ok (s', rest) → Post s' := by
  have hempty : ∀ (s : state) (x y dx dy : Int), Pre s x y →
      (walk_neighbours W H (modify s.tiles x y (carve s.next_region)) x y dx dy).empty = true →
      Post { s with tiles := modify s.tiles x y (carve s.next_region) } := by
    intro s x y dx dy hpre he
    apply hstop s x y hpre
    intro d hd hin
    by_contra hu
    have hu' : unused (s.tiles (x + d.x) (y + d.y)) = true := by simpa using hu
    have hmem : (⟨x + d.x, y + d.y⟩ : xy_t) ∈
        (walk_neighbours W H (modify s.tiles x y (carve s.next_region)) x y dx dy).items := by
      rw [mem_walk_neighbours]
      exact ⟨d, hd, rfl, hin, by rw [modify_other _ _ _ _ _ _ (dirs_step d hd x y)]; exact hu'⟩
    unfold weighted_selector_t.empty at he
    rw [List.isEmpty_iff] at he
    rw [he] at hmem
    simp at hmem
  have hsel : ∀ (s : state) (x y dx dy : Int) (rnd : Nat) (n : xy_t), Pre s x y →
      (walk_neighbours W H (modify s.tiles x y (carve s.next_region)) x y dx dy).select rnd
        = some n →
      Pre { s with
            tiles := modify (modify s.tiles x y (carve s.next_region))
              ((x + n.x) / 2) ((y + n.y) / 2) (carve s.next_region) } n.x n.y := by
    intro s x y dx dy rnd n hpre hs
    have hmem := select_loop_mem _ _ _ _ hs
    rw [mem_walk_neighbours] at hmem
    obtain ⟨d, hd, rfl, hin, hu⟩ := hmem
    rw [modify_other _ _ _ _ _ _ (dirs_step d hd x y)] at hu
    exact hstep s x y d hpre hd hin hu
  intro draws
  induction draws with
  | nil =>
    intro s x y dx dy s' rest hpre h
    unfold walk at h
    split_ifs at h with he
    · simp only [outcome.ok.injEq, Prod.mk.injEq] at h
      rw [← h.1]
      exact hempty s x y dx dy hpre he
  | cons rnd ds ih =>
    intro s x y dx dy s' rest hpre h
    unfold walk at h
    split_ifs at h with he
    · simp only [outcome.ok.injEq, Prod.mk.injEq] at h
      rw [← h.1]
      exact hempty s x y dx dy hpre he
    · split at h
      · simp at h
      · rename_i n hs
        exact ih _ _ _ _ _ _ _ (hsel s x y dx dy rnd n hpre hs) h

/-- The three ways `hunt` returns: a cell stitched to the maze by the first scan,
the first unused cell found by the second scan, or no unused cell. -/
theorem hunt_cases (W H : Int) (s : state) (draws : List Nat) (res : Option (Int × Int))
    (s' : state) (rest : List Nat) (h : hunt W H s draws = outcome.ok (res, s', rest)) :
    (∃ p d, res = some p ∧ p ∈ odd_cells W H ∧ unused (s.tiles p.1 p.2) = true ∧
        d ∈ dirs ∧ in_bounds W H (p.1 + d.x) (p.2 + d.y) ∧
        maze_floor (s.tiles (p.1 + d.x) (p.2 + d.y)) = true ∧
        s' = { s with
                tiles := modify s.tiles ((p.1 + (p.1 + d.x)) / 2)
                  ((p.2 + (p.2 + d.y)) / 2) (carve s.next_region) }) ∨
    (∃ p, res = some p ∧ p ∈ odd_cells W H ∧ unused (s.tiles p.1 p.2) = true ∧
        (∃ before after, odd_cells W H = before ++ p :: after ∧
          ∀ q ∈ before, unused (s.tiles q.1 q.2) = false) ∧
        (∀ q ∈ odd_cells W H, unused (s.tiles q.1 q.2) = true →
          ∀ d ∈ dirs, in_bounds W H (q.1 + d.x) (q.2 + d.y) →
            maze_floor (s.tiles (q.1 + d.x) (q.2 + d.y)) = false) ∧
        s' = { s with next_region := s.next_region + 1 } ∧ rest = draws) ∨
    (res = none ∧ (∀ q ∈ odd_cells W H, unused (s.tiles q.1 q.2) = false) ∧ s' = s ∧
        rest = draws) := by
  unfold hunt at h
  split at h
  · rename_i p hfind
    left
    have hp := List.find?_some hfind
    have hmem := List.mem_of_find?_eq_some hfind
    simp only [Bool.and_eq_true, decide_eq_true_eq] at hp
    split at h
    · simp at h
    · rename_i rnd ds
      split at h
      · simp at h
      · rename_i n hn
        have hnmem := List.getElem?_mem hn
        rw [mem_hunt_neighbours] at hnmem
        obtain ⟨d, hd, rfl, hin, hmf⟩ := hnmem
        simp only [outcome.ok.injEq, Prod.mk.injEq] at h
        exact ⟨p, d, h.1.symm, hmem, hp.1, hd, hin, hmf, h.2.1.symm⟩
  · rename_i hfind
    have hnone : ∀ q ∈ odd_cells W H, unused (s.tiles q.1 q.2) = true →
        ∀ d ∈ dirs, in_bounds W H (q.1 + d.x) (q.2 + d.y) →
          maze_floor (s.tiles (q.1 + d.x) (q.2 + d.y)) = false := by
      intro q hq hu d hd hin
      by_contra hmf
      have hmf' : maze_floor (s.tiles (q.1 + d.x) (q.2 + d.y)) = true := by simpa using hmf
      have := List.find?_eq_none.mp hfind q hq
      simp only [Bool.and_eq_true, decide_eq_true_eq, not_and, not_lt] at this
      have hlen := this hu
      have hm : (⟨q.1 + d.x, q.2 + d.y⟩ : xy_t) ∈ hunt_neighbours W H s.tiles q.1 q.2 := by
        rw [mem_hunt_neighbours]
        exact ⟨d, hd, rfl, hin, hmf'⟩
      have := List.length_pos_of_mem hm
      omega
    split at h
    · rename_i p hfind2
      right; left
      simp only [outcome.ok.injEq, Prod.mk.injEq] at h
      have hsplit := List.find?_eq_some.mp hfind2
      refine ⟨p, h.1.symm, List.mem_of_find?_eq_some hfind2, hsplit.1, ?_, hnone,
        h.2.1.symm, h.2.2.symm⟩
      obtain ⟨as, bs, e, hb⟩ := hsplit.2
      exact ⟨as, bs, e, fun q hq => by simpa using hb q hq⟩
    · rename_i hfind2
      right; right
      simp only [outcome.ok.injEq, Prod.mk.injEq] at h
      refine ⟨h.1.symm, ?_, h.2.1.symm, h.2.2.symm⟩
      intro q hq
      have := List.find?_eq_none.mp hfind2 q hq
      simpa using this

/-- Induction along the loop of `make_maze`. -/
theorem make_maze_loop_ind (W H : Int) (Inv : state → Prop)
    (PreWalk : state → Int → Int → Prop)
    (hhunt : ∀ s draws p s1 d1, Inv s → hunt W H s draws = outcome.ok (some p, s1, d1) →
      PreWalk s1 p.1 p.2)
    (hwalk : ∀ s1 x y d1 s2 d2, PreWalk s1 x y →
      walk W H d1 s1 x y 0 0 = outcome.ok (s2, d2) → Inv s2) :
    ∀ (fuel : Nat) (s : state) (draws : List Nat) (s' : state) (rest : List Nat),
      Inv s → make_maze_loop W H fuel s draws = outcome.ok (s', rest) →
        Inv s' ∧ ∀ q ∈ odd_cells W H, unused (s'.tiles q.1 q.2) = false := by
  intro fuel
  induction fuel with
  | zero => intro s draws s' rest _ h; simp [make_maze_loop] at h
  | succ fuel ih =>
    intro s draws s' rest hinv h
    unfold make_maze_loop at h
    cases hh : hunt W H s draws with
    | ok r =>
      obtain ⟨res, s1, d1⟩ := r
      rw [hh] at h
      simp only [outcome.bind] at h
      cases res with
      | none =>
        simp only [outcome.ok.injEq, Prod.mk.injEq] at h
        rcases hunt_cases W H s draws none s1 d1 hh with hc | hc | hc
        · obtain ⟨p, d, hp, _⟩ := hc
          simp at hp
        · obtain ⟨p, hp, _⟩ := hc
          simp at hp
        · obtain ⟨_, hall, e, _⟩ := hc
          rw [← h.1, e]
          exact ⟨hinv, hall⟩
      | some p =>
        simp only at h
        cases hw : walk W H d1 s1 p.1 p.2 0 0 with
        | ok r2 =>
          rw [hw] at h
          simp only [outcome.bind] at h
          exact ih _ _ _ _ (hwalk s1 p.1 p.2 d1 r2.1 r2.2 (hhunt s draws p s1 d1 hinv hh) hw) h
        | no_draws => rw [hw] at h; simp [outcome.bind] at h
        | assert_failed => rw [hw] at h; simp [outcome.bind] at h
        | bad_index => rw [hw] at h; simp [outcome.bind] at h
        | no_fuel => rw [hw] at h; simp [outcome.bind] at h
    | no_draws => rw [hh] at h; simp [outcome.bind] at h
    | assert_failed => rw [hh] at h; simp [outcome.bind] at h
    | bad_index => rw [hh] at h; simp [outcome.bind] at h
    | no_fuel => rw [hh] at h; simp [outcome.bind] at h

/-! ## `make_connections`: the list of connections -/

theorem scan_cells_acc (g : grid) (ps : List (Int × Int)) :
    ∀ (acc : List connection_t) (c : connection_t), c ∈ acc → c ∈ scan_cells g ps acc := by
  induction ps with
  | nil => intro acc c h; simpa [scan_cells] using h
  | cons p ps ih =>
    intro acc c h
    unfold scan_cells
    split_ifs
    · exact ih _ _ (List.mem_append_left _ h)
    · exact ih _ _ (List.mem_append_left _ h)
    · exact ih _ _ h

theorem scan_cells_sound (g : grid) (ps : List (Int × Int)) :
    ∀ (acc : List connection_t) (c : connection_t),
      c ∈ scan_cells g ps acc → (c ∈ acc ∨ ∃ p ∈ ps, connector_at g p c) := by
  induction ps with
  | nil => intro acc c h; left; simpa [scan_cells] using h
  | cons p ps ih =>
    intro acc c h
    unfold scan_cells at h
    split_ifs at h with h1 h2
    · rcases ih _ _ h with h | ⟨q, hq, hc⟩
      · rcases List.mem_append.mp h with h | h
        · exact Or.inl h
        · rw [List.mem_singleton] at h
          subst h
          exact Or.inr ⟨p, List.mem_cons_self _ _, rfl, rfl, Or.inl ⟨h1, rfl, rfl⟩⟩
      · exact Or.inr ⟨q, List.mem_cons_of_mem _ hq, hc⟩
    · rcases ih _ _ h with h | ⟨q, hq, hc⟩
      · rcases List.mem_append.mp h with h | h
        · exact Or.inl h
        · rw [List.mem_singleton] at h
          subst h
          exact Or.inr ⟨p, List.mem_cons_self _ _, rfl, rfl, Or.inr ⟨h1, h2, rfl, rfl⟩⟩
      · exact Or.inr ⟨q, List.mem_cons_of_mem _ hq, hc⟩
    · rcases ih _ _ h with h | ⟨q, hq, hc⟩
      · exact Or.inl h
      · exact Or.inr ⟨q, List.mem_cons_of_mem _ hq, hc⟩

theorem scan_cells_complete (g : grid) (ps : List (Int × Int)) :
    ∀ (acc : List connection_t) (p : Int × Int), p ∈ ps →
      (separates (g (p.1 - 1) p.2) (g (p.1 + 1) p.2) ∨
        separates (g p.1 (p.2 - 1)) (g p.1 (p.2 + 1))) →
      ∃ c ∈ scan_cells g ps acc, connector_at g p c := by
  induction ps with
  | nil => intro acc p hp; simp at hp
  | cons q ps ih =>
    intro acc p hp hsep
    unfold scan_cells
    rcases List.mem_cons.mp hp with rfl | hp'
    · split_ifs with h1 h2
      · exact ⟨_, scan_cells_acc g ps _ _ (List.mem_append_right _ (List.mem_singleton.mpr rfl)),
          rfl, rfl, Or.inl ⟨h1, rfl, rfl⟩⟩
      · exact ⟨_, scan_cells_acc g ps _ _ (List.mem_append_right _ (List.mem_singleton.mpr rfl)),
          rfl, rfl, Or.inr ⟨h1, h2, rfl, rfl⟩⟩
      · rcases hsep with h | h
        · exact absurd h h1
        · exact absurd h h2
    · split_ifs
      · exact ih _ p hp' hsep
      · exact ih _ p hp' hsep
      · exact ih _ p hp' hsep

theorem update_connections_perm (partner : Int) (A : List connection_t) :
    ∀ B : List connection_t,
      (update_connections partner A.length (A ++ B)).Perm
        ((A.map (rewrite_connection partner)).filter kept ++ B) := by
  induction A using List.reverseRecOn with
  | nil => intro B; simp [update_connections]
  | append_singleton A c ih =>
    intro B
    have hget : (A ++ [c] ++ B)[A.length]? = some c := by
      rw [List.append_assoc, List.getElem?_append_right (le_refl _)]
      simp
    have hset : ∀ v, (A ++ [c] ++ B).set A.length v = A ++ v :: B := by
      intro v
      rw [List.append_assoc, List.set_append_right _ _ (le_refl _)]
      simp
    rw [List.length_append, List.length_singleton]
    unfold update_connections
    rw [hget]
    simp only [hset]
    have hset2 : ∀ u v, (A ++ u :: B).set A.length v = A ++ v :: B := by
      intro u v
      rw [List.set_append_right _ _ (le_refl _)]
      simp
    split_ifs with hk
    · -- the entry is removed
      have hk' : kept (rewrite_connection partner c) = false := by
        simp [kept, hk]
      simp only [hset2, List.map_append, List.map_cons, List.map_nil, List.filter_append,
        List.filter_cons, hk', List.filter_nil, List.append_nil]
      rcases List.eq_nil_or_concat B with rfl | ⟨B', z, rfl⟩
      · simp only [List.append_nil]
        have : (A ++ [(A ++ [rewrite_connection partner c]).getLast?.getD
            (rewrite_connection partner c)]).dropLast = A := by
          rw [List.dropLast_concat]
        rw [this]
        simpa using ih []
      · simp only [List.concat_eq_append]
        have hl : (A ++ rewrite_connection partner c :: (B' ++ [z])).getLast?.getD
            (rewrite_connection partner c) = z := by
          rw [show A ++ rewrite_connection partner c :: (B' ++ [z])
            = (A ++ rewrite_connection partner c :: B') ++ [z] by simp]
          rw [List.getLast?_concat]
          rfl
        rw [hl]
        have hd : (A ++ z :: (B' ++ [z])).dropLast = A ++ z :: B' := by
          rw [show A ++ z :: (B' ++ [z]) = (A ++ z :: B') ++ [z] by simp]
          rw [List.dropLast_concat]
        rw [hd]
        simp only [Bool.false_eq_true, if_false, List.append_nil]
        refine (ih (z :: B')).trans ?_
        apply List.Perm.append_left
        exact (List.perm_append_singleton z B').symm
    · have hk' : kept (rewrite_connection partner c) = true := by
        simp [kept, hk]
      simp only [List.map_append, List.map_cons, List.map_nil, List.filter_append,
        List.filter_cons, hk', List.filter_nil, if_true, List.append_assoc,
        List.singleton_append]
      exact ih (rewrite_connection partner c :: B)

/-- Induction along the merge loop of `make_connections`. -/
theorem merge_loop_ind (W H : Int) (Inv : grid → List connection_t → Prop)
    (hstep : ∀ g conns conn conns', Inv g conns → conn ∈ conns →
      conn.region0 = main_region →
      conns'.Perm ((conns.map (rewrite_connection conn.region1)).filter kept) →
      Inv (relabel W H conn.region1 (modify g conn.x conn.y open_door)) conns') :
    ∀ (draws : List Nat) (g : grid) (conns : List connection_t) (g' : grid)
      (rest : List Nat), Inv g conns →
      merge_loop W H draws g conns = outcome.ok (g', rest) →
      ∃ conns', Inv g' conns' ∧ ∀ c ∈ conns', c.region0 ≠ main_region := by
  have hdone : ∀ (g : grid) (conns : List connection_t), Inv g conns →
      (conns.filter (fun c => decide (c.region0 = main_region))).length = 0 →
      ∃ conns', Inv g conns' ∧ ∀ c ∈ conns', c.region0 ≠ main_region := by
    intro g conns hinv hlen
    refine ⟨conns, hinv, fun c hc h0 => ?_⟩
    have : c ∈ conns.filter (fun c => decide (c.region0 = main_region)) := by
      rw [List.mem_filter]; exact ⟨hc, by simpa using h0⟩
    rw [List.length_eq_zero] at hlen
    rw [hlen] at this
    simp at this
  intro draws
  induction draws with
  | nil =>
    intro g conns g' rest hinv h
    unfold merge_loop at h
    split_ifs at h with he
    · simp only [outcome.ok.injEq, Prod.mk.injEq] at h
      rw [← h.1]
      exact hdone g conns hinv he
  | cons rnd ds ih =>
    intro g conns g' rest hinv h
    unfold merge_loop at h
    split_ifs at h with he
    · simp only [outcome.ok.injEq, Prod.mk.injEq] at h
      rw [← h.1]
      exact hdone g conns hinv he
    · split at h
      · simp at h
      · rename_i conn hconn
        have hmem := List.getElem?_mem hconn
        rw [List.mem_filter] at hmem
        have hperm := update_connections_perm conn.region1 conns []
        simp only [List.append_nil] at hperm
        exact ih _ _ _ _
          (hstep g conns conn _ hinv hmem.1 (by simpa using hmem.2) hperm) h

/-! ## The outer border -/

theorem border_wall_modify (W H : Int) (g : grid) (x y : Int) (f : tile_t → tile_t)
    (hb : border_wall W H g) (hx : 1 ≤ x ∧ x ≤ W - 2) (hy : 1 ≤ y ∧ y ≤ H - 2) :
    border_wall W H (modify g x y f) := by
  intro a b hin hedge
  rw [modify_other _ _ _ _ _ _ (by omega)]
  exact hb a b hin hedge

theorem border_wall_relabel (W H : Int) (g : grid) (partner : Int) (hb : border_wall W H g) :
    border_wall W H (relabel W H partner g) := by
  intro a b hin hedge
  have := hb a b hin hedge
  unfold relabel for_rect
  simp only
  split_ifs <;> simp [this]

theorem border_wall_of_rooms_inv (W H : Int) (s : state) (hinv : rooms_inv W H s) :
    border_wall W H s.tiles := by
  obtain ⟨_, _, _, hok, _, htile⟩ := hinv
  intro x y hin hedge
  refine ((htile x y hin).2.2.1 ?_).1
  rintro ⟨r, hr, hint⟩
  have := hok r hr
  unfold room_ok at this
  unfold interior at hint
  omega

theorem border_wall_walk (W H : Int) (ho : dims_odd W H) (draws : List Nat) (s : state)
    (x y dx dy : Int) (s' : state) (rest : List Nat)
    (hpre : border_wall W H s.tiles ∧ x % 2 = 1 ∧ y % 2 = 1 ∧ in_bounds W H x y)
    (h : walk W H draws s x y dx dy = outcome.ok (s', rest)) : border_wall W H s'.tiles := by
  unfold dims_odd at ho
  refine walk_ind W H
    (fun s x y => border_wall W H s.tiles ∧ x % 2 = 1 ∧ y % 2 = 1 ∧ in_bounds W H x y)
    (fun s => border_wall W H s.tiles) ?_ ?_ draws s x y dx dy s' rest hpre h
  · intro s x y hp _
    obtain ⟨hb, hx, hy, hin⟩ := hp
    unfold in_bounds at hin
    exact border_wall_modify W H _ x y _ hb (by omega) (by omega)
  · intro s x y d hp hd hin _
    obtain ⟨hb, hx, hy, hin0⟩ := hp
    unfold in_bounds at hin hin0
    rw [mem_dirs] at hd
    refine ⟨?_, ?_, ?_, hin⟩
    · apply border_wall_modify
      · exact border_wall_modify W H _ x y _ hb (by omega) (by omega)
      · rcases hd with rfl | rfl | rfl | rfl <;> simp only at hin ⊢ <;> omega
      · rcases hd with rfl | rfl | rfl | rfl <;> simp only at hin ⊢ <;> omega
    · rcases hd with rfl | rfl | rfl | rfl <;> simp only <;> omega
    · rcases hd with rfl | rfl | rfl | rfl <;> simp only <;> omega

theorem border_wall_make_maze (W H : Int) (ho : dims_odd W H) (s : state) (draws : List Nat)
    (s' : state) (rest : List Nat) (hb : border_wall W H s.tiles)
    (h : make_maze W H s draws = outcome.ok (s', rest)) : border_wall W H s'.tiles := by
  have ho' := ho
  unfold dims_odd at ho'
  refine (make_maze_loop_ind W H (fun s => border_wall W H s.tiles)
    (fun s x y => border_wall W H s.tiles ∧ x % 2 = 1 ∧ y % 2 = 1 ∧ in_bounds W H x y)
    ?_ ?_ _ s draws s' rest hb h).1
  · intro s draws p s1 d1 hinv hh
    rcases hunt_cases W H s draws (some p) s1 d1 hh with hc | hc | hc
    · obtain ⟨q, d, hq, hmem, _, hd, hin, _, rfl⟩ := hc
      simp only [Option.some.injEq] at hq
      subst hq
      rw [mem_odd_cells] at hmem
      unfold in_bounds at hin
      rw [mem_dirs] at hd
      refine ⟨?_, hmem.1.1, hmem.2.1, by unfold in_bounds; omega⟩
      apply border_wall_modify W H _ _ _ _ hinv
      · rcases hd with rfl | rfl | rfl | rfl <;> simp only at hin ⊢ <;> omega
      · rcases hd with rfl | rfl | rfl | rfl <;> simp only at hin ⊢ <;> omega
    · obtain ⟨q, hq, hmem, _, _, _, rfl, _⟩ := hc
      simp only [Option.some.injEq] at hq
      subst hq
      rw [mem_odd_cells] at hmem
      exact ⟨hinv, hmem.1.1, hmem.2.1, by unfold in_bounds; omega⟩
    · simp at hc
  · intro s1 x y d1 s2 d2 hpre hw
    exact border_wall_walk W H ho d1 s1 x y 0 0 s2 d2 hpre hw

theorem connector_at_inner (W H : Int) (g : grid) (c : connection_t)
    (h : c ∈ scan_connections W H g) :
    (1 ≤ c.x ∧ c.x ≤ W - 2) ∧ (1 ≤ c.y ∧ c.y ≤ H - 2) := by
  unfold scan_connections at h
  rcases scan_cells_sound g _ _ _ h with h | ⟨p, hp, hx, hy, _⟩
  · simp at h
  · rw [mem_rect_cells] at hp
    omega

theorem rewrite_connection_xy (partner : Int) (c : connection_t) :
    (rewrite_connection partner c).x = c.x ∧ (rewrite_connection partner c).y = c.y := by
  unfold rewrite_connection
  simp only
  split_ifs <;> simp

theorem border_wall_make_connections (W H : Int) (s : state) (draws : List Nat)
    (s' : state) (rest : List Nat) (hb : border_wall W H s.tiles)
    (h : make_connections W H s draws = outcome.ok (s', rest)) :
    border_wall W H s'.tiles := by
  unfold make_connections at h
  cases hm : merge_loop W H draws s.tiles (scan_connections W H s.tiles) with
  | ok r =>
    rw [hm] at h
    simp only [outcome.bind, outcome.ok.injEq, Prod.mk.injEq] at h
    rw [← h.1]
    have hstep : ∀ (g : grid) (conns : List connection_t) (conn : connection_t)
        (conns' : List connection_t),
        (border_wall W H g ∧
          ∀ c ∈ conns, (1 ≤ c.x ∧ c.x ≤ W - 2) ∧ (1 ≤ c.y ∧ c.y ≤ H - 2)) →
        conn ∈ conns → conn.region0 = main_region →
        conns'.Perm ((conns.map (rewrite_connection conn.region1)).filter kept) →
        (border_wall W H (relabel W H conn.region1 (modify g conn.x conn.y open_door)) ∧
          ∀ c ∈ conns', (1 ≤ c.x ∧ c.x ≤ W - 2) ∧ (1 ≤ c.y ∧ c.y ≤ H - 2)) := by
      intro g conns conn conns' hinv hmem _ hperm
      refine ⟨border_wall_relabel W H _ _
        (border_wall_modify W H g _ _ _ hinv.1 (hinv.2 conn hmem).1 (hinv.2 conn hmem).2), ?_⟩
      intro c hc
      have := hperm.subset hc
      rw [List.mem_filter, List.mem_map] at this
      obtain ⟨⟨c0, hc0, rfl⟩, _⟩ := this
      have e := rewrite_connection_xy conn.region1 c0
      rw [e.1, e.2]
      exact hinv.2 c0 hc0
    obtain ⟨conns', hinv, _⟩ := merge_loop_ind W H
      (fun g conns => border_wall W H g ∧
        ∀ c ∈ conns, (1 ≤ c.x ∧ c.x ≤ W - 2) ∧ (1 ≤ c.y ∧ c.y ≤ H - 2))
      hstep draws s.tiles _ r.1 r.2 ⟨hb, fun c hc => connector_at_inner W H s.tiles c hc⟩
      (by rw [hm])
    exact hinv.1
  | no_draws => rw [hm] at h; simp [outcome.bind] at h
  | assert_failed => rw [hm] at h; simp [outcome.bind] at h
  | bad_index => rw [hm] at h; simp [outcome.bind] at h
  | no_fuel => rw [hm] at h; simp [outcome.bind] at h

theorem border_wall_remove_dead_ends (W H : Int) (g g' : grid) (hb : border_wall W H g)
    (h : remove_dead_ends W H g = outcome.ok g') : border_wall W H g' := by
  obtain ⟨g1, h1, hp, _⟩ := remove_dead_ends_spec W H g
  rw [h] at h1
  cases h1
  intro a b hin hedge
  have := hb a b hin hedge
  rcases hp.1 a b with e | e <;> rw [e]
  exact this

/-- C5: for odd grid sizes of `dims_ok`, every tile of the outer border is wall
after `init` and after each of `make_rooms`, `make_maze`, `make_connections` and
`remove_dead_ends`, whatever the draws. -/
theorem border_wall_after_each_stage (W H : Int) (hd : dims_ok W H) (ho : dims_odd W H)
    (s : state) (draws : List Nat) :
    border_wall W H (init W H s).tiles ∧
      ∀ s1 d1, make_rooms W H (init W H s) draws = outcome.ok (s1, d1) →
        border_wall W H s1.tiles ∧
        ∀ s2 d2, make_maze W H s1 d1 = outcome.ok (s2, d2) →
          border_wall W H s2.tiles ∧
          ∀ s3 d3, make_connections W H s2 d2 = outcome.ok (s3, d3) →
            border_wall W H s3.tiles ∧
            ∀ g, remove_dead_ends W H s3.tiles = outcome.ok g → border_wall W H g := by
  refine ⟨border_wall_of_rooms_inv W H _ (rooms_inv_init W H s), fun s1 d1 h1 => ?_⟩
  have hb1 := border_wall_of_rooms_inv W H s1 (make_rooms_inv W H hd s draws s1 d1 h1)
  refine ⟨hb1, fun s2 d2 h2 => ?_⟩
  have hb2 := border_wall_make_maze W H ho s1 d1 s2 d2 hb1 h2
  refine ⟨hb2, fun s3 d3 h3 => ?_⟩
  have hb3 := border_wall_make_connections W H s2 d2 s3 d3 hb2 h3
  exact ⟨hb3, fun g h4 => border_wall_remove_dead_ends W H s3.tiles g hb3 h4⟩

/-! ## A complete run on a small grid -/

theorem outcome_bind_ok {α β : Type} {o : outcome α} {k : α → outcome β} {b : β}
    (h : o.bind k = outcome.ok b) : ∃ a, o = outcome.ok a ∧ k a = outcome.ok b := by
  cases o with
  | ok a => exact ⟨a, rfl, h⟩
  | no_draws => simp [outcome.bind] at h
  | assert_failed => simp [outcome.bind] at h
  | bad_index => simp [outcome.bind] at h
  | no_fuel => simp [outcome.bind] at h

theorem carve_stages_ok (W H : Int) (s : state) (draws : List Nat) (s3 : state)
    (d3 : List Nat) (h : carve_stages W H s draws = outcome.ok (s3, d3)) :
    ∃ s1 d1 s2 d2, make_rooms W H (init W H s) draws = outcome.ok (s1, d1) ∧
      make_maze W H s1 d1 = outcome.ok (s2, d2) ∧
      make_connections W H s2 d2 = outcome.ok (s3, d3) := by
  unfold carve_stages at h
  obtain ⟨⟨s1, d1⟩, h1, h⟩ := outcome_bind_ok h
  obtain ⟨⟨s2, d2⟩, h2, h⟩ := outcome_bind_ok h
  exact ⟨s1, d1, s2, d2, h1, h2, h⟩

theorem generate_ok (W H : Int) (s : state) (draws : List Nat) (s4 : state)
    (d4 : List Nat) (h : generate W H s draws = outcome.ok (s4, d4)) :
    ∃ s3 g, carve_stages W H s draws = outcome.ok (s3, d4) ∧
      remove_dead_ends W H s3.tiles = outcome.ok g ∧ s4 = { s3 with tiles := g } := by
  unfold generate at h
  obtain ⟨⟨s3, d3⟩, h3, h⟩ := outcome_bind_ok h
  obtain ⟨g, hg, h⟩ := outcome_bind_ok h
  simp only [outcome.ok.injEq, Prod.mk.injEq] at h
  obtain ⟨rfl, rfl⟩ := h
  exact ⟨s3, g, h3, hg, rfl⟩

theorem small_run :
    ∃ s1 d1 s2 d2 s3 d3 g, make_rooms 11 7 (init 11 7 s_blank) small_draws = outcome.ok (s1, d1) ∧
      make_maze 11 7 s1 d1 = outcome.ok (s2, d2) ∧
      make_connections 11 7 s2 d2 = outcome.ok (s3, d3) ∧
      remove_dead_ends 11 7 s3.tiles = outcome.ok g := by
  have hev : (generate 11 7 s_blank small_draws).holds (fun _ => true) = true := by decide!
  obtain ⟨⟨s4, d4⟩, h, _⟩ := outcome_holds_elim hev
  obtain ⟨s3, g, h3, hg, _⟩ := generate_ok _ _ _ _ _ _ h
  obtain ⟨s1, d1, s2, d2, h1, h2, h3'⟩ := carve_stages_ok _ _ _ _ _ _ h3
  exact ⟨s1, d1, s2, d2, s3, d4, g, h1, h2, h3', hg⟩

/-- Witness of C5: the run on the 11 × 7 grid with `small_draws` passes through
all four stages, and the border is wall after each. -/
theorem border_wall_after_each_stage_witness :
    dims_ok 11 7 ∧ dims_odd 11 7 ∧
      ∃ s1 d1 s2 d2 s3 d3 g,
        make_rooms 11 7 (init 11 7 s_blank) small_draws = outcome.ok (s1, d1) ∧
        make_maze 11 7 s1 d1 = outcome.ok (s2, d2) ∧
        make_connections 11 7 s2 d2 = outcome.ok (s3, d3) ∧
        remove_dead_ends 11 7 s3.tiles = outcome.ok g ∧
        border_wall 11 7 s1.tiles ∧ border_wall 11 7 s2.tiles ∧
        border_wall 11 7 s3.tiles ∧ border_wall 11 7 g := by
  obtain ⟨s1, d1, s2, d2, s3, d3, g, h1, h2, h3, h4⟩ := small_run
  have hb := border_wall_after_each_stage 11 7 (by decide) (by decide) s_blank small_draws
  have hb1 := hb.2 s1 d1 h1
  have hb2 := hb1.2 s2 d2 h2
  have hb3 := hb2.2 s3 d3 h3
  exact ⟨by decide, by decide, s1, d1, s2, d2, s3, d3, g, h1, h2, h3, h4,
    hb1.1, hb2.1, hb3.1, hb3.2 g h4⟩

/-! ## Paths of floor tiles -/

theorem adjacent_symm {x y x' y' : Int} (h : adjacent x y x' y') : adjacent x' y' x y := by
  unfold adjacent at h ⊢; omega

theorem floor_step_symm {W H : Int} {g : grid} {p q : Int × Int}
    (h : floor_step W H g p q) : floor_step W H g q p :=
  ⟨h.2.1, h.1, adjacent_symm h.2.2⟩

theorem floor_path_symm {W H : Int} {g : grid} {p q : Int × Int}
    (h : floor_path W H g p q) : floor_path W H g q p := by
  unfold floor_path at h ⊢
  induction h with
  | refl => exact Relation.ReflTransGen.refl
  | tail _ hstep ih => exact Relation.ReflTransGen.head (floor_step_symm hstep) ih

theorem floor_path_trans {W H : Int} {g : grid} {p q r : Int × Int}
    (h1 : floor_path W H g p q) (h2 : floor_path W H g q r) : floor_path W H g p r :=
  Relation.ReflTransGen.trans h1 h2

theorem floor_path_step {W H : Int} {g : grid} {p q : Int × Int}
    (h : floor_step W H g p q) : floor_path W H g p q :=
  Relation.ReflTransGen.single h

theorem floor_path_mono {W H : Int} {g g' : grid}
    (hsub : ∀ p, is_floor W H g p → is_floor W H g' p) {p q : Int × Int}
    (h : floor_path W H g p q) : floor_path W H g' p q := by
  unfold floor_path at h ⊢
  exact Relation.ReflTransGen.mono (fun a b hab => ⟨hsub a hab.1, hsub b hab.2.1, hab.2.2⟩) h

theorem floor_path_right (W H : Int) (g : grid) (y : Int) :
    ∀ (n : Nat) (x : Int), (∀ i : Int, 0 ≤ i → i ≤ n → is_floor W H g (x + i, y)) →
      floor_path W H g (x, y) (x + n, y) := by
  intro n
  induction n with
  | zero => intro x _; simp only [Nat.cast_zero, add_zero]; exact Relation.ReflTransGen.refl
  | succ n ih =>
    intro x h
    have h1 := ih x (fun i h0 hi => h i h0 (by push_cast; omega))
    refine Relation.ReflTransGen.tail h1 ⟨h n (by omega) (by push_cast; omega),
      ?_, ?_⟩
    · have := h (n + 1) (by omega) (by push_cast; omega)
      simpa using this
    · unfold adjacent; dsimp only; push_cast; omega

theorem floor_path_down (W H : Int) (g : grid) (x : Int) :
    ∀ (n : Nat) (y : Int), (∀ i : Int, 0 ≤ i → i ≤ n → is_floor W H g (x, y + i)) →
      floor_path W H g (x, y) (x, y + n) := by
  intro n
  induction n with
  | zero => intro y _; simp only [Nat.cast_zero, add_zero]; exact Relation.ReflTransGen.refl
  | succ n ih =>
    intro y h
    have h1 := ih y (fun i h0 hi => h i h0 (by push_cast; omega))
    refine Relation.ReflTransGen.tail h1 ⟨h n (by omega) (by push_cast; omega),
      ?_, ?_⟩
    · have := h (n + 1) (by omega) (by push_cast; omega)
      simpa using this
    · unfold adjacent; dsimp only; push_cast; omega

/-- Any two tiles of a rectangle of floor tiles are joined by a floor path. -/
theorem floor_path_rect (W H : Int) (g : grid) (x0 y0 x1 y1 : Int)
    (hall : ∀ x y, x0 ≤ x → x ≤ x1 → y0 ≤ y → y ≤ y1 → is_floor W H g (x, y))
    (p q : Int × Int) (hp : x0 ≤ p.1 ∧ p.1 ≤ x1 ∧ y0 ≤ p.2 ∧ p.2 ≤ y1)
    (hq : x0 ≤ q.1 ∧ q.1 ≤ x1 ∧ y0 ≤ q.2 ∧ q.2 ≤ y1) : floor_path W H g p q := by
  have horiz : ∀ (a b y : Int), x0 ≤ a → a ≤ b → b ≤ x1 → y0 ≤ y → y ≤ y1 →
      floor_path W H g (a, y) (b, y) := by
    intro a b y h1 h2 h3 h4 h5
    have := floor_path_right W H g y (b - a).toNat a
      (fun i h0 hi => hall (a + i) y (by omega) (by omega) h4 h5)
    have e : a + ((b - a).toNat : Int) = b := by omega
    rw [e] at this
    exact this
  have vert : ∀ (a b x : Int), y0 ≤ a → a ≤ b → b ≤ y1 → x0 ≤ x → x ≤ x1 →
      floor_path W H g (x, a) (x, b) := by
    intro a b x h1 h2 h3 h4 h5
    have := floor_path_down W H g x (b - a).toNat a
      (fun i h0 hi => hall x (a + i) h4 h5 (by omega) (by omega))
    have e : a + ((b - a).toNat : Int) = b := by omega
    rw [e] at this
    exact this
  have hh : floor_path W H g (p.1, p.2) (q.1, p.2) := by
    rcases le_total p.1 q.1 with h | h
    · exact horiz p.1 q.1 p.2 hp.1 h hq.2.1 hp.2.2.1 hp.2.2.2
    · exact floor_path_symm (horiz q.1 p.1 p.2 hq.1 h hp.2.1 hp.2.2.1 hp.2.2.2)
  have hv : floor_path W H g (q.1, p.2) (q.1, q.2) := by
    rcases le_total p.2 q.2 with h | h
    · exact vert p.2 q.2 q.1 hp.2.2.1 h hq.2.2.2 hq.1 hq.2.1
    · exact floor_path_symm (vert q.2 p.2 q.1 hq.2.2.1 h hp.2.2.2 hq.1 hq.2.1)
  exact floor_path_trans hh hv

/-! ## `make_maze`: the invariant -/

theorem unused_iff (t : tile_t) : unused t = true ↔ t.kind = tk_wall ∧ t.room = -1 := by
  simp [unused]

theorem maze_floor_iff (t : tile_t) :
    maze_floor t = true ↔ t.kind = tk_floor ∧ t.room = -1 := by
  simp [maze_floor]

theorem room_free_iff (W H : Int) (s1 : state) (hR : rooms_inv W H s1) (x y : Int)
    (hin : in_bounds W H x y) :
    (s1.tiles x y).room = -1 ↔ ¬ ∃ r ∈ s1.rooms, in_rect r x y := by
  obtain ⟨_, _, _, _, _, htile⟩ := hR
  obtain ⟨_, _, _, _, t5, t6⟩ := htile x y hin
  constructor
  · intro h hex
    have := t5 hex
    omega
  · exact t6

theorem rooms_floor_iff (W H : Int) (s1 : state) (hR : rooms_inv W H s1) (x y : Int)
    (hin : in_bounds W H x y) :
    (s1.tiles x y).kind = tk_floor ↔ ∃ r ∈ s1.rooms, interior r x y := by
  obtain ⟨_, _, _, _, _, htile⟩ := hR
  obtain ⟨_, t2, t3, _, _, _⟩ := htile x y hin
  constructor
  · intro h
    by_contra hno
    have := (t3 hno).1
    rw [h] at this
    exact absurd this (by decide)
  · exact t2

theorem rooms_free_wall (W H : Int) (s1 : state) (hR : rooms_inv W H s1) (x y : Int)
    (hin : in_bounds W H x y) (hfree : (s1.tiles x y).room = -1) :
    (s1.tiles x y).kind = tk_wall ∧ (s1.tiles x y).region = -1 ∧
      (s1.tiles x y).door = false := by
  have hno := (room_free_iff W H s1 hR x y hin).mp hfree
  obtain ⟨_, _, _, _, _, htile⟩ := hR
  obtain ⟨t1, _, t3, _, _, _⟩ := htile x y hin
  have := t3 (fun ⟨r, hr, hint⟩ => hno ⟨r, hr, interior_in_rect hint⟩)
  exact ⟨this.1, this.2, t1⟩

/-- The tile between two step-two neighbours that lie outside every room
rectangle is inside the grid and outside every room rectangle. -/
theorem mid_room_free (W H : Int) (s1 : state) (hR : rooms_inv W H s1)
    (ax ay bx by' mx my : Int) (ha : in_bounds W H ax ay) (hb : in_bounds W H bx by')
    (hao : ax % 2 = 1 ∧ ay % 2 = 1)
    (hstep : ((bx = ax + 2 ∨ bx = ax - 2) ∧ by' = ay) ∨ (bx = ax ∧ (by' = ay + 2 ∨ by' = ay - 2)))
    (hm : 2 * mx = ax + bx ∧ 2 * my = ay + by')
    (hfa : (s1.tiles ax ay).room = -1) (hfb : (s1.tiles bx by').room = -1) :
    in_bounds W H mx my ∧ (s1.tiles mx my).room = -1 := by
  have hmin : in_bounds W H mx my := by unfold in_bounds at ha hb ⊢; omega
  refine ⟨hmin, (room_free_iff W H s1 hR mx my hmin).mpr ?_⟩
  rintro ⟨r, hr, hrect⟩
  have hna := (room_free_iff W H s1 hR ax ay ha).mp hfa
  have hnb := (room_free_iff W H s1 hR bx by' hb).mp hfb
  have hok := hR.2.2.2.1 r hr
  unfold room_ok at hok
  unfold in_rect at hrect
  by_cases hina : in_rect r ax ay
  · exact hna ⟨r, hr, hina⟩
  · apply hnb ⟨r, hr, ?_⟩
    unfold in_rect at hina ⊢
    omega

theorem corner_cells_length (H : Int) (rooms : List room_t) :
    (corner_cells H rooms).length = (H / 2).toNat + 3 * rooms.length := by
  unfold corner_cells
  rw [List.length_append, List.length_map]
  congr 1
  · unfold odd_range; simp
  · induction rooms with
    | nil => simp
    | cons r rs ih => simp only [List.flatMap_cons, List.length_append, ih]; simp; omega

theorem region_small (W H : Int) (hd : dims_ok W H) (ho : dims_odd W H) (s1 : state)
    (hR : rooms_inv W H s1) (g : grid) (k : Int)
    (hc : k + (unused_corners H s1.rooms g : Int)
      ≤ s1.next_region + ((corner_cells H s1.rooms).length : Int)) : k ≤ 127 := by
  obtain ⟨_, hk, hmax, _, _, _⟩ := hR
  rw [corner_cells_length] at hc
  unfold dims_ok at hd
  unfold dims_odd at ho
  unfold max_rooms at hmax
  push_cast at hc
  omega

theorem unused_corners_le (H : Int) (rooms : List room_t) (g g' : grid)
    (h : ∀ x y, unused (g' x y) = true → unused (g x y) = true) :
    unused_corners H rooms g' ≤ unused_corners H rooms g := by
  unfold unused_corners
  apply List.countP_mono_left
  intro p _ hp
  exact h p.1 p.2 hp

theorem unused_corners_lt (H : Int) (rooms : List room_t) (g g' : grid)
    (h : ∀ x y, unused (g' x y) = true → unused (g x y) = true) (p : Int × Int)
    (hp : p ∈ corner_cells H rooms) (hu : unused (g p.1 p.2) = true)
    (hu' : unused (g' p.1 p.2) = false) :
    unused_corners H rooms g' < unused_corners H rooms g := by
  unfold unused_corners
  exact countP_lt_of_flip _ _ _ p (fun q _ hq => h q.1 q.2 hq) hp hu hu'

theorem carve_fields (k : Int) (t : tile_t) :
    (carve k t).kind = tk_floor ∧ (carve k t).region = to_char k ∧
      (carve k t).room = t.room ∧ (carve k t).door = t.door := by
  simp [carve]

/-- Arithmetic of a step between two odd cells `a`, `b` two apart and the tile
`m` between them. -/
theorem step_geom (ax ay bx by' mx my : Int) (hao : ax % 2 = 1 ∧ ay % 2 = 1)
    (hstep : ((bx = ax + 2 ∨ bx = ax - 2) ∧ by' = ay) ∨
      (bx = ax ∧ (by' = ay + 2 ∨ by' = ay - 2)))
    (hm : 2 * mx = ax + bx ∧ 2 * my = ay + by') :
    (bx % 2 = 1 ∧ by' % 2 = 1) ∧ ¬ (mx = bx ∧ my = by') ∧ ¬ (bx = mx ∧ by' = my) ∧
      ¬ (ax = mx ∧ ay = my) ∧ ¬ (ax = bx ∧ ay = by') ∧ ¬ (mx % 2 = 1 ∧ my % 2 = 1) ∧
      adjacent mx my ax ay ∧ adjacent bx by' mx my ∧
      ((mx % 2 = 0 ∧ my % 2 = 1 ∧
          ((mx - 1 = ax ∧ my = ay ∧ mx + 1 = bx ∧ my = by') ∨
            (mx - 1 = bx ∧ my = by' ∧ mx + 1 = ax ∧ my = ay))) ∨
        (mx % 2 = 1 ∧ my % 2 = 0 ∧
          ((mx = ax ∧ my - 1 = ay ∧ mx = bx ∧ my + 1 = by') ∨
            (mx = bx ∧ my - 1 = by' ∧ mx = ax ∧ my + 1 = ay)))) := by
  have hax := hao.1
  have hay := hao.2
  rcases hstep with ⟨h | h, e⟩ | ⟨e, h | h⟩
  · have e1 : mx = ax + 1 := by omega
    have e2 : my = ay := by omega
    subst h e e1 e2
    refine ⟨⟨by omega, hay⟩, by omega, by omega, by omega, by omega, by omega,
      by unfold adjacent; omega, by unfold adjacent; omega, Or.inl ⟨by omega, hay, Or.inl ?_⟩⟩
    omega
  · have e1 : mx = ax - 1 := by omega
    have e2 : my = ay := by omega
    subst h e e1 e2
    refine ⟨⟨by omega, hay⟩, by omega, by omega, by omega, by omega, by omega,
      by unfold adjacent; omega, by unfold adjacent; omega, Or.inl ⟨by omega, hay, Or.inr ?_⟩⟩
    omega
  · have e1 : mx = ax := by omega
    have e2 : my = ay + 1 := by omega
    subst h e e1 e2
    refine ⟨⟨hax, by omega⟩, by omega, by omega, by omega, by omega, by omega,
      by unfold adjacent; omega, by unfold adjacent; omega, Or.inr ⟨hax, by omega, Or.inl ?_⟩⟩
    omega
  · have e1 : mx = ax := by omega
    have e2 : my = ay - 1 := by omega
    subst h e e1 e2
    refine ⟨⟨hax, by omega⟩, by omega, by omega, by omega, by omega, by omega,
      by unfold adjacent; omega, by unfold adjacent; omega, Or.inr ⟨hax, by omega, Or.inr ?_⟩⟩
    omega


/-- Carving the tile between a maze cell `a` of the current region and an unused
step-two neighbour `b`, and then `b` itself, keeps the invariant. -/
theorem maze_inv_extend (W H : Int) (hd : dims_ok W H) (ho : dims_odd W H) (s1 : state)
    (hR : rooms_inv W H s1) (g : grid) (k : Int) (hinv : maze_inv W H s1 g k)
    (ax ay bx by' mx my : Int) (ha : in_bounds W H ax ay) (hb : in_bounds W H bx by')
    (hao : ax % 2 = 1 ∧ ay % 2 = 1)
    (hstep : ((bx = ax + 2 ∨ bx = ax - 2) ∧ by' = ay) ∨
      (bx = ax ∧ (by' = ay + 2 ∨ by' = ay - 2)))
    (hm : 2 * mx = ax + bx ∧ 2 * my = ay + by')
    (hfa : maze_floor (g ax ay) = true) (hka : (g ax ay).region = k)
    (hub : unused (g bx by') = true) :
    maze_inv W H s1 (modify (modify g mx my (carve k)) bx by' (carve k)) k := by
  obtain ⟨hbo, hmb, hbm, ham, hab, hmpar, hadj_ma, hadj_bm, hcls⟩ :=
    step_geom ax ay bx by' mx my hao hstep hm
  have hk0 : 0 ≤ s1.next_region := by rw [hR.2.1]; exact Int.ofNat_nonneg _
  have ek : to_char k = k :=
    to_char_of_small k (le_trans (by decide) (le_trans hk0 hinv.lower))
      (region_small W H hd ho s1 hR g k hinv.count)
  rw [maze_floor_iff] at hfa
  rw [unused_iff] at hub
  have hsa : (s1.tiles ax ay).room = -1 := by
    by_contra hne
    have := hinv.frame ax ay ha hne
    rw [this] at hfa
    exact hne hfa.2
  have hsb : (s1.tiles bx by').room = -1 := by
    by_contra hne
    have := hinv.frame bx by' hb hne
    rw [this] at hub
    exact hne hub.2
  obtain ⟨hmin, hsm⟩ := mid_room_free W H s1 hR ax ay bx by' mx my ha hb hao hstep hm hsa hsb
  have hgm := hinv.tile mx my hmin hsm
  have hgb := hinv.tile bx by' hb hsb
  have hga := hinv.tile ax ay ha hsa
  have hnk : s1.next_region < k := by
    rcases hga.2.2 with h | h
    · rw [hfa.1] at h; exact absurd h.1 (by decide)
    · rw [← hka]; exact h.2.1
  have hbwall : ¬ maze_floor (g bx by') = true := by
    rw [maze_floor_iff, hub.1]
    exact fun h => absurd h.1 (by decide)
  have hmwall : (g mx my).kind = tk_wall := by
    rcases hgm.2.2 with h | h
    · exact h.1
    · exfalso
      have hmf : maze_floor (g mx my) = true := (maze_floor_iff _).mpr ⟨h.1, hgm.1⟩
      rcases hinv.shape mx my hmin hmf with h1 | ⟨_, _, l1, l2⟩ | ⟨_, _, l1, l2⟩
      · exact hmpar h1
      · rcases hcls with ⟨_, _, hc⟩ | ⟨hp, _, _⟩
        · rcases hc with ⟨_, _, e1, e2⟩ | ⟨e1, e2, _, _⟩
          · rw [e1] at l2; rw [e2] at l2; exact hbwall l2.2.1
          · rw [e1] at l1; rw [e2] at l1; exact hbwall l1.2.1
        · omega
      · rcases hcls with ⟨hp, _, _⟩ | ⟨_, _, hc⟩
        · omega
        · rcases hc with ⟨_, _, e1, e2⟩ | ⟨e1, e2, _, _⟩
          · rw [e2] at l2; rw [e1] at l2; exact hbwall l2.2.1
          · rw [e2] at l1; rw [e1] at l1; exact hbwall l1.2.1
  have hGb : modify (modify g mx my (carve k)) bx by' (carve k) bx by'
      = carve k (g bx by') := by
    rw [modify_same, modify_other _ _ _ _ _ _ hbm]
  have hGm : modify (modify g mx my (carve k)) bx by' (carve k) mx my
      = carve k (g mx my) := by
    rw [modify_other _ _ _ _ _ _ hmb, modify_same]
  have hGo : ∀ x y, ¬ (x = bx ∧ y = by') → ¬ (x = mx ∧ y = my) →
      modify (modify g mx my (carve k)) bx by' (carve k) x y = g x y := by
    intro x y h1 h2
    rw [modify_other _ _ _ _ _ _ h1, modify_other _ _ _ _ _ _ h2]
  generalize hG' : modify (modify g mx my (carve k)) bx by' (carve k) = G' at hGb hGm hGo ⊢
  have hmf_old : ∀ x y, maze_floor (g x y) = true →
      ¬ (x = bx ∧ y = by') ∧ ¬ (x = mx ∧ y = my) := by
    intro x y h
    rw [maze_floor_iff] at h
    constructor
    · rintro ⟨rfl, rfl⟩
      rw [hub.1] at h
      exact absurd h.1 (by decide)
    · rintro ⟨rfl, rfl⟩
      rw [hmwall] at h
      exact absurd h.1 (by decide)
  have hmf_new : ∀ x y, maze_floor (G' x y) = true →
      (x = bx ∧ y = by') ∨ (x = mx ∧ y = my) ∨ maze_floor (g x y) = true := by
    intro x y h
    by_cases h1 : x = bx ∧ y = by'
    · exact Or.inl h1
    · by_cases h2 : x = mx ∧ y = my
      · exact Or.inr (Or.inl h2)
      · rw [hGo x y h1 h2] at h
        exact Or.inr (Or.inr h)
  have hlink_old : ∀ x y r, maze_link W H g x y r → maze_link W H G' x y r := by
    intro x y r h
    obtain ⟨h1, h2⟩ := hmf_old x y h.2.1
    unfold maze_link
    rw [hGo x y h1 h2]
    exact h
  have hlink_a : maze_link W H G' ax ay k := hlink_old ax ay k ⟨ha, (maze_floor_iff _).mpr hfa, hka⟩
  have hlink_b : maze_link W H G' bx by' k := by
    refine ⟨hb, ?_, ?_⟩
    · rw [hGb, maze_floor_iff]
      exact ⟨(carve_fields k _).1, by rw [(carve_fields k _).2.2.1]; exact hub.2⟩
    · rw [hGb, (carve_fields k _).2.1, ek]
  have hlink_m : maze_link W H G' mx my k := by
    refine ⟨hmin, ?_, ?_⟩
    · rw [hGm, maze_floor_iff]
      exact ⟨(carve_fields k _).1, by rw [(carve_fields k _).2.2.1]; exact hgm.1⟩
    · rw [hGm, (carve_fields k _).2.1, ek]
  have hfloor_of_link : ∀ x y r, maze_link W H G' x y r → is_floor W H G' (x, y) := by
    intro x y r h
    exact ⟨h.1, ((maze_floor_iff _).mp h.2.1).1⟩
  have hfloor_mono : ∀ p, is_floor W H g p → is_floor W H G' p := by
    intro p hp
    refine ⟨hp.1, ?_⟩
    by_cases h1 : p.1 = bx ∧ p.2 = by'
    · rw [h1.1, h1.2, hGb]; exact (carve_fields k _).1
    · by_cases h2 : p.1 = mx ∧ p.2 = my
      · rw [h2.1, h2.2, hGm]; exact (carve_fields k _).1
      · rw [hGo _ _ h1 h2]; exact hp.2
  have hunused_new : ∀ x y, unused (G' x y) = true →
      unused (g x y) = true ∧ ¬ (x = bx ∧ y = by') ∧ ¬ (x = mx ∧ y = my) := by
    intro x y h
    have h1 : ¬ (x = bx ∧ y = by') := by
      rintro ⟨rfl, rfl⟩
      rw [hGb, unused_iff, (carve_fields k _).1] at h
      exact absurd h.1 (by decide)
    have h2 : ¬ (x = mx ∧ y = my) := by
      rintro ⟨rfl, rfl⟩
      rw [hGm, unused_iff, (carve_fields k _).1] at h
      exact absurd h.1 (by decide)
    rw [hGo x y h1 h2] at h
    exact ⟨h, h1, h2⟩
  have hpath_ma : floor_path W H G' (mx, my) (ax, ay) :=
    floor_path_step ⟨hfloor_of_link _ _ _ hlink_m, hfloor_of_link _ _ _ hlink_a, hadj_ma⟩
  have hpath_ba : floor_path W H G' (bx, by') (ax, ay) :=
    floor_path_trans (floor_path_step ⟨hfloor_of_link _ _ _ hlink_b,
      hfloor_of_link _ _ _ hlink_m, hadj_bm⟩) hpath_ma
  have hclass : ∀ (p : Int × Int) (r : Int), maze_link W H G' p.1 p.2 r →
      (r = k ∧ floor_path W H G' p (ax, ay)) ∨ maze_link W H g p.1 p.2 r := by
    intro p r h
    rcases hmf_new p.1 p.2 h.2.1 with h1 | h1 | h1
    · left
      have e : p = (bx, by') := Prod.ext h1.1 h1.2
      rw [e] at h ⊢
      exact ⟨by rw [← h.2.2]; exact hlink_b.2.2, hpath_ba⟩
    · left
      have e : p = (mx, my) := Prod.ext h1.1 h1.2
      rw [e] at h ⊢
      exact ⟨by rw [← h.2.2]; exact hlink_m.2.2, hpath_ma⟩
    · right
      obtain ⟨n1, n2⟩ := hmf_old p.1 p.2 h1
      have := h.2.2
      rw [hGo _ _ n1 n2] at this
      exact ⟨h.1, h1, this⟩
  refine ⟨?_, ?_, ?_, ?_, ?_, ?_, hinv.lower⟩
  · -- frame
    intro x y hin hne
    rw [hGo x y (by rintro ⟨rfl, rfl⟩; exact hne hsb) (by rintro ⟨rfl, rfl⟩; exact hne hsm)]
    exact hinv.frame x y hin hne
  · -- tile
    intro x y hin hfree
    by_cases h1 : x = bx ∧ y = by'
    · obtain ⟨rfl, rfl⟩ := h1
      rw [hGb]
      obtain ⟨c1, c2, c3, c4⟩ := carve_fields k (g x y)
      rw [c1, c2, c3, c4, ek]
      exact ⟨hgb.1, hgb.2.1, Or.inr ⟨rfl, hnk, le_refl _⟩⟩
    · by_cases h2 : x = mx ∧ y = my
      · obtain ⟨rfl, rfl⟩ := h2
        rw [hGm]
        obtain ⟨c1, c2, c3, c4⟩ := carve_fields k (g x y)
        rw [c1, c2, c3, c4, ek]
        exact ⟨hgm.1, hgm.2.1, Or.inr ⟨rfl, hnk, le_refl _⟩⟩
      · rw [hGo x y h1 h2]
        exact hinv.tile x y hin hfree
  · -- shape
    intro x y hin hmf
    rcases hmf_new x y hmf with h1 | h1 | h1
    · left; rw [h1.1, h1.2]; exact hbo
    · obtain ⟨rfl, rfl⟩ := h1
      rw [hlink_m.2.2]
      rcases hcls with ⟨p1, p2, hc⟩ | ⟨p1, p2, hc⟩
      · right; left
        refine ⟨p1, p2, ?_, ?_⟩
        · rcases hc with ⟨e1, e2, _, _⟩ | ⟨e1, e2, _, _⟩
          · rw [e1]; rw [e2]; exact hlink_a
          · rw [e1]; rw [e2]; exact hlink_b
        · rcases hc with ⟨_, _, e1, e2⟩ | ⟨_, _, e1, e2⟩
          · rw [e1]; rw [e2]; exact hlink_b
          · rw [e1]; rw [e2]; exact hlink_a
      · right; right
        refine ⟨p1, p2, ?_, ?_⟩
        · rcases hc with ⟨e1, e2, _, _⟩ | ⟨e1, e2, _, _⟩
          · rw [e2]; rw [e1]; exact hlink_a
          · rw [e2]; rw [e1]; exact hlink_b
        · rcases hc with ⟨_, _, e1, e2⟩ | ⟨_, _, e1, e2⟩
          · rw [e2]; rw [e1]; exact hlink_b
          · rw [e2]; rw [e1]; exact hlink_a
    · obtain ⟨n1, n2⟩ := hmf_old x y h1
      rw [hGo x y n1 n2]
      rcases hinv.shape x y hin h1 with h | ⟨p1, p2, l1, l2⟩ | ⟨p1, p2, l1, l2⟩
      · exact Or.inl h
      · exact Or.inr (Or.inl ⟨p1, p2, hlink_old _ _ _ l1, hlink_old _ _ _ l2⟩)
      · exact Or.inr (Or.inr ⟨p1, p2, hlink_old _ _ _ l1, hlink_old _ _ _ l2⟩)
  · -- frontier
    intro x y hin hx hy hmf d hdd hdin hun
    rcases hmf_new x y hmf with h1 | h1 | h1
    · rw [h1.1, h1.2]; exact hlink_b.2.2
    · exact absurd ⟨h1.1 ▸ hx, h1.2 ▸ hy⟩ hmpar
    · obtain ⟨n1, n2⟩ := hmf_old x y h1
      rw [hGo x y n1 n2]
      exact hinv.frontier x y hin hx hy h1 d hdd hdin (hunused_new _ _ hun).1
  · -- joined
    intro p q r hp hq
    rcases hclass p r hp with ⟨rfl, hpa⟩ | hp'
    · rcases hclass q r hq with ⟨_, hqa⟩ | hq'
      · exact floor_path_trans hpa (floor_path_symm hqa)
      · exact floor_path_trans hpa (floor_path_mono hfloor_mono
          (hinv.joined (ax, ay) q r ⟨ha, (maze_floor_iff _).mpr hfa, hka⟩ hq'))
    · rcases hclass q r hq with ⟨rfl, hqa⟩ | hq'
      · exact floor_path_trans (floor_path_mono hfloor_mono
          (hinv.joined p (ax, ay) r hp' ⟨ha, (maze_floor_iff _).mpr hfa, hka⟩))
          (floor_path_symm hqa)
      · exact floor_path_mono hfloor_mono (hinv.joined p q r hp' hq')
  · -- count
    have hle := unused_corners_le H s1.rooms g G' (fun x y h => (hunused_new x y h).1)
    exact le_trans (add_le_add_left (Int.ofNat_le.mpr hle) k) hinv.count

theorem odd_range_sorted (n : Int) : (odd_range n).Pairwise (fun a b => a < b) := by
  unfold odd_range
  apply List.Pairwise.map _ _ (List.pairwise_lt_range _)
  intro a b hab
  omega

theorem odd_cells_sorted (W H : Int) :
    (odd_cells W H).Pairwise (fun a b => a.1 < b.1 ∨ (a.1 = b.1 ∧ a.2 < b.2)) := by
  unfold odd_cells
  rw [List.pairwise_flatMap]
  constructor
  · intro x _
    apply List.Pairwise.map _ _ (odd_range_sorted H)
    intro a b hab
    exact Or.inr ⟨rfl, hab⟩
  · apply List.Pairwise.imp _ (odd_range_sorted W)
    intro a b hab p hp q hq
    rw [List.mem_map] at hp hq
    obtain ⟨_, _, rfl⟩ := hp
    obtain ⟨_, _, rfl⟩ := hq
    exact Or.inl hab

/-- A cell that precedes the first unused odd cell in the scan of `hunt` is not
unused. -/
theorem before_first_unused (W H : Int) (g : grid) (p q : Int × Int)
    (hfirst : ∃ before after, odd_cells W H = before ++ p :: after ∧
      ∀ c ∈ before, unused (g c.1 c.2) = false)
    (hq : q ∈ odd_cells W H) (hlt : q.1 < p.1 ∨ (q.1 = p.1 ∧ q.2 < p.2)) :
    unused (g q.1 q.2) = false := by
  obtain ⟨before, after, e, hb⟩ := hfirst
  have hs := odd_cells_sorted W H
  rw [e] at hs hq
  rcases List.mem_append.mp hq with h | h
  · exact hb q h
  · exfalso
    rcases List.mem_cons.mp h with h | h
    · subst h; omega
    · have h2 := (List.pairwise_append.mp hs).2.1
      have h3 := List.rel_of_pairwise_cons h2 h
      omega

theorem mem_corner_first_column (H : Int) (rooms : List room_t) (y : Int)
    (hy : y % 2 = 1 ∧ 1 ≤ y ∧ y < H) : ((1 : Int), y) ∈ corner_cells H rooms := by
  unfold corner_cells
  apply List.mem_append_left
  rw [List.mem_map]
  exact ⟨y, (mem_odd_range H y).mpr hy, rfl⟩

theorem mem_corner_right_of_room (H : Int) (rooms : List room_t) (r : room_t)
    (hr : r ∈ rooms) (x y : Int)
    (h : x = r.x1 + 1 ∧ (y = r.y0 + 1 ∨ y = r.y0 + 3 ∨ y = r.y0 + 5)) :
    (x, y) ∈ corner_cells H rooms := by
  unfold corner_cells
  apply List.mem_append_right
  rw [List.mem_flatMap]
  refine ⟨r, hr, ?_⟩
  obtain ⟨rfl, h | h | h⟩ := h <;> subst h <;> simp

theorem right_of_room_arith (r : room_t) (W H : Int) (hok : room_ok W H r) (x y : Int)
    (hx : x % 2 = 1) (hy : y % 2 = 1) (hin : in_rect r (x - 2) y) (hout : ¬ in_rect r x y) :
    x = r.x1 + 1 ∧ (y = r.y0 + 1 ∨ y = r.y0 + 3 ∨ y = r.y0 + 5) := by
  unfold room_ok at hok
  unfold in_rect at hin hout
  omega

/-- The cell at which the second scan of `hunt` starts a new component is one of
`corner_cells`. -/
theorem first_unused_corner (W H : Int) (s1 : state) (hR : rooms_inv W H s1) (g : grid)
    (k : Int) (hinv : maze_inv W H s1 g k) (p : Int × Int) (hp : p ∈ odd_cells W H)
    (hup : unused (g p.1 p.2) = true)
    (hfirst : ∃ before after, odd_cells W H = before ++ p :: after ∧
      ∀ c ∈ before, unused (g c.1 c.2) = false)
    (hnone : ∀ q ∈ odd_cells W H, unused (g q.1 q.2) = true →
      ∀ d ∈ dirs, in_bounds W H (q.1 + d.x) (q.2 + d.y) →
        maze_floor (g (q.1 + d.x) (q.2 + d.y)) = false) :
    p ∈ corner_cells H s1.rooms := by
  have hpo := (mem_odd_cells W H p).mp hp
  by_cases h1 : p.1 = 1
  · have e : p = ((1 : Int), p.2) := Prod.ext h1 rfl
    rw [e]
    exact mem_corner_first_column H s1.rooms p.2 hpo.2
  · have hqin : in_bounds W H (p.1 - 2) p.2 := by
      unfold in_bounds; omega
    have hpin : in_bounds W H p.1 p.2 := by
      unfold in_bounds; omega
    have hqmem : (p.1 - 2, p.2) ∈ odd_cells W H := by
      rw [mem_odd_cells]; dsimp only; omega
    have hq1 : unused (g (p.1 - 2) p.2) = false :=
      before_first_unused W H g p (p.1 - 2, p.2) hfirst hqmem (Or.inl (by dsimp only; omega))
    have hq2 : maze_floor (g (p.1 - 2) p.2) = false := by
      have := hnone p hp hup ⟨-2, 0⟩ (by simp [dirs]) (by
        have e1 : p.1 + (-2 : Int) = p.1 - 2 := by omega
        have e2 : p.2 + (0 : Int) = p.2 := by omega
        dsimp only; rw [e1, e2]; exact hqin)
      have e1 : p.1 + (-2 : Int) = p.1 - 2 := by omega
      have e2 : p.2 + (0 : Int) = p.2 := by omega
      dsimp only at this
      rw [e1, e2] at this
      exact this
    have hqroom : (s1.tiles (p.1 - 2) p.2).room ≠ -1 := by
      intro hfree
      obtain ⟨t1, _, t3⟩ := hinv.tile _ _ hqin hfree
      rcases t3 with h | h
      · have : unused (g (p.1 - 2) p.2) = true := (unused_iff _).mpr ⟨h.1, t1⟩
        rw [hq1] at this; exact absurd this (by decide)
      · have : maze_floor (g (p.1 - 2) p.2) = true := (maze_floor_iff _).mpr ⟨h.1, t1⟩
        rw [hq2] at this; exact absurd this (by decide)
    have hproom : (s1.tiles p.1 p.2).room = -1 := by
      by_contra hne
      have := hinv.frame _ _ hpin hne
      rw [unused_iff, this] at hup
      exact hne hup.2
    have hex : ∃ r ∈ s1.rooms, in_rect r (p.1 - 2) p.2 := by
      by_contra hno
      exact hqroom ((room_free_iff W H s1 hR _ _ hqin).mpr hno)
    obtain ⟨r, hr, hrect⟩ := hex
    have hout : ¬ in_rect r p.1 p.2 := fun h =>
      (room_free_iff W H s1 hR _ _ hpin).mp hproom ⟨r, hr, h⟩
    have := right_of_room_arith r W H (hR.2.2.2.1 r hr) p.1 p.2 hpo.1.1 hpo.2.1 hrect hout
    have e : p = (p.1, p.2) := rfl
    rw [e]
    exact mem_corner_right_of_room H s1.rooms r hr p.1 p.2 this

theorem neg_dirs (d : xy_t) (hd : d ∈ dirs) : (⟨-d.x, -d.y⟩ : xy_t) ∈ dirs := by
  rw [mem_dirs] at hd ⊢
  rcases hd with rfl | rfl | rfl | rfl <;> simp

theorem dirs_arith (d : xy_t) (hd : d ∈ dirs) (x y : Int) :
    (((x + d.x = x + 2 ∨ x + d.x = x - 2) ∧ y + d.y = y) ∨
      (x + d.x = x ∧ (y + d.y = y + 2 ∨ y + d.y = y - 2))) := by
  rw [mem_dirs] at hd
  rcases hd with rfl | rfl | rfl | rfl <;> dsimp only <;> omega

theorem dirs_odd (d : xy_t) (hd : d ∈ dirs) (x y : Int) (hx : x % 2 = 1) (hy : y % 2 = 1) :
    (x + d.x) % 2 = 1 ∧ (y + d.y) % 2 = 1 := by
  rw [mem_dirs] at hd
  rcases hd with rfl | rfl | rfl | rfl <;> dsimp only <;> omega

theorem odd_in_bounds_mem (W H : Int) (x y : Int) (hin : in_bounds W H x y)
    (hx : x % 2 = 1) (hy : y % 2 = 1) : (x, y) ∈ odd_cells W H := by
  rw [mem_odd_cells]
  unfold in_bounds at hin
  dsimp only
  omega

/-- Starting a new maze component at the first unused odd cell, with the region
counter advanced, keeps the invariant. -/
theorem maze_inv_start (W H : Int) (hd : dims_ok W H) (ho : dims_odd W H) (s1 : state)
    (hR : rooms_inv W H s1) (g : grid) (k : Int) (hinv : maze_inv W H s1 g k)
    (p : Int × Int) (hp : p ∈ odd_cells W H) (hup : unused (g p.1 p.2) = true)
    (hfirst : ∃ before after, odd_cells W H = before ++ p :: after ∧
      ∀ c ∈ before, unused (g c.1 c.2) = false)
    (hnone : ∀ q ∈ odd_cells W H, unused (g q.1 q.2) = true →
      ∀ d ∈ dirs, in_bounds W H (q.1 + d.x) (q.2 + d.y) →
        maze_floor (g (q.1 + d.x) (q.2 + d.y)) = false) :
    maze_inv W H s1 (modify g p.1 p.2 (carve (k + 1))) (k + 1) := by
  have hcorner := first_unused_corner W H s1 hR g k hinv p hp hup hfirst hnone
  have hpo := (mem_odd_cells W H p).mp hp
  have hpin : in_bounds W H p.1 p.2 := by unfold in_bounds; omega
  have hGp : modify g p.1 p.2 (carve (k + 1)) p.1 p.2 = carve (k + 1) (g p.1 p.2) :=
    modify_same _ _ _ _
  have hGo : ∀ x y, ¬ (x = p.1 ∧ y = p.2) →
      modify g p.1 p.2 (carve (k + 1)) x y = g x y :=
    fun x y h => modify_other _ _ _ _ _ _ h
  generalize modify g p.1 p.2 (carve (k + 1)) = G' at hGp hGo ⊢
  have hunused_new : ∀ x y, unused (G' x y) = true →
      unused (g x y) = true ∧ ¬ (x = p.1 ∧ y = p.2) := by
    intro x y h
    have h1 : ¬ (x = p.1 ∧ y = p.2) := by
      rintro ⟨rfl, rfl⟩
      rw [hGp, unused_iff, (carve_fields _ _).1] at h
      exact absurd h.1 (by decide)
    rw [hGo x y h1] at h
    exact ⟨h, h1⟩
  have hGpu : unused (G' p.1 p.2) = false := by
    by_contra h
    have h' : unused (G' p.1 p.2) = true := by simpa using h
    exact (hunused_new _ _ h').2 ⟨rfl, rfl⟩
  have hlt := unused_corners_lt H s1.rooms g G' (fun x y h => (hunused_new x y h).1) p
    hcorner hup hGpu
  have hcount : (k + 1) + (unused_corners H s1.rooms G' : Int)
      ≤ s1.next_region + ((corner_cells H s1.rooms).length : Int) := by
    have := hinv.count
    have h2 : (unused_corners H s1.rooms G' : Int) + 1 ≤ unused_corners H s1.rooms g := by
      exact_mod_cast hlt
    linarith
  have hk0 : 0 ≤ s1.next_region := by rw [hR.2.1]; exact Int.ofNat_nonneg _
  have hlow := hinv.lower
  have ek : to_char (k + 1) = k + 1 :=
    to_char_of_small _ (by linarith) (region_small W H hd ho s1 hR G' (k + 1) hcount)
  rw [unused_iff] at hup
  have hsp : (s1.tiles p.1 p.2).room = -1 := by
    by_contra hne
    have := hinv.frame _ _ hpin hne
    rw [this] at hup
    exact hne hup.2
  have hgp := hinv.tile _ _ hpin hsp
  have hmf_old : ∀ x y, maze_floor (g x y) = true → ¬ (x = p.1 ∧ y = p.2) := by
    rintro x y h ⟨rfl, rfl⟩
    rw [maze_floor_iff, hup.1] at h
    exact absurd h.1 (by decide)
  have hmf_new : ∀ x y, maze_floor (G' x y) = true →
      (x = p.1 ∧ y = p.2) ∨ maze_floor (g x y) = true := by
    intro x y h
    by_cases h1 : x = p.1 ∧ y = p.2
    · exact Or.inl h1
    · rw [hGo x y h1] at h; exact Or.inr h
  have hlink_old : ∀ x y r, maze_link W H g x y r → maze_link W H G' x y r := by
    intro x y r h
    unfold maze_link
    rw [hGo x y (hmf_old x y h.2.1)]
    exact h
  have hfloor_mono : ∀ q, is_floor W H g q → is_floor W H G' q := by
    intro q hq
    refine ⟨hq.1, ?_⟩
    by_cases h1 : q.1 = p.1 ∧ q.2 = p.2
    · rw [h1.1, h1.2, hGp]; exact (carve_fields _ _).1
    · rw [hGo _ _ h1]; exact hq.2
  have hold_le : ∀ x y, in_bounds W H x y → maze_floor (g x y) = true →
      (g x y).region ≤ k := by
    intro x y hin h
    rw [maze_floor_iff] at h
    have hs : (s1.tiles x y).room = -1 := by
      by_contra hne
      have := hinv.frame _ _ hin hne
      rw [this] at h
      exact hne h.2
    rcases (hinv.tile _ _ hin hs).2.2 with h2 | h2
    · rw [h.1] at h2; exact absurd h2.1 (by decide)
    · exact h2.2.2
  have hclass : ∀ (q : Int × Int) (r : Int), maze_link W H G' q.1 q.2 r →
      (q = p ∧ r = k + 1) ∨ (maze_link W H g q.1 q.2 r ∧ r ≤ k) := by
    intro q r h
    rcases hmf_new q.1 q.2 h.2.1 with h1 | h1
    · left
      refine ⟨Prod.ext h1.1 h1.2, ?_⟩
      have := h.2.2
      rw [h1.1, h1.2, hGp, (carve_fields _ _).2.1, ek] at this
      exact this.symm
    · right
      have h3 := h.2.2
      rw [hGo _ _ (hmf_old _ _ h1)] at h3
      exact ⟨⟨h.1, h1, h3⟩, by rw [← h3]; exact hold_le _ _ h.1 h1⟩
  refine ⟨?_, ?_, ?_, ?_, ?_, hcount, by linarith⟩
  · intro x y hin hne
    rw [hGo x y (by rintro ⟨rfl, rfl⟩; exact hne hsp)]
    exact hinv.frame x y hin hne
  · intro x y hin hfree
    by_cases h1 : x = p.1 ∧ y = p.2
    · obtain ⟨rfl, rfl⟩ := h1
      rw [hGp]
      obtain ⟨c1, c2, c3, c4⟩ := carve_fields (k + 1) (g p.1 p.2)
      rw [c1, c2, c3, c4, ek]
      exact ⟨hgp.1, hgp.2.1, Or.inr ⟨rfl, by linarith, le_refl _⟩⟩
    · rw [hGo x y h1]
      obtain ⟨t1, t2, t3⟩ := hinv.tile x y hin hfree
      refine ⟨t1, t2, ?_⟩
      rcases t3 with h | h
      · exact Or.inl h
      · exact Or.inr ⟨h.1, h.2.1, by linarith [h.2.2]⟩
  · intro x y hin hmf
    rcases hmf_new x y hmf with h1 | h1
    · left; rw [h1.1, h1.2]; exact ⟨hpo.1.1, hpo.2.1⟩
    · rw [hGo x y (hmf_old x y h1)]
      rcases hinv.shape x y hin h1 with h | ⟨p1, p2, l1, l2⟩ | ⟨p1, p2, l1, l2⟩
      · exact Or.inl h
      · exact Or.inr (Or.inl ⟨p1, p2, hlink_old _ _ _ l1, hlink_old _ _ _ l2⟩)
      · exact Or.inr (Or.inr ⟨p1, p2, hlink_old _ _ _ l1, hlink_old _ _ _ l2⟩)
  · intro x y hin hx hy hmf d hdd hdin hun
    rcases hmf_new x y hmf with h1 | h1
    · rw [h1.1, h1.2, hGp, (carve_fields _ _).2.1, ek]
    · exfalso
      have hu := (hunused_new _ _ hun).1
      have hodd := dirs_odd d hdd x y hx hy
      have hmem := odd_in_bounds_mem W H _ _ hdin hodd.1 hodd.2
      have e1 : x + d.x + -d.x = x := by rw [add_neg_cancel_right]
      have e2 : y + d.y + -d.y = y := by rw [add_neg_cancel_right]
      have := hnone (x + d.x, y + d.y) hmem hu ⟨-d.x, -d.y⟩ (neg_dirs d hdd)
        (by dsimp only; rw [e1, e2]; exact hin)
      dsimp only at this
      rw [e1, e2, h1] at this
      exact absurd this (by decide)
  · intro a b r ha hb
    rcases hclass a r ha with ⟨rfl, hr⟩ | ⟨ha', hra⟩
    · rcases hclass b r hb with ⟨rfl, _⟩ | ⟨_, hrb⟩
      · exact Relation.ReflTransGen.refl
      · exfalso; linarith
    · rcases hclass b r hb with ⟨_, hr⟩ | ⟨hb', _⟩
      · exfalso; linarith
      · exact floor_path_mono hfloor_mono (hinv.joined a b r ha' hb')

/-- The state left by `make_rooms` satisfies the invariant of `make_maze`. -/
theorem maze_inv_init (W H : Int) (s1 : state) (hR : rooms_inv W H s1) :
    maze_inv W H s1 s1.tiles s1.next_region := by
  have hnomaze : ∀ x y, in_bounds W H x y → ¬ maze_floor (s1.tiles x y) = true := by
    intro x y hin h
    rw [maze_floor_iff] at h
    have := (rooms_free_wall W H s1 hR x y hin h.2).1
    rw [h.1] at this
    exact absurd this (by decide)
  refine ⟨fun _ _ _ _ => rfl, ?_, ?_, ?_, ?_, ?_, le_refl _⟩
  · intro x y hin hfree
    obtain ⟨h1, h2, h3⟩ := rooms_free_wall W H s1 hR x y hin hfree
    exact ⟨hfree, h3, Or.inl ⟨h1, h2⟩⟩
  · intro x y hin h
    exact absurd h (hnomaze x y hin)
  · intro x y hin _ _ h
    exact absurd h (hnomaze x y hin)
  · intro p q r hp _
    exact absurd hp.2.1 (hnomaze _ _ hp.1)
  · have : unused_corners H s1.rooms s1.tiles ≤ (corner_cells H s1.rooms).length := by
      unfold unused_corners
      exact List.countP_le_length _
    have h2 : (unused_corners H s1.rooms s1.tiles : Int) ≤ (corner_cells H s1.rooms).length := by
      exact_mod_cast this
    linarith

/-- What holds of the state when `make_maze` returns, relative to the state `s1`
left by `make_rooms`: the room table is untouched, the invariant holds and no
odd cell is unused. -/
theorem make_maze_inv (W H : Int) (hd : dims_ok W H) (ho : dims_odd W H) (s1 : state)
    (hR : rooms_inv W H s1) (draws : List Nat) (s2 : state) (rest : List Nat)
    (h : make_maze W H s1 draws = outcome.ok (s2, rest)) :
    (s2.rooms = s1.rooms ∧ s2.n_rooms = s1.n_rooms ∧
        maze_inv W H s1 s2.tiles s2.next_region) ∧
      ∀ q ∈ odd_cells W H, unused (s2.tiles q.1 q.2) = false := by
  refine make_maze_loop_ind W H
    (fun s => s.rooms = s1.rooms ∧ s.n_rooms = s1.n_rooms ∧
      maze_inv W H s1 s.tiles s.next_region)
    (fun s x y => s.rooms = s1.rooms ∧ s.n_rooms = s1.n_rooms ∧ in_bounds W H x y ∧
      (x % 2 = 1 ∧ y % 2 = 1) ∧ (s1.tiles x y).room = -1 ∧
      maze_inv W H s1 (modify s.tiles x y (carve s.next_region)) s.next_region)
    ?_ ?_ _ s1 draws s2 rest ⟨rfl, rfl, maze_inv_init W H s1 hR⟩ h
  · -- hunt
    intro s dr p s' d1 hinv hh
    obtain ⟨hr1, hr2, hm⟩ := hinv
    rcases hunt_cases W H s dr (some p) s' d1 hh with hc | hc | hc
    · obtain ⟨q, d, hq, hmem, hu, hdd, hin, hmf, rfl⟩ := hc
      simp only [Option.some.injEq] at hq
      have hq' : q = p := hq.symm
      clear hq
      subst hq'
      have hqo := (mem_odd_cells W H q).mp hmem
      have hqin : in_bounds W H q.1 q.2 := by unfold in_bounds; omega
      have hsq : (s1.tiles q.1 q.2).room = -1 := by
        by_contra hne
        have := hm.frame _ _ hqin hne
        rw [unused_iff, this] at hu
        exact hne hu.2
      have hodd := dirs_odd d hdd q.1 q.2 hqo.1.1 hqo.2.1
      have e1 : q.1 + d.x + -d.x = q.1 := by rw [add_neg_cancel_right]
      have e2 : q.2 + d.y + -d.y = q.2 := by rw [add_neg_cancel_right]
      have hreg : (s.tiles (q.1 + d.x) (q.2 + d.y)).region = s.next_region := by
        refine hm.frontier _ _ hin hodd.1 hodd.2 hmf ⟨-d.x, -d.y⟩ (neg_dirs d hdd) ?_ ?_
        · dsimp only; rw [e1, e2]; exact hqin
        · dsimp only; rw [e1, e2]; exact hu
      have hst := dirs_arith ⟨-d.x, -d.y⟩ (neg_dirs d hdd) (q.1 + d.x) (q.2 + d.y)
      dsimp only at hst
      rw [e1, e2] at hst
      have hext := maze_inv_extend W H hd ho s1 hR s.tiles s.next_region hm
        (q.1 + d.x) (q.2 + d.y) q.1 q.2 ((q.1 + (q.1 + d.x)) / 2) ((q.2 + (q.2 + d.y)) / 2)
        hin hqin hodd
        (by
          rcases hst with ⟨h1 | h1, h2⟩ | ⟨h1, h2 | h2⟩
          · exact Or.inl ⟨Or.inl h1, h2⟩
          · exact Or.inl ⟨Or.inr h1, h2⟩
          · exact Or.inr ⟨h1, Or.inl h2⟩
          · exact Or.inr ⟨h1, Or.inr h2⟩)
        (by
          have := dirs_arith d hdd q.1 q.2
          have hq1 := hqo.1.1
          have hq2 := hqo.2.1
          clear hm hreg hmf hu hh hR hsq hmem hin hqin hst
          omega)
        hmf hreg hu
      exact ⟨hr1, hr2, hqin, ⟨hqo.1.1, hqo.2.1⟩, hsq, hext⟩
    · obtain ⟨q, hq, hmem, hu, hfirst, hnone, rfl, _⟩ := hc
      simp only [Option.some.injEq] at hq
      have hq' : q = p := hq.symm
      clear hq
      subst hq'
      have hqo := (mem_odd_cells W H q).mp hmem
      have hqin : in_bounds W H q.1 q.2 := by unfold in_bounds; omega
      have hsq : (s1.tiles q.1 q.2).room = -1 := by
        by_contra hne
        have := hm.frame _ _ hqin hne
        rw [unused_iff, this] at hu
        exact hne hu.2
      exact ⟨hr1, hr2, hqin, ⟨hqo.1.1, hqo.2.1⟩, hsq,
        maze_inv_start W H hd ho s1 hR s.tiles s.next_region hm q hmem hu hfirst hnone⟩
    · simp at hc
  · -- walk
    intro sa x y d1 sb d2 hpre hw
    refine walk_ind W H
      (fun s x y => s.rooms = s1.rooms ∧ s.n_rooms = s1.n_rooms ∧ in_bounds W H x y ∧
        (x % 2 = 1 ∧ y % 2 = 1) ∧ (s1.tiles x y).room = -1 ∧
        maze_inv W H s1 (modify s.tiles x y (carve s.next_region)) s.next_region)
      (fun s => s.rooms = s1.rooms ∧ s.n_rooms = s1.n_rooms ∧
        maze_inv W H s1 s.tiles s.next_region) ?_ ?_ d1 sa x y 0 0 sb d2 hpre hw
    · intro s x y hp _
      exact ⟨hp.1, hp.2.1, hp.2.2.2.2.2⟩
    · intro s x y d hp hdd hin hu
      obtain ⟨hr1, hr2, hxin, hxo, hsx, hm⟩ := hp
      have hk0 : 0 ≤ s1.next_region := by rw [hR.2.1]; exact Int.ofNat_nonneg _
      have ek : to_char s.next_region = s.next_region :=
        to_char_of_small _ (le_trans (by decide) (le_trans hk0 hm.lower))
          (region_small W H hd ho s1 hR _ _ hm.count)
      have hne := dirs_step d hdd x y
      have hGn : modify s.tiles x y (carve s.next_region) (x + d.x) (y + d.y)
          = s.tiles (x + d.x) (y + d.y) := modify_other _ _ _ _ _ _ hne
      have hGx : modify s.tiles x y (carve s.next_region) x y
          = carve s.next_region (s.tiles x y) := modify_same _ _ _ _
      have htx := hm.tile x y hxin hsx
      have hmfx : maze_floor (modify s.tiles x y (carve s.next_region) x y) = true := by
        rw [maze_floor_iff]
        refine ⟨?_, htx.1⟩
        rw [hGx]; exact (carve_fields _ _).1
      have hregx : (modify s.tiles x y (carve s.next_region) x y).region = s.next_region := by
        rw [hGx, (carve_fields _ _).2.1, ek]
      have hun : unused (modify s.tiles x y (carve s.next_region) (x + d.x) (y + d.y))
          = true := by rw [hGn]; exact hu
      have hsn : (s1.tiles (x + d.x) (y + d.y)).room = -1 := by
        by_contra hne2
        have := hm.frame _ _ hin hne2
        rw [hGn] at this
        rw [unused_iff, this] at hu
        exact hne2 hu.2
      have hext := maze_inv_extend W H hd ho s1 hR _ s.next_region hm
        x y (x + d.x) (y + d.y) ((x + (x + d.x)) / 2) ((y + (y + d.y)) / 2)
        hxin hin hxo (dirs_arith d hdd x y)
        (by
          have := dirs_arith d hdd x y
          have hq1 := hxo.1
          have hq2 := hxo.2
          clear hm hmfx hregx hun hsn htx hGn hGx hu hR hw hpre ek hk0
          omega)
        hmfx hregx hun
      exact ⟨hr1, hr2, hin, dirs_odd d hdd x y hxo.1 hxo.2, hsn, hext⟩

/-! ## Region labelling after `make_rooms` and `make_maze` -/

/-- A floor tile is an interior tile of a room, carrying that room's index as its
region, or a maze tile with a region above every room's. -/
theorem floor_tile_kind (W H : Int) (s1 : state) (hR : rooms_inv W H s1) (g : grid)
    (k : Int) (hinv : maze_inv W H s1 g k) (p : Int × Int) (hp : is_floor W H g p) :
    (∃ (i : Nat) (r : room_t), s1.rooms[i]? = some r ∧ interior r p.1 p.2 ∧
        (g p.1 p.2).region = i ∧ g p.1 p.2 = s1.tiles p.1 p.2) ∨
      (maze_floor (g p.1 p.2) = true ∧ s1.next_region < (g p.1 p.2).region) := by
  obtain ⟨hin, hk⟩ := hp
  by_cases hfree : (s1.tiles p.1 p.2).room = -1
  · right
    obtain ⟨t1, _, t3⟩ := hinv.tile _ _ hin hfree
    rcases t3 with h | h
    · rw [hk] at h; exact absurd h.1 (by decide)
    · exact ⟨(maze_floor_iff _).mpr ⟨h.1, t1⟩, h.2.1⟩
  · left
    have e := hinv.frame _ _ hin hfree
    rw [e] at hk
    obtain ⟨r, hr, hint⟩ := (rooms_floor_iff W H s1 hR _ _ hin).mp hk
    obtain ⟨i, hi⟩ := List.getElem?_of_mem hr
    refine ⟨i, r, hi, hint, ?_, e⟩
    rw [e]
    exact (hR.2.2.2.2.2 _ _ hin).2.2.2.1 i r hi hint

theorem interior_floor (W H : Int) (s1 : state) (hR : rooms_inv W H s1) (g : grid)
    (k : Int) (hinv : maze_inv W H s1 g k) (r : room_t) (hr : r ∈ s1.rooms) (x y : Int)
    (hint : interior r x y) : is_floor W H g (x, y) ∧ g x y = s1.tiles x y := by
  have hok := hR.2.2.2.1 r hr
  have hin : in_bounds W H x y := by
    unfold room_ok at hok; unfold interior at hint; unfold in_bounds; omega
  have hroom : (s1.tiles x y).room ≠ -1 := by
    intro hfree
    exact (room_free_iff W H s1 hR x y hin).mp hfree ⟨r, hr, interior_in_rect hint⟩
  have e := hinv.frame x y hin hroom
  refine ⟨⟨hin, ?_⟩, e⟩
  dsimp only
  rw [e]
  exact (rooms_floor_iff W H s1 hR x y hin).mpr ⟨r, hr, hint⟩

theorem adjacent_cases (ax ay bx by' : Int) (h : adjacent ax ay bx by') :
    ((ax = bx - 1 ∨ ax = bx + 1) ∧ ay = by') ∨ (ax = bx ∧ (ay = by' - 1 ∨ ay = by' + 1)) := by
  unfold adjacent at h; omega

theorem adjacent_in_rect (r : room_t) (ax ay bx by' : Int) (hint : interior r ax ay)
    (h : adjacent ax ay bx by') : in_rect r bx by' := by
  unfold adjacent at h; unfold interior at hint; unfold in_rect; omega

theorem link_region_h (W H : Int) (g : grid) (ax ay bx by' r : Int)
    (l1 : maze_link W H g (bx - 1) by' r) (l2 : maze_link W H g (bx + 1) by' r)
    (h : (ax = bx - 1 ∨ ax = bx + 1) ∧ ay = by') : (g ax ay).region = r := by
  obtain ⟨h1 | h1, h2⟩ := h
  · rw [h1, h2]; exact l1.2.2
  · rw [h1, h2]; exact l2.2.2

theorem link_region_v (W H : Int) (g : grid) (ax ay bx by' r : Int)
    (l1 : maze_link W H g bx (by' - 1) r) (l2 : maze_link W H g bx (by' + 1) r)
    (h : ax = bx ∧ (ay = by' - 1 ∨ ay = by' + 1)) : (g ax ay).region = r := by
  obtain ⟨h1, h2 | h2⟩ := h
  · rw [h1, h2]; exact l1.2.2
  · rw [h1, h2]; exact l2.2.2

/-- Two orthogonally adjacent maze floor tiles carry the same region id. -/
theorem maze_step_region (W H : Int) (s1 : state) (g : grid) (k : Int)
    (hinv : maze_inv W H s1 g k) (ax ay bx by' : Int) (ha : in_bounds W H ax ay)
    (hb : in_bounds W H bx by') (hfa : maze_floor (g ax ay) = true)
    (hfb : maze_floor (g bx by') = true) (hadj : adjacent ax ay bx by') :
    (g ax ay).region = (g bx by').region := by
  have hc := adjacent_cases ax ay bx by' hadj
  have hc' := adjacent_cases bx by' ax ay (adjacent_symm hadj)
  have sa := hinv.shape ax ay ha hfa
  have sb := hinv.shape bx by' hb hfb
  clear hinv hadj ha hb hfa hfb
  rcases sa with ⟨a1, a2⟩ | ⟨a1, a2, la1, la2⟩ | ⟨a1, a2, la1, la2⟩
  · rcases sb with ⟨b1, b2⟩ | ⟨b1, b2, lb1, lb2⟩ | ⟨b1, b2, lb1, lb2⟩
    · exfalso; omega
    · exact link_region_h W H g ax ay bx by' _ lb1 lb2 (by omega)
    · exact link_region_v W H g ax ay bx by' _ lb1 lb2 (by omega)
  · rcases sb with ⟨b1, b2⟩ | ⟨b1, b2, lb1, lb2⟩ | ⟨b1, b2, lb1, lb2⟩
    · exact (link_region_h W H g bx by' ax ay _ la1 la2 (by omega)).symm
    · exfalso; omega
    · exfalso; omega
  · rcases sb with ⟨b1, b2⟩ | ⟨b1, b2, lb1, lb2⟩ | ⟨b1, b2, lb1, lb2⟩
    · exact (link_region_v W H g bx by' ax ay _ la1 la2 (by omega)).symm
    · exfalso; omega
    · exfalso; omega

/-- Two orthogonally adjacent floor tiles carry the same region id. -/
theorem floor_step_region (W H : Int) (s1 : state) (hR : rooms_inv W H s1) (g : grid)
    (k : Int) (hinv : maze_inv W H s1 g k) (p q : Int × Int) (h : floor_step W H g p q) :
    (g p.1 p.2).region = (g q.1 q.2).region := by
  obtain ⟨hp, hq, hadj⟩ := h
  have room_case : ∀ (a b : Int × Int), is_floor W H g a → is_floor W H g b →
      adjacent a.1 a.2 b.1 b.2 →
      (∃ (i : Nat) (r : room_t), s1.rooms[i]? = some r ∧ interior r a.1 a.2 ∧
        (g a.1 a.2).region = i ∧ g a.1 a.2 = s1.tiles a.1 a.2) →
      (g a.1 a.2).region = (g b.1 b.2).region := by
    intro a b _ hbf hab ⟨i, r, hi, hint, hreg, _⟩
    have hrect := adjacent_in_rect r _ _ _ _ hint hab
    rcases floor_tile_kind W H s1 hR g k hinv b hbf with ⟨j, r', hj, hint', hreg', _⟩ | ⟨hmf, _⟩
    · by_cases hij : i = j
      · rw [hreg, hreg', hij]
      · exfalso
        exact (rooms_apart_of_index s1.rooms hR.2.2.2.2.1 j i r' r hj hi
          (fun e => hij e.symm)).1 _ _ hint' hrect
    · exfalso
      rw [maze_floor_iff] at hmf
      have hfree : (s1.tiles b.1 b.2).room = -1 := by
        by_contra hne
        have := hinv.frame _ _ hbf.1 hne
        rw [this] at hmf
        exact hne hmf.2
      exact (room_free_iff W H s1 hR _ _ hbf.1).mp hfree ⟨r, List.getElem?_mem hi, hrect⟩
  rcases floor_tile_kind W H s1 hR g k hinv p hp with hpr | ⟨hpm, _⟩
  · exact room_case p q hp hq hadj hpr
  · rcases floor_tile_kind W H s1 hR g k hinv q hq with hqr | ⟨hqm, _⟩
    · exact (room_case q p hq hp (adjacent_symm hadj) hqr).symm
    · exact maze_step_region W H s1 g k hinv _ _ _ _ hp.1 hq.1 hpm hqm hadj

/-- Region labelling holds on every grid that satisfies the invariant of
`make_maze`. -/
theorem region_labelled_of_maze_inv (W H : Int) (s1 : state) (hR : rooms_inv W H s1)
    (g : grid) (k : Int) (hinv : maze_inv W H s1 g k) : region_labelled W H g := by
  intro p q hp hq
  constructor
  · intro hreg
    rcases floor_tile_kind W H s1 hR g k hinv p hp with
      ⟨i, r, hi, hint, hri, _⟩ | ⟨hpm, hpn⟩
    · rcases floor_tile_kind W H s1 hR g k hinv q hq with
        ⟨j, r', hj, hint', hrj, _⟩ | ⟨hqm, hqn⟩
      · have hij : i = j := by
          rw [hri, hrj] at hreg
          exact_mod_cast hreg
        subst hij
        rw [hi] at hj
        cases hj
        have hr := List.getElem?_mem hi
        exact floor_path_rect W H g (r.x0 + 1) (r.y0 + 1) (r.x1 - 1) (r.y1 - 1)
          (fun x y h1 h2 h3 h4 =>
            (interior_floor W H s1 hR g k hinv r hr x y ⟨h1, h2, h3, h4⟩).1)
          p q hint hint'
      · exfalso
        have hlt : (i : Int) < s1.rooms.length := by
          have := (List.getElem?_eq_some.mp hi).1
          exact_mod_cast this
        rw [hR.2.1] at hqn
        rw [← hreg, hri] at hqn
        omega
    · rcases floor_tile_kind W H s1 hR g k hinv q hq with
        ⟨j, r', hj, hint', hrj, _⟩ | ⟨hqm, hqn⟩
      · exfalso
        have hlt : (j : Int) < s1.rooms.length := by
          have := (List.getElem?_eq_some.mp hj).1
          exact_mod_cast this
        rw [hR.2.1] at hpn
        rw [hreg, hrj] at hpn
        omega
      · exact hinv.joined p q _ ⟨hp.1, hpm, rfl⟩ ⟨hq.1, hqm, hreg.symm⟩
  · intro hpath
    unfold floor_path at hpath
    induction hpath with
    | refl => rfl
    | tail _ hstep ih =>
      rw [ih hstep.1]
      exact floor_step_region W H s1 hR g k hinv _ _ hstep

/-- C3: for odd grid sizes of `dims_ok` and every sequence of draws, region
labelling holds after `make_rooms` and after `make_maze` (two floor tiles carry
the same region id exactly when a path of orthogonally adjacent floor tiles
joins them), and every intervening maze tile lies between two maze cells that
carry its own region id. -/
theorem region_labelling_after_rooms_and_maze (W H : Int) (hd : dims_ok W H)
    (ho : dims_odd W H) (s : state) (draws : List Nat) (s1 : state) (d1 : List Nat)
    (h1 : make_rooms W H (init W H s) draws = outcome.ok (s1, d1)) :
    region_labelled W H s1.tiles ∧
      ∀ s2 d2, make_maze W H s1 d1 = outcome.ok (s2, d2) →
        region_labelled W H s2.tiles ∧
        ∀ x y, in_bounds W H x y → maze_floor (s2.tiles x y) = true →
          ¬ (x % 2 = 1 ∧ y % 2 = 1) →
          (maze_link W H s2.tiles (x - 1) y (s2.tiles x y).region ∧
            maze_link W H s2.tiles (x + 1) y (s2.tiles x y).region) ∨
          (maze_link W H s2.tiles x (y - 1) (s2.tiles x y).region ∧
            maze_link W H s2.tiles x (y + 1) (s2.tiles x y).region) := by
  have hR := make_rooms_inv W H hd s draws s1 d1 h1
  refine ⟨region_labelled_of_maze_inv W H s1 hR _ _ (maze_inv_init W H s1 hR), ?_⟩
  intro s2 d2 h2
  obtain ⟨⟨_, _, hm⟩, _⟩ := make_maze_inv W H hd ho s1 hR d1 s2 d2 h2
  refine ⟨region_labelled_of_maze_inv W H s1 hR _ _ hm, fun x y hin hmf hpar => ?_⟩
  rcases hm.shape x y hin hmf with h | ⟨_, _, l1, l2⟩ | ⟨_, _, l1, l2⟩
  · exact absurd h hpar
  · exact Or.inl ⟨l1, l2⟩
  · exact Or.inr ⟨l1, l2⟩

/-- Witness of C3: the run on the 11 × 7 grid with `small_draws` passes
`make_rooms` and `make_maze`, and region labelling holds after both. -/
theorem region_labelling_after_rooms_and_maze_witness :
    ∃ s1 d1 s2 d2, make_rooms 11 7 (init 11 7 s_blank) small_draws = outcome.ok (s1, d1) ∧
      make_maze 11 7 s1 d1 = outcome.ok (s2, d2) ∧
      region_labelled 11 7 s1.tiles ∧ region_labelled 11 7 s2.tiles := by
  obtain ⟨s1, d1, s2, d2, _, _, _, h1, h2, _, _⟩ := small_run
  have h := region_labelling_after_rooms_and_maze 11 7 (by decide) (by decide) s_blank
    small_draws s1 d1 h1
  exact ⟨s1, d1, s2, d2, h1, h2, h.1, (h.2 s2 d2 h2).1⟩

/-! ## `make_rooms` places a first room -/

theorem make_rooms_loop_rooms_mono (W H : Int) :
    ∀ (fuel : Nat) (s : state) (tries : Int) (draws : List Nat) (s' : state)
      (rest : List Nat), make_rooms_loop W H fuel s tries draws = outcome.ok (s', rest) →
      s.rooms.length ≤ s'.rooms.length := by
  intro fuel
  induction fuel with
  | zero => intro s tries draws s' rest h; simp [make_rooms_loop] at h
  | succ fuel ih =>
    intro s tries draws s' rest h
    unfold make_rooms_loop at h
    split_ifs at h with hcond
    · split at h
      · simp at h
      · split_ifs at h
        · exact ih _ _ _ _ _ h
        · have := ih _ _ _ _ _ h
          simp only [place_room, List.length_append, List.length_singleton] at this
          omega
    · simp only [outcome.ok.injEq, Prod.mk.injEq] at h
      rw [← h.1]

theorem make_rooms_nonempty (W H : Int) (hd : dims_ok W H) (s : state) (draws : List Nat)
    (s1 : state) (d1 : List Nat)
    (h : make_rooms W H (init W H s) draws = outcome.ok (s1, d1)) :
    0 < s1.rooms.length := by
  unfold make_rooms make_rooms_loop at h
  have hcond : (0 : Int) < max_tries ∧ (init W H s).n_rooms < max_rooms := by
    simp [init, max_tries, max_rooms]
  simp only [hcond, and_self, if_true] at h
  split at h
  · simp at h
  · rename_i w hh r rest hc
    obtain ⟨hok, _⟩ := draw_room_spec W H hd draws w hh r rest hc
    have hcol : collides (init W H s).tiles r = false := by
      rw [collides_false_iff]
      intro x y hin
      unfold candidate_ok at hok
      unfold in_rect at hin
      have hb : 0 ≤ x ∧ x ≤ W - 1 ∧ 0 ≤ y ∧ y ≤ H - 1 := by omega
      simp [init, for_rect, hb, blank_tile]
    unfold candidate_ok at hok
    have hx : r.x1 % 2 = 0 := hok.2.2.2.2.2.2.1
    have hy : r.y1 % 2 = 0 := hok.2.2.2.2.2.2.2.1
    simp only [hx, hy, ne_eq, not_true_eq_false, if_false, hcol, Bool.false_eq_true] at h
    have := make_rooms_loop_rooms_mono W H _ _ _ _ _ _ h
    simp only [place_room, List.length_append, List.length_singleton] at this
    omega

/-! ## The grid when `make_maze` has returned -/

theorem odd_in_rect_interior (W H : Int) (r : room_t) (hok : room_ok W H r) (x y : Int)
    (hx : x % 2 = 1) (hy : y % 2 = 1) (h : in_rect r x y) : interior r x y := by
  unfold room_ok at hok; unfold in_rect at h; unfold interior; omega

/-- Every odd cell of the grid is a floor tile once no odd cell is unused. -/
theorem odd_cell_floor (W H : Int) (s1 : state) (hR : rooms_inv W H s1) (g : grid) (k : Int)
    (hm : maze_inv W H s1 g k)
    (hall : ∀ q ∈ odd_cells W H, unused (g q.1 q.2) = false) (x y : Int)
    (hin : in_bounds W H x y) (hx : x % 2 = 1) (hy : y % 2 = 1) : is_floor W H g (x, y) := by
  by_cases hfree : (s1.tiles x y).room = -1
  · obtain ⟨t1, _, t3⟩ := hm.tile x y hin hfree
    rcases t3 with h | h
    · exfalso
      have hu : unused (g x y) = true := (unused_iff _).mpr ⟨h.1, t1⟩
      have := hall (x, y) (odd_in_bounds_mem W H x y hin hx hy)
      rw [hu] at this
      exact absurd this (by decide)
    · exact ⟨hin, h.1⟩
  · have hex : ∃ r ∈ s1.rooms, in_rect r x y := by
      by_contra hno
      exact hfree ((room_free_iff W H s1 hR x y hin).mpr hno)
    obtain ⟨r, hr, hrect⟩ := hex
    exact (interior_floor W H s1 hR g k hm r hr x y
      (odd_in_rect_interior W H r (hR.2.2.2.1 r hr) x y hx hy hrect)).1

/-- A floor tile carries a non-negative region and any other tile region −1. -/
theorem region_sign (W H : Int) (s1 : state) (hR : rooms_inv W H s1) (g : grid) (k : Int)
    (hm : maze_inv W H s1 g k) (x y : Int) (hin : in_bounds W H x y) :
    ((g x y).kind = tk_floor → 0 ≤ (g x y).region) ∧
      ((g x y).kind ≠ tk_floor → (g x y).region = -1) := by
  have hk0 : 0 ≤ s1.next_region := by rw [hR.2.1]; exact Int.ofNat_nonneg _
  constructor
  · intro hf
    rcases floor_tile_kind W H s1 hR g k hm (x, y) ⟨hin, hf⟩ with ⟨i, _, _, _, hreg, _⟩ | ⟨_, hlt⟩
    · dsimp only at hreg; rw [hreg]; exact Int.ofNat_nonneg _
    · dsimp only at hlt; linarith
  · intro hnf
    by_cases hfree : (s1.tiles x y).room = -1
    · rcases (hm.tile x y hin hfree).2.2 with h | h
      · exact h.2
      · exact absurd h.1 hnf
    · have e := hm.frame x y hin hfree
      rw [e] at hnf ⊢
      have hno : ¬ ∃ r ∈ s1.rooms, interior r x y := fun hex =>
        hnf ((rooms_floor_iff W H s1 hR x y hin).mpr hex)
      exact ((hR.2.2.2.2.2 x y hin).2.2.1 hno).2

/-- A floor tile with both coordinates even is an interior tile of a room. -/
theorem even_floor_interior (W H : Int) (s1 : state) (hR : rooms_inv W H s1) (g : grid)
    (k : Int) (hm : maze_inv W H s1 g k) (x y : Int) (hf : is_floor W H g (x, y))
    (hx : x % 2 = 0) (hy : y % 2 = 0) :
    ∃ (i : Nat) (r : room_t), s1.rooms[i]? = some r ∧ interior r x y ∧ (g x y).region = i := by
  rcases floor_tile_kind W H s1 hR g k hm (x, y) hf with ⟨i, r, hi, hint, hreg, _⟩ | ⟨hmf, _⟩
  · exact ⟨i, r, hi, hint, hreg⟩
  · exfalso
    rcases hm.shape x y hf.1 hmf with h | h | h <;> omega

theorem no_horizontal_split (W H : Int) (s1 : state) (hR : rooms_inv W H s1) (g : grid)
    (k : Int) (hm : maze_inv W H s1 g k) (x y : Int) (hx : x % 2 = 1) (hy : y % 2 = 0)
    (hl : in_bounds W H (x - 1) y) (hr : in_bounds W H (x + 1) y) :
    ¬ separates (g (x - 1) y) (g (x + 1) y) := by
  rintro ⟨hne, h1, h2⟩
  have hfl : is_floor W H g (x - 1, y) := by
    refine ⟨hl, ?_⟩
    by_contra hnf
    have := (region_sign W H s1 hR g k hm _ _ hl).2 hnf
    linarith
  have hfr : is_floor W H g (x + 1, y) := by
    refine ⟨hr, ?_⟩
    by_contra hnf
    have := (region_sign W H s1 hR g k hm _ _ hr).2 hnf
    linarith
  obtain ⟨i, ra, hi, hia, hra⟩ := even_floor_interior W H s1 hR g k hm _ _ hfl
    (by omega) hy
  obtain ⟨j, rb, hj, hib, hrb⟩ := even_floor_interior W H s1 hR g k hm _ _ hfr
    (by omega) hy
  have hij : i ≠ j := by
    intro e
    apply hne
    rw [hra, hrb, e]
  have hap := rooms_apart_of_index s1.rooms hR.2.2.2.2.1 i j ra rb hi hj hij
  have hoa := hR.2.2.2.1 ra (List.getElem?_mem hi)
  have hob := hR.2.2.2.1 rb (List.getElem?_mem hj)
  apply hap.1 x y
  · unfold room_ok at hoa; unfold interior at hia ⊢
    clear hap hm hR hfl hfr hra hrb hob hib
    omega
  · unfold room_ok at hob; unfold interior at hib; unfold in_rect
    clear hap hm hR hfl hfr hra hrb hoa hia
    omega

theorem linked_symm {conns : List connection_t} {a b : Int} (h : linked conns a b) :
    linked conns b a := by
  unfold linked at h ⊢
  induction h with
  | refl => exact Relation.ReflTransGen.refl
  | tail _ hstep ih =>
    refine Relation.ReflTransGen.head ?_ ih
    obtain ⟨c, hc, h⟩ := hstep
    exact ⟨c, hc, h.symm⟩

theorem linked_of_min_max (conns : List connection_t) (c : connection_t) (hc : c ∈ conns)
    (a b : Int) (h0 : c.region0 = min a b) (h1 : c.region1 = max a b) : linked conns a b := by
  apply Relation.ReflTransGen.single
  refine ⟨c, hc, ?_⟩
  rcases le_total a b with h | h
  · left; rw [h0, h1, min_eq_left h, max_eq_right h]; exact ⟨rfl, rfl⟩
  · right; rw [h0, h1, min_eq_right h, max_eq_left h]; exact ⟨rfl, rfl⟩

/-- Two odd cells two apart in a row carry linked regions. -/
theorem lattice_step_right (W H : Int) (ho : dims_odd W H) (s1 : state)
    (hR : rooms_inv W H s1) (g : grid) (k : Int) (hm : maze_inv W H s1 g k)
    (hall : ∀ q ∈ odd_cells W H, unused (g q.1 q.2) = false) (x y : Int)
    (hx : x % 2 = 1) (hy : y % 2 = 1) (h1 : in_bounds W H x y)
    (h2 : in_bounds W H (x + 2) y) :
    linked (scan_connections W H g) (g x y).region (g (x + 2) y).region := by
  by_cases he : (g x y).region = (g (x + 2) y).region
  · rw [he]; exact Relation.ReflTransGen.refl
  · have hf1 := odd_cell_floor W H s1 hR g k hm hall x y h1 hx hy
    have hf2 := odd_cell_floor W H s1 hR g k hm hall (x + 2) y h2 (by omega) hy
    have hp1 := (region_sign W H s1 hR g k hm _ _ h1).1 hf1.2
    have hp2 := (region_sign W H s1 hR g k hm _ _ h2).1 hf2.2
    have e1 : x + 1 - 1 = x := by ring
    have e2 : x + 1 + 1 = x + 2 := by ring
    have hsep : separates (g (x + 1 - 1) y) (g (x + 1 + 1) y) := by
      rw [e1, e2]; exact ⟨he, hp1, hp2⟩
    have hmem : (x + 1, y) ∈ rect_cells 1 1 (W - 2) (H - 2) := by
      rw [mem_rect_cells]
      unfold in_bounds at h1 h2
      unfold dims_odd at ho
      dsimp only
      clear hsep hf1 hf2 hp1 hp2 hm hR hall
      omega
    obtain ⟨c, hc, _, _, hcase⟩ := scan_cells_complete g _ [] (x + 1, y) hmem (Or.inl hsep)
    rcases hcase with ⟨_, h0, h1'⟩ | ⟨hn, _⟩
    · dsimp only at h0 h1'
      rw [e1, e2] at h0 h1'
      exact linked_of_min_max _ c hc _ _ h0 h1'
    · exact absurd hsep hn

/-- Two odd cells two apart in a column carry linked regions. -/
theorem lattice_step_down (W H : Int) (ho : dims_odd W H) (s1 : state)
    (hR : rooms_inv W H s1) (g : grid) (k : Int) (hm : maze_inv W H s1 g k)
    (hall : ∀ q ∈ odd_cells W H, unused (g q.1 q.2) = false) (x y : Int)
    (hx : x % 2 = 1) (hy : y % 2 = 1) (h1 : in_bounds W H x y)
    (h2 : in_bounds W H x (y + 2)) :
    linked (scan_connections W H g) (g x y).region (g x (y + 2)).region := by
  by_cases he : (g x y).region = (g x (y + 2)).region
  · rw [he]; exact Relation.ReflTransGen.refl
  · have hf1 := odd_cell_floor W H s1 hR g k hm hall x y h1 hx hy
    have hf2 := odd_cell_floor W H s1 hR g k hm hall x (y + 2) h2 hx (by omega)
    have hp1 := (region_sign W H s1 hR g k hm _ _ h1).1 hf1.2
    have hp2 := (region_sign W H s1 hR g k hm _ _ h2).1 hf2.2
    have e1 : y + 1 - 1 = y := by ring
    have e2 : y + 1 + 1 = y + 2 := by ring
    have hsep : separates (g x (y + 1 - 1)) (g x (y + 1 + 1)) := by
      rw [e1, e2]; exact ⟨he, hp1, hp2⟩
    have hb : in_bounds W H (x - 1) (y + 1) ∧ in_bounds W H (x + 1) (y + 1) ∧
        (y + 1) % 2 = 0 ∧ (x, y + 1) ∈ rect_cells 1 1 (W - 2) (H - 2) := by
      rw [mem_rect_cells]
      unfold in_bounds at h1 h2 ⊢
      unfold dims_odd at ho
      dsimp only
      clear hsep hf1 hf2 hp1 hp2 hm hR hall
      omega
    have hnh := no_horizontal_split W H s1 hR g k hm x (y + 1) hx hb.2.2.1 hb.1 hb.2.1
    obtain ⟨c, hc, _, _, hcase⟩ := scan_cells_complete g _ [] (x, y + 1) hb.2.2.2 (Or.inr hsep)
    rcases hcase with ⟨hh, _⟩ | ⟨_, _, h0, h1'⟩
    · exact absurd hh hnh
    · dsimp only at h0 h1'
      rw [e1, e2] at h0 h1'
      exact linked_of_min_max _ c hc _ _ h0 h1'

theorem linked_trans {conns : List connection_t} {a b c : Int} (h1 : linked conns a b)
    (h2 : linked conns b c) : linked conns a c :=
  Relation.ReflTransGen.trans h1 h2

theorem lattice_first_column (W H : Int) (ho : dims_odd W H) (s1 : state)
    (hR : rooms_inv W H s1) (g : grid) (k : Int) (hm : maze_inv W H s1 g k)
    (hall : ∀ q ∈ odd_cells W H, unused (g q.1 q.2) = false) :
    ∀ j : Nat, in_bounds W H 1 (2 * (j : Int) + 1) →
      linked (scan_connections W H g) (g 1 1).region (g 1 (2 * (j : Int) + 1)).region := by
  intro j
  induction j with
  | zero => intro _; exact Relation.ReflTransGen.refl
  | succ j ih =>
    intro hin
    have hprev : in_bounds W H 1 (2 * (j : Int) + 1) := by
      unfold in_bounds at hin ⊢; push_cast at hin; omega
    have hstep := lattice_step_down W H ho s1 hR g k hm hall 1 (2 * (j : Int) + 1)
      (by decide) (by omega) hprev (by
        have e : 2 * (j : Int) + 1 + 2 = 2 * ((j + 1 : Nat) : Int) + 1 := by push_cast; ring
        rw [e]; exact hin)
    have e : 2 * (j : Int) + 1 + 2 = 2 * ((j + 1 : Nat) : Int) + 1 := by push_cast; ring
    rw [e] at hstep
    exact linked_trans (ih hprev) hstep

theorem lattice_row (W H : Int) (ho : dims_odd W H) (s1 : state)
    (hR : rooms_inv W H s1) (g : grid) (k : Int) (hm : maze_inv W H s1 g k)
    (hall : ∀ q ∈ odd_cells W H, unused (g q.1 q.2) = false) (y : Int) (hy : y % 2 = 1) :
    ∀ i : Nat, in_bounds W H (2 * (i : Int) + 1) y →
      linked (scan_connections W H g) (g 1 y).region (g (2 * (i : Int) + 1) y).region := by
  intro i
  induction i with
  | zero => intro _; exact Relation.ReflTransGen.refl
  | succ i ih =>
    intro hin
    have hprev : in_bounds W H (2 * (i : Int) + 1) y := by
      unfold in_bounds at hin ⊢; push_cast at hin; omega
    have e : 2 * (i : Int) + 1 + 2 = 2 * ((i + 1 : Nat) : Int) + 1 := by push_cast; ring
    have hstep := lattice_step_right W H ho s1 hR g k hm hall (2 * (i : Int) + 1) y
      (by omega) hy hprev (by rw [e]; exact hin)
    rw [e] at hstep
    exact linked_trans (ih hprev) hstep

/-- Every odd cell carries a region linked to that of the cell `(1, 1)`. -/
theorem lattice_linked (W H : Int) (hd : dims_ok W H) (ho : dims_odd W H) (s1 : state)
    (hR : rooms_inv W H s1) (g : grid) (k : Int) (hm : maze_inv W H s1 g k)
    (hall : ∀ q ∈ odd_cells W H, unused (g q.1 q.2) = false) (x y : Int)
    (hin : in_bounds W H x y) (hx : x % 2 = 1) (hy : y % 2 = 1) :
    linked (scan_connections W H g) (g 1 1).region (g x y).region := by
  have hcol : in_bounds W H 1 y := by
    unfold in_bounds at hin ⊢; unfold dims_ok at hd; omega
  have ey : 2 * (((y / 2).toNat : Nat) : Int) + 1 = y := by
    unfold in_bounds at hin; omega
  have ex : 2 * (((x / 2).toNat : Nat) : Int) + 1 = x := by
    unfold in_bounds at hin; omega
  have h1 := lattice_first_column W H ho s1 hR g k hm hall (y / 2).toNat
    (by rw [ey]; exact hcol)
  have h2 := lattice_row W H ho s1 hR g k hm hall y hy (x / 2).toNat (by rw [ex]; exact hin)
  rw [ey] at h1
  rw [ex] at h2
  exact linked_trans h1 h2

/-- Every floor tile shares its region with some odd cell of the grid. -/
theorem floor_region_odd (W H : Int) (s1 : state) (hR : rooms_inv W H s1) (g : grid)
    (k : Int) (hm : maze_inv W H s1 g k) (p : Int × Int) (hp : is_floor W H g p) :
    ∃ x y, in_bounds W H x y ∧ x % 2 = 1 ∧ y % 2 = 1 ∧ (g x y).region = (g p.1 p.2).region := by
  rcases floor_tile_kind W H s1 hR g k hm p hp with ⟨i, r, hi, hint, hreg, _⟩ | ⟨hmf, _⟩
  · have hr := List.getElem?_mem hi
    have hok := hR.2.2.2.1 r hr
    have hint0 : interior r (r.x0 + 1) (r.y0 + 1) := by
      unfold room_ok at hok; unfold interior; omega
    obtain ⟨hf, e⟩ := interior_floor W H s1 hR g k hm r hr _ _ hint0
    refine ⟨r.x0 + 1, r.y0 + 1, hf.1, by unfold room_ok at hok; omega,
      by unfold room_ok at hok; omega, ?_⟩
    rw [hreg, e]
    exact (hR.2.2.2.2.2 _ _ hf.1).2.2.2.1 i r hi hint0
  · rcases hm.shape p.1 p.2 hp.1 hmf with h | ⟨h1, h2, l1, _⟩ | ⟨h1, h2, l1, _⟩
    · exact ⟨p.1, p.2, hp.1, h.1, h.2, rfl⟩
    · exact ⟨p.1 - 1, p.2, l1.1, by omega, h2, l1.2.2⟩
    · exact ⟨p.1, p.2 - 1, l1.1, h1, by omega, l1.2.2⟩

/-- The first room's interior carries the main region. -/
theorem main_region_cell (W H : Int) (s1 : state) (hR : rooms_inv W H s1)
    (hne : 0 < s1.rooms.length) (g : grid) (k : Int) (hm : maze_inv W H s1 g k) :
    ∃ x y, in_bounds W H x y ∧ x % 2 = 1 ∧ y % 2 = 1 ∧ (g x y).region = main_region := by
  have hex : ∃ r, s1.rooms[0]? = some r := by
    cases hrooms : s1.rooms with
    | nil => rw [hrooms] at hne; simp at hne
    | cons r rest => exact ⟨r, by simp⟩
  obtain ⟨r, hi⟩ := hex
  have hr := List.getElem?_mem hi
  have hok := hR.2.2.2.1 r hr
  have hint0 : interior r (r.x0 + 1) (r.y0 + 1) := by
    unfold room_ok at hok; unfold interior; omega
  obtain ⟨hf, e⟩ := interior_floor W H s1 hR g k hm r hr _ _ hint0
  refine ⟨r.x0 + 1, r.y0 + 1, hf.1, by unfold room_ok at hok; omega,
    by unfold room_ok at hok; omega, ?_⟩
  rw [e]
  have := (hR.2.2.2.2.2 _ _ hf.1).2.2.2.1 0 r hi hint0
  rw [this]
  rfl

/-- When `make_maze` has returned, the invariant of the merge loop holds for the
grid and the connections enumerated on it. -/
theorem merge_inv_init (W H : Int) (hd : dims_ok W H) (ho : dims_odd W H) (s1 : state)
    (hR : rooms_inv W H s1) (hne : 0 < s1.rooms.length) (g : grid) (k : Int)
    (hm : maze_inv W H s1 g k)
    (hall : ∀ q ∈ odd_cells W H, unused (g q.1 q.2) = false) :
    merge_inv W H g g (scan_connections W H g) := by
  have hlab := region_labelled_of_maze_inv W H s1 hR g k hm
  refine ⟨fun _ h => h, ?_, ?_, ?_, ?_⟩
  · intro p hp
    refine ⟨(region_sign W H s1 hR g k hm _ _ hp.1).1 hp.2, ?_⟩
    obtain ⟨x0, y0, h0in, h0x, h0y, h0r⟩ := main_region_cell W H s1 hR hne g k hm
    obtain ⟨x, y, hin, hx, hy, hr⟩ := floor_region_odd W H s1 hR g k hm p hp
    have l0 := lattice_linked W H hd ho s1 hR g k hm hall x0 y0 h0in h0x h0y
    have l1 := lattice_linked W H hd ho s1 hR g k hm hall x y hin hx hy
    rw [h0r] at l0
    rw [hr] at l1
    exact linked_trans (linked_symm l0) l1
  · intro c hc
    unfold scan_connections at hc
    rcases scan_cells_sound g _ _ _ hc with h | ⟨p, _, _, _, hcase⟩
    · simp at h
    · rcases hcase with ⟨⟨hne', h1, h2⟩, e0, e1⟩ | ⟨_, ⟨hne', h1, h2⟩, e0, e1⟩
      · rw [e0, e1]
        exact ⟨le_min h1 h2, by
          rcases lt_or_gt_of_ne hne' with h | h
          · rw [min_eq_left h.le, max_eq_right h.le]; exact h
          · rw [min_eq_right h.le, max_eq_left h.le]; exact h⟩
      · rw [e0, e1]
        exact ⟨le_min h1 h2, by
          rcases lt_or_gt_of_ne hne' with h | h
          · rw [min_eq_left h.le, max_eq_right h.le]; exact h
          · rw [min_eq_right h.le, max_eq_left h.le]; exact h⟩
  · intro p q hp hq he
    exact (hlab p q hp hq).mp he
  · intro c hc
    unfold scan_connections at hc
    rcases scan_cells_sound g _ _ _ hc with h | ⟨p, hp, hcx, hcy, hcase⟩
    · simp at h
    · rw [mem_rect_cells] at hp
      have key : ∀ (a b : Int × Int), in_bounds W H a.1 a.2 → in_bounds W H b.1 b.2 →
          adjacent a.1 a.2 c.x c.y → adjacent c.x c.y b.1 b.2 →
          separates (g a.1 a.2) (g b.1 b.2) →
          c.region0 = min (g a.1 a.2).region (g b.1 b.2).region →
          c.region1 = max (g a.1 a.2).region (g b.1 b.2).region →
          ¬ is_floor W H g (c.x, c.y) ∧
          ∃ e1 e2 : Int × Int, is_floor W H g e1 ∧ is_floor W H g e2 ∧
            adjacent e1.1 e1.2 c.x c.y ∧ adjacent c.x c.y e2.1 e2.2 ∧
            (g e1.1 e1.2).region = c.region0 ∧ (g e2.1 e2.2).region = c.region1 := by
        intro a b ha hb hadj1 hadj2 ⟨hne', h1, h2⟩ e0 e1
        have hfa : is_floor W H g a := by
          refine ⟨ha, ?_⟩
          by_contra hnf
          have := (region_sign W H s1 hR g k hm _ _ ha).2 hnf
          linarith
        have hfb : is_floor W H g b := by
          refine ⟨hb, ?_⟩
          by_contra hnf
          have := (region_sign W H s1 hR g k hm _ _ hb).2 hnf
          linarith
        constructor
        · intro hfc
          apply hne'
          have s1' := floor_step_region W H s1 hR g k hm a (c.x, c.y) ⟨hfa, hfc, hadj1⟩
          have s2' := floor_step_region W H s1 hR g k hm (c.x, c.y) b ⟨hfc, hfb, hadj2⟩
          rw [s1', s2']
        · rcases le_total (g a.1 a.2).region (g b.1 b.2).region with h | h
          · exact ⟨a, b, hfa, hfb, hadj1, hadj2,
              by rw [e0, min_eq_left h], by rw [e1, max_eq_right h]⟩
          · exact ⟨b, a, hfb, hfa, adjacent_symm hadj2, adjacent_symm hadj1,
              by rw [e0, min_eq_right h], by rw [e1, max_eq_left h]⟩
      have hcin : in_bounds W H c.x c.y := by
        unfold in_bounds; omega
      have hbx : in_bounds W H (p.1 - 1) p.2 ∧ in_bounds W H (p.1 + 1) p.2 ∧
          in_bounds W H p.1 (p.2 - 1) ∧ in_bounds W H p.1 (p.2 + 1) := by
        unfold in_bounds; omega
      have hadj : adjacent (p.1 - 1) p.2 c.x c.y ∧ adjacent c.x c.y (p.1 + 1) p.2 ∧
          adjacent p.1 (p.2 - 1) c.x c.y ∧ adjacent c.x c.y p.1 (p.2 + 1) := by
        unfold adjacent; omega
      rcases hcase with ⟨hsep, e0, e1⟩ | ⟨_, hsep, e0, e1⟩
      · exact ⟨hcin, key (p.1 - 1, p.2) (p.1 + 1, p.2) hbx.1 hbx.2.1 hadj.1 hadj.2.1
          hsep e0 e1⟩
      · exact ⟨hcin, key (p.1, p.2 - 1) (p.1, p.2 + 1) hbx.2.2.1 hbx.2.2.2 hadj.2.2.1
          hadj.2.2.2 hsep e0 e1⟩

/-! ## `make_connections`: one merge -/

theorem rewrite_connection_regions (partner : Int) (hP : 0 < partner) (c : connection_t) :
    (c.region1 = partner ∧ (rewrite_connection partner c).region0 = main_region ∧
        (rewrite_connection partner c).region1 = c.region0) ∨
      (c.region1 ≠ partner ∧ c.region0 = partner ∧
        (rewrite_connection partner c).region0 = main_region ∧
        (rewrite_connection partner c).region1 = c.region1) ∨
      (c.region1 ≠ partner ∧ c.region0 ≠ partner ∧
        (rewrite_connection partner c).region0 = c.region0 ∧
        (rewrite_connection partner c).region1 = c.region1) := by
  unfold rewrite_connection
  by_cases h1 : c.region1 = partner
  · left
    have hne : ¬ (main_region = partner) := by unfold main_region; omega
    simp [h1, hne]
  · right
    by_cases h0 : c.region0 = partner
    · left; simp [h1, h0]
    · right; simp [h1, h0]

/-- The regions of a rewritten entry are the absorbed regions of the entry, as
an unordered pair. -/
theorem rewrite_connection_absorb (partner : Int) (hP : 0 < partner) (c : connection_t)
    (hc : 0 ≤ c.region0 ∧ c.region0 < c.region1) :
    ((rewrite_connection partner c).region0 = absorb partner c.region0 ∧
        (rewrite_connection partner c).region1 = absorb partner c.region1) ∨
      ((rewrite_connection partner c).region0 = absorb partner c.region1 ∧
        (rewrite_connection partner c).region1 = absorb partner c.region0) := by
  unfold absorb
  rcases rewrite_connection_regions partner hP c with ⟨h1, e0, e1⟩ | ⟨h1, h0, e0, e1⟩ |
    ⟨h1, h0, e0, e1⟩
  · right
    have hne : c.region0 ≠ partner := by omega
    rw [e0, e1, if_pos h1, if_neg hne]
    exact ⟨rfl, rfl⟩
  · left
    rw [e0, e1, if_pos h0, if_neg h1]
    exact ⟨rfl, rfl⟩
  · left
    rw [e0, e1, if_neg h0, if_neg h1]
    exact ⟨rfl, rfl⟩

theorem mem_of_perm_rewrite (partner : Int) (conns conns' : List connection_t)
    (hperm : conns'.Perm ((conns.map (rewrite_connection partner)).filter kept)) (c' : connection_t) :
    c' ∈ conns' ↔ ∃ c ∈ conns, c' = rewrite_connection partner c ∧ c'.region0 ≠ c'.region1 := by
  rw [hperm.mem_iff, List.mem_filter, List.mem_map]
  constructor
  · rintro ⟨⟨c, hc, rfl⟩, hk⟩
    exact ⟨c, hc, rfl, by simpa [kept] using hk⟩
  · rintro ⟨c, hc, rfl, hk⟩
    exact ⟨⟨c, hc, rfl⟩, by simpa [kept] using hk⟩

/-- Linked regions stay linked, after absorption, through the rewritten list. -/
theorem linked_absorb (partner : Int) (hP : 0 < partner) (conns conns' : List connection_t)
    (hord : ∀ c ∈ conns, 0 ≤ c.region0 ∧ c.region0 < c.region1)
    (hperm : conns'.Perm ((conns.map (rewrite_connection partner)).filter kept))
    (a b : Int) (h : linked conns a b) : linked conns' (absorb partner a) (absorb partner b) := by
  unfold linked at h ⊢
  induction h with
  | refl => exact Relation.ReflTransGen.refl
  | @tail u v _ hstep ih =>
    obtain ⟨c, hc, hcase⟩ := hstep
    by_cases heq : absorb partner u = absorb partner v
    · rw [← heq]; exact ih
    · refine Relation.ReflTransGen.tail ih ⟨rewrite_connection partner c, ?_, ?_⟩
      · rw [mem_of_perm_rewrite partner conns conns' hperm]
        refine ⟨c, hc, rfl, ?_⟩
        rcases rewrite_connection_absorb partner hP c (hord c hc) with ⟨e0, e1⟩ | ⟨e0, e1⟩ <;>
          rcases hcase with ⟨h0, h1⟩ | ⟨h0, h1⟩ <;>
          rw [e0, e1, h0, h1] <;> first | exact heq | exact fun e => heq e.symm
      · rcases rewrite_connection_absorb partner hP c (hord c hc) with ⟨e0, e1⟩ | ⟨e0, e1⟩ <;>
          rcases hcase with ⟨h0, h1⟩ | ⟨h0, h1⟩ <;>
          rw [e0, e1, h0, h1]
        · exact Or.inl ⟨rfl, rfl⟩
        · exact Or.inr ⟨rfl, rfl⟩
        · exact Or.inr ⟨rfl, rfl⟩
        · exact Or.inl ⟨rfl, rfl⟩

/-- The grid after one merge: the chosen tile becomes a floor tile of the main
region, and every other tile keeps its kind and has its region absorbed. -/
theorem merge_grid (W H : Int) (g : grid) (cx cy partner : Int) (hP : 0 < partner) :
    ((relabel W H partner (modify g cx cy open_door) cx cy).kind = tk_floor ∧
        (relabel W H partner (modify g cx cy open_door) cx cy).region = main_region) ∧
      ∀ x y, in_bounds W H x y → ¬ (x = cx ∧ y = cy) →
        (relabel W H partner (modify g cx cy open_door) x y).kind = (g x y).kind ∧
        (relabel W H partner (modify g cx cy open_door) x y).region
          = absorb partner (g x y).region := by
  have hne : ¬ (main_region = partner) := by unfold main_region; omega
  constructor
  · unfold relabel for_rect
    simp only [modify_same, open_door, hne, if_false, ite_self, and_self]
  · intro x y hin hxy
    unfold in_bounds at hin
    have hb : 0 ≤ x ∧ x ≤ W - 1 ∧ 0 ≤ y ∧ y ≤ H - 1 := by omega
    unfold relabel for_rect absorb
    simp only [hb, and_self, if_true, modify_other _ _ _ _ _ _ hxy]
    split_ifs <;> simp

/-- One iteration of the merge loop keeps the invariant. -/
theorem merge_inv_step (W H : Int) (g0 g : grid) (conns : List connection_t)
    (hinv : merge_inv W H g0 g conns) (conn : connection_t) (hconn : conn ∈ conns)
    (hmain : conn.region0 = main_region) (conns' : List connection_t)
    (hperm : conns'.Perm ((conns.map (rewrite_connection conn.region1)).filter kept)) :
    merge_inv W H g0 (relabel W H conn.region1 (modify g conn.x conn.y open_door)) conns' := by
  have hP : 0 < conn.region1 := by
    have := hinv.ordered conn hconn
    rw [hmain] at this
    exact this.2
  obtain ⟨hcin, hcnf, e1, e2, hf1, hf2, hadj1, hadj2, hr1, hr2⟩ := hinv.ends conn hconn
  rw [hmain] at hr1
  obtain ⟨⟨hdk, hdr⟩, hother⟩ := merge_grid W H g conn.x conn.y conn.region1 hP
  generalize relabel W H conn.region1 (modify g conn.x conn.y open_door) = G' at hdk hdr hother ⊢
  have hnd : ∀ p, is_floor W H g0 p → ¬ (p.1 = conn.x ∧ p.2 = conn.y) := by
    rintro p hp ⟨h1, h2⟩
    apply hcnf
    have e : p = (conn.x, conn.y) := Prod.ext h1 h2
    rw [← e]; exact hp
  have hdoor : is_floor W H G' (conn.x, conn.y) := ⟨hcin, hdk⟩
  have hmono : ∀ p, is_floor W H g p → is_floor W H G' p := by
    intro p hp
    by_cases hd : p.1 = conn.x ∧ p.2 = conn.y
    · have e : p = (conn.x, conn.y) := Prod.ext hd.1 hd.2
      rw [e]; exact hdoor
    · exact ⟨hp.1, by rw [(hother p.1 p.2 hp.1 hd).1]; exact hp.2⟩
  have hclass : ∀ p, is_floor W H G' p →
      (p = (conn.x, conn.y) ∧ (G' p.1 p.2).region = main_region) ∨
      (is_floor W H g p ∧ (G' p.1 p.2).region = absorb conn.region1 (g p.1 p.2).region) := by
    intro p hp
    by_cases hd : p.1 = conn.x ∧ p.2 = conn.y
    · left
      have e : p = (conn.x, conn.y) := Prod.ext hd.1 hd.2
      rw [e]; exact ⟨rfl, hdr⟩
    · right
      obtain ⟨hk, hr⟩ := hother p.1 p.2 hp.1 hd
      exact ⟨⟨hp.1, by rw [← hk]; exact hp.2⟩, hr⟩
  have hg1 : is_floor W H g e1 := hinv.floors e1 hf1
  have hg2 : is_floor W H g e2 := hinv.floors e2 hf2
  have hstep1 : floor_path W H G' (conn.x, conn.y) e1 :=
    floor_path_step ⟨hdoor, hmono e1 hg1, adjacent_symm hadj1⟩
  have hstep2 : floor_path W H G' e2 (conn.x, conn.y) :=
    floor_path_step ⟨hmono e2 hg2, hdoor, adjacent_symm hadj2⟩
  have hub : ∀ p, is_floor W H G' p → (G' p.1 p.2).region = main_region →
      floor_path W H G' p e1 := by
    intro p hp hreg
    rcases hclass p hp with ⟨e, _⟩ | ⟨hpg, hr⟩
    · rw [e]; exact hstep1
    · rw [hr] at hreg
      unfold absorb at hreg
      split_ifs at hreg with hc
      · exact floor_path_trans
          (floor_path_mono hmono (hinv.joined p e2 hpg hg2 (by rw [hc, hr2])))
          (floor_path_trans hstep2 hstep1)
      · exact floor_path_mono hmono (hinv.joined p e1 hpg hg1 (by rw [hreg, hr1]))
  refine ⟨fun p hp => hmono p (hinv.floors p hp), ?_, ?_, ?_, ?_⟩
  · intro p hp
    rcases hclass p hp with ⟨_, hr⟩ | ⟨hpg, hr⟩
    · rw [hr]; exact ⟨le_refl _, Relation.ReflTransGen.refl⟩
    · obtain ⟨h0, hl⟩ := hinv.region p hpg
      have hl' := linked_absorb conn.region1 hP conns conns' hinv.ordered hperm _ _ hl
      have e0 : absorb conn.region1 main_region = main_region := by
        unfold absorb main_region
        rw [if_neg (by omega)]
      rw [e0] at hl'
      rw [hr]
      refine ⟨?_, hl'⟩
      unfold absorb
      split_ifs
      · exact le_refl _
      · exact h0
  · intro c' hc'
    obtain ⟨c, hc, rfl, hk⟩ := (mem_of_perm_rewrite _ conns conns' hperm c').mp hc'
    have hord := hinv.ordered c hc
    rcases rewrite_connection_regions conn.region1 hP c with ⟨h1, e0, e1'⟩ | ⟨h1, h0, e0, e1'⟩ |
      ⟨h1, h0, e0, e1'⟩
    · rw [e0, e1'] at hk ⊢
      unfold main_region at hk ⊢
      omega
    · rw [e0, e1'] at hk ⊢
      unfold main_region at hk ⊢
      omega
    · rw [e0, e1']
      exact hord
  · intro p q hp hq he
    by_cases h0 : (G' p.1 p.2).region = main_region
    · exact floor_path_trans (hub p hp h0) (floor_path_symm (hub q hq (by rw [← he]; exact h0)))
    · have h0q : (G' q.1 q.2).region ≠ main_region := by rw [← he]; exact h0
      rcases hclass p hp with ⟨_, hr⟩ | ⟨hpg, hrp⟩
      · exact absurd hr h0
      · rcases hclass q hq with ⟨_, hr⟩ | ⟨hqg, hrq⟩
        · exact absurd hr h0q
        · apply floor_path_mono hmono
          apply hinv.joined p q hpg hqg
          rw [hrp] at h0 he
          rw [hrq] at h0q he
          unfold absorb at h0 h0q he
          split_ifs at h0 h0q he with c1 c2
          · exact absurd rfl h0
          · exact absurd rfl h0
          · exact absurd rfl h0q
          · exact he
  · intro c' hc'
    obtain ⟨c, hc, rfl, hk⟩ := (mem_of_perm_rewrite _ conns conns' hperm c').mp hc'
    obtain ⟨hin, hnf, a, b, hfa, hfb, ha1, ha2, hra, hrb⟩ := hinv.ends c hc
    have hxy := rewrite_connection_xy conn.region1 c
    rw [hxy.1, hxy.2]
    refine ⟨hin, hnf, ?_⟩
    have hGa : (G' a.1 a.2).region = absorb conn.region1 c.region0 := by
      rw [(hother a.1 a.2 hfa.1 (hnd a hfa)).2, hra]
    have hGb : (G' b.1 b.2).region = absorb conn.region1 c.region1 := by
      rw [(hother b.1 b.2 hfb.1 (hnd b hfb)).2, hrb]
    rcases rewrite_connection_absorb conn.region1 hP c (hinv.ordered c hc) with
      ⟨e0, e1'⟩ | ⟨e0, e1'⟩
    · exact ⟨a, b, hfa, hfb, ha1, ha2, by rw [hGa, e0], by rw [hGb, e1']⟩
    · exact ⟨b, a, hfb, hfa, adjacent_symm ha2, adjacent_symm ha1, by rw [hGb, e0],
        by rw [hGa, e1']⟩

/-- When the merge loop returns, every floor tile carries the main region and the
floor tiles are connected. -/
theorem merge_loop_post (W H : Int) (g0 : grid) (conns0 : List connection_t)
    (hinit : merge_inv W H g0 g0 conns0) (draws : List Nat) (g : grid) (rest : List Nat)
    (h : merge_loop W H draws g0 conns0 = outcome.ok (g, rest)) :
    (∀ p, is_floor W H g p → (g p.1 p.2).region = main_region) ∧ floor_connected W H g := by
  obtain ⟨conns', hinv, hexit⟩ := merge_loop_ind W H (fun g conns => merge_inv W H g0 g conns)
    (fun g conns conn conns' hi hc hm hp => merge_inv_step W H g0 g conns hi conn hc hm conns' hp)
    draws g0 conns0 g rest hinit h
  have hreg : ∀ p, is_floor W H g p → (g p.1 p.2).region = main_region := by
    intro p hp
    have hl := (hinv.region p hp).2
    unfold linked at hl
    rcases Relation.ReflTransGen.cases_head hl with e | ⟨b, ⟨c, hc, hcase⟩, _⟩
    · exact e.symm
    · exfalso
      rcases hcase with ⟨h0, _⟩ | ⟨_, h1⟩
      · exact hexit c hc h0
      · have := hinv.ordered c hc
        rw [h1] at this
        unfold main_region at this
        omega
  exact ⟨hreg, fun p q hp hq => hinv.joined p q hp hq (by rw [hreg p hp, hreg q hq])⟩

/-! ## Connectivity through `make_connections` and `remove_dead_ends` -/

/-- What holds when `make_connections` returns on the grid left by `init`,
`make_rooms` and `make_maze`: every floor tile carries the main region and the
floor tiles are connected. -/
theorem make_connections_post (W H : Int) (hd : dims_ok W H) (ho : dims_odd W H) (s : state)
    (draws : List Nat) (s1 : state) (d1 : List Nat) (s2 : state) (d2 : List Nat) (s3 : state)
    (d3 : List Nat) (h1 : make_rooms W H (init W H s) draws = outcome.ok (s1, d1))
    (h2 : make_maze W H s1 d1 = outcome.ok (s2, d2))
    (h3 : make_connections W H s2 d2 = outcome.ok (s3, d3)) :
    (∀ p, is_floor W H s3.tiles p → (s3.tiles p.1 p.2).region = main_region) ∧
      floor_connected W H s3.tiles := by
  have hR := make_rooms_inv W H hd s draws s1 d1 h1
  have hne := make_rooms_nonempty W H hd s draws s1 d1 h1
  obtain ⟨⟨_, _, hm⟩, hall⟩ := make_maze_inv W H hd ho s1 hR d1 s2 d2 h2
  have hinit := merge_inv_init W H hd ho s1 hR hne s2.tiles s2.next_region hm hall
  unfold make_connections at h3
  obtain ⟨⟨g, rest⟩, hml, hk⟩ := outcome_bind_ok h3
  simp only [outcome.ok.injEq, Prod.mk.injEq] at hk
  rw [← hk.1]
  exact merge_loop_post W H s2.tiles _ hinit d2 g rest hml

theorem floor_neighbour_unique (g : grid) (vx vy : Int) (hfn : floor_neighbours g vx vy = 1)
    (a b : Int × Int) (ha : adjacent a.1 a.2 vx vy) (hb : adjacent b.1 b.2 vx vy)
    (hfa : (g a.1 a.2).kind = tk_floor) (hfb : (g b.1 b.2).kind = tk_floor) : a = b := by
  have ca := adjacent_cases a.1 a.2 vx vy ha
  have cb := adjacent_cases b.1 b.2 vx vy hb
  unfold floor_neighbours at hfn
  have i1 : (if (g (vx - 1) vy).kind = tk_floor then (1 : Int) else 0) = 0 ∨
      (g (vx - 1) vy).kind = tk_floor ∧
        (if (g (vx - 1) vy).kind = tk_floor then (1 : Int) else 0) = 1 := by
    split_ifs with h
    · exact Or.inr ⟨h, rfl⟩
    · exact Or.inl rfl
  have i2 : (if (g (vx + 1) vy).kind = tk_floor then (1 : Int) else 0) = 0 ∨
      (g (vx + 1) vy).kind = tk_floor ∧
        (if (g (vx + 1) vy).kind = tk_floor then (1 : Int) else 0) = 1 := by
    split_ifs with h
    · exact Or.inr ⟨h, rfl⟩
    · exact Or.inl rfl
  have i3 : (if (g vx (vy - 1)).kind = tk_floor then (1 : Int) else 0) = 0 ∨
      (g vx (vy - 1)).kind = tk_floor ∧
        (if (g vx (vy - 1)).kind = tk_floor then (1 : Int) else 0) = 1 := by
    split_ifs with h
    · exact Or.inr ⟨h, rfl⟩
    · exact Or.inl rfl
  have i4 : (if (g vx (vy + 1)).kind = tk_floor then (1 : Int) else 0) = 0 ∨
      (g vx (vy + 1)).kind = tk_floor ∧
        (if (g vx (vy + 1)).kind = tk_floor then (1 : Int) else 0) = 1 := by
    split_ifs with h
    · exact Or.inr ⟨h, rfl⟩
    · exact Or.inl rfl
  have ka : ∀ (c : Int × Int), (g c.1 c.2).kind = tk_floor →
      (((c.1 = vx - 1 ∨ c.1 = vx + 1) ∧ c.2 = vy) ∨ (c.1 = vx ∧ (c.2 = vy - 1 ∨ c.2 = vy + 1))) →
      (c.1 = vx - 1 ∧ c.2 = vy ∧
          (if (g (vx - 1) vy).kind = tk_floor then (1 : Int) else 0) = 1) ∨
        (c.1 = vx + 1 ∧ c.2 = vy ∧
          (if (g (vx + 1) vy).kind = tk_floor then (1 : Int) else 0) = 1) ∨
        (c.1 = vx ∧ c.2 = vy - 1 ∧
          (if (g vx (vy - 1)).kind = tk_floor then (1 : Int) else 0) = 1) ∨
        (c.1 = vx ∧ c.2 = vy + 1 ∧
          (if (g vx (vy + 1)).kind = tk_floor then (1 : Int) else 0) = 1) := by
    intro c hc hcase
    rcases hcase with ⟨h | h, h'⟩ | ⟨h, h' | h'⟩
    · rw [h, h'] at hc; exact Or.inl ⟨h, h', by rw [if_pos hc]⟩
    · rw [h, h'] at hc; exact Or.inr (Or.inl ⟨h, h', by rw [if_pos hc]⟩)
    · rw [h, h'] at hc; exact Or.inr (Or.inr (Or.inl ⟨h, h', by rw [if_pos hc]⟩))
    · rw [h, h'] at hc; exact Or.inr (Or.inr (Or.inr ⟨h, h', by rw [if_pos hc]⟩))
  have pa := ka a hfa ca
  have pb := ka b hfb cb
  have e : a.1 = b.1 ∧ a.2 = b.2 := by
    generalize (if (g (vx - 1) vy).kind = tk_floor then (1 : Int) else 0) = j1 at *
    generalize (if (g (vx + 1) vy).kind = tk_floor then (1 : Int) else 0) = j2 at *
    generalize (if (g vx (vy - 1)).kind = tk_floor then (1 : Int) else 0) = j3 at *
    generalize (if (g vx (vy + 1)).kind = tk_floor then (1 : Int) else 0) = j4 at *
    have b1 : j1 = 0 ∨ j1 = 1 := i1.imp id (fun h => h.2)
    have b2 : j2 = 0 ∨ j2 = 1 := i2.imp id (fun h => h.2)
    have b3 : j3 = 0 ∨ j3 = 1 := i3.imp id (fun h => h.2)
    have b4 : j4 = 0 ∨ j4 = 1 := i4.imp id (fun h => h.2)
    clear i1 i2 i3 i4 ka ca cb ha hb hfa hfb
    omega
  exact Prod.ext e.1 e.2

/-- Culling a tile that has exactly one floor neighbour keeps the floor tiles
connected. -/
theorem cull_connected (W H : Int) (g : grid) (vx vy : Int)
    (hfn : floor_neighbours g vx vy = 1) (hc : floor_connected W H g) :
    floor_connected W H (modify g vx vy (fun t => { t with kind := tk_wall })) := by
  generalize hG : modify g vx vy (fun t => { t with kind := tk_wall }) = G'
  have hnew : ∀ p, is_floor W H G' p ↔ (is_floor W H g p ∧ ¬ (p.1 = vx ∧ p.2 = vy)) := by
    intro p
    rw [← hG]
    unfold is_floor
    by_cases hv : p.1 = vx ∧ p.2 = vy
    · rw [hv.1, hv.2, modify_same]
      simp
    · rw [modify_other _ _ _ _ _ _ hv]
      simp [hv]
  intro p q hp hq
  have hp' := (hnew p).mp hp
  have hq' := (hnew q).mp hq
  have hpath := hc p q hp'.1 hq'.1
  have key : ∀ c, floor_path W H g p c →
      ((¬ (c.1 = vx ∧ c.2 = vy) → floor_path W H G' p c) ∧
        ((c.1 = vx ∧ c.2 = vy) → ∀ a, is_floor W H g a → adjacent a.1 a.2 vx vy →
          floor_path W H G' p a)) := by
    intro c hpc
    unfold floor_path at hpc
    induction hpc with
    | refl =>
      exact ⟨fun _ => Relation.ReflTransGen.refl, fun h => absurd h hp'.2⟩
    | @tail b c _ hstep ih =>
      obtain ⟨hfb, hfc, hadj⟩ := hstep
      constructor
      · intro hcv
        by_cases hbv : b.1 = vx ∧ b.2 = vy
        · have := ih.2 hbv c hfc (by
            rw [← hbv.1, ← hbv.2]; exact adjacent_symm hadj)
          exact this
        · exact Relation.ReflTransGen.tail (ih.1 hbv)
            ⟨(hnew b).mpr ⟨hfb, hbv⟩, (hnew c).mpr ⟨hfc, hcv⟩, hadj⟩
      · intro hcv a hfa haadj
        have hbadj : adjacent b.1 b.2 vx vy := by rw [← hcv.1, ← hcv.2]; exact hadj
        have hbv : ¬ (b.1 = vx ∧ b.2 = vy) := by
          intro h
          rw [h.1, h.2] at hbadj
          unfold adjacent at hbadj
          omega
        have e := floor_neighbour_unique g vx vy hfn a b haadj hbadj hfa.2 hfb.2
        rw [e]
        exact ih.1 hbv
  exact (key q hpath).1 hq'.2

theorem cull_cells_connected (W H : Int) (ps : List (Int × Int)) :
    ∀ (g : grid) (n : Int), floor_connected W H g →
      floor_connected W H (cull_cells ps g n).1 := by
  induction ps with
  | nil => intro g n h; exact h
  | cons p ps ih =>
    intro g n h
    unfold cull_cells
    split_ifs with h1 h2
    · exact ih g n h
    · exact ih _ _ (cull_connected W H g p.1 p.2 h2 h)
    · exact ih g n h

theorem remove_dead_ends_loop_connected (W H : Int) :
    ∀ (fuel : Nat) (g g' : grid), remove_dead_ends_loop W H fuel g = outcome.ok g' →
      floor_connected W H g → floor_connected W H g' := by
  intro fuel
  induction fuel with
  | zero => intro g g' h; simp [remove_dead_ends_loop] at h
  | succ fuel ih =>
    intro g g' h hc
    unfold remove_dead_ends_loop at h
    have hpass : floor_connected W H (cull_pass W H g).1 := cull_cells_connected W H _ g 0 hc
    split_ifs at h
    · exact ih _ _ h hpass
    · simp only [outcome.ok.injEq] at h
      rw [← h]
      exact hpass

/-- C2: for odd grid sizes of `dims_ok` and every sequence of draws, when
`make_connections` returns on the grid left by `init`, `make_rooms` and
`make_maze`, every floor tile carries region id 0. -/
theorem make_connections_all_main_region (W H : Int) (hd : dims_ok W H) (ho : dims_odd W H)
    (s : state) (draws : List Nat) (s1 : state) (d1 : List Nat) (s2 : state) (d2 : List Nat)
    (s3 : state) (d3 : List Nat)
    (h1 : make_rooms W H (init W H s) draws = outcome.ok (s1, d1))
    (h2 : make_maze W H s1 d1 = outcome.ok (s2, d2))
    (h3 : make_connections W H s2 d2 = outcome.ok (s3, d3)) :
    ∀ x y, in_bounds W H x y → (s3.tiles x y).kind = tk_floor → (s3.tiles x y).region = 0 :=
  fun x y hin hk =>
    (make_connections_post W H hd ho s draws s1 d1 s2 d2 s3 d3 h1 h2 h3).1 (x, y) ⟨hin, hk⟩

/-- Witness of C2: on the 11 × 7 grid with `small_draws` the three stages return,
and the door tile `(1, 4)` is a floor tile with region id 0. -/
theorem make_connections_all_main_region_witness :
    ∃ s1 d1 s2 d2 s3 d3, make_rooms 11 7 (init 11 7 s_blank) small_draws = outcome.ok (s1, d1) ∧
      make_maze 11 7 s1 d1 = outcome.ok (s2, d2) ∧
      make_connections 11 7 s2 d2 = outcome.ok (s3, d3) ∧
      (s3.tiles 1 4).kind = tk_floor ∧ (s3.tiles 1 4).region = 0 := by
  have hev : (carve_stages 11 7 s_blank small_draws).holds
      (fun r => decide ((r.1.tiles 1 4).kind = tk_floor)) = true := by decide!
  obtain ⟨⟨s3, d3⟩, h, hk⟩ := outcome_holds_elim hev
  obtain ⟨s1, d1, s2, d2, h1, h2, h3⟩ := carve_stages_ok _ _ _ _ _ _ h
  have hk' : (s3.tiles 1 4).kind = tk_floor := by simpa using hk
  exact ⟨s1, d1, s2, d2, s3, d3, h1, h2, h3, hk',
    make_connections_all_main_region 11 7 (by decide) (by decide) s_blank small_draws
      s1 d1 s2 d2 s3 d3 h1 h2 h3 1 4 (by decide) hk'⟩

/-- C1: for odd grid sizes of `dims_ok` and every sequence of draws, the grid
produced by `init`, `make_rooms`, `make_maze`, `make_connections` and
`remove_dead_ends` in that order has a connected set of floor tiles: any two
floor tiles are joined by a path of orthogonally adjacent floor tiles. -/
theorem generate_floor_connected (W H : Int) (hd : dims_ok W H) (ho : dims_odd W H)
    (s : state) (draws : List Nat) (s4 : state) (d4 : List Nat)
    (h : generate W H s draws = outcome.ok (s4, d4)) : floor_connected W H s4.tiles := by
  obtain ⟨s3, g, h3, hg, rfl⟩ := generate_ok W H s draws s4 d4 h
  obtain ⟨s1, d1, s2, d2, h1, h2, h3'⟩ := carve_stages_ok W H s draws s3 d4 h3
  have hc := (make_connections_post W H hd ho s draws s1 d1 s2 d2 s3 d4 h1 h2 h3').2
  unfold remove_dead_ends at hg
  exact remove_dead_ends_loop_connected W H _ _ _ hg hc

/-- Witness of C1: the run on the 11 × 7 grid with `small_draws` returns a grid
whose floor tiles are connected. -/
theorem generate_floor_connected_witness :
    ∃ s4 d4, generate 11 7 s_blank small_draws = outcome.ok (s4, d4) ∧
      floor_connected 11 7 s4.tiles := by
  have hev : (generate 11 7 s_blank small_draws).holds (fun _ => true) = true := by decide!
  obtain ⟨⟨s4, d4⟩, h, _⟩ := outcome_holds_elim hev
  exact ⟨s4, d4, h, generate_floor_connected 11 7 (by decide) (by decide) s_blank small_draws
    s4 d4 h⟩

theorem init_tiles (W H : Int) (s : state) (x y : Int) (hin : in_bounds W H x y) :
    (init W H s).tiles x y = blank_tile := by
  unfold in_bounds at hin
  unfold init for_rect
  dsimp only
  rw [if_pos (by omega)]

theorem odd_cells_head (W H : Int) (hW : 3 ≤ W) (hH : 3 ≤ H) :
    ∃ tl, odd_cells W H = (1, 1) :: tl := by
  obtain ⟨m, hm⟩ : ∃ m, (W / 2).toNat = m + 1 := ⟨(W / 2).toNat - 1, by omega⟩
  obtain ⟨n, hn⟩ : ∃ n, (H / 2).toNat = n + 1 := ⟨(H / 2).toNat - 1, by omega⟩
  unfold odd_cells odd_range
  rw [hm, hn]
  simp [List.range_succ_eq_map]

theorem hunt_init (W H : Int) (hW : 3 ≤ W) (hH : 3 ≤ H) (s : state) (draws : List Nat) :
    hunt W H (init W H s) draws
      = outcome.ok (some (1, 1), { init W H s with next_region := 1 }, draws) := by
  have hnone : ∀ p ∈ odd_cells W H, hunt_neighbours W H (init W H s).tiles p.1 p.2 = [] := by
    intro p _
    rw [List.eq_nil_iff_forall_not_mem]
    intro n hn
    obtain ⟨d, _, _, hin, hmf⟩ := (mem_hunt_neighbours W H _ _ _ n).mp hn
    rw [init_tiles W H s _ _ hin] at hmf
    exact absurd hmf (by decide)
  have h1 : (odd_cells W H).find?
      (fun p => unused ((init W H s).tiles p.1 p.2) &&
        decide (0 < (hunt_neighbours W H (init W H s).tiles p.1 p.2).length)) = none := by
    rw [List.find?_eq_none]
    intro p hp
    rw [hnone p hp]
    simp
  obtain ⟨tl, htl⟩ := odd_cells_head W H hW hH
  have hin : in_bounds W H 1 1 := by unfold in_bounds; omega
  have h2 : (odd_cells W H).find? (fun p => unused ((init W H s).tiles p.1 p.2))
      = some (1, 1) := by
    rw [htl, List.find?_cons]
    dsimp only
    rw [init_tiles W H s 1 1 hin]
    rfl
  unfold hunt
  rw [h1]
  dsimp only
  rw [h2]
  rfl

theorem mid_parity (d : xy_t) (hd : d ∈ dirs) (x y : Int) (hx : x % 2 = 1) (hy : y % 2 = 1) :
    ¬ (((x + (x + d.x)) / 2) % 2 = 1 ∧ ((y + (y + d.y)) / 2) % 2 = 1) := by
  rw [mem_dirs] at hd
  rcases hd with rfl | rfl | rfl | rfl <;> dsimp only <;> omega

/-- A `walk` that starts at `(1, 1)` with region 1, or elsewhere on a grid whose
tile `(1, 1)` is floor with region 1, leaves the tile `(1, 1)` floor with
region 1. -/
theorem walk_keeps_first_cell (W H : Int) (draws : List Nat) (s : state) (x y dx dy : Int)
    (s' : state) (rest : List Nat)
    (hpre : (x % 2 = 1 ∧ y % 2 = 1) ∧
      ((x = 1 ∧ y = 1 ∧ to_char s.next_region = 1) ∨
        (¬ (x = 1 ∧ y = 1) ∧ (s.tiles 1 1).kind = tk_floor ∧ (s.tiles 1 1).region = 1)))
    (h : walk W H draws s x y dx dy = outcome.ok (s', rest)) :
    (s'.tiles 1 1).kind = tk_floor ∧ (s'.tiles 1 1).region = 1 := by
  have hcarved : ∀ (s : state) (x y : Int),
      ((x = 1 ∧ y = 1 ∧ to_char s.next_region = 1) ∨
        (¬ (x = 1 ∧ y = 1) ∧ (s.tiles 1 1).kind = tk_floor ∧ (s.tiles 1 1).region = 1)) →
      (modify s.tiles x y (carve s.next_region) 1 1).kind = tk_floor ∧
        (modify s.tiles x y (carve s.next_region) 1 1).region = 1 := by
    intro s x y hp
    rcases hp with ⟨rfl, rfl, hk⟩ | ⟨hne, hq⟩
    · rw [modify_same]
      exact ⟨(carve_fields _ _).1, by rw [(carve_fields _ _).2.1, hk]⟩
    · rw [modify_other _ _ _ _ _ _ (fun h => hne ⟨h.1.symm, h.2.symm⟩)]
      exact hq
  refine walk_ind W H
    (fun s x y => (x % 2 = 1 ∧ y % 2 = 1) ∧
      ((x = 1 ∧ y = 1 ∧ to_char s.next_region = 1) ∨
        (¬ (x = 1 ∧ y = 1) ∧ (s.tiles 1 1).kind = tk_floor ∧ (s.tiles 1 1).region = 1)))
    (fun s => (s.tiles 1 1).kind = tk_floor ∧ (s.tiles 1 1).region = 1)
    ?_ ?_ draws s x y dx dy s' rest hpre h
  · intro s x y hp _
    exact hcarved s x y hp.2
  · intro s x y d hp hdd _ hu
    obtain ⟨hodd, hcase⟩ := hp
    have hq := hcarved s x y hcase
    have hmp := mid_parity d hdd x y hodd.1 hodd.2
    refine ⟨dirs_odd d hdd x y hodd.1 hodd.2, Or.inr ⟨?_, ?_⟩⟩
    · rintro ⟨e1, e2⟩
      rcases hcase with ⟨rfl, rfl, _⟩ | ⟨_, hk, _⟩
      · exact dirs_step d hdd 1 1 ⟨e1, e2⟩
      · rw [e1, e2, unused_iff, hk] at hu
        exact absurd hu.1 (by decide)
    · dsimp only
      rw [modify_other _ _ _ _ _ _ (fun h => hmp (by rw [← h.1, ← h.2]; decide))]
      exact hq

/-- On a grid whose tile `(1, 1)` is floor with region 1, the loop of `make_maze`
leaves that tile floor with region 1. -/
theorem make_maze_loop_keeps_first_cell (W H : Int) (fuel : Nat) (s : state)
    (draws : List Nat) (s' : state) (rest : List Nat)
    (hq : (s.tiles 1 1).kind = tk_floor ∧ (s.tiles 1 1).region = 1)
    (h : make_maze_loop W H fuel s draws = outcome.ok (s', rest)) :
    (s'.tiles 1 1).kind = tk_floor ∧ (s'.tiles 1 1).region = 1 := by
  refine (make_maze_loop_ind W H
    (fun s => (s.tiles 1 1).kind = tk_floor ∧ (s.tiles 1 1).region = 1)
    (fun s x y => (x % 2 = 1 ∧ y % 2 = 1) ∧
      ((x = 1 ∧ y = 1 ∧ to_char s.next_region = 1) ∨
        (¬ (x = 1 ∧ y = 1) ∧ (s.tiles 1 1).kind = tk_floor ∧ (s.tiles 1 1).region = 1)))
    ?_ ?_ fuel s draws s' rest hq h).1
  · intro s dr p s1 d1 hinv hh
    have hstart : ∀ q : Int × Int, unused (s.tiles q.1 q.2) = true → ¬ (q.1 = 1 ∧ q.2 = 1) := by
      rintro q hu ⟨e1, e2⟩
      rw [e1, e2, unused_iff, hinv.1] at hu
      exact absurd hu.1 (by decide)
    rcases hunt_cases W H s dr (some p) s1 d1 hh with hc | hc | hc
    · obtain ⟨q, d, hq', hmem, hu, hdd, _, _, rfl⟩ := hc
      simp only [Option.some.injEq] at hq'
      have hqp : q = p := hq'.symm
      clear hq'
      subst hqp
      have hqo := (mem_odd_cells W H q).mp hmem
      have hmp := mid_parity d hdd q.1 q.2 hqo.1.1 hqo.2.1
      refine ⟨⟨hqo.1.1, hqo.2.1⟩, Or.inr ⟨hstart q hu, ?_⟩⟩
      dsimp only
      rw [modify_other _ _ _ _ _ _ (fun h => hmp (by rw [← h.1, ← h.2]; decide))]
      exact hinv
    · obtain ⟨q, hq', hmem, hu, _, _, rfl, _⟩ := hc
      simp only [Option.some.injEq] at hq'
      have hqp : q = p := hq'.symm
      clear hq'
      subst hqp
      have hqo := (mem_odd_cells W H q).mp hmem
      exact ⟨⟨hqo.1.1, hqo.2.1⟩, Or.inr ⟨hstart q hu, hinv⟩⟩
    · simp at hc
  · intro s1 x y d1 s2 d2 hpre hw
    exact walk_keeps_first_cell W H d1 s1 x y 0 0 s2 d2 hpre hw

theorem make_maze_init_first_cell (W H : Int) (hW : 3 ≤ W) (hH : 3 ≤ H) (s : state)
    (draws : List Nat) (s2 : state) (rest : List Nat)
    (h : make_maze W H (init W H s) draws = outcome.ok (s2, rest)) :
    (s2.tiles 1 1).kind = tk_floor ∧ (s2.tiles 1 1).region = 1 := by
  unfold make_maze at h
  rw [make_maze_loop, hunt_init W H hW hH s draws] at h
  simp only [outcome.bind] at h
  obtain ⟨⟨sa, da⟩, hw, hl⟩ := outcome_bind_ok h
  have hq := walk_keeps_first_cell W H draws _ 1 1 0 0 sa da
    ⟨⟨by decide, by decide⟩, Or.inl ⟨rfl, rfl, (by decide : to_char 1 = 1)⟩⟩ hw
  exact make_maze_loop_keeps_first_cell W H _ sa da s2 rest hq hl

/-- C11 fails as stated: on the 11 × 7 grid after `init` alone (no room placed,
`n_rooms = 0`, `next_region = 0`) and with forty draws 0, `make_maze` returns, and
the first cell it carved, `(1, 1)`, is floor and labelled with region id 1, not 0. -/
theorem make_maze_no_rooms_labels_one :
    ∃ s2 rest, make_maze 11 7 (init 11 7 s_blank) (List.replicate 40 0) = outcome.ok (s2, rest) ∧
      (s2.tiles 1 1).kind = tk_floor ∧ (s2.tiles 1 1).region = 1 ∧
      (s2.tiles 1 1).region ≠ 0 := by
  have hev : (make_maze 11 7 (init 11 7 s_blank) (List.replicate 40 0)).holds
      (fun r => decide ((r.1.tiles 1 1).kind = tk_floor ∧ (r.1.tiles 1 1).region = 1))
        = true := by
    decide!
  obtain ⟨⟨s2, rest⟩, h, hP⟩ := outcome_holds_elim hev
  simp only [decide_eq_true_eq] at hP
  exact ⟨s2, rest, h, hP.1, hP.2, by rw [hP.2]; decide⟩

/-- C11, amended: on a grid without rooms (after `init` alone, odd grid sizes of
`dims_ok`, any draws) the first call of `hunt` returns the cell `(1, 1)` and has
already advanced `next_region` to 1; when `make_maze` returns, the cell `(1, 1)` is
floor with region id 1, every tile of its component (every tile joined to it by a
path of floor tiles) is labelled 1, and no tile is labelled 0. -/
theorem make_maze_no_rooms_region (W H : Int) (hd : dims_ok W H) (ho : dims_odd W H)
    (s : state) (draws : List Nat) :
    hunt W H (init W H s) draws
        = outcome.ok (some (1, 1), { init W H s with next_region := 1 }, draws) ∧
      ∀ s2 rest, make_maze W H (init W H s) draws = outcome.ok (s2, rest) →
        ((s2.tiles 1 1).kind = tk_floor ∧ (s2.tiles 1 1).region = 1) ∧
        (∀ p, floor_path W H s2.tiles (1, 1) p → (s2.tiles p.1 p.2).region = 1) ∧
        ∀ x y, in_bounds W H x y → (s2.tiles x y).region ≠ 0 := by
  have hd' := hd
  unfold dims_ok at hd'
  refine ⟨hunt_init W H (by omega) (by omega) s draws, fun s2 rest h => ?_⟩
  have hR := rooms_inv_init W H s
  obtain ⟨⟨_, _, hm⟩, _⟩ := make_maze_inv W H hd ho _ hR draws s2 rest h
  have h11 : in_bounds W H 1 1 := by unfold in_bounds; omega
  have hq := make_maze_init_first_cell W H (by omega) (by omega) s draws s2 rest h
  refine ⟨hq, fun p hp => ?_, fun x y hin => ?_⟩
  · have hf1 : is_floor W H s2.tiles (1, 1) := ⟨h11, hq.1⟩
    have hfp : is_floor W H s2.tiles p := by
      rcases Relation.ReflTransGen.cases_tail hp with e | ⟨b, _, hstep⟩
      · rw [e]; exact hf1
      · exact hstep.2.1
    have hl := region_labelled_of_maze_inv W H _ hR _ _ hm
    have := (hl (1, 1) p hf1 hfp).mpr hp
    dsimp only at this
    rw [← this]
    exact hq.2
  · have ht := (hm.tile x y hin (by rw [init_tiles W H s x y hin]; rfl)).2.2
    have hk : (init W H s).next_region = 0 := rfl
    rw [hk] at ht
    clear hm hR h hq
    rcases ht with ⟨_, hr⟩ | ⟨_, hr, _⟩ <;> omega

/-- Witness of C11: on the 11 × 7 grid with forty draws 0, `make_maze` returns after
`init` alone, and the cell `(1, 1)` is floor with region id 1. -/
theorem make_maze_no_rooms_region_witness :
    ∃ s2 rest, make_maze 11 7 (init 11 7 s_blank) (List.replicate 40 0) = outcome.ok (s2, rest) ∧
      (s2.tiles 1 1).kind = tk_floor ∧ (s2.tiles 1 1).region = 1 := by
  have hev : (make_maze 11 7 (init 11 7 s_blank) (List.replicate 40 0)).holds
      (fun _ => true) = true := by decide!
  obtain ⟨⟨s2, rest⟩, h, _⟩ := outcome_holds_elim hev
  exact ⟨s2, rest, h, ((make_maze_no_rooms_region 11 7 (by decide) (by decide) s_blank
    (List.replicate 40 0)).2 s2 rest h).1⟩

/-! ## `hunt` and the unused odd cells -/

theorem hunt_none_of_no_unused (W H : Int) (s : state) (draws : List Nat)
    (h : ∀ q ∈ odd_cells W H, unused (s.tiles q.1 q.2) = false) :
    hunt W H s draws = outcome.ok (none, s, draws) := by
  have h1 : (odd_cells W H).find?
      (fun p => unused (s.tiles p.1 p.2) &&
        decide (0 < (hunt_neighbours W H s.tiles p.1 p.2).length)) = none := by
    rw [List.find?_eq_none]
    intro p hp
    rw [h p hp]
    simp
  have h2 : (odd_cells W H).find? (fun p => unused (s.tiles p.1 p.2)) = none := by
    rw [List.find?_eq_none]
    intro p hp
    rw [h p hp]
    simp
  unfold hunt
  rw [h1]
  dsimp only
  rw [h2]

theorem randrange_index (n : Nat) (hn : 0 < n) (rnd : Nat) :
    (randrange ⟨0, (n : Int) - 1⟩ rnd).toNat < n := by
  unfold randrange
  dsimp only
  have h1 : (0 : Int) < (n : Int) := by exact_mod_cast hn
  have h2 := Int.emod_lt_of_pos (rnd : Int) h1
  have h3 := Int.emod_nonneg (rnd : Int) (ne_of_gt h1)
  have e : (n : Int) - 1 - 0 + 1 = n := by omega
  rw [e]
  omega

theorem hunt_some_of_unused (W H : Int) (s : state) (rnd : Nat) (rest : List Nat)
    (h : ∃ q ∈ odd_cells W H, unused (s.tiles q.1 q.2) = true) :
    ∃ p s' rest', hunt W H s (rnd :: rest) = outcome.ok (some p, s', rest') := by
  unfold hunt
  cases h1 : (odd_cells W H).find?
      (fun p => unused (s.tiles p.1 p.2) &&
        decide (0 < (hunt_neighbours W H s.tiles p.1 p.2).length)) with
  | some p =>
    dsimp only
    have hp := List.find?_some h1
    simp only [Bool.and_eq_true, decide_eq_true_eq] at hp
    have hlt := randrange_index (hunt_neighbours W H s.tiles p.1 p.2).length hp.2 rnd
    obtain ⟨n, hn⟩ : ∃ n, (hunt_neighbours W H s.tiles p.1 p.2)[(randrange
        ⟨0, ((hunt_neighbours W H s.tiles p.1 p.2).length : Int) - 1⟩ rnd).toNat]? = some n :=
      ⟨_, List.getElem?_eq_getElem hlt⟩
    rw [hn]
    exact ⟨p, _, _, rfl⟩
  | none =>
    dsimp only
    cases h2 : (odd_cells W H).find? (fun p => unused (s.tiles p.1 p.2)) with
    | some p => exact ⟨p, _, _, rfl⟩
    | none =>
      exfalso
      obtain ⟨q, hq, hu⟩ := h
      rw [List.find?_eq_none] at h2
      exact h2 q hq hu

/-- C12: `hunt` returns false exactly when no cell with both coordinates odd is
unused, and returns true (given a draw) when one is; when `make_maze` returns, no
unused odd cell remains; and on a grid prepared by `init` and `make_rooms`, with
odd dimensions of `dims_ok`, every cell with both coordinates odd is floor when
`make_maze` returns. -/
theorem hunt_false_iff_no_unused_odd_cell (W H : Int) (s : state) (draws : List Nat) :
    ((∃ s' rest, hunt W H s draws = outcome.ok (none, s', rest)) ↔
        ∀ q ∈ odd_cells W H, unused (s.tiles q.1 q.2) = false) ∧
      ((∃ q ∈ odd_cells W H, unused (s.tiles q.1 q.2) = true) → ∀ rnd rest,
        ∃ p s' rest', hunt W H s (rnd :: rest) = outcome.ok (some p, s', rest')) ∧
      (∀ s2 rest, make_maze W H s draws = outcome.ok (s2, rest) →
        ∀ q ∈ odd_cells W H, unused (s2.tiles q.1 q.2) = false) ∧
      (dims_ok W H → dims_odd W H →
        ∀ s0 draws0, make_rooms W H (init W H s0) draws0 = outcome.ok (s, draws) →
          ∀ s2 rest, make_maze W H s draws = outcome.ok (s2, rest) →
            ∀ x y, in_bounds W H x y → x % 2 = 1 → y % 2 = 1 →
              (s2.tiles x y).kind = tk_floor) := by
  refine ⟨⟨?_, fun h => ⟨s, draws, hunt_none_of_no_unused W H s draws h⟩⟩,
    fun h rnd rest => hunt_some_of_unused W H s rnd rest h, ?_, ?_⟩
  · rintro ⟨s', rest, h⟩
    rcases hunt_cases W H s draws none s' rest h with hc | hc | hc
    · obtain ⟨p, d, hp, _⟩ := hc
      simp at hp
    · obtain ⟨p, hp, _⟩ := hc
      simp at hp
    · exact hc.2.1
  · intro s2 rest h
    exact (make_maze_loop_ind W H (fun _ => True) (fun _ _ _ => True)
      (fun _ _ _ _ _ _ _ => trivial) (fun _ _ _ _ _ _ _ _ => trivial) _ s draws s2 rest
      trivial h).2
  · intro hd ho s0 draws0 h1 s2 rest h2 x y hin hx hy
    have hR := make_rooms_inv W H hd s0 draws0 s draws h1
    obtain ⟨⟨_, _, hm⟩, hall⟩ := make_maze_inv W H hd ho s hR draws s2 rest h2
    exact (odd_cell_floor W H s hR _ _ hm hall x y hin hx hy).2

/-- Witness of C12: on the 11 × 7 grid with `small_draws`, `make_rooms` and
`make_maze` return and the odd cell `(9, 5)` is floor. -/
theorem hunt_false_iff_no_unused_odd_cell_witness :
    dims_ok 11 7 ∧ dims_odd 11 7 ∧
      ∃ s1 d1 s2 d2, make_rooms 11 7 (init 11 7 s_blank) small_draws = outcome.ok (s1, d1) ∧
        make_maze 11 7 s1 d1 = outcome.ok (s2, d2) ∧ (s2.tiles 9 5).kind = tk_floor := by
  obtain ⟨s1, d1, s2, d2, _, _, _, h1, h2, _, _⟩ := small_run
  exact ⟨by decide, by decide, s1, d1, s2, d2, h1, h2,
    (hunt_false_iff_no_unused_odd_cell 11 7 s1 d1).2.2.2 (by decide) (by decide) s_blank
      small_draws h1 s2 d2 h2 9 5 (by decide) (by decide) (by decide)⟩

/-! ## `select` always returns -/

theorem select_loop_some {T : Type} (items : List T) :
    ∀ (ws : List Int) (r : Int), items.length = ws.length → (∀ w ∈ ws, 0 < w) →
      items ≠ [] → r ≤ ws.sum → ∃ a, select_loop items ws r = some a := by
  induction items with
  | nil => intro ws r _ _ h; exact absurd rfl h
  | cons item items ih =>
    intro ws r hlen hpos _ hr
    cases ws with
    | nil => simp at hlen
    | cons w ws =>
      unfold select_loop
      by_cases h : r - w ≤ 0
      · rw [if_pos h]; exact ⟨item, rfl⟩
      · rw [if_neg h]
        simp only [List.sum_cons] at hr
        simp only [List.length_cons, add_left_inj] at hlen
        refine ih ws (r - w) hlen (fun v hv => hpos v (List.mem_cons_of_mem _ hv)) ?_ (by omega)
        rintro rfl
        have : ws = [] := List.length_eq_zero.mp hlen.symm
        subst this
        simp only [List.sum_nil] at hr
        omega

theorem to_int_of_small (v : Int) (h1 : -2147483648 ≤ v) (h2 : v ≤ 2147483647) :
    to_int v = v := by
  unfold to_int; omega

theorem push_all_fold {T : Type} (l : List (T × Int)) :
    ∀ (s : weighted_selector_t T), 0 ≤ s.weight_sum → (∀ p ∈ l, 0 < p.2) →
      s.weight_sum + (l.map Prod.snd).sum ≤ 2147483647 →
      (l.foldl (fun s p => s.push_back p.1 p.2) s).items = s.items ++ l.map Prod.fst ∧
        (l.foldl (fun s p => s.push_back p.1 p.2) s).weights = s.weights ++ l.map Prod.snd ∧
        (l.foldl (fun s p => s.push_back p.1 p.2) s).weight_sum
          = s.weight_sum + (l.map Prod.snd).sum := by
  induction l with
  | nil => intro s _ _ _; simp
  | cons p l ih =>
    intro s h0 hpos hsum
    simp only [List.foldl_cons]
    simp only [List.map_cons, List.sum_cons] at hsum
    have hp : 0 < p.2 := hpos p (List.mem_cons_self _ _)
    have hl : 0 ≤ (l.map Prod.snd).sum := by
      apply List.sum_nonneg
      intro w hw
      rw [List.mem_map] at hw
      obtain ⟨q, hq, rfl⟩ := hw
      exact le_of_lt (hpos q (List.mem_cons_of_mem _ hq))
    have hws : (s.push_back p.1 p.2).weight_sum = s.weight_sum + p.2 := by
      unfold weighted_selector_t.push_back
      dsimp only
      exact to_int_of_small _ (by omega) (by omega)
    obtain ⟨h1, h2, h3⟩ := ih (s.push_back p.1 p.2) (by rw [hws]; omega)
      (fun q hq => hpos q (List.mem_cons_of_mem _ hq)) (by rw [hws]; omega)
    rw [h1, h2, h3, hws]
    simp only [weighted_selector_t.push_back, List.map_cons, List.sum_cons, List.append_assoc,
      List.singleton_append, true_and]
    omega

theorem push_all_fields {T : Type} (l : List (T × Int)) (hpos : ∀ p ∈ l, 0 < p.2)
    (hsum : (l.map Prod.snd).sum ≤ 2147483647) :
    (push_all l).items = l.map Prod.fst ∧ (push_all l).weights = l.map Prod.snd ∧
      (push_all l).weight_sum = (l.map Prod.snd).sum := by
  obtain ⟨h1, h2, h3⟩ := push_all_fold l weighted_selector_t.new (le_refl _) hpos
    (by simpa [weighted_selector_t.new] using hsum)
  unfold push_all
  rw [h1, h2, h3]
  simp [weighted_selector_t.new]

/-- What `select` does on a selector built by `push_back` calls with positive
weights whose sum stays below the largest `int`. -/
theorem push_all_select {T : Type} (l : List (T × Int)) (hne : l ≠ [])
    (hpos : ∀ p ∈ l, 0 < p.2) (hsum : (l.map Prod.snd).sum ≤ 2147483646) :
    (push_all l).empty = false ∧
      (0 ≤ (push_all l).weight_sum ∧ (push_all l).weight_sum ≤ 2147483646) ∧
      (∀ rnd : Nat, 0 ≤ randrange ⟨0, (push_all l).weight_sum⟩ rnd ∧
        randrange ⟨0, (push_all l).weight_sum⟩ rnd ≤ (push_all l).weight_sum) ∧
      (∀ r : Int, r ≤ (push_all l).weight_sum →
        ∃ a, select_loop (push_all l).items (push_all l).weights r = some a ∧
          a ∈ l.map Prod.fst) := by
  obtain ⟨hi, hw, hs⟩ := push_all_fields l hpos (by omega)
  have hwpos : ∀ w ∈ l.map Prod.snd, 0 < w := by
    intro w hmem
    rw [List.mem_map] at hmem
    obtain ⟨p, hp, rfl⟩ := hmem
    exact hpos p hp
  have hnn : 0 ≤ (push_all l).weight_sum := by
    rw [hs]
    exact List.sum_nonneg (fun w hmem => le_of_lt (hwpos w hmem))
  have hitems : l.map Prod.fst ≠ [] := by
    intro h
    exact hne (List.map_eq_nil_iff.mp h)
  refine ⟨?_, ⟨hnn, by rw [hs]; exact hsum⟩,
    fun rnd => randrange_bounds ⟨0, (push_all l).weight_sum⟩ rnd hnn, ?_⟩
  · unfold weighted_selector_t.empty
    rw [hi]
    cases hl : l.map Prod.fst with
    | nil => exact absurd hl hitems
    | cons _ _ => rfl
  · intro r hr
    rw [hi, hw]
    rw [hs] at hr
    obtain ⟨a, ha⟩ := select_loop_some (l.map Prod.fst) (l.map Prod.snd) r
      (by rw [List.length_map, List.length_map]) hwpos hitems hr
    exact ⟨a, ha, select_loop_mem _ _ _ _ ha⟩

theorem walk_weight_one (d : xy_t) (dx dy : Int) : walk_weight d dx dy = 1 := by
  unfold walk_weight
  split_ifs <;> rfl

theorem walk_neighbours_fold_push (W H : Int) (g : grid) (x y dx dy : Int) (l : List xy_t) :
    ∀ (s : weighted_selector_t xy_t),
      l.foldl
        (fun ns d =>
          if in_bounds W H (x + d.x) (y + d.y) then
            if unused (g (x + d.x) (y + d.y)) then
              ns.push_back ⟨x + d.x, y + d.y⟩ (walk_weight d dx dy)
            else ns
          else ns) s
        = (walk_pushes W H g x y dx dy l).foldl (fun s p => s.push_back p.1 p.2) s := by
  induction l with
  | nil => intro s; rfl
  | cons d l ih =>
    intro s
    simp only [List.foldl_cons]
    rw [ih]
    unfold walk_pushes
    by_cases h1 : in_bounds W H (x + d.x) (y + d.y)
    · by_cases h2 : unused (g (x + d.x) (y + d.y)) = true
      · rw [if_pos h1, if_pos h2, List.filter_cons_of_pos (by simp [h1, h2])]
        rfl
      · rw [if_pos h1, if_neg h2, List.filter_cons_of_neg (by simp [h2])]
    · rw [if_neg h1, List.filter_cons_of_neg (by simp [h1])]

/-- The selector of `walk` is built by at most four `push_back` calls of weight 1. -/
theorem walk_neighbours_pushes (W H : Int) (g : grid) (x y dx dy : Int) :
    walk_neighbours W H g x y dx dy = push_all (walk_pushes W H g x y dx dy dirs) ∧
      (∀ p ∈ walk_pushes W H g x y dx dy dirs, p.2 = 1) ∧
      (walk_pushes W H g x y dx dy dirs).length ≤ 4 ∧
      ((walk_pushes W H g x y dx dy dirs).map Prod.snd).sum ≤ 4 := by
  have hone : ∀ p ∈ walk_pushes W H g x y dx dy dirs, p.2 = 1 := by
    intro p hp
    unfold walk_pushes at hp
    rw [List.mem_map] at hp
    obtain ⟨d, _, rfl⟩ := hp
    exact walk_weight_one d dx dy
  have hlen : (walk_pushes W H g x y dx dy dirs).length ≤ 4 := by
    unfold walk_pushes
    rw [List.length_map]
    exact le_trans (List.length_filter_le _ _) (by decide)
  have hsum : ∀ (l : List (xy_t × Int)), (∀ p ∈ l, p.2 = 1) →
      (l.map Prod.snd).sum = (l.length : Int) := by
    intro l
    induction l with
    | nil => intro _; rfl
    | cons p l ih =>
      intro h
      rw [List.map_cons, List.sum_cons, ih (fun q hq => h q (List.mem_cons_of_mem _ hq)),
        h p (List.mem_cons_self _ _), List.length_cons]
      push_cast
      ring
  refine ⟨?_, hone, hlen, ?_⟩
  · unfold walk_neighbours push_all
    exact walk_neighbours_fold_push W H g x y dx dy dirs _
  · rw [hsum _ hone]
    exact_mod_cast hlen

theorem walk_select_some (W H : Int) (g : grid) (x y dx dy : Int) (rnd : Nat)
    (hne : (walk_neighbours W H g x y dx dy).empty = false) :
    ∃ n, (walk_neighbours W H g x y dx dy).select rnd = some n := by
  obtain ⟨he, hone, _, hsum⟩ := walk_neighbours_pushes W H g x y dx dy
  have hpos : ∀ p ∈ walk_pushes W H g x y dx dy dirs, 0 < p.2 := by
    intro p hp
    rw [hone p hp]
    decide
  have hnil : walk_pushes W H g x y dx dy dirs ≠ [] := by
    intro h
    rw [he, h] at hne
    exact absurd hne (by decide)
  obtain ⟨_, _, hr, hl⟩ := push_all_select _ hnil hpos (by omega)
  rw [he]
  unfold weighted_selector_t.select
  obtain ⟨a, ha, _⟩ := hl _ (hr rnd).2
  exact ⟨a, ha⟩

/-! ## Termination of `make_maze` -/

theorem unused_carve (k : Int) (t : tile_t) : unused (carve k t) = false := by
  unfold unused carve
  simp

theorem unused_modify_carve (g : grid) (x y k a b : Int)
    (h : unused (modify g x y (carve k) a b) = true) : unused (g a b) = true := by
  by_cases hab : a = x ∧ b = y
  · obtain ⟨rfl, rfl⟩ := hab
    rw [modify_same, unused_carve] at h
    exact absurd h (by decide)
  · rwa [modify_other _ _ _ _ _ _ hab] at h

theorem unused_odd_modify_le (W H : Int) (g : grid) (x y k : Int) :
    unused_odd W H (modify g x y (carve k)) ≤ unused_odd W H g := by
  unfold unused_odd
  exact List.countP_mono_left (fun p _ h => unused_modify_carve g x y k p.1 p.2 h)

theorem unused_odd_modify_lt (W H : Int) (g : grid) (x y k : Int)
    (hp : (x, y) ∈ odd_cells W H) (hu : unused (g x y) = true) :
    unused_odd W H (modify g x y (carve k)) < unused_odd W H g := by
  unfold unused_odd
  refine countP_lt_of_flip _ _ _ (x, y)
    (fun p _ h => unused_modify_carve g x y k p.1 p.2 h) hp hu ?_
  dsimp only
  rw [modify_same, unused_carve]

theorem unused_odd_pos (W H : Int) (g : grid) (p : Int × Int) (hp : p ∈ odd_cells W H)
    (hu : unused (g p.1 p.2) = true) : 0 < unused_odd W H g := by
  unfold unused_odd
  exact List.countP_pos_iff.mpr ⟨p, hp, hu⟩

theorem mid_ne (d : xy_t) (hd : d ∈ dirs) (x y : Int) :
    ¬ (x + d.x = (x + (x + d.x)) / 2 ∧ y + d.y = (y + (y + d.y)) / 2) ∧
      ¬ (x = (x + (x + d.x)) / 2 ∧ y = (y + (y + d.y)) / 2) := by
  rw [mem_dirs] at hd
  rcases hd with rfl | rfl | rfl | rfl <;> dsimp only <;> omega

theorem walk_total (W H : Int) :
    ∀ (draws : List Nat) (s : state) (x y dx dy : Int), (x, y) ∈ odd_cells W H →
      unused (s.tiles x y) = true →
      (∃ s' rest c, walk W H draws s x y dx dy = outcome.ok (s', rest) ∧
          draws.length = rest.length + c ∧
          unused_odd W H s'.tiles + c + 1 ≤ unused_odd W H s.tiles) ∨
        (walk W H draws s x y dx dy = outcome.no_draws ∧
          draws.length + 2 ≤ unused_odd W H s.tiles) := by
  intro draws
  induction draws with
  | nil =>
    intro s x y dx dy hp hu
    have hlt := unused_odd_modify_lt W H s.tiles x y s.next_region hp hu
    unfold walk
    by_cases he : (walk_neighbours W H (modify s.tiles x y (carve s.next_region))
        x y dx dy).empty = true
    · rw [if_pos he]
      exact Or.inl ⟨_, [], 0, rfl, rfl, by dsimp only; omega⟩
    · rw [if_neg he]
      refine Or.inr ⟨rfl, ?_⟩
      obtain ⟨n, hn⟩ := walk_select_some W H _ x y dx dy 0 (by simpa using he)
      have hmem := select_loop_mem _ _ _ _ hn
      obtain ⟨d, hd, rfl, hin, hun⟩ := (mem_walk_neighbours W H _ x y dx dy n).mp hmem
      have hx := (mem_odd_cells W H (x, y)).mp hp
      have ho := dirs_odd d hd x y hx.1.1 hx.2.1
      have hpos := unused_odd_pos W H _ (x + d.x, y + d.y)
        (odd_in_bounds_mem W H _ _ hin ho.1 ho.2) hun
      simp only [List.length_nil]
      omega
  | cons rnd rest ih =>
    intro s x y dx dy hp hu
    have hlt := unused_odd_modify_lt W H s.tiles x y s.next_region hp hu
    unfold walk
    by_cases he : (walk_neighbours W H (modify s.tiles x y (carve s.next_region))
        x y dx dy).empty = true
    · rw [if_pos he]
      exact Or.inl ⟨_, rnd :: rest, 0, rfl, rfl, by dsimp only; omega⟩
    · rw [if_neg he]
      obtain ⟨n, hn⟩ := walk_select_some W H _ x y dx dy rnd (by simpa using he)
      rw [hn]
      dsimp only
      have hmem := select_loop_mem _ _ _ _ hn
      obtain ⟨d, hd, rfl, hin, hun⟩ := (mem_walk_neighbours W H _ x y dx dy n).mp hmem
      have hx := (mem_odd_cells W H (x, y)).mp hp
      have ho := dirs_odd d hd x y hx.1.1 hx.2.1
      have hnp := odd_in_bounds_mem W H _ _ hin ho.1 ho.2
      have hle := unused_odd_modify_le W H (modify s.tiles x y (carve s.next_region))
        ((x + (x + d.x)) / 2) ((y + (y + d.y)) / 2) s.next_region
      have hun2 : unused (modify (modify s.tiles x y (carve s.next_region))
          ((x + (x + d.x)) / 2) ((y + (y + d.y)) / 2) (carve s.next_region)
          (x + d.x) (y + d.y)) = true := by
        rw [modify_other _ _ _ _ _ _ (mid_ne d hd x y).1]
        exact hun
      rcases ih
          { s with
            tiles := modify (modify s.tiles x y (carve s.next_region))
              ((x + (x + d.x)) / 2) ((y + (y + d.y)) / 2) (carve s.next_region) }
          (x + d.x) (y + d.y) (x + d.x - x) (y + d.y - y) hnp hun2 with
        ⟨s', rest', c, hw, hl, hc⟩ | ⟨hw, hl⟩
      · refine Or.inl ⟨s', rest', c + 1, hw, ?_, ?_⟩
        · simp only [List.length_cons]; omega
        · dsimp only at hc; omega
      · refine Or.inr ⟨hw, ?_⟩
        dsimp only at hl
        simp only [List.length_cons]
        omega

theorem hunt_draws (W H : Int) (s : state) (draws : List Nat) (res : Option (Int × Int))
    (s' : state) (rest : List Nat) (h : hunt W H s draws = outcome.ok (res, s', rest)) :
    draws.length ≤ rest.length + 1 := by
  unfold hunt at h
  split at h
  · split at h
    · simp at h
    · split at h
      · simp at h
      · simp only [outcome.ok.injEq, Prod.mk.injEq] at h
        rw [← h.2.2]
        simp
  · split at h
    · simp only [outcome.ok.injEq, Prod.mk.injEq] at h
      rw [← h.2.2]
      omega
    · simp only [outcome.ok.injEq, Prod.mk.injEq] at h
      rw [← h.2.2]
      omega

theorem hunt_progress (W H : Int) (s : state) (draws : List Nat)
    (h : ∃ q ∈ odd_cells W H, unused (s.tiles q.1 q.2) = true) :
    (hunt W H s draws = outcome.no_draws ∧ draws = []) ∨
      ∃ p s' rest, hunt W H s draws = outcome.ok (some p, s', rest) ∧ p ∈ odd_cells W H ∧
        unused (s'.tiles p.1 p.2) = true ∧ unused_odd W H s'.tiles ≤ unused_odd W H s.tiles ∧
        draws.length ≤ rest.length + 1 := by
  cases draws with
  | nil =>
    unfold hunt
    cases h1 : (odd_cells W H).find?
        (fun p => unused (s.tiles p.1 p.2) &&
          decide (0 < (hunt_neighbours W H s.tiles p.1 p.2).length)) with
    | some p => exact Or.inl ⟨rfl, rfl⟩
    | none =>
      dsimp only
      cases h2 : (odd_cells W H).find? (fun p => unused (s.tiles p.1 p.2)) with
      | some p =>
        have hup : unused (s.tiles p.1 p.2) = true :=
          @List.find?_some _ (fun p => unused (s.tiles p.1 p.2)) p _ h2
        exact Or.inr ⟨p, _, _, rfl, List.mem_of_find?_eq_some h2, hup, le_refl _, by simp⟩
      | none =>
        exfalso
        obtain ⟨q, hq, hu⟩ := h
        rw [List.find?_eq_none] at h2
        exact h2 q hq hu
  | cons rnd rest =>
    obtain ⟨p, s', rest', hh⟩ := hunt_some_of_unused W H s rnd rest h
    refine Or.inr ⟨p, s', rest', hh, ?_⟩
    rcases hunt_cases W H s (rnd :: rest) (some p) s' rest' hh with hc | hc | hc
    · obtain ⟨q, d, hq, hmem, hu, hdd, hin, hmf, rfl⟩ := hc
      simp only [Option.some.injEq] at hq
      have hq' : q = p := hq.symm
      clear hq
      subst hq'
      refine ⟨hmem, ?_, unused_odd_modify_le W H _ _ _ _, ?_⟩
      · dsimp only
        have hne := (mid_ne d hdd q.1 q.2).2
        rw [modify_other _ _ _ _ _ _ hne]
        exact hu
      · exact hunt_draws W H s (rnd :: rest) _ _ rest' hh
    · obtain ⟨q, hq, hmem, hu, _, _, rfl, hr⟩ := hc
      simp only [Option.some.injEq] at hq
      have hq' : q = p := hq.symm
      clear hq
      subst hq'
      exact ⟨hmem, hu, le_refl _, by rw [hr]; omega⟩
    · simp at hc
theorem make_maze_loop_total (W H : Int) :
    ∀ (fuel : Nat) (s : state) (draws : List Nat), unused_odd W H s.tiles < fuel →
      (∃ s' rest, make_maze_loop W H fuel s draws = outcome.ok (s', rest)) ∨
        (make_maze_loop W H fuel s draws = outcome.no_draws ∧
          draws.length < 2 * unused_odd W H s.tiles) := by
  intro fuel
  induction fuel with
  | zero => intro s draws h; omega
  | succ fuel ih =>
    intro s draws hf
    unfold make_maze_loop
    by_cases hex : ∃ q ∈ odd_cells W H, unused (s.tiles q.1 q.2) = true
    · obtain ⟨q, hq, hqu⟩ := hex
      have hpos := unused_odd_pos W H s.tiles q hq hqu
      rcases hunt_progress W H s draws ⟨q, hq, hqu⟩ with ⟨hh, hnil⟩ | ⟨p, s1, d1, hh, hp, hu, hle, hl⟩
      · rw [hh, hnil]
        refine Or.inr ⟨rfl, ?_⟩
        simp only [List.length_nil]
        omega
      · rw [hh]
        simp only [outcome.bind]
        rcases walk_total W H d1 s1 p.1 p.2 0 0 hp hu with ⟨s2, d2, c, hw, hl2, hc⟩ | ⟨hw, hl2⟩
        · rw [hw]
          simp only [outcome.bind]
          rcases ih s2 d2 (by omega) with hok | ⟨hnd, hl3⟩
          · exact Or.inl hok
          · exact Or.inr ⟨hnd, by omega⟩
        · rw [hw]
          exact Or.inr ⟨rfl, by omega⟩
    · have hall : ∀ q ∈ odd_cells W H, unused (s.tiles q.1 q.2) = false := by
        intro q hq
        by_contra hne
        exact hex ⟨q, hq, by simpa using hne⟩
      rw [hunt_none_of_no_unused W H s draws hall]
      exact Or.inl ⟨s, draws, rfl⟩

theorem unused_odd_le (W H : Int) (g : grid) : unused_odd W H g ≤ (odd_cells W H).length := by
  unfold unused_odd
  exact List.countP_le_length _

/-- C13: `make_maze` terminates on every grid: the loop never uses up its fuel
and never stops at an assertion or a bad index, and it returns as soon as the
list holds two draws for each unused odd cell.  A successful `hunt` followed by
its `walk` strictly decreases the number of unused odd cells; every cell `walk`
can recurse into is an odd cell that is unused in the grid the recursive call
receives; and a `walk` that used `c` draws, so made `c + 1` nested calls, started
on a grid with at least `c + 1` unused odd cells. -/
theorem make_maze_terminates (W H : Int) (s : state) (draws : List Nat) :
    ((∃ s' rest, make_maze W H s draws = outcome.ok (s', rest)) ∨
        make_maze W H s draws = outcome.no_draws) ∧
      (2 * unused_odd W H s.tiles ≤ draws.length →
        ∃ s' rest, make_maze W H s draws = outcome.ok (s', rest)) ∧
      (∀ p s1 d1 s2 d2, hunt W H s draws = outcome.ok (some p, s1, d1) →
        walk W H d1 s1 p.1 p.2 0 0 = outcome.ok (s2, d2) →
        unused_odd W H s2.tiles < unused_odd W H s.tiles) ∧
      (∀ x y dx dy n, (x, y) ∈ odd_cells W H →
        n ∈ (walk_neighbours W H (modify s.tiles x y (carve s.next_region)) x y dx dy).items →
        (n.x, n.y) ∈ odd_cells W H ∧
          unused (modify (modify s.tiles x y (carve s.next_region))
            ((x + n.x) / 2) ((y + n.y) / 2) (carve s.next_region) n.x n.y) = true) ∧
      (∀ x y dx dy s' rest, (x, y) ∈ odd_cells W H → unused (s.tiles x y) = true →
        walk W H draws s x y dx dy = outcome.ok (s', rest) →
        ∃ c, draws.length = rest.length + c ∧ c + 1 ≤ unused_odd W H s.tiles) := by
  have hfuel : unused_odd W H s.tiles < (odd_cells W H).length + 1 :=
    Nat.lt_succ_of_le (unused_odd_le W H s.tiles)
  refine ⟨?_, ?_, ?_, ?_, ?_⟩
  · rcases make_maze_loop_total W H _ s draws hfuel with h | h
    · exact Or.inl h
    · exact Or.inr h.1
  · intro hlen
    rcases make_maze_loop_total W H _ s draws hfuel with h | h
    · exact h
    · omega
  · intro p s1 d1 s2 d2 hh hw
    have hex : ∃ q ∈ odd_cells W H, unused (s.tiles q.1 q.2) = true := by
      rcases hunt_cases W H s draws (some p) s1 d1 hh with hc | hc | hc
      · obtain ⟨q, _, _, hmem, hu, _⟩ := hc
        exact ⟨q, hmem, hu⟩
      · obtain ⟨q, _, hmem, hu, _⟩ := hc
        exact ⟨q, hmem, hu⟩
      · simp at hc
    rcases hunt_progress W H s draws hex with ⟨hnd, _⟩ | ⟨p', s1', d1', hh', hp, hu, hle, _⟩
    · rw [hnd] at hh
      simp at hh
    · rw [hh] at hh'
      simp only [outcome.ok.injEq, Prod.mk.injEq, Option.some.injEq] at hh'
      obtain ⟨rfl, rfl, rfl⟩ := hh'
      rcases walk_total W H d1 s1 p.1 p.2 0 0 hp hu with ⟨s2', d2', c, hw', _, hc⟩ | ⟨hw', _⟩
      · rw [hw] at hw'
        simp only [outcome.ok.injEq, Prod.mk.injEq] at hw'
        obtain ⟨rfl, rfl⟩ := hw'
        omega
      · rw [hw] at hw'
        simp at hw'
  · intro x y dx dy n hp hn
    obtain ⟨d, hd, rfl, hin, hun⟩ := (mem_walk_neighbours W H _ x y dx dy n).mp hn
    have hx := (mem_odd_cells W H (x, y)).mp hp
    have ho := dirs_odd d hd x y hx.1.1 hx.2.1
    refine ⟨odd_in_bounds_mem W H _ _ hin ho.1 ho.2, ?_⟩
    dsimp only
    rw [modify_other _ _ _ _ _ _ (mid_ne d hd x y).1]
    exact hun
  · intro x y dx dy s' rest hp hu hw
    rcases walk_total W H draws s x y dx dy hp hu with ⟨s2, d2, c, hw', hl, hc⟩ | ⟨hw', _⟩
    · rw [hw] at hw'
      simp only [outcome.ok.injEq, Prod.mk.injEq] at hw'
      obtain ⟨rfl, rfl⟩ := hw'
      exact ⟨c, hl, by omega⟩
    · rw [hw] at hw'
      simp at hw'

/-- Witness of C13: the blank 11 × 7 grid has 15 unused odd cells, and with thirty
draws `make_maze` returns on it. -/
theorem make_maze_terminates_witness :
    2 * unused_odd 11 7 (init 11 7 s_blank).tiles ≤ (List.replicate 30 0).length ∧
      ∃ s' rest, make_maze 11 7 (init 11 7 s_blank) (List.replicate 30 0)
        = outcome.ok (s', rest) :=
  ⟨by decide, (make_maze_terminates 11 7 (init 11 7 s_blank) (List.replicate 30 0)).2.1
    (by decide)⟩

/-! ## Maze regions are trees -/

theorem mem_grid_cells (W H : Int) (p : Int × Int) :
    p ∈ grid_cells W H ↔ in_bounds W H p.1 p.2 := by
  unfold grid_cells in_bounds
  rw [Finset.mem_product, Finset.mem_Icc, Finset.mem_Icc]
  omega

theorem mem_region_tiles (W H : Int) (g : grid) (r : Int) (p : Int × Int) :
    p ∈ region_tiles W H g r ↔
      in_bounds W H p.1 p.2 ∧ (g p.1 p.2).kind = tk_floor ∧ (g p.1 p.2).region = r := by
  unfold region_tiles
  rw [Finset.mem_filter, mem_grid_cells]

theorem mem_region_cells (W H : Int) (g : grid) (r : Int) (p : Int × Int) :
    p ∈ region_cells W H g r ↔ p ∈ region_tiles W H g r ∧ (p.1 % 2 = 1 ∧ p.2 % 2 = 1) := by
  unfold region_cells
  rw [Finset.mem_filter]

theorem mem_region_mids (W H : Int) (g : grid) (r : Int) (p : Int × Int) :
    p ∈ region_mids W H g r ↔ p ∈ region_tiles W H g r ∧ ¬ (p.1 % 2 = 1 ∧ p.2 % 2 = 1) := by
  unfold region_mids
  rw [Finset.mem_filter]

theorem region_tiles_card (W H : Int) (g : grid) (r : Int) :
    (region_cells W H g r).card + (region_mids W H g r).card = (region_tiles W H g r).card := by
  unfold region_cells region_mids
  exact Finset.filter_card_add_filter_neg_card_eq_card _

theorem maze_tile_of_region (W H : Int) (s1 : state) (hR : rooms_inv W H s1) (g : grid)
    (k : Int) (hinv : maze_inv W H s1 g k) (r : Int) (hr : s1.next_region < r)
    (p : Int × Int) (hp : p ∈ region_tiles W H g r) : maze_link W H g p.1 p.2 r := by
  rw [mem_region_tiles] at hp
  obtain ⟨hin, hk, hreg⟩ := hp
  rcases floor_tile_kind W H s1 hR g k hinv p ⟨hin, hk⟩ with ⟨i, rm, hi, _, hri, _⟩ | ⟨hmf, _⟩
  · exfalso
    have hlt : i < s1.rooms.length := by
      rcases Nat.lt_or_ge i s1.rooms.length with h | h
      · exact h
      · rw [List.getElem?_eq_none h] at hi
        simp at hi
    have hn := hR.2.1
    have : (i : Int) < (s1.rooms.length : Int) := by exact_mod_cast hlt
    omega
  · exact ⟨hin, hmf, hreg⟩

theorem region_tiles_of_link (W H : Int) (g : grid) (x y r : Int)
    (h : maze_link W H g x y r) : (x, y) ∈ region_tiles W H g r := by
  rw [mem_region_tiles]
  obtain ⟨hin, hmf, hreg⟩ := h
  exact ⟨hin, ((maze_floor_iff _).mp hmf).1, hreg⟩
theorem pair_before_snd (m : Int × Int) : (pair_before m).2 = m := by
  unfold pair_before
  split_ifs <;> rfl

theorem pair_after_fst (m : Int × Int) : (pair_after m).1 = m := by
  unfold pair_after
  split_ifs <;> rfl

theorem pair_before_injective : Function.Injective pair_before := by
  intro a b h
  have := congrArg Prod.snd h
  rwa [pair_before_snd, pair_before_snd] at this

theorem pair_after_injective : Function.Injective pair_after := by
  intro a b h
  have := congrArg Prod.fst h
  rwa [pair_after_fst, pair_after_fst] at this

/-- What `maze_inv.shape` says of a tile of a maze region, in terms of
`region_tiles`. -/
theorem region_tile_shape (W H : Int) (s1 : state) (hR : rooms_inv W H s1) (g : grid)
    (k : Int) (hinv : maze_inv W H s1 g k) (r : Int) (hr : s1.next_region < r)
    (p : Int × Int) (hp : p ∈ region_tiles W H g r) :
    (p.1 % 2 = 1 ∧ p.2 % 2 = 1) ∨
      (p.1 % 2 = 0 ∧ p.2 % 2 = 1 ∧ (p.1 - 1, p.2) ∈ region_tiles W H g r ∧
        (p.1 + 1, p.2) ∈ region_tiles W H g r) ∨
      (p.1 % 2 = 1 ∧ p.2 % 2 = 0 ∧ (p.1, p.2 - 1) ∈ region_tiles W H g r ∧
        (p.1, p.2 + 1) ∈ region_tiles W H g r) := by
  obtain ⟨hin, hmf, hreg⟩ := maze_tile_of_region W H s1 hR g k hinv r hr p hp
  rcases hinv.shape p.1 p.2 hin hmf with h | ⟨h1, h2, l1, l2⟩ | ⟨h1, h2, l1, l2⟩
  · exact Or.inl h
  · rw [hreg] at l1 l2
    exact Or.inr (Or.inl ⟨h1, h2, region_tiles_of_link W H g _ _ r l1,
      region_tiles_of_link W H g _ _ r l2⟩)
  · rw [hreg] at l1 l2
    exact Or.inr (Or.inr ⟨h1, h2, region_tiles_of_link W H g _ _ r l1,
      region_tiles_of_link W H g _ _ r l2⟩)

theorem region_pairs_eq (W H : Int) (s1 : state) (hR : rooms_inv W H s1) (g : grid)
    (k : Int) (hinv : maze_inv W H s1 g k) (r : Int) (hr : s1.next_region < r) :
    region_pairs W H g r
      = (region_mids W H g r).image pair_before ∪ (region_mids W H g r).image pair_after := by
  ext e
  obtain ⟨p, q⟩ := e
  unfold region_pairs
  rw [Finset.mem_filter, Finset.mem_product, Finset.mem_union, Finset.mem_image,
    Finset.mem_image]
  dsimp only
  constructor
  · rintro ⟨⟨hp, hq⟩, hadj⟩
    have sp := region_tile_shape W H s1 hR g k hinv r hr p hp
    have sq := region_tile_shape W H s1 hR g k hinv r hr q hq
    have sp' : (p.1 % 2 = 1 ∧ p.2 % 2 = 1) ∨ (p.1 % 2 = 0 ∧ p.2 % 2 = 1) ∨
        (p.1 % 2 = 1 ∧ p.2 % 2 = 0) := by
      rcases sp with h | h | h
      · exact Or.inl h
      · exact Or.inr (Or.inl ⟨h.1, h.2.1⟩)
      · exact Or.inr (Or.inr ⟨h.1, h.2.1⟩)
    have sq' : (q.1 % 2 = 1 ∧ q.2 % 2 = 1) ∨ (q.1 % 2 = 0 ∧ q.2 % 2 = 1) ∨
        (q.1 % 2 = 1 ∧ q.2 % 2 = 0) := by
      rcases sq with h | h | h
      · exact Or.inl h
      · exact Or.inr (Or.inl ⟨h.1, h.2.1⟩)
      · exact Or.inr (Or.inr ⟨h.1, h.2.1⟩)
    clear sp sq
    obtain ⟨p1, p2⟩ := p
    obtain ⟨q1, q2⟩ := q
    simp only [Prod.mk.injEq] at hadj
    dsimp only at sp' sq'
    by_cases hpo : p1 % 2 = 1 ∧ p2 % 2 = 1
    · left
      refine ⟨(q1, q2), (mem_region_mids W H g r _).mpr ⟨hq, ?_⟩, ?_⟩
      · dsimp only; omega
      · unfold pair_before
        dsimp only
        rcases hadj with ⟨h1, h2⟩ | ⟨h1, h2⟩
        · rw [if_pos (by omega)]
          simp only [Prod.mk.injEq, and_true]
          omega
        · rw [if_neg (by omega)]
          simp only [Prod.mk.injEq, and_true]
          omega
    · right
      refine ⟨(p1, p2), (mem_region_mids W H g r _).mpr ⟨hp, hpo⟩, ?_⟩
      unfold pair_after
      dsimp only
      rcases hadj with ⟨h1, h2⟩ | ⟨h1, h2⟩
      · rw [if_pos (by omega)]
        simp only [Prod.mk.injEq, true_and]
        omega
      · rw [if_neg (by omega)]
        simp only [Prod.mk.injEq, true_and]
        omega
  · rintro (⟨m, hm, he⟩ | ⟨m, hm, he⟩)
    · rw [mem_region_mids] at hm
      obtain ⟨hmt, hmo⟩ := hm
      rcases region_tile_shape W H s1 hR g k hinv r hr m hmt with h | ⟨h1, h2, l1, l2⟩ |
        ⟨h1, h2, l1, l2⟩
      · exact absurd h hmo
      · unfold pair_before at he
        rw [if_pos h1] at he
        simp only [Prod.mk.injEq] at he
        obtain ⟨rfl, rfl⟩ := he
        refine ⟨⟨l1, hmt⟩, Or.inl ?_⟩
        dsimp only
        rw [sub_add_cancel]
      · unfold pair_before at he
        rw [if_neg (by omega)] at he
        simp only [Prod.mk.injEq] at he
        obtain ⟨rfl, rfl⟩ := he
        refine ⟨⟨l1, hmt⟩, Or.inr ?_⟩
        dsimp only
        rw [sub_add_cancel]
    · rw [mem_region_mids] at hm
      obtain ⟨hmt, hmo⟩ := hm
      rcases region_tile_shape W H s1 hR g k hinv r hr m hmt with h | ⟨h1, h2, l1, l2⟩ |
        ⟨h1, h2, l1, l2⟩
      · exact absurd h hmo
      · unfold pair_after at he
        rw [if_pos h1] at he
        simp only [Prod.mk.injEq] at he
        obtain ⟨rfl, rfl⟩ := he
        exact ⟨⟨hmt, l2⟩, Or.inl rfl⟩
      · unfold pair_after at he
        rw [if_neg (by omega)] at he
        simp only [Prod.mk.injEq] at he
        obtain ⟨rfl, rfl⟩ := he
        exact ⟨⟨hmt, l2⟩, Or.inr rfl⟩

theorem region_pairs_card (W H : Int) (s1 : state) (hR : rooms_inv W H s1) (g : grid)
    (k : Int) (hinv : maze_inv W H s1 g k) (r : Int) (hr : s1.next_region < r) :
    (region_pairs W H g r).card = 2 * (region_mids W H g r).card := by
  rw [region_pairs_eq W H s1 hR g k hinv r hr, Finset.card_union_of_disjoint,
    Finset.card_image_of_injective _ pair_before_injective,
    Finset.card_image_of_injective _ pair_after_injective, two_mul]
  rw [Finset.disjoint_left]
  intro e he1 he2
  rw [Finset.mem_image] at he1 he2
  obtain ⟨m, hm, rfl⟩ := he1
  obtain ⟨m', hm', he⟩ := he2
  have e1 := congrArg Prod.fst he
  rw [pair_after_fst] at e1
  rw [mem_region_mids] at hm hm'
  have hs := region_tile_shape W H s1 hR g k hinv r hr m hm.1
  have hmo := hm.2
  have hmo' := hm'.2
  rw [e1] at hmo'
  clear hm hm' he hinv hR
  unfold pair_before at hmo'
  split_ifs at hmo' with h0
  · dsimp only at hmo'
    rcases hs with h | ⟨h1, h2, _⟩ | ⟨h1, h2, _⟩ <;> omega
  · dsimp only at hmo'
    rcases hs with h | ⟨h1, h2, _⟩ | ⟨h1, h2, _⟩ <;> omega
/-- What the hypotheses of `maze_inv_extend` say of the intervening tile `m`: it is
a wall tile inside the grid, and the region counter fits a `char`. -/
theorem mid_wall (W H : Int) (hd : dims_ok W H) (ho : dims_odd W H) (s1 : state)
    (hR : rooms_inv W H s1) (g : grid) (k : Int) (hinv : maze_inv W H s1 g k)
    (ax ay bx by' mx my : Int) (ha : in_bounds W H ax ay) (hb : in_bounds W H bx by')
    (hao : ax % 2 = 1 ∧ ay % 2 = 1)
    (hstep : ((bx = ax + 2 ∨ bx = ax - 2) ∧ by' = ay) ∨
      (bx = ax ∧ (by' = ay + 2 ∨ by' = ay - 2)))
    (hm : 2 * mx = ax + bx ∧ 2 * my = ay + by')
    (hfa : maze_floor (g ax ay) = true) (hka : (g ax ay).region = k)
    (hub : unused (g bx by') = true) :
    in_bounds W H mx my ∧ (g mx my).kind = tk_wall ∧ s1.next_region < k ∧ to_char k = k := by
  obtain ⟨hbo, hmb, hbm, ham, hab, hmpar, hadj1, hadj2, hcls⟩ :=
    step_geom ax ay bx by' mx my hao hstep hm
  have hk0 : 0 ≤ s1.next_region := by rw [hR.2.1]; exact Int.ofNat_nonneg _
  have ek : to_char k = k :=
    to_char_of_small k (le_trans (by decide) (le_trans hk0 hinv.lower))
      (region_small W H hd ho s1 hR g k hinv.count)
  rw [maze_floor_iff] at hfa
  rw [unused_iff] at hub
  have hsa : (s1.tiles ax ay).room = -1 := by
    by_contra hne
    have := hinv.frame ax ay ha hne
    rw [this] at hfa
    exact hne hfa.2
  have hsb : (s1.tiles bx by').room = -1 := by
    by_contra hne
    have := hinv.frame bx by' hb hne
    rw [this] at hub
    exact hne hub.2
  obtain ⟨hmin, hsm⟩ := mid_room_free W H s1 hR ax ay bx by' mx my ha hb hao hstep hm hsa hsb
  have hgm := hinv.tile mx my hmin hsm
  have hga := hinv.tile ax ay ha hsa
  have hnk : s1.next_region < k := by
    rcases hga.2.2 with h | h
    · rw [hfa.1] at h; exact absurd h.1 (by decide)
    · rw [← hka]; exact h.2.1
  have hbwall : ¬ maze_floor (g bx by') = true := by
    rw [maze_floor_iff, hub.1]
    exact fun h => absurd h.1 (by decide)
  refine ⟨hmin, ?_, hnk, ek⟩
  rcases hgm.2.2 with h | h
  · exact h.1
  · exfalso
    have hmf : maze_floor (g mx my) = true := (maze_floor_iff _).mpr ⟨h.1, hgm.1⟩
    rcases hinv.shape mx my hmin hmf with h1 | ⟨_, _, l1, l2⟩ | ⟨_, _, l1, l2⟩
    · exact hmpar h1
    · rcases hcls with ⟨_, _, hc⟩ | ⟨hp, _, _⟩
      · rcases hc with ⟨_, _, e1, e2⟩ | ⟨e1, e2, _, _⟩
        · rw [e1] at l2; rw [e2] at l2; exact hbwall l2.2.1
        · rw [e1] at l1; rw [e2] at l1; exact hbwall l1.2.1
      · omega
    · rcases hcls with ⟨hp, _, _⟩ | ⟨_, _, hc⟩
      · omega
      · rcases hc with ⟨_, _, e1, e2⟩ | ⟨e1, e2, _, _⟩
        · rw [e2] at l2; rw [e1] at l2; exact hbwall l2.2.1
        · rw [e2] at l1; rw [e1] at l1; exact hbwall l1.2.1

theorem mem_region_tiles_carve (W H : Int) (g : grid) (x y k : Int) (hin : in_bounds W H x y)
    (hw : (g x y).kind ≠ tk_floor) (hk : to_char k = k) (r : Int) (p : Int × Int) :
    p ∈ region_tiles W H (modify g x y (carve k)) r ↔
      (p = (x, y) ∧ r = k) ∨ p ∈ region_tiles W H g r := by
  rw [mem_region_tiles, mem_region_tiles]
  by_cases hp : p.1 = x ∧ p.2 = y
  · have hpe : p = (x, y) := Prod.ext hp.1 hp.2
    subst hpe
    rw [modify_same, (carve_fields k _).1, (carve_fields k _).2.1, hk]
    constructor
    · rintro ⟨_, _, h⟩
      exact Or.inl ⟨rfl, h.symm⟩
    · rintro (⟨_, h⟩ | ⟨_, h, _⟩)
      · exact ⟨hin, rfl, h.symm⟩
      · exact absurd h hw
  · rw [modify_other _ _ _ _ _ _ hp]
    constructor
    · exact fun h => Or.inr h
    · rintro (⟨h, _⟩ | h)
      · exact absurd ⟨congrArg Prod.fst h, congrArg Prod.snd h⟩ hp
      · exact h

theorem not_mem_region_tiles (W H : Int) (g : grid) (x y r : Int)
    (hw : (g x y).kind ≠ tk_floor) : (x, y) ∉ region_tiles W H g r := by
  rw [mem_region_tiles]
  exact fun h => hw h.2.1

/-- Carving a wall tile at a lattice cell adds one cell to region `k` and changes
no other cell or intervening-tile set. -/
theorem carve_cell_counts (W H : Int) (g : grid) (x y k : Int) (hin : in_bounds W H x y)
    (hw : (g x y).kind ≠ tk_floor) (hk : to_char k = k) (ho : x % 2 = 1 ∧ y % 2 = 1) :
    (region_cells W H (modify g x y (carve k)) k = insert (x, y) (region_cells W H g k) ∧
        (x, y) ∉ region_cells W H g k) ∧
      (∀ r, r ≠ k → region_cells W H (modify g x y (carve k)) r = region_cells W H g r) ∧
      (∀ r, region_mids W H (modify g x y (carve k)) r = region_mids W H g r) := by
  refine ⟨⟨?_, ?_⟩, ?_, ?_⟩
  · ext p
    rw [Finset.mem_insert, mem_region_cells, mem_region_cells,
      mem_region_tiles_carve W H g x y k hin hw hk]
    constructor
    · rintro ⟨⟨h, _⟩ | h, hpo⟩
      · exact Or.inl h
      · exact Or.inr ⟨h, hpo⟩
    · rintro (h | ⟨h, hpo⟩)
      · subst h
        exact ⟨Or.inl ⟨rfl, rfl⟩, ho⟩
      · exact ⟨Or.inr h, hpo⟩
  · rw [mem_region_cells]
    exact fun h => not_mem_region_tiles W H g x y k hw h.1
  · intro r hr
    ext p
    rw [mem_region_cells, mem_region_cells, mem_region_tiles_carve W H g x y k hin hw hk]
    constructor
    · rintro ⟨⟨_, h⟩ | h, hpo⟩
      · exact absurd h hr
      · exact ⟨h, hpo⟩
    · exact fun h => ⟨Or.inr h.1, h.2⟩
  · intro r
    ext p
    rw [mem_region_mids, mem_region_mids, mem_region_tiles_carve W H g x y k hin hw hk]
    constructor
    · rintro ⟨⟨h, _⟩ | h, hpo⟩
      · subst h
        exact absurd ho hpo
      · exact ⟨h, hpo⟩
    · exact fun h => ⟨Or.inr h.1, h.2⟩

/-- Carving a wall tile that is not a lattice cell adds one intervening tile to
region `k` and changes no other cell or intervening-tile set. -/
theorem carve_mid_counts (W H : Int) (g : grid) (x y k : Int) (hin : in_bounds W H x y)
    (hw : (g x y).kind ≠ tk_floor) (hk : to_char k = k) (ho : ¬ (x % 2 = 1 ∧ y % 2 = 1)) :
    (region_mids W H (modify g x y (carve k)) k = insert (x, y) (region_mids W H g k) ∧
        (x, y) ∉ region_mids W H g k) ∧
      (∀ r, r ≠ k → region_mids W H (modify g x y (carve k)) r = region_mids W H g r) ∧
      (∀ r, region_cells W H (modify g x y (carve k)) r = region_cells W H g r) := by
  refine ⟨⟨?_, ?_⟩, ?_, ?_⟩
  · ext p
    rw [Finset.mem_insert, mem_region_mids, mem_region_mids,
      mem_region_tiles_carve W H g x y k hin hw hk]
    constructor
    · rintro ⟨⟨h, _⟩ | h, hpo⟩
      · exact Or.inl h
      · exact Or.inr ⟨h, hpo⟩
    · rintro (h | ⟨h, hpo⟩)
      · subst h
        exact ⟨Or.inl ⟨rfl, rfl⟩, ho⟩
      · exact ⟨Or.inr h, hpo⟩
  · rw [mem_region_mids]
    exact fun h => not_mem_region_tiles W H g x y k hw h.1
  · intro r hr
    ext p
    rw [mem_region_mids, mem_region_mids, mem_region_tiles_carve W H g x y k hin hw hk]
    constructor
    · rintro ⟨⟨_, h⟩ | h, hpo⟩
      · exact absurd h hr
      · exact ⟨h, hpo⟩
    · exact fun h => ⟨Or.inr h.1, h.2⟩
  · intro r
    ext p
    rw [mem_region_cells, mem_region_cells, mem_region_tiles_carve W H g x y k hin hw hk]
    constructor
    · rintro ⟨⟨h, _⟩ | h, hpo⟩
      · subst h
        exact absurd hpo ho
      · exact ⟨h, hpo⟩
    · exact fun h => ⟨Or.inr h.1, h.2⟩
theorem region_empty_above (W H : Int) (s1 : state) (hR : rooms_inv W H s1) (g : grid)
    (k : Int) (hinv : maze_inv W H s1 g k) (r : Int) (hr : k < r) :
    region_tiles W H g r = ∅ := by
  rw [Finset.eq_empty_iff_forall_not_mem]
  intro p hp
  obtain ⟨hin, hmf, hreg⟩ :=
    maze_tile_of_region W H s1 hR g k hinv r (lt_of_le_of_lt hinv.lower hr) p hp
  rw [maze_floor_iff] at hmf
  have hs : (s1.tiles p.1 p.2).room = -1 := by
    by_contra hne
    have := hinv.frame _ _ hin hne
    rw [this] at hmf
    exact hne hmf.2
  rcases (hinv.tile _ _ hin hs).2.2 with h | h
  · rw [hmf.1] at h
    exact absurd h.1 (by decide)
  · omega

theorem tree_inv_init (W H : Int) (s1 : state) (hR : rooms_inv W H s1) :
    tree_inv W H s1 s1.tiles := by
  intro r hr
  have he := region_empty_above W H s1 hR s1.tiles _ (maze_inv_init W H s1 hR) r hr
  left
  unfold region_cells region_mids
  rw [he]
  exact ⟨rfl, rfl⟩

theorem tree_inv_start (W H : Int) (s1 : state) (hR : rooms_inv W H s1) (g : grid) (k : Int)
    (hinv : maze_inv W H s1 g k) (ht : tree_inv W H s1 g) (x y : Int)
    (hin : in_bounds W H x y) (ho : x % 2 = 1 ∧ y % 2 = 1) (hu : unused (g x y) = true)
    (hk : to_char (k + 1) = k + 1) : tree_inv W H s1 (modify g x y (carve (k + 1))) := by
  have hw : (g x y).kind ≠ tk_floor := by
    rw [unused_iff] at hu
    rw [hu.1]
    decide
  obtain ⟨⟨hc, _⟩, hco, hmo⟩ := carve_cell_counts W H g x y (k + 1) hin hw hk ho
  intro r hr
  by_cases hrk : r = k + 1
  · subst hrk
    right
    have he := region_empty_above W H s1 hR g k hinv (k + 1) (by omega)
    have hce : region_cells W H g (k + 1) = ∅ := by unfold region_cells; rw [he]; rfl
    have hme : region_mids W H g (k + 1) = ∅ := by unfold region_mids; rw [he]; rfl
    rw [hc, hmo, hce, hme]
    rfl
  · rw [hco r hrk, hmo r]
    exact ht r hr

theorem tree_inv_extend (W H : Int) (hd : dims_ok W H) (ho : dims_odd W H) (s1 : state)
    (hR : rooms_inv W H s1) (g : grid) (k : Int) (hinv : maze_inv W H s1 g k)
    (ht : tree_inv W H s1 g)
    (ax ay bx by' mx my : Int) (ha : in_bounds W H ax ay) (hb : in_bounds W H bx by')
    (hao : ax % 2 = 1 ∧ ay % 2 = 1)
    (hstep : ((bx = ax + 2 ∨ bx = ax - 2) ∧ by' = ay) ∨
      (bx = ax ∧ (by' = ay + 2 ∨ by' = ay - 2)))
    (hm : 2 * mx = ax + bx ∧ 2 * my = ay + by')
    (hfa : maze_floor (g ax ay) = true) (hka : (g ax ay).region = k)
    (hub : unused (g bx by') = true) :
    tree_inv W H s1 (modify (modify g mx my (carve k)) bx by' (carve k)) := by
  obtain ⟨hmin, hmw, hnk, ek⟩ :=
    mid_wall W H hd ho s1 hR g k hinv ax ay bx by' mx my ha hb hao hstep hm hfa hka hub
  obtain ⟨hbo, hmb, hbm, ham, hab, hmpar, _, _, _⟩ :=
    step_geom ax ay bx by' mx my hao hstep hm
  have hmw' : (g mx my).kind ≠ tk_floor := by rw [hmw]; decide
  have hbw : (modify g mx my (carve k) bx by').kind ≠ tk_floor := by
    rw [modify_other _ _ _ _ _ _ hbm]
    rw [unused_iff] at hub
    rw [hub.1]
    decide
  obtain ⟨⟨hM, hMn⟩, hMo, hMc⟩ := carve_mid_counts W H g mx my k hmin hmw' ek hmpar
  obtain ⟨⟨hC, hCn⟩, hCo, hCm⟩ :=
    carve_cell_counts W H (modify g mx my (carve k)) bx by' k hb hbw ek hbo
  intro r hr
  by_cases hrk : r = k
  · subst hrk
    right
    rw [hCm, hM, hC, hMc, Finset.card_insert_of_not_mem hMn]
    rw [hMc] at hCn
    rw [Finset.card_insert_of_not_mem hCn]
    rcases ht r hr with ⟨hce, _⟩ | h
    · exfalso
      have hamem : (ax, ay) ∈ region_cells W H g r := by
        rw [mem_region_cells, mem_region_tiles]
        exact ⟨⟨ha, ((maze_floor_iff _).mp hfa).1, hka⟩, hao⟩
      rw [hce] at hamem
      exact Finset.not_mem_empty _ hamem
    · omega
  · rw [hCm, hMo r hrk, hCo r hrk, hMc]
    exact ht r hr

/-- What holds when `make_maze` returns, as `make_maze_inv`, together with the tree
count of every maze region. -/
theorem make_maze_tree (W H : Int) (hd : dims_ok W H) (ho : dims_odd W H) (s1 : state)
    (hR : rooms_inv W H s1) (draws : List Nat) (s2 : state) (rest : List Nat)
    (h : make_maze W H s1 draws = outcome.ok (s2, rest)) :
    maze_inv W H s1 s2.tiles s2.next_region ∧ tree_inv W H s1 s2.tiles := by
  refine (make_maze_loop_ind W H
    (fun s => maze_inv W H s1 s.tiles s.next_region ∧ tree_inv W H s1 s.tiles)
    (fun s x y => in_bounds W H x y ∧
      (x % 2 = 1 ∧ y % 2 = 1) ∧ (s1.tiles x y).room = -1 ∧
      maze_inv W H s1 (modify s.tiles x y (carve s.next_region)) s.next_region ∧
      tree_inv W H s1 (modify s.tiles x y (carve s.next_region)))
    ?_ ?_ _ s1 draws s2 rest ⟨maze_inv_init W H s1 hR, tree_inv_init W H s1 hR⟩ h).1
  · -- hunt
    intro s dr p s' d1 hinv hh
    obtain ⟨hm, ht⟩ := hinv
    rcases hunt_cases W H s dr (some p) s' d1 hh with hc | hc | hc
    · obtain ⟨q, d, hq, hmem, hu, hdd, hin, hmf, rfl⟩ := hc
      simp only [Option.some.injEq] at hq
      have hq' : q = p := hq.symm
      clear hq
      subst hq'
      have hqo := (mem_odd_cells W H q).mp hmem
      have hqin : in_bounds W H q.1 q.2 := by unfold in_bounds; omega
      have hsq : (s1.tiles q.1 q.2).room = -1 := by
        by_contra hne
        have := hm.frame _ _ hqin hne
        rw [unused_iff, this] at hu
        exact hne hu.2
      have hodd := dirs_odd d hdd q.1 q.2 hqo.1.1 hqo.2.1
      have e1 : q.1 + d.x + -d.x = q.1 := by rw [add_neg_cancel_right]
      have e2 : q.2 + d.y + -d.y = q.2 := by rw [add_neg_cancel_right]
      have hreg : (s.tiles (q.1 + d.x) (q.2 + d.y)).region = s.next_region := by
        refine hm.frontier _ _ hin hodd.1 hodd.2 hmf ⟨-d.x, -d.y⟩ (neg_dirs d hdd) ?_ ?_
        · dsimp only; rw [e1, e2]; exact hqin
        · dsimp only; rw [e1, e2]; exact hu
      have hst := dirs_arith ⟨-d.x, -d.y⟩ (neg_dirs d hdd) (q.1 + d.x) (q.2 + d.y)
      dsimp only at hst
      rw [e1, e2] at hst
      have hst' : ((q.1 = q.1 + d.x + 2 ∨ q.1 = q.1 + d.x - 2) ∧ q.2 = q.2 + d.y) ∨
          (q.1 = q.1 + d.x ∧ (q.2 = q.2 + d.y + 2 ∨ q.2 = q.2 + d.y - 2)) := by
        rcases hst with ⟨h1 | h1, h2⟩ | ⟨h1, h2 | h2⟩
        · exact Or.inl ⟨Or.inl h1, h2⟩
        · exact Or.inl ⟨Or.inr h1, h2⟩
        · exact Or.inr ⟨h1, Or.inl h2⟩
        · exact Or.inr ⟨h1, Or.inr h2⟩
      have hmid : 2 * ((q.1 + (q.1 + d.x)) / 2) = q.1 + d.x + q.1 ∧
          2 * ((q.2 + (q.2 + d.y)) / 2) = q.2 + d.y + q.2 := by
        have := dirs_arith d hdd q.1 q.2
        have hq1 := hqo.1.1
        have hq2 := hqo.2.1
        clear hm hreg hmf hu hh hR hsq hmem hin hqin hst hst' ht
        omega
      exact ⟨hqin, ⟨hqo.1.1, hqo.2.1⟩, hsq,
        maze_inv_extend W H hd ho s1 hR s.tiles s.next_region hm
          (q.1 + d.x) (q.2 + d.y) q.1 q.2 _ _ hin hqin hodd hst' hmid hmf hreg hu,
        tree_inv_extend W H hd ho s1 hR s.tiles s.next_region hm ht
          (q.1 + d.x) (q.2 + d.y) q.1 q.2 _ _ hin hqin hodd hst' hmid hmf hreg hu⟩
    · obtain ⟨q, hq, hmem, hu, hfirst, hnone, rfl, _⟩ := hc
      simp only [Option.some.injEq] at hq
      have hq' : q = p := hq.symm
      clear hq
      subst hq'
      have hqo := (mem_odd_cells W H q).mp hmem
      have hqin : in_bounds W H q.1 q.2 := by unfold in_bounds; omega
      have hsq : (s1.tiles q.1 q.2).room = -1 := by
        by_contra hne
        have := hm.frame _ _ hqin hne
        rw [unused_iff, this] at hu
        exact hne hu.2
      have hnew := maze_inv_start W H hd ho s1 hR s.tiles s.next_region hm q hmem hu hfirst
        hnone
      have hk0 : 0 ≤ s1.next_region := by rw [hR.2.1]; exact Int.ofNat_nonneg _
      have ek : to_char (s.next_region + 1) = s.next_region + 1 :=
        to_char_of_small _ (le_trans (by decide) (le_trans hk0 hnew.lower))
          (region_small W H hd ho s1 hR _ _ hnew.count)
      exact ⟨hqin, ⟨hqo.1.1, hqo.2.1⟩, hsq, hnew,
        tree_inv_start W H s1 hR s.tiles s.next_region hm ht q.1 q.2 hqin
          ⟨hqo.1.1, hqo.2.1⟩ hu ek⟩
    · simp at hc
  · -- walk
    intro sa x y d1 sb d2 hpre hw
    refine walk_ind W H
      (fun s x y => in_bounds W H x y ∧
        (x % 2 = 1 ∧ y % 2 = 1) ∧ (s1.tiles x y).room = -1 ∧
        maze_inv W H s1 (modify s.tiles x y (carve s.next_region)) s.next_region ∧
        tree_inv W H s1 (modify s.tiles x y (carve s.next_region)))
      (fun s => maze_inv W H s1 s.tiles s.next_region ∧ tree_inv W H s1 s.tiles)
      ?_ ?_ d1 sa x y 0 0 sb d2 hpre hw
    · intro s x y hp _
      exact ⟨hp.2.2.2.1, hp.2.2.2.2⟩
    · intro s x y d hp hdd hin hu
      obtain ⟨hxin, hxo, hsx, hm, ht⟩ := hp
      have hk0 : 0 ≤ s1.next_region := by rw [hR.2.1]; exact Int.ofNat_nonneg _
      have ek : to_char s.next_region = s.next_region :=
        to_char_of_small _ (le_trans (by decide) (le_trans hk0 hm.lower))
          (region_small W H hd ho s1 hR _ _ hm.count)
      have hne := dirs_step d hdd x y
      have hGn : modify s.tiles x y (carve s.next_region) (x + d.x) (y + d.y)
          = s.tiles (x + d.x) (y + d.y) := modify_other _ _ _ _ _ _ hne
      have hGx : modify s.tiles x y (carve s.next_region) x y
          = carve s.next_region (s.tiles x y) := modify_same _ _ _ _
      have htx := hm.tile x y hxin hsx
      have hmfx : maze_floor (modify s.tiles x y (carve s.next_region) x y) = true := by
        rw [maze_floor_iff]
        refine ⟨?_, htx.1⟩
        rw [hGx]; exact (carve_fields _ _).1
      have hregx : (modify s.tiles x y (carve s.next_region) x y).region = s.next_region := by
        rw [hGx, (carve_fields _ _).2.1, ek]
      have hun : unused (modify s.tiles x y (carve s.next_region) (x + d.x) (y + d.y))
          = true := by rw [hGn]; exact hu
      have hsn : (s1.tiles (x + d.x) (y + d.y)).room = -1 := by
        by_contra hne2
        have := hm.frame _ _ hin hne2
        rw [hGn] at this
        rw [unused_iff, this] at hu
        exact hne2 hu.2
      have hmid : 2 * ((x + (x + d.x)) / 2) = x + (x + d.x) ∧
          2 * ((y + (y + d.y)) / 2) = y + (y + d.y) := by
        have := dirs_arith d hdd x y
        have hq1 := hxo.1
        have hq2 := hxo.2
        clear hm hmfx hregx hun hsn htx hGn hGx hu hR hw hpre ek hk0 ht
        omega
      exact ⟨hin, dirs_odd d hdd x y hxo.1 hxo.2, hsn,
        maze_inv_extend W H hd ho s1 hR _ s.next_region hm
          x y (x + d.x) (y + d.y) _ _ hxin hin hxo (dirs_arith d hdd x y) hmid hmfx hregx hun,
        tree_inv_extend W H hd ho s1 hR _ s.next_region hm ht
          x y (x + d.x) (y + d.y) _ _ hxin hin hxo (dirs_arith d hdd x y) hmid hmfx hregx hun⟩
/-- C14: for odd grid sizes of `dims_ok` and every sequence of draws, when
`make_maze` returns on the grid left by `init` and `make_rooms`, every maze region
`r` is a tree without open block: no 2×2 block consists only of floor tiles of
region `r`, the number of orthogonally adjacent pairs of floor tiles of region `r`
is the number of its floor tiles minus 1, and its intervening tiles number one
less than its lattice cells. -/
theorem maze_regions_are_trees (W H : Int) (hd : dims_ok W H) (ho : dims_odd W H)
    (s : state) (draws : List Nat) (s1 : state) (d1 : List Nat) (s2 : state) (d2 : List Nat)
    (h1 : make_rooms W H (init W H s) draws = outcome.ok (s1, d1))
    (h2 : make_maze W H s1 d1 = outcome.ok (s2, d2)) :
    ∀ r, maze_region W H s2.tiles r →
      (∀ x y, ¬ open_block W H s2.tiles r x y) ∧
        (region_pairs W H s2.tiles r).card + 1 = (region_tiles W H s2.tiles r).card ∧
        (region_mids W H s2.tiles r).card + 1 = (region_cells W H s2.tiles r).card := by
  have hR := make_rooms_inv W H hd s draws s1 d1 h1
  obtain ⟨hm, ht⟩ := make_maze_tree W H hd ho s1 hR d1 s2 d2 h2
  rintro r ⟨x, y, hin, hmf, hreg⟩
  have hmf' := (maze_floor_iff _).mp hmf
  have hs : (s1.tiles x y).room = -1 := by
    by_contra hne
    have := hm.frame _ _ hin hne
    rw [this] at hmf'
    exact hne hmf'.2
  have hr : s1.next_region < r := by
    rcases (hm.tile _ _ hin hs).2.2 with h | h
    · rw [hmf'.1] at h
      exact absurd h.1 (by decide)
    · rw [← hreg]; exact h.2.1
  have hxy : (x, y) ∈ region_tiles W H s2.tiles r :=
    region_tiles_of_link W H _ x y r ⟨hin, hmf, hreg⟩
  have hcount : (region_mids W H s2.tiles r).card + 1 = (region_cells W H s2.tiles r).card := by
    rcases ht r hr with ⟨hc, hmd⟩ | h
    · exfalso
      by_cases hpar : x % 2 = 1 ∧ y % 2 = 1
      · have : (x, y) ∈ region_cells W H s2.tiles r :=
          (mem_region_cells W H _ r _).mpr ⟨hxy, hpar⟩
        rw [hc] at this
        exact Finset.not_mem_empty _ this
      · have : (x, y) ∈ region_mids W H s2.tiles r :=
          (mem_region_mids W H _ r _).mpr ⟨hxy, hpar⟩
        rw [hmd] at this
        exact Finset.not_mem_empty _ this
    · exact h
  refine ⟨?_, ?_, hcount⟩
  · rintro a b ⟨t1, t2, t3, t4⟩
    have p1 := region_tile_shape W H s1 hR _ _ hm r hr _ t1
    have p2 := region_tile_shape W H s1 hR _ _ hm r hr _ t2
    have p3 := region_tile_shape W H s1 hR _ _ hm r hr _ t3
    have p4 := region_tile_shape W H s1 hR _ _ hm r hr _ t4
    dsimp only at p1 p2 p3 p4
    have q1 : a % 2 = 1 ∨ b % 2 = 1 := by
      rcases p1 with h | h | h <;> omega
    have q2 : (a + 1) % 2 = 1 ∨ b % 2 = 1 := by
      rcases p2 with h | h | h <;> omega
    have q3 : a % 2 = 1 ∨ (b + 1) % 2 = 1 := by
      rcases p3 with h | h | h <;> omega
    have q4 : (a + 1) % 2 = 1 ∨ (b + 1) % 2 = 1 := by
      rcases p4 with h | h | h <;> omega
    clear p1 p2 p3 p4 t1 t2 t3 t4 hm ht hR
    omega
  · have hp := region_pairs_card W H s1 hR _ _ hm r hr
    have htc := region_tiles_card W H s2.tiles r
    omega

/-- Witness of C14: on the 11 × 7 grid with `small_draws` the maze around the room
is the maze region 2, and it has one adjacent pair less than it has tiles. -/
theorem maze_regions_are_trees_witness :
    ∃ s1 d1 s2 d2, make_rooms 11 7 (init 11 7 s_blank) small_draws = outcome.ok (s1, d1) ∧
      make_maze 11 7 s1 d1 = outcome.ok (s2, d2) ∧ maze_region 11 7 s2.tiles 2 ∧
      (region_pairs 11 7 s2.tiles 2).card + 1 = (region_tiles 11 7 s2.tiles 2).card := by
  have hev : ((make_rooms 11 7 (init 11 7 s_blank) small_draws).bind
      (fun r1 => make_maze 11 7 r1.1 r1.2)).holds
      (fun r => maze_floor (r.1.tiles 7 1) && decide ((r.1.tiles 7 1).region = 2)) = true := by
    decide!
  obtain ⟨⟨s2, d2⟩, h, hP⟩ := outcome_holds_elim hev
  obtain ⟨⟨s1, d1⟩, h1, h2⟩ := outcome_bind_ok h
  simp only [Bool.and_eq_true, decide_eq_true_eq] at hP
  have hreg : maze_region 11 7 s2.tiles 2 := ⟨7, 1, by decide, hP.1, hP.2⟩
  exact ⟨s1, d1, s2, d2, h1, h2, hreg,
    (maze_regions_are_trees 11 7 (by decide) (by decide) s_blank small_draws s1 d1 s2 d2 h1 h2
      2 hreg).2.1⟩

/-! ## The candidate list: one entry for each candidate tile -/

theorem int_range_sorted (lo hi : Int) : (int_range lo hi).Pairwise (fun a b => a < b) := by
  unfold int_range
  apply List.Pairwise.map _ _ (List.pairwise_lt_range _)
  intro a b hab
  omega

theorem rect_cells_nodup (x0 y0 x1 y1 : Int) : (rect_cells x0 y0 x1 y1).Nodup := by
  have hs : (rect_cells x0 y0 x1 y1).Pairwise
      (fun a b => a.1 < b.1 ∨ (a.1 = b.1 ∧ a.2 < b.2)) := by
    unfold rect_cells
    rw [List.pairwise_flatMap]
    constructor
    · intro x _
      apply List.Pairwise.map _ _ (int_range_sorted y0 y1)
      intro a b hab
      exact Or.inr ⟨rfl, hab⟩
    · apply List.Pairwise.imp _ (int_range_sorted x0 x1)
      intro a b hab p hp q hq
      rw [List.mem_map] at hp hq
      obtain ⟨_, _, rfl⟩ := hp
      obtain ⟨_, _, rfl⟩ := hq
      exact Or.inl hab
  refine List.Pairwise.imp ?_ hs
  intro a b h hab
  subst hab
  omega

theorem countP_point {α : Type} [DecidableEq α] (C : α → Bool) (l : List α) (hl : l.Nodup)
    (p : α) :
    l.countP (fun q => decide (q = p) && C q) = if p ∈ l ∧ C p = true then 1 else 0 := by
  induction l with
  | nil => simp
  | cons a l ih =>
    rw [List.nodup_cons] at hl
    rw [List.countP_cons, ih hl.2]
    by_cases hap : a = p
    · subst hap
      by_cases hC : C a = true
      · simp [hC, hl.1]
      · simp [hC]
    · have hpa : ¬ p = a := fun h => hap h.symm
      simp [hap, hpa]

theorem scan_cells_count (g : grid) (p : Int × Int) (ps : List (Int × Int)) :
    ∀ (acc : List connection_t),
      entries_at (scan_cells g ps acc) p = entries_at acc p +
        ps.countP (fun q => decide (q = p) &&
          decide (separates (g (q.1 - 1) q.2) (g (q.1 + 1) q.2) ∨
            separates (g q.1 (q.2 - 1)) (g q.1 (q.2 + 1)))) := by
  induction ps with
  | nil => intro acc; simp [scan_cells]
  | cons q ps ih =>
    intro acc
    have hqp : (q = p) ↔ (q.1 = p.1 ∧ q.2 = p.2) :=
      ⟨fun h => by rw [h]; exact ⟨rfl, rfl⟩, fun h => Prod.ext h.1 h.2⟩
    unfold scan_cells
    rw [List.countP_cons]
    by_cases h1 : separates (g (q.1 - 1) q.2) (g (q.1 + 1) q.2)
    · have h1' := h1
      unfold separates at h1'
      rw [if_pos h1', ih]
      unfold entries_at
      rw [List.countP_append]
      by_cases hq : q = p
      · subst hq
        simp [h1]
        omega
      · have hq' : ¬ (q.1 = p.1 ∧ q.2 = p.2) := fun h => hq (hqp.mpr h)
        simp [hq, hq']
    · have h1' := h1
      unfold separates at h1'
      rw [if_neg h1']
      by_cases h2 : separates (g q.1 (q.2 - 1)) (g q.1 (q.2 + 1))
      · have h2' := h2
        unfold separates at h2'
        rw [if_pos h2', ih]
        unfold entries_at
        rw [List.countP_append]
        by_cases hq : q = p
        · subst hq
          simp [h2]
          omega
        · have hq' : ¬ (q.1 = p.1 ∧ q.2 = p.2) := fun h => hq (hqp.mpr h)
          simp [hq, hq']
      · have h2' := h2
        unfold separates at h2'
        rw [if_neg h2', ih]
        simp [h1, h2]
theorem tile_kind_cases (W H : Int) (s1 : state) (hR : rooms_inv W H s1) (g : grid) (k : Int)
    (hm : maze_inv W H s1 g k) (x y : Int) (hin : in_bounds W H x y) :
    (g x y).kind = tk_floor ∨ (g x y).kind = tk_wall := by
  by_cases hfree : (s1.tiles x y).room = -1
  · rcases (hm.tile x y hin hfree).2.2 with h | h
    · exact Or.inr h.1
    · exact Or.inl h.1
  · rw [hm.frame x y hin hfree]
    by_cases hex : ∃ r ∈ s1.rooms, interior r x y
    · exact Or.inl ((rooms_floor_iff W H s1 hR x y hin).mpr hex)
    · exact Or.inr ((hR.2.2.2.2.2 x y hin).2.2.1 hex).1

/-- On the grid `make_maze` leaves, a tile between two tiles of different
non-negative regions is a wall tile. -/
theorem separated_is_wall (W H : Int) (s1 : state) (hR : rooms_inv W H s1) (g : grid) (k : Int)
    (hm : maze_inv W H s1 g k) (x y ax ay bx by' : Int) (hin : in_bounds W H x y)
    (ha : in_bounds W H ax ay) (hb : in_bounds W H bx by')
    (hadj1 : adjacent ax ay x y) (hadj2 : adjacent x y bx by')
    (hsep : separates (g ax ay) (g bx by')) : (g x y).kind = tk_wall := by
  rcases tile_kind_cases W H s1 hR g k hm x y hin with hf | hw
  · exfalso
    obtain ⟨hne, h0a, h0b⟩ := hsep
    have hfa : (g ax ay).kind = tk_floor := by
      by_contra hnf
      have := (region_sign W H s1 hR g k hm ax ay ha).2 hnf
      omega
    have hfb : (g bx by').kind = tk_floor := by
      by_contra hnf
      have := (region_sign W H s1 hR g k hm bx by' hb).2 hnf
      omega
    have e1 := floor_step_region W H s1 hR g k hm (ax, ay) (x, y) ⟨⟨ha, hfa⟩, ⟨hin, hf⟩, hadj1⟩
    have e2 := floor_step_region W H s1 hR g k hm (x, y) (bx, by') ⟨⟨hin, hf⟩, ⟨hb, hfb⟩, hadj2⟩
    exact hne (e1.trans e2)
  · exact hw

theorem candidate_tile_iff (W H : Int) (s1 : state) (hR : rooms_inv W H s1) (g : grid)
    (k : Int) (hm : maze_inv W H s1 g k) (p : Int × Int) :
    candidate_tile W H g p ↔
      p ∈ rect_cells 1 1 (W - 2) (H - 2) ∧
        (separates (g (p.1 - 1) p.2) (g (p.1 + 1) p.2) ∨
          separates (g p.1 (p.2 - 1)) (g p.1 (p.2 + 1))) := by
  rw [mem_rect_cells]
  unfold candidate_tile
  constructor
  · rintro ⟨h1, _, h3⟩
    exact ⟨h1, h3⟩
  · rintro ⟨h1, h3⟩
    refine ⟨h1, ?_, h3⟩
    have hin : in_bounds W H p.1 p.2 := by unfold in_bounds; omega
    rcases h3 with h | h
    · exact separated_is_wall W H s1 hR g k hm p.1 p.2 (p.1 - 1) p.2 (p.1 + 1) p.2 hin
        (by unfold in_bounds; omega) (by unfold in_bounds; omega)
        (by unfold adjacent; omega) (by unfold adjacent; omega) h
    · exact separated_is_wall W H s1 hR g k hm p.1 p.2 p.1 (p.2 - 1) p.1 (p.2 + 1) hin
        (by unfold in_bounds; omega) (by unfold in_bounds; omega)
        (by unfold adjacent; omega) (by unfold adjacent; omega) h

theorem connector_at_ordered (g : grid) (p : Int × Int) (c : connection_t)
    (h : connector_at g p c) : 0 ≤ c.region0 ∧ c.region0 < c.region1 := by
  obtain ⟨_, _, h⟩ := h
  unfold separates at h
  rcases h with ⟨⟨hne, ha, hb⟩, e0, e1⟩ | ⟨_, ⟨hne, ha, hb⟩, e0, e1⟩
  · rw [e0, e1]
    refine ⟨le_min ha hb, ?_⟩
    rcases lt_or_gt_of_ne hne with h | h
    · rw [min_eq_left (le_of_lt h), max_eq_right (le_of_lt h)]; exact h
    · rw [min_eq_right (le_of_lt h), max_eq_left (le_of_lt h)]; exact h
  · rw [e0, e1]
    refine ⟨le_min ha hb, ?_⟩
    rcases lt_or_gt_of_ne hne with h | h
    · rw [min_eq_left (le_of_lt h), max_eq_right (le_of_lt h)]; exact h
    · rw [min_eq_right (le_of_lt h), max_eq_left (le_of_lt h)]; exact h

/-- C15: on the grid left by `init`, `make_rooms` and `make_maze` (odd grid sizes of
`dims_ok`, any draws), the list built by the first loop of `make_connections` has
exactly one entry at every candidate tile (an interior wall tile whose left and
right, or upper and lower, neighbours carry different non-negative regions) and
none at any other tile; every entry lies on a wall tile and stores the region pair
of the horizontal axis when that axis passes the test, otherwise of the vertical
axis, as `(low, high)` with `0 ≤ low < high`. -/
theorem scan_connections_candidates (W H : Int) (hd : dims_ok W H) (ho : dims_odd W H)
    (s : state) (draws : List Nat) (s1 : state) (d1 : List Nat) (s2 : state) (d2 : List Nat)
    (h1 : make_rooms W H (init W H s) draws = outcome.ok (s1, d1))
    (h2 : make_maze W H s1 d1 = outcome.ok (s2, d2)) :
    (∀ p, entries_at (scan_connections W H s2.tiles) p
        = if candidate_tile W H s2.tiles p then 1 else 0) ∧
      ∀ c ∈ scan_connections W H s2.tiles,
        candidate_tile W H s2.tiles (c.x, c.y) ∧ (s2.tiles c.x c.y).kind ≠ tk_floor ∧
          connector_at s2.tiles (c.x, c.y) c ∧ 0 ≤ c.region0 ∧ c.region0 < c.region1 := by
  have hR := make_rooms_inv W H hd s draws s1 d1 h1
  obtain ⟨⟨_, _, hm⟩, _⟩ := make_maze_inv W H hd ho s1 hR d1 s2 d2 h2
  constructor
  · intro p
    unfold scan_connections
    rw [scan_cells_count, countP_point _ _ (rect_cells_nodup _ _ _ _)]
    unfold entries_at
    rw [List.countP_nil, Nat.zero_add]
    by_cases hc : candidate_tile W H s2.tiles p
    · rw [if_pos hc, if_pos]
      have := (candidate_tile_iff W H s1 hR _ _ hm p).mp hc
      exact ⟨this.1, by simpa using this.2⟩
    · rw [if_neg hc, if_neg]
      rintro ⟨hp, hs⟩
      exact hc ((candidate_tile_iff W H s1 hR _ _ hm p).mpr ⟨hp, by simpa using hs⟩)
  · intro c hc
    unfold scan_connections at hc
    rcases scan_cells_sound _ _ _ c hc with h | ⟨p, hp, hcon⟩
    · simp at h
    · have hx : c.x = p.1 := hcon.1
      have hy : c.y = p.2 := hcon.2.1
      have hpe : p = (c.x, c.y) := Prod.ext hx.symm hy.symm
      subst hpe
      have hsep : separates (s2.tiles (c.x - 1) c.y) (s2.tiles (c.x + 1) c.y) ∨
          separates (s2.tiles c.x (c.y - 1)) (s2.tiles c.x (c.y + 1)) := by
        rcases hcon.2.2 with h | h
        · exact Or.inl h.1
        · exact Or.inr h.2.1
      have hcand := (candidate_tile_iff W H s1 hR _ _ hm (c.x, c.y)).mpr ⟨hp, hsep⟩
      have hw : (s2.tiles c.x c.y).kind = tk_wall := hcand.2.1
      refine ⟨hcand, ?_, hcon, connector_at_ordered _ _ _ hcon⟩
      rw [hw]
      decide

/-- Witness of C15: on the 11 × 7 grid with `small_draws`, `make_rooms` and `make_maze`
return, and the list has one entry at each candidate tile and none elsewhere. -/
theorem scan_connections_candidates_witness :
    ∃ s1 d1 s2 d2, make_rooms 11 7 (init 11 7 s_blank) small_draws = outcome.ok (s1, d1) ∧
      make_maze 11 7 s1 d1 = outcome.ok (s2, d2) ∧
      ∀ p, entries_at (scan_connections 11 7 s2.tiles) p
        = if candidate_tile 11 7 s2.tiles p then 1 else 0 := by
  obtain ⟨s1, d1, s2, d2, _, _, _, h1, h2, _, _⟩ := small_run
  exact ⟨s1, d1, s2, d2, h1, h2,
    (scan_connections_candidates 11 7 (by decide) (by decide) s_blank small_draws s1 d1 s2 d2
      h1 h2).1⟩

/-! ## The in-place update of the candidate list -/

theorem rewrite_connection_eq_rewritten (partner : Int) (hP : 0 < partner) (c : connection_t)
    (hc : 0 ≤ c.region0 ∧ c.region0 < c.region1) :
    rewrite_connection partner c = rewritten partner c := by
  obtain ⟨x, y, i, r0, r1⟩ := c
  dsimp only at hc
  unfold rewrite_connection rewritten absorb main_region
  dsimp only
  by_cases h1 : r1 = partner
  · have h0 : r0 ≠ partner := by omega
    simp only [if_pos h1, if_neg h0, if_neg (by omega : ¬ (0 : Int) = partner),
      min_eq_right hc.1, max_eq_left hc.1]
  · by_cases h0 : r0 = partner
    · simp only [if_neg h1, if_pos h0, min_eq_left (by omega : (0 : Int) ≤ r1),
        max_eq_right (by omega : (0 : Int) ≤ r1)]
    · simp only [if_neg h1, if_neg h0, min_eq_left (le_of_lt hc.2),
        max_eq_right (le_of_lt hc.2)]

/-- C16: for every candidate list whose entries are pairs of region ids with
`0 ≤ low < high` and every absorbed region `P > 0`, the update loop leaves, up to
order, exactly the old entries with `P` rewritten to 0, each once, minus those
whose two ids became equal; an entry `(0, P)`, such as the chosen candidate, is
among those removed; every surviving entry again satisfies `0 ≤ low < high` and
none mentions `P`.  The lists the loop receives are of this kind: on every grid
the first loop of `make_connections` records only entries with `0 ≤ low < high`
(it tests both regions for `≥ 0`), and each update keeps that. -/
theorem update_connections_rewrites (conns : List connection_t) (P : Int)
    (hord : ∀ c ∈ conns, 0 ≤ c.region0 ∧ c.region0 < c.region1) (hP : 0 < P) :
    (update_connections P conns.length conns).Perm
        ((conns.map (rewritten P)).filter (fun c => decide (c.region0 ≠ c.region1))) ∧
      (∀ conn, conn.region0 = 0 → conn.region1 = P →
        (rewritten P conn).region0 = (rewritten P conn).region1) ∧
      (∀ c ∈ update_connections P conns.length conns,
        0 ≤ c.region0 ∧ c.region0 < c.region1 ∧ c.region0 ≠ P ∧ c.region1 ≠ P) ∧
      ∀ (W H : Int) (g : grid), ∀ c ∈ scan_connections W H g,
        0 ≤ c.region0 ∧ c.region0 < c.region1 := by
  have hperm : (update_connections P conns.length conns).Perm
      ((conns.map (rewritten P)).filter (fun c => decide (c.region0 ≠ c.region1))) := by
    have h := update_connections_perm P conns []
    rw [List.append_nil, List.append_nil] at h
    have hmap : conns.map (rewrite_connection P) = conns.map (rewritten P) :=
      List.map_congr_left (fun c hc => rewrite_connection_eq_rewritten P hP c (hord c hc))
    rw [hmap] at h
    exact h
  refine ⟨hperm, ?_, ?_, ?_⟩
  rotate_left 2
  · intro W H g c hc
    unfold scan_connections at hc
    rcases scan_cells_sound _ _ _ c hc with h | ⟨p, _, hcon⟩
    · simp at h
    · exact connector_at_ordered _ _ _ hcon
  · intro conn h0 h1
    unfold rewritten absorb main_region
    dsimp only
    rw [h0, h1, if_neg (by omega : ¬ (0 : Int) = P), if_pos rfl]
    simp
  · intro c hc
    have hmem := hperm.subset hc
    rw [List.mem_filter, List.mem_map] at hmem
    obtain ⟨⟨c0, hc0, rfl⟩, hne⟩ := hmem
    have ho := hord c0 hc0
    simp only [decide_eq_true_eq] at hne
    unfold rewritten absorb main_region at hne ⊢
    dsimp only at hne ⊢
    clear hperm hc hord
    by_cases h1 : c0.region1 = P
    · have h0 : c0.region0 ≠ P := by omega
      rw [if_neg h0, if_pos h1] at hne ⊢
      rw [min_eq_right ho.1, max_eq_left ho.1] at hne ⊢
      omega
    · by_cases h0 : c0.region0 = P
      · rw [if_pos h0, if_neg h1] at hne ⊢
        rw [min_eq_left (by omega : (0 : Int) ≤ c0.region1),
          max_eq_right (by omega : (0 : Int) ≤ c0.region1)] at hne ⊢
        omega
      · rw [if_neg h0, if_neg h1] at hne ⊢
        rw [min_eq_left (le_of_lt ho.2), max_eq_right (le_of_lt ho.2)] at hne ⊢
        omega

/-- Witness of C16: the list `(0, 2)`, `(1, 2)`, `(1, 3)` with `P = 2` becomes, up to
order, `(0, 1)`, `(1, 3)`. -/
theorem update_connections_rewrites_witness :
    (update_connections 2 3 [⟨1, 2, 0, 0, 2⟩, ⟨3, 2, 1, 1, 2⟩, ⟨5, 2, 2, 1, 3⟩]).Perm
      [⟨3, 2, 1, 0, 1⟩, ⟨5, 2, 2, 1, 3⟩] :=
  (update_connections_rewrites [⟨1, 2, 0, 0, 2⟩, ⟨3, 2, 1, 1, 2⟩, ⟨5, 2, 2, 1, 3⟩] 2
    (by decide) (by decide)).1

/-! ## Doors and region ids in the merge loop -/

theorem mem_region_ids (W H : Int) (g : grid) (r : Int) :
    r ∈ region_ids W H g ↔ 0 ≤ r ∧ ∃ x y, in_bounds W H x y ∧ (g x y).region = r := by
  unfold region_ids
  rw [Finset.mem_filter, Finset.mem_image]
  constructor
  · rintro ⟨⟨p, hp, rfl⟩, h0⟩
    exact ⟨h0, p.1, p.2, (mem_grid_cells W H p).mp hp, rfl⟩
  · rintro ⟨h0, x, y, hin, rfl⟩
    exact ⟨⟨(x, y), (mem_grid_cells W H (x, y)).mpr hin, rfl⟩, h0⟩

theorem mem_door_tiles (W H : Int) (g : grid) (p : Int × Int) :
    p ∈ door_tiles W H g ↔ in_bounds W H p.1 p.2 ∧ (g p.1 p.2).door = true := by
  unfold door_tiles
  rw [Finset.mem_filter, mem_grid_cells]

theorem merge_grid_door (W H : Int) (g : grid) (cx cy partner : Int) :
    (relabel W H partner (modify g cx cy open_door) cx cy).door = true ∧
      ∀ x y, ¬ (x = cx ∧ y = cy) →
        (relabel W H partner (modify g cx cy open_door) x y).door = (g x y).door := by
  constructor
  · unfold relabel for_rect
    simp only [modify_same, open_door]
    split_ifs <;> rfl
  · intro x y hxy
    unfold relabel for_rect
    simp only [modify_other _ _ _ _ _ _ hxy]
    split_ifs <;> rfl

theorem absorb_sign (partner : Int) (hP : 0 < partner) (r : Int) :
    (0 ≤ absorb partner r ↔ 0 ≤ r) ∧ (r = -1 → absorb partner r = -1) := by
  unfold absorb main_region
  split_ifs with h
  · constructor
    · constructor
      · intro _; omega
      · intro _; exact le_refl _
    · intro h1; omega
  · exact ⟨Iff.rfl, fun h1 => h1⟩

theorem rewrite_connection_main (partner : Int) (hP : 0 < partner) (c : connection_t)
    (h0 : c.region0 = main_region) (h1 : c.region1 = partner) :
    (rewrite_connection partner c).region0 = (rewrite_connection partner c).region1 := by
  unfold rewrite_connection
  dsimp only
  rw [if_pos h1]
  dsimp only
  unfold main_region at h0 ⊢
  rw [if_neg (by omega : ¬ (0 : Int) = partner), h0]

theorem positions_perm_rewrite (partner : Int) (conns conns' : List connection_t)
    (hperm : conns'.Perm ((conns.map (rewrite_connection partner)).filter kept))
    (hnd : (conns.map (fun c => (c.x, c.y))).Nodup) :
    (conns'.map (fun c => (c.x, c.y))).Nodup := by
  rw [(hperm.map _).nodup_iff]
  have hsub : ((conns.map (rewrite_connection partner)).filter kept).Sublist
      (conns.map (rewrite_connection partner)) := List.filter_sublist _
  refine (hsub.map (fun c => (c.x, c.y))).nodup ?_
  rw [List.map_map]
  have : ((fun c : connection_t => (c.x, c.y)) ∘ rewrite_connection partner)
      = (fun c : connection_t => (c.x, c.y)) := by
    funext c
    simp only [Function.comp_apply]
    rw [(rewrite_connection_xy partner c).1, (rewrite_connection_xy partner c).2]
  rw [this]
  exact hnd
theorem region_ids_merge (W H : Int) (g0 g : grid) (conns : List connection_t)
    (hm : merge_inv W H g0 g conns) (hs : region_sign_ok W H g)
    (conn : connection_t) (hconn : conn ∈ conns) (hmain : conn.region0 = main_region)
    (hw : (g conn.x conn.y).kind ≠ tk_floor) :
    region_ids W H (relabel W H conn.region1 (modify g conn.x conn.y open_door))
        = (region_ids W H g).erase conn.region1 ∧
      conn.region1 ∈ region_ids W H g ∧ (0 : Int) ∈ region_ids W H g := by
  have hord := hm.ordered conn hconn
  have hP : 0 < conn.region1 := lt_of_le_of_lt hord.1 hord.2
  obtain ⟨hcin, _, e1, e2, hf1, hf2, _, _, hr1, hr2⟩ := hm.ends conn hconn
  have hf1' := hm.floors e1 hf1
  have hf2' := hm.floors e2 hf2
  obtain ⟨⟨_, mgc⟩, mgo⟩ := merge_grid W H g conn.x conn.y conn.region1 hP
  have h0mem : (0 : Int) ∈ region_ids W H g := by
    rw [mem_region_ids]
    refine ⟨le_refl _, e1.1, e1.2, hf1'.1, ?_⟩
    rw [hr1, hmain]
    rfl
  have hPmem : conn.region1 ∈ region_ids W H g := by
    rw [mem_region_ids]
    exact ⟨le_of_lt hP, e2.1, e2.2, hf2'.1, hr2⟩
  refine ⟨?_, hPmem, h0mem⟩
  ext r
  rw [Finset.mem_erase, mem_region_ids]
  constructor
  · rintro ⟨h0, x, y, hin, hreg⟩
    by_cases hxy : x = conn.x ∧ y = conn.y
    · obtain ⟨rfl, rfl⟩ := hxy
      rw [mgc] at hreg
      unfold main_region at hreg
      rw [← hreg]
      exact ⟨by omega, h0mem⟩
    · rw [(mgo x y hin hxy).2] at hreg
      unfold absorb main_region at hreg
      split_ifs at hreg with h
      · rw [← hreg]
        exact ⟨by omega, h0mem⟩
      · rw [← hreg]
        refine ⟨h, ?_⟩
        rw [mem_region_ids]
        exact ⟨by rw [hreg]; exact h0, x, y, hin, rfl⟩
  · rintro ⟨hne, hr⟩
    rw [mem_region_ids] at hr
    obtain ⟨h0, x, y, hin, hreg⟩ := hr
    refine ⟨h0, x, y, hin, ?_⟩
    have hxy : ¬ (x = conn.x ∧ y = conn.y) := by
      rintro ⟨hx, hy⟩
      rw [hx, hy] at hreg hin
      have := (hs _ _ hin).2 hw
      omega
    rw [(mgo x y hin hxy).2, hreg]
    unfold absorb
    rw [if_neg hne]

theorem door_tiles_merge (W H : Int) (g : grid) (cx cy partner : Int)
    (hin : in_bounds W H cx cy) :
    door_tiles W H (relabel W H partner (modify g cx cy open_door))
      = insert (cx, cy) (door_tiles W H g) := by
  obtain ⟨hd1, hd2⟩ := merge_grid_door W H g cx cy partner
  ext p
  rw [Finset.mem_insert, mem_door_tiles, mem_door_tiles]
  by_cases hp : p.1 = cx ∧ p.2 = cy
  · have hpe : p = (cx, cy) := Prod.ext hp.1 hp.2
    subst hpe
    constructor
    · exact fun _ => Or.inl rfl
    · exact fun _ => ⟨hin, hd1⟩
  · rw [hd2 p.1 p.2 hp]
    constructor
    · exact fun h => Or.inr h
    · rintro (h | h)
      · exact absurd ⟨congrArg Prod.fst h, congrArg Prod.snd h⟩ hp
      · exact h

theorem door_inv_step (W H : Int) (g0 g : grid) (conns : List connection_t)
    (hm : merge_inv W H g0 g conns) (hd : door_inv W H g0 g conns)
    (conn : connection_t) (hconn : conn ∈ conns) (hmain : conn.region0 = main_region)
    (conns' : List connection_t)
    (hperm : conns'.Perm ((conns.map (rewrite_connection conn.region1)).filter kept)) :
    door_inv W H g0 (relabel W H conn.region1 (modify g conn.x conn.y open_door)) conns' ∧
      (region_ids W H (relabel W H conn.region1 (modify g conn.x conn.y open_door))).card + 1
        = (region_ids W H g).card ∧
      0 < (region_ids W H (relabel W H conn.region1
        (modify g conn.x conn.y open_door))).card ∧
      (door_tiles W H (relabel W H conn.region1 (modify g conn.x conn.y open_door))).card
        = (door_tiles W H g).card + 1 := by
  have hord := hm.ordered conn hconn
  have hP : 0 < conn.region1 := lt_of_le_of_lt hord.1 hord.2
  have hcin : in_bounds W H conn.x conn.y := (hm.ends conn hconn).1
  have hw : (g conn.x conn.y).kind ≠ tk_floor := hd.walls conn hconn
  obtain ⟨⟨mgk, mgc⟩, mgo⟩ := merge_grid W H g conn.x conn.y conn.region1 hP
  obtain ⟨hd1, hd2⟩ := merge_grid_door W H g conn.x conn.y conn.region1
  obtain ⟨hids, hPmem, h0mem⟩ :=
    region_ids_merge W H g0 g conns hm hd.sign conn hconn hmain hw
  have hpos : 0 < (region_ids W H (relabel W H conn.region1
      (modify g conn.x conn.y open_door))).card := by
    rw [hids]
    exact Finset.card_pos.mpr ⟨0, Finset.mem_erase.mpr ⟨by omega, h0mem⟩⟩
  have hdoors : (door_tiles W H (relabel W H conn.region1
      (modify g conn.x conn.y open_door))).card = (door_tiles W H g).card + 1 := by
    rw [door_tiles_merge W H g conn.x conn.y conn.region1 hcin,
      Finset.card_insert_of_not_mem]
    rw [mem_door_tiles]
    rintro ⟨_, hdoor⟩
    exact hw (hd.closed _ _ hcin hdoor)
  have hcard : (region_ids W H (relabel W H conn.region1
      (modify g conn.x conn.y open_door))).card + 1 = (region_ids W H g).card := by
    rw [hids, Finset.card_erase_of_mem hPmem]
    have := Finset.card_pos.mpr ⟨_, hPmem⟩
    omega
  refine ⟨⟨?_, ?_, ?_, positions_perm_rewrite _ _ _ hperm hd.apart, ?_, ?_⟩, hcard, hpos,
    hdoors⟩
  · intro x y hin
    by_cases hxy : x = conn.x ∧ y = conn.y
    · obtain ⟨rfl, rfl⟩ := hxy
      exact ⟨fun _ => mgk, fun h => absurd mgk h⟩
    · rw [(mgo x y hin hxy).1, (mgo x y hin hxy).2]
      have hsx := hd.sign x y hin
      have ha := absorb_sign conn.region1 hP (g x y).region
      exact ⟨fun h => hsx.1 (ha.1.mp h), fun h => ha.2 (hsx.2 h)⟩
  · intro x y hin hk
    by_cases hxy : x = conn.x ∧ y = conn.y
    · obtain ⟨rfl, rfl⟩ := hxy
      exact Or.inr hd1
    · rw [(mgo x y hin hxy).1] at hk
      rw [hd2 x y hxy]
      exact hd.opened x y hin hk
  · intro x y hin hdoor
    by_cases hxy : x = conn.x ∧ y = conn.y
    · obtain ⟨rfl, rfl⟩ := hxy
      exact mgk
    · rw [hd2 x y hxy] at hdoor
      rw [(mgo x y hin hxy).1]
      exact hd.closed x y hin hdoor
  · intro c' hc'
    obtain ⟨c, hc, rfl, hkept⟩ := (mem_of_perm_rewrite _ _ _ hperm c').mp hc'
    rw [(rewrite_connection_xy _ c).1, (rewrite_connection_xy _ c).2]
    have hcin' : in_bounds W H c.x c.y := (hm.ends c hc).1
    by_cases hxy : c.x = conn.x ∧ c.y = conn.y
    · exfalso
      have hpos : (fun c : connection_t => (c.x, c.y)) c
          = (fun c : connection_t => (c.x, c.y)) conn := by
        dsimp only
        rw [hxy.1, hxy.2]
      have hcc : c = conn := List.inj_on_of_nodup_map hd.apart hc hconn hpos
      subst hcc
      exact hkept (rewrite_connection_main _ hP c hmain rfl)
    · rw [(mgo c.x c.y hcin' hxy).1]
      exact hd.walls c hc
  · have := hd.count
    omega
theorem scan_cells_positions (g : grid) (ps : List (Int × Int)) :
    ∀ (acc : List connection_t),
      (scan_cells g ps acc).map (fun c => (c.x, c.y))
        = acc.map (fun c => (c.x, c.y)) ++
          ps.filter (fun q => decide (separates (g (q.1 - 1) q.2) (g (q.1 + 1) q.2) ∨
            separates (g q.1 (q.2 - 1)) (g q.1 (q.2 + 1)))) := by
  induction ps with
  | nil => intro acc; simp [scan_cells]
  | cons q ps ih =>
    intro acc
    unfold scan_cells
    by_cases h1 : separates (g (q.1 - 1) q.2) (g (q.1 + 1) q.2)
    · have h1' := h1
      unfold separates at h1'
      rw [if_pos h1', ih, List.filter_cons_of_pos (by simp [h1])]
      simp
    · have h1' := h1
      unfold separates at h1'
      rw [if_neg h1']
      by_cases h2 : separates (g q.1 (q.2 - 1)) (g q.1 (q.2 + 1))
      · have h2' := h2
        unfold separates at h2'
        rw [if_pos h2', ih, List.filter_cons_of_pos (by simp [h2])]
        simp
      · have h2' := h2
        unfold separates at h2'
        rw [if_neg h2', ih, List.filter_cons_of_neg (by simp [h1, h2])]

theorem scan_connections_apart (W H : Int) (g : grid) :
    ((scan_connections W H g).map (fun c => (c.x, c.y))).Nodup := by
  unfold scan_connections
  rw [scan_cells_positions, List.map_nil, List.nil_append]
  exact (rect_cells_nodup _ _ _ _).filter _

theorem door_false_after_maze (W H : Int) (s1 : state) (hR : rooms_inv W H s1) (g : grid)
    (k : Int) (hm : maze_inv W H s1 g k) (x y : Int) (hin : in_bounds W H x y) :
    (g x y).door = false := by
  by_cases hfree : (s1.tiles x y).room = -1
  · exact (hm.tile x y hin hfree).2.1
  · rw [hm.frame x y hin hfree]
    exact (hR.2.2.2.2.2 x y hin).1

theorem region_sign_ok_after_maze (W H : Int) (s1 : state) (hR : rooms_inv W H s1) (g : grid)
    (k : Int) (hm : maze_inv W H s1 g k) : region_sign_ok W H g := by
  intro x y hin
  obtain ⟨_, h2⟩ := region_sign W H s1 hR g k hm x y hin
  refine ⟨fun h0 => ?_, h2⟩
  by_contra hnf
  have := h2 hnf
  omega

theorem door_tiles_empty (W H : Int) (g : grid)
    (h : ∀ x y, in_bounds W H x y → (g x y).door = false) : door_tiles W H g = ∅ := by
  rw [Finset.eq_empty_iff_forall_not_mem]
  intro p hp
  rw [mem_door_tiles] at hp
  rw [h _ _ hp.1] at hp
  exact absurd hp.2 (by decide)

theorem door_inv_init (W H : Int) (s1 : state) (hR : rooms_inv W H s1) (g : grid) (k : Int)
    (hm : maze_inv W H s1 g k) : door_inv W H g g (scan_connections W H g) := by
  have hdf := door_false_after_maze W H s1 hR g k hm
  refine ⟨region_sign_ok_after_maze W H s1 hR g k hm, fun _ _ _ h => Or.inl h, ?_,
    scan_connections_apart W H g, ?_, ?_⟩
  · intro x y hin hdoor
    rw [hdf x y hin] at hdoor
    exact absurd hdoor (by decide)
  · intro c hc
    unfold scan_connections at hc
    rcases scan_cells_sound _ _ _ c hc with h | ⟨p, hp, hcon⟩
    · simp at h
    · have hx : c.x = p.1 := hcon.1
      have hy : c.y = p.2 := hcon.2.1
      have hsep : separates (g (p.1 - 1) p.2) (g (p.1 + 1) p.2) ∨
          separates (g p.1 (p.2 - 1)) (g p.1 (p.2 + 1)) := by
        rcases hcon.2.2 with h | h
        · exact Or.inl h.1
        · exact Or.inr h.2.1
      have hcand := (candidate_tile_iff W H s1 hR g k hm p).mpr ⟨hp, hsep⟩
      rw [hx, hy, hcand.2.1]
      decide
  · rw [door_tiles_empty W H g hdf]
    simp

/-- The merge loop under an invariant `Inv` and a measure `μ` that every
iteration lowers by exactly one and leaves positive: the loop returns after `μ`
has dropped by the number of draws it used, or stops for lack of draws with fewer
than `μ − 1` draws. -/
theorem merge_loop_run (W H : Int) (Inv : grid → List connection_t → Prop) (μ : grid → Nat)
    (hstep : ∀ (g : grid) (conns : List connection_t) (conn : connection_t)
      (conns' : List connection_t), Inv g conns → conn ∈ conns →
      conn.region0 = main_region →
      conns'.Perm ((conns.map (rewrite_connection conn.region1)).filter kept) →
      Inv (relabel W H conn.region1 (modify g conn.x conn.y open_door)) conns' ∧
        μ (relabel W H conn.region1 (modify g conn.x conn.y open_door)) + 1 = μ g ∧
        0 < μ (relabel W H conn.region1 (modify g conn.x conn.y open_door))) :
    ∀ (draws : List Nat) (g : grid) (conns : List connection_t), Inv g conns →
      (∃ g' rest conns' c, merge_loop W H draws g conns = outcome.ok (g', rest) ∧
          Inv g' conns' ∧ (∀ e ∈ conns', e.region0 ≠ main_region) ∧
          draws.length = rest.length + c ∧ μ g' + c = μ g) ∨
        (merge_loop W H draws g conns = outcome.no_draws ∧ draws.length + 1 < μ g) := by
  have hdone : ∀ (g : grid) (conns : List connection_t),
      (conns.filter (fun c => decide (c.region0 = main_region))).length = 0 →
      ∀ c ∈ conns, c.region0 ≠ main_region := by
    intro g conns hlen c hc h0
    have : c ∈ conns.filter (fun c => decide (c.region0 = main_region)) := by
      rw [List.mem_filter]; exact ⟨hc, by simpa using h0⟩
    rw [List.length_eq_zero] at hlen
    rw [hlen] at this
    simp at this
  have hcand : ∀ (conns : List connection_t),
      ¬ (conns.filter (fun c => decide (c.region0 = main_region))).length = 0 →
      ∃ conn ∈ conns, conn.region0 = main_region := by
    intro conns hne
    obtain ⟨c, hc⟩ := List.exists_mem_of_length_pos (Nat.pos_of_ne_zero hne)
    rw [List.mem_filter] at hc
    exact ⟨c, hc.1, by simpa using hc.2⟩
  intro draws
  induction draws with
  | nil =>
    intro g conns hinv
    unfold merge_loop
    by_cases he : (conns.filter (fun c => decide (c.region0 = main_region))).length = 0
    · rw [if_pos he]
      exact Or.inl ⟨g, [], conns, 0, rfl, hinv, hdone g conns he, rfl, rfl⟩
    · rw [if_neg he]
      obtain ⟨conn, hc, h0⟩ := hcand conns he
      have := (hstep g conns conn _ hinv hc h0 (List.Perm.refl _)).2
      exact Or.inr ⟨rfl, by simp only [List.length_nil]; omega⟩
  | cons rnd ds ih =>
    intro g conns hinv
    unfold merge_loop
    by_cases he : (conns.filter (fun c => decide (c.region0 = main_region))).length = 0
    · rw [if_pos he]
      exact Or.inl ⟨g, rnd :: ds, conns, 0, rfl, hinv, hdone g conns he, rfl, rfl⟩
    · rw [if_neg he]
      have hlt := randrange_index _ (Nat.pos_of_ne_zero he) rnd
      obtain ⟨conn, hconn⟩ : ∃ conn,
          (conns.filter (fun c => decide (c.region0 = main_region)))[(randrange
            ⟨0, ((conns.filter (fun c => decide (c.region0 = main_region))).length : Int) - 1⟩
            rnd).toNat]? = some conn := ⟨_, List.getElem?_eq_getElem hlt⟩
      rw [hconn]
      dsimp only
      have hmem := List.getElem?_mem hconn
      rw [List.mem_filter] at hmem
      have hperm := update_connections_perm conn.region1 conns []
      simp only [List.append_nil] at hperm
      obtain ⟨hinv', hμ, _⟩ := hstep g conns conn _ hinv hmem.1 (by simpa using hmem.2) hperm
      rcases ih _ _ hinv' with ⟨g', rest, conns', c, hml, hi, hex, hl, hc⟩ | ⟨hml, hl⟩
      · refine Or.inl ⟨g', rest, conns', c + 1, hml, hi, hex, ?_, ?_⟩
        · simp only [List.length_cons]; omega
        · omega
      · refine Or.inr ⟨hml, ?_⟩
        simp only [List.length_cons]
        omega
/-- The two invariants of the merge loop hold when the loop is entered. -/
theorem merge_invs_init (W H : Int) (hd : dims_ok W H) (ho : dims_odd W H) (s : state)
    (draws : List Nat) (s1 : state) (d1 : List Nat) (s2 : state) (d2 : List Nat)
    (h1 : make_rooms W H (init W H s) draws = outcome.ok (s1, d1))
    (h2 : make_maze W H s1 d1 = outcome.ok (s2, d2)) :
    merge_inv W H s2.tiles s2.tiles (scan_connections W H s2.tiles) ∧
      door_inv W H s2.tiles s2.tiles (scan_connections W H s2.tiles) ∧
      (main_region ∈ region_ids W H s2.tiles) := by
  have hR := make_rooms_inv W H hd s draws s1 d1 h1
  have hne := make_rooms_nonempty W H hd s draws s1 d1 h1
  obtain ⟨⟨_, _, hm⟩, hall⟩ := make_maze_inv W H hd ho s1 hR d1 s2 d2 h2
  refine ⟨merge_inv_init W H hd ho s1 hR hne s2.tiles s2.next_region hm hall,
    door_inv_init W H s1 hR s2.tiles s2.next_region hm, ?_⟩
  obtain ⟨x, y, hin, _, _, hreg⟩ := main_region_cell W H s1 hR hne s2.tiles s2.next_region hm
  rw [mem_region_ids]
  exact ⟨le_refl _, x, y, hin, hreg⟩

/-- One iteration of the merge loop keeps both invariants, removes exactly one
region id and adds exactly one door. -/
theorem merge_invs_step (W H : Int) (g0 g : grid) (conns : List connection_t)
    (hm : merge_inv W H g0 g conns) (hd : door_inv W H g0 g conns)
    (conn : connection_t) (hconn : conn ∈ conns) (hmain : conn.region0 = main_region) :
    merge_inv W H g0 (merge_step W H g conns conn).1 (merge_step W H g conns conn).2 ∧
      door_inv W H g0 (merge_step W H g conns conn).1 (merge_step W H g conns conn).2 ∧
      (region_ids W H (merge_step W H g conns conn).1).card + 1 = (region_ids W H g).card ∧
      (door_tiles W H (merge_step W H g conns conn).1).card = (door_tiles W H g).card + 1 := by
  have hperm := update_connections_perm conn.region1 conns []
  simp only [List.append_nil] at hperm
  obtain ⟨hd', hc, _, hdo⟩ := door_inv_step W H g0 g conns hm hd conn hconn hmain _ hperm
  exact ⟨merge_inv_step W H g0 g conns hm conn hconn hmain _ hperm, hd', hc, hdo⟩

/-- The merge loop from its entry state: it returns once the list holds `R − 1`
draws, uses exactly `R − 1` draws, and leaves `R − 1` doors and one region id. -/
theorem merge_loop_count (W H : Int) (g0 : grid) (conns0 : List connection_t)
    (hm0 : merge_inv W H g0 g0 conns0) (hd0 : door_inv W H g0 g0 conns0)
    (h0 : main_region ∈ region_ids W H g0) (draws : List Nat) :
    ((region_ids W H g0).card ≤ draws.length + 1 →
        ∃ g rest, merge_loop W H draws g0 conns0 = outcome.ok (g, rest)) ∧
      ∀ g rest, merge_loop W H draws g0 conns0 = outcome.ok (g, rest) →
        draws.length + 1 = rest.length + (region_ids W H g0).card ∧
          (door_tiles W H g).card + 1 = (region_ids W H g0).card ∧
          (region_ids W H g).card = 1 ∧ region_sign_ok W H g ∧
          (∀ x y, in_bounds W H x y → (g x y).kind = tk_floor →
            (g0 x y).kind = tk_floor ∨ (g x y).door = true) := by
  have hrun := merge_loop_run W H
    (fun g conns => merge_inv W H g0 g conns ∧ door_inv W H g0 g conns)
    (fun g => (region_ids W H g).card)
    (fun g conns conn conns' hinv hc hmain hperm =>
      ⟨⟨merge_inv_step W H g0 g conns hinv.1 conn hc hmain conns' hperm,
          (door_inv_step W H g0 g conns hinv.1 hinv.2 conn hc hmain conns' hperm).1⟩,
        (door_inv_step W H g0 g conns hinv.1 hinv.2 conn hc hmain conns' hperm).2.1,
        (door_inv_step W H g0 g conns hinv.1 hinv.2 conn hc hmain conns' hperm).2.2.1⟩)
    draws g0 conns0 ⟨hm0, hd0⟩
  have hfinal : ∀ g rest conns' c, merge_loop W H draws g0 conns0 = outcome.ok (g, rest) →
      door_inv W H g0 g conns' → draws.length = rest.length + c →
      (region_ids W H g).card + c = (region_ids W H g0).card →
      draws.length + 1 = rest.length + (region_ids W H g0).card ∧
        (door_tiles W H g).card + 1 = (region_ids W H g0).card ∧
        (region_ids W H g).card = 1 ∧ region_sign_ok W H g ∧
        (∀ x y, in_bounds W H x y → (g x y).kind = tk_floor →
          (g0 x y).kind = tk_floor ∨ (g x y).door = true) := by
    intro g rest conns' c hml hd' hl hc
    obtain ⟨hreg, _⟩ := merge_loop_post W H g0 conns0 hm0 draws g rest hml
    have hone : region_ids W H g = {main_region} := by
      ext r
      rw [Finset.mem_singleton, mem_region_ids]
      constructor
      · rintro ⟨hr0, x, y, hin, hr⟩
        have hf := (hd'.sign x y hin).1 (by rw [hr]; exact hr0)
        rw [← hr]
        exact hreg (x, y) ⟨hin, hf⟩
      · rintro rfl
        rw [mem_region_ids] at h0
        obtain ⟨_, x, y, hin, hr⟩ := h0
        have hf0 : (g0 x y).kind = tk_floor :=
          (hd0.sign x y hin).1 (by rw [hr]; exact le_refl _)
        obtain ⟨conns2, hinv2, _⟩ := merge_loop_ind W H
          (fun g conns => merge_inv W H g0 g conns)
          (fun g conns conn conns' hi hc hm hp =>
            merge_inv_step W H g0 g conns hi conn hc hm conns' hp)
          draws g0 conns0 g rest hm0 hml
        have hf := hinv2.floors (x, y) ⟨hin, hf0⟩
        exact ⟨le_refl _, x, y, hin, hreg (x, y) hf⟩
    have hcard : (region_ids W H g).card = 1 := by rw [hone]; rfl
    have hcount := hd'.count
    exact ⟨by omega, by omega, hcard, hd'.sign, hd'.opened⟩
  constructor
  · intro hlen
    rcases hrun with ⟨g, rest, _, _, hml, _⟩ | ⟨_, hl⟩
    · exact ⟨g, rest, hml⟩
    · dsimp only at hl
      omega
  · intro g rest hml
    rcases hrun with ⟨g', rest', conns', c, hml', hinv', _, hl, hc⟩ | ⟨hnd, _⟩
    · rw [hml] at hml'
      simp only [outcome.ok.injEq, Prod.mk.injEq] at hml'
      obtain ⟨rfl, rfl⟩ := hml'
      exact hfinal g rest conns' c hml hinv'.2 hl hc
    · rw [hml] at hnd
      simp at hnd
/-- An iteration of the merge loop that does not leave the loop continues from the
state `merge_step` computes for the entry it chose. -/
theorem merge_loop_step (W H : Int) (rnd : Nat) (rest : List Nat) (g : grid)
    (conns : List connection_t) (conn : connection_t)
    (hconn : (conns.filter (fun c => decide (c.region0 = main_region)))[(randrange
      ⟨0, ((conns.filter (fun c => decide (c.region0 = main_region))).length : Int) - 1⟩
      rnd).toNat]? = some conn) :
    merge_loop W H (rnd :: rest) g conns
      = merge_loop W H rest (merge_step W H g conns conn).1 (merge_step W H g conns conn).2 := by
  have hne : ¬ (conns.filter (fun c => decide (c.region0 = main_region))).length = 0 := by
    intro h0
    rw [List.length_eq_zero] at h0
    rw [h0] at hconn
    simp at hconn
  rw [merge_loop, if_neg hne, hconn]
  rfl

/-- C17: for odd grid sizes of `dims_ok` and every sequence of draws, let `R` be the
number of distinct non-negative region ids on the grid left by `init`,
`make_rooms` and `make_maze`.  Then `make_connections` returns as soon as the list
holds `R − 1` draws; whenever it returns it has used exactly `R − 1` draws, one per
opened connector, the number of tiles with `door = true` is `R − 1`, and one region
id is left.  The loop invariants `merge_inv` and `door_inv` hold at loop entry, and
every iteration (the step `merge_step` on an entry with low id 0) keeps them,
lowers the number of distinct region ids by exactly one and adds exactly one
door. -/
theorem make_connections_opens_all_but_one (W H : Int) (hd : dims_ok W H) (ho : dims_odd W H)
    (s : state) (draws : List Nat) (s1 : state) (d1 : List Nat) (s2 : state) (d2 : List Nat)
    (h1 : make_rooms W H (init W H s) draws = outcome.ok (s1, d1))
    (h2 : make_maze W H s1 d1 = outcome.ok (s2, d2)) :
    (∀ dr : List Nat, (region_ids W H s2.tiles).card ≤ dr.length + 1 →
        ∃ s3 rest, make_connections W H s2 dr = outcome.ok (s3, rest)) ∧
      (∀ (dr : List Nat) (s3 : state) (rest : List Nat),
        make_connections W H s2 dr = outcome.ok (s3, rest) →
          dr.length + 1 = rest.length + (region_ids W H s2.tiles).card ∧
            (door_tiles W H s3.tiles).card + 1 = (region_ids W H s2.tiles).card ∧
            (region_ids W H s3.tiles).card = 1) ∧
      (merge_inv W H s2.tiles s2.tiles (scan_connections W H s2.tiles) ∧
        door_inv W H s2.tiles s2.tiles (scan_connections W H s2.tiles)) ∧
      ∀ (g : grid) (conns : List connection_t) (conn : connection_t),
        merge_inv W H s2.tiles g conns → door_inv W H s2.tiles g conns → conn ∈ conns →
        conn.region0 = main_region →
          merge_inv W H s2.tiles (merge_step W H g conns conn).1
              (merge_step W H g conns conn).2 ∧
            door_inv W H s2.tiles (merge_step W H g conns conn).1
              (merge_step W H g conns conn).2 ∧
            (region_ids W H (merge_step W H g conns conn).1).card + 1
              = (region_ids W H g).card ∧
            (door_tiles W H (merge_step W H g conns conn).1).card
              = (door_tiles W H g).card + 1 := by
  obtain ⟨hm0, hd0, h0⟩ := merge_invs_init W H hd ho s draws s1 d1 s2 d2 h1 h2
  refine ⟨?_, ?_, ⟨hm0, hd0⟩, fun g conns conn hm hdi hc hmain =>
    merge_invs_step W H s2.tiles g conns hm hdi conn hc hmain⟩
  · intro dr hlen
    obtain ⟨g, rest, hml⟩ := (merge_loop_count W H s2.tiles _ hm0 hd0 h0 dr).1 hlen
    unfold make_connections
    rw [hml]
    exact ⟨_, _, rfl⟩
  · intro dr s3 rest h3
    unfold make_connections at h3
    obtain ⟨⟨g, rest'⟩, hml, hk⟩ := outcome_bind_ok h3
    simp only [outcome.ok.injEq, Prod.mk.injEq] at hk
    obtain ⟨rfl, rfl⟩ := hk
    obtain ⟨e1, e2, e3, _⟩ := (merge_loop_count W H s2.tiles _ hm0 hd0 h0 dr).2 g rest' hml
    exact ⟨e1, e2, e3⟩

/-- Witness of C17: on the 11 × 7 grid with `small_draws` the three stages return,
and the number of doors is one less than the number of region ids that
`make_connections` found. -/
theorem make_connections_opens_all_but_one_witness :
    ∃ s1 d1 s2 d2 s3 d3,
      make_rooms 11 7 (init 11 7 s_blank) small_draws = outcome.ok (s1, d1) ∧
      make_maze 11 7 s1 d1 = outcome.ok (s2, d2) ∧
      make_connections 11 7 s2 d2 = outcome.ok (s3, d3) ∧
      (door_tiles 11 7 s3.tiles).card + 1 = (region_ids 11 7 s2.tiles).card := by
  obtain ⟨s1, d1, s2, d2, s3, d3, _, h1, h2, h3, _⟩ := small_run
  exact ⟨s1, d1, s2, d2, s3, d3, h1, h2, h3,
    ((make_connections_opens_all_but_one 11 7 (by decide) (by decide) s_blank small_draws
      s1 d1 s2 d2 h1 h2).2.1 d2 s3 d3 h3).2.1⟩

/-! ## Regions and tile kinds after each stage -/

/-- C18 fails as stated after `remove_dead_ends`: in the run on the 11 × 7 grid with
`small_draws`, the tile `(1, 4)` is wall when the four stages have run and still
carries region 0, so the grid does not satisfy `region_sign_ok`. -/
theorem remove_dead_ends_leaves_region :
    ∃ s4 d4, generate 11 7 s_blank small_draws = outcome.ok (s4, d4) ∧
      (s4.tiles 1 4).kind = tk_wall ∧ (s4.tiles 1 4).region = 0 ∧
      ¬ region_sign_ok 11 7 s4.tiles := by
  have hev : (generate 11 7 s_blank small_draws).holds
      (fun r => decide ((r.1.tiles 1 4).kind = tk_wall ∧ (r.1.tiles 1 4).region = 0)) = true := by
    decide!
  obtain ⟨⟨s4, d4⟩, h, hP⟩ := outcome_holds_elim hev
  simp only [decide_eq_true_eq] at hP
  refine ⟨s4, d4, h, hP.1, hP.2, fun hs => ?_⟩
  have := (hs 1 4 (by decide)).1 (by rw [hP.2])
  rw [hP.1] at this
  exact absurd this (by decide)

/-- C18, amended: for odd grid sizes of `dims_ok` and every sequence of draws, after
each of `make_rooms`, `make_maze` and `make_connections` every tile with a
non-negative region is floor and every tile that is not floor has region −1.
`remove_dead_ends` leaves every region as it was: after it a tile with a
non-negative region was floor before the pruning, and a tile that is not floor
has region −1 unless it was floor before the pruning. -/
theorem region_sign_after_stages (W H : Int) (hd : dims_ok W H) (ho : dims_odd W H)
    (s : state) (draws : List Nat) (s1 : state) (d1 : List Nat)
    (h1 : make_rooms W H (init W H s) draws = outcome.ok (s1, d1)) :
    region_sign_ok W H s1.tiles ∧
      ∀ s2 d2, make_maze W H s1 d1 = outcome.ok (s2, d2) →
        region_sign_ok W H s2.tiles ∧
        ∀ s3 d3, make_connections W H s2 d2 = outcome.ok (s3, d3) →
          region_sign_ok W H s3.tiles ∧
          ∀ g, remove_dead_ends W H s3.tiles = outcome.ok g →
            ∀ x y, in_bounds W H x y →
              (g x y).region = (s3.tiles x y).region ∧
                (0 ≤ (g x y).region → (s3.tiles x y).kind = tk_floor) ∧
                ((g x y).kind ≠ tk_floor →
                  (g x y).region = -1 ∨ (s3.tiles x y).kind = tk_floor) := by
  have hR := make_rooms_inv W H hd s draws s1 d1 h1
  refine ⟨region_sign_ok_after_maze W H s1 hR _ _ (maze_inv_init W H s1 hR), ?_⟩
  intro s2 d2 h2
  obtain ⟨⟨_, _, hm⟩, _⟩ := make_maze_inv W H hd ho s1 hR d1 s2 d2 h2
  refine ⟨region_sign_ok_after_maze W H s1 hR _ _ hm, ?_⟩
  intro s3 d3 h3
  obtain ⟨hm0, hd0, h0⟩ := merge_invs_init W H hd ho s draws s1 d1 s2 d2 h1 h2
  unfold make_connections at h3
  obtain ⟨⟨g3, rest⟩, hml, hk⟩ := outcome_bind_ok h3
  simp only [outcome.ok.injEq, Prod.mk.injEq] at hk
  obtain ⟨rfl, rfl⟩ := hk
  obtain ⟨_, _, _, hs3, _⟩ := (merge_loop_count W H s2.tiles _ hm0 hd0 h0 d2).2 g3 rest hml
  refine ⟨hs3, ?_⟩
  intro g hg x y hin
  obtain ⟨g', hg', hp, _⟩ := remove_dead_ends_spec W H g3
  dsimp only at hg
  rw [hg] at hg'
  simp only [outcome.ok.injEq] at hg'
  subst hg'
  dsimp only
  have hreg : (g x y).region = (g3 x y).region := by
    rcases hp.1 x y with e | e <;> rw [e]
  refine ⟨hreg, fun h0r => (hs3 x y hin).1 (by rw [← hreg]; exact h0r), fun _ => ?_⟩
  by_cases hf : (g3 x y).kind = tk_floor
  · exact Or.inr hf
  · left
    rw [hreg]
    exact (hs3 x y hin).2 hf

/-- Witness of C18: the run on the 11 × 7 grid with `small_draws` passes through the
first three stages, and the grid satisfies `region_sign_ok` after each. -/
theorem region_sign_after_stages_witness :
    ∃ s1 d1 s2 d2 s3 d3,
      make_rooms 11 7 (init 11 7 s_blank) small_draws = outcome.ok (s1, d1) ∧
      make_maze 11 7 s1 d1 = outcome.ok (s2, d2) ∧
      make_connections 11 7 s2 d2 = outcome.ok (s3, d3) ∧
      region_sign_ok 11 7 s1.tiles ∧ region_sign_ok 11 7 s2.tiles ∧
      region_sign_ok 11 7 s3.tiles := by
  obtain ⟨s1, d1, s2, d2, s3, d3, _, h1, h2, h3, _⟩ := small_run
  have h := region_sign_after_stages 11 7 (by decide) (by decide) s_blank small_draws s1 d1 h1
  exact ⟨s1, d1, s2, d2, s3, d3, h1, h2, h3, h.1, (h.2 s2 d2 h2).1,
    ((h.2 s2 d2 h2).2 s3 d3 h3).1⟩

/-! ## Parity of the floor tiles outside rooms -/

/-- C19 fails as stated after `make_maze`: in the run on the 11 × 7 grid with
`small_draws` the only room is `(0, 0, 6, 4)`, and the tile `(7, 2)`, an intervening
tile carved between the cells `(7, 1)` and `(7, 3)`, is floor, lies in no room
interior and has an even `y` coordinate. -/
theorem make_maze_floor_at_even_coordinate :
    ∃ s1 d1 s2 d2, make_rooms 11 7 (init 11 7 s_blank) small_draws = outcome.ok (s1, d1) ∧
      make_maze 11 7 s1 d1 = outcome.ok (s2, d2) ∧
      (s2.tiles 7 2).kind = tk_floor ∧ (¬ ∃ r ∈ s2.rooms, interior r 7 2) ∧
      ¬ ((7 : Int) % 2 = 1 ∧ (2 : Int) % 2 = 1) := by
  have hev : ((make_rooms 11 7 (init 11 7 s_blank) small_draws).bind
      (fun r1 => make_maze 11 7 r1.1 r1.2)).holds
      (fun r => decide ((r.1.tiles 7 2).kind = tk_floor) &&
        decide (r.1.rooms = [⟨0, 0, 6, 4⟩])) = true := by
    decide!
  obtain ⟨⟨s2, d2⟩, h, hP⟩ := outcome_holds_elim hev
  obtain ⟨⟨s1, d1⟩, h1, h2⟩ := outcome_bind_ok h
  simp only [Bool.and_eq_true, decide_eq_true_eq] at hP
  refine ⟨s1, d1, s2, d2, h1, h2, hP.1, ?_, by decide⟩
  dsimp only at hP ⊢
  rw [hP.2]
  decide

theorem maze_floor_parity (W H : Int) (s1 : state) (hR : rooms_inv W H s1) (g : grid)
    (k : Int) (hm : maze_inv W H s1 g k) (x y : Int) (hin : in_bounds W H x y)
    (hf : (g x y).kind = tk_floor) (hno : ¬ ∃ r ∈ s1.rooms, interior r x y) :
    (g x y).door = false ∧ (g x y).room = -1 ∧
      ((x % 2 = 1 ∧ y % 2 = 1) ∨ (x % 2 = 0 ∧ y % 2 = 1) ∨ (x % 2 = 1 ∧ y % 2 = 0)) := by
  have hdoor := door_false_after_maze W H s1 hR g k hm x y hin
  rcases floor_tile_kind W H s1 hR g k hm (x, y) ⟨hin, hf⟩ with ⟨i, r, hi, hint, _, _⟩ | ⟨hmf, _⟩
  · exact absurd ⟨r, List.getElem?_mem hi, hint⟩ hno
  · refine ⟨hdoor, ((maze_floor_iff _).mp hmf).2, ?_⟩
    rcases hm.shape x y hin hmf with h | ⟨h1, h2, _⟩ | ⟨h1, h2, _⟩
    · exact Or.inl h
    · exact Or.inr (Or.inl ⟨h1, h2⟩)
    · exact Or.inr (Or.inr ⟨h1, h2⟩)

/-- C19, amended: for odd grid sizes of `dims_ok` and every sequence of draws, after
`make_rooms` every floor tile lies in a room interior; after `make_maze` a floor
tile in no room interior is not a door, has room index −1 and lies at odd `(x, y)`
or is an intervening tile with exactly one even coordinate; after
`make_connections` and after `remove_dead_ends` a floor tile in no room interior
is such a tile or a door. -/
theorem floor_parity_after_stages (W H : Int) (hd : dims_ok W H) (ho : dims_odd W H)
    (s : state) (draws : List Nat) (s1 : state) (d1 : List Nat)
    (h1 : make_rooms W H (init W H s) draws = outcome.ok (s1, d1)) :
    (∀ x y, in_bounds W H x y → (s1.tiles x y).kind = tk_floor →
        ∃ r ∈ s1.rooms, interior r x y) ∧
      ∀ s2 d2, make_maze W H s1 d1 = outcome.ok (s2, d2) →
        (∀ x y, in_bounds W H x y → (s2.tiles x y).kind = tk_floor →
          (¬ ∃ r ∈ s2.rooms, interior r x y) →
          (s2.tiles x y).door = false ∧ (s2.tiles x y).room = -1 ∧
            ((x % 2 = 1 ∧ y % 2 = 1) ∨ (x % 2 = 0 ∧ y % 2 = 1) ∨ (x % 2 = 1 ∧ y % 2 = 0))) ∧
        ∀ s3 d3, make_connections W H s2 d2 = outcome.ok (s3, d3) →
          (∀ x y, in_bounds W H x y → (s3.tiles x y).kind = tk_floor →
            (¬ ∃ r ∈ s3.rooms, interior r x y) →
            (s3.tiles x y).door = true ∨ (x % 2 = 1 ∧ y % 2 = 1) ∨
              (x % 2 = 0 ∧ y % 2 = 1) ∨ (x % 2 = 1 ∧ y % 2 = 0)) ∧
          ∀ g, remove_dead_ends W H s3.tiles = outcome.ok g →
            ∀ x y, in_bounds W H x y → (g x y).kind = tk_floor →
              (¬ ∃ r ∈ s3.rooms, interior r x y) →
              (g x y).door = true ∨ (x % 2 = 1 ∧ y % 2 = 1) ∨
                (x % 2 = 0 ∧ y % 2 = 1) ∨ (x % 2 = 1 ∧ y % 2 = 0) := by
  have hR := make_rooms_inv W H hd s draws s1 d1 h1
  refine ⟨fun x y hin hf => (rooms_floor_iff W H s1 hR x y hin).mp hf, ?_⟩
  intro s2 d2 h2
  obtain ⟨⟨hrooms, _, hm⟩, _⟩ := make_maze_inv W H hd ho s1 hR d1 s2 d2 h2
  have h2par : ∀ x y, in_bounds W H x y → (s2.tiles x y).kind = tk_floor →
      (¬ ∃ r ∈ s2.rooms, interior r x y) →
      (s2.tiles x y).door = false ∧ (s2.tiles x y).room = -1 ∧
        ((x % 2 = 1 ∧ y % 2 = 1) ∨ (x % 2 = 0 ∧ y % 2 = 1) ∨ (x % 2 = 1 ∧ y % 2 = 0)) := by
    intro x y hin hf hno
    rw [hrooms] at hno
    exact maze_floor_parity W H s1 hR _ _ hm x y hin hf hno
  refine ⟨h2par, ?_⟩
  intro s3 d3 h3
  obtain ⟨hm0, hd0, h0⟩ := merge_invs_init W H hd ho s draws s1 d1 s2 d2 h1 h2
  unfold make_connections at h3
  obtain ⟨⟨g3, rest⟩, hml, hk⟩ := outcome_bind_ok h3
  simp only [outcome.ok.injEq, Prod.mk.injEq] at hk
  obtain ⟨rfl, rfl⟩ := hk
  obtain ⟨_, _, _, _, hop⟩ := (merge_loop_count W H s2.tiles _ hm0 hd0 h0 d2).2 g3 rest hml
  have h3par : ∀ x y, in_bounds W H x y → (g3 x y).kind = tk_floor →
      (¬ ∃ r ∈ s2.rooms, interior r x y) →
      (g3 x y).door = true ∨ (x % 2 = 1 ∧ y % 2 = 1) ∨
        (x % 2 = 0 ∧ y % 2 = 1) ∨ (x % 2 = 1 ∧ y % 2 = 0) := by
    intro x y hin hf hno
    rcases hop x y hin hf with h | h
    · exact Or.inr (h2par x y hin h hno).2.2
    · exact Or.inl h
  refine ⟨h3par, ?_⟩
  intro g hg x y hin hf hno
  obtain ⟨g', hg', hp, _⟩ := remove_dead_ends_spec W H g3
  dsimp only at hg hno
  rw [hg] at hg'
  simp only [outcome.ok.injEq] at hg'
  subst hg'
  rcases hp.1 x y with e | e
  · rw [e] at hf ⊢
    exact h3par x y hin hf hno
  · rw [e] at hf
    exact absurd hf (fun h => tile_kind.noConfusion h)

/-- Witness of C19: the run on the 11 × 7 grid with `small_draws` passes through
`make_rooms` and `make_maze`, and every floor tile of the maze has room index −1
and an odd coordinate. -/
theorem floor_parity_after_stages_witness :
    ∃ s1 d1 s2 d2, make_rooms 11 7 (init 11 7 s_blank) small_draws = outcome.ok (s1, d1) ∧
      make_maze 11 7 s1 d1 = outcome.ok (s2, d2) ∧
      ∀ x y, in_bounds 11 7 x y → (s2.tiles x y).kind = tk_floor →
        (¬ ∃ r ∈ s2.rooms, interior r x y) →
        (s2.tiles x y).door = false ∧ (s2.tiles x y).room = -1 ∧
          ((x % 2 = 1 ∧ y % 2 = 1) ∨ (x % 2 = 0 ∧ y % 2 = 1) ∨ (x % 2 = 1 ∧ y % 2 = 0)) := by
  obtain ⟨s1, d1, s2, d2, _, _, _, h1, h2, _, _⟩ := small_run
  exact ⟨s1, d1, s2, d2, h1, h2,
    ((floor_parity_after_stages 11 7 (by decide) (by decide) s_blank small_draws s1 d1 h1).2
      s2 d2 h2).1⟩

/-! ## `make_maze` leaves the rooms alone -/

/-- C20: on a grid prepared by `init` and `make_rooms` (odd grid sizes of `dims_ok`,
any draws), the tile between an odd cell and a step-two neighbour has room index
−1 whenever both cells have, so that every tile `walk` or `hunt` carves (a start
cell or chosen neighbour, tested to have room index −1, or the tile between two
such cells) has room index −1; `make_maze` never changes a room index; every tile
with a room index other than −1 is the same before and after `make_maze`; and
every tile that `make_maze` changed had room index −1, was wall and is floor. -/
theorem make_maze_writes_room_free (W H : Int) (hd : dims_ok W H) (ho : dims_odd W H)
    (s : state) (draws : List Nat) (s1 : state) (d1 : List Nat)
    (h1 : make_rooms W H (init W H s) draws = outcome.ok (s1, d1)) :
    (∀ x y d, d ∈ dirs → in_bounds W H x y → x % 2 = 1 → y % 2 = 1 →
        in_bounds W H (x + d.x) (y + d.y) → (s1.tiles x y).room = -1 →
        (s1.tiles (x + d.x) (y + d.y)).room = -1 →
        (s1.tiles ((x + (x + d.x)) / 2) ((y + (y + d.y)) / 2)).room = -1) ∧
      ∀ s2 d2, make_maze W H s1 d1 = outcome.ok (s2, d2) →
        ∀ x y, in_bounds W H x y →
          (s2.tiles x y).room = (s1.tiles x y).room ∧
            ((s1.tiles x y).room ≠ -1 → s2.tiles x y = s1.tiles x y) ∧
            (s2.tiles x y ≠ s1.tiles x y →
              (s1.tiles x y).room = -1 ∧ (s1.tiles x y).kind = tk_wall ∧
                (s2.tiles x y).kind = tk_floor) := by
  have hR := make_rooms_inv W H hd s draws s1 d1 h1
  constructor
  · intro x y d hdd hin hx hy hin2 hr1 hr2
    have hmid : 2 * ((x + (x + d.x)) / 2) = x + (x + d.x) ∧
        2 * ((y + (y + d.y)) / 2) = y + (y + d.y) := by
      have := dirs_arith d hdd x y
      clear hR h1 hin hin2 hr1 hr2
      omega
    exact (mid_room_free W H s1 hR x y (x + d.x) (y + d.y) _ _ hin hin2 ⟨hx, hy⟩
      (dirs_arith d hdd x y) hmid hr1 hr2).2
  · intro s2 d2 h2 x y hin
    obtain ⟨⟨_, _, hm⟩, _⟩ := make_maze_inv W H hd ho s1 hR d1 s2 d2 h2
    by_cases hfree : (s1.tiles x y).room = -1
    · have ht := hm.tile x y hin hfree
      have hw := rooms_free_wall W H s1 hR x y hin hfree
      refine ⟨by rw [ht.1, hfree], fun h => absurd hfree h, fun hne => ⟨hfree, hw.1, ?_⟩⟩
      rcases ht.2.2 with ⟨hk, hreg⟩ | ⟨hk, _⟩
      · exfalso
        apply hne
        have e1 : (s2.tiles x y).room = (s1.tiles x y).room := by rw [ht.1, hfree]
        have e2 : (s2.tiles x y).door = (s1.tiles x y).door := by rw [ht.2.1, hw.2.2]
        have e3 : (s2.tiles x y).kind = (s1.tiles x y).kind := by rw [hk, hw.1]
        have e4 : (s2.tiles x y).region = (s1.tiles x y).region := by rw [hreg, hw.2.1]
        cases hA : s2.tiles x y
        cases hB : s1.tiles x y
        rw [hA, hB] at e1 e2 e3 e4
        simp only at e1 e2 e3 e4
        rw [e1, e2, e3, e4]
      · exact hk
    · have e := hm.frame x y hin hfree
      exact ⟨by rw [e], fun _ => e, fun hne => absurd e hne⟩

/-- Witness of C20: in the run on the 11 × 7 grid with `small_draws`, the interior
tile `(3, 2)` of the room and its border tile `(6, 2)` are the same before and
after `make_maze`. -/
theorem make_maze_writes_room_free_witness :
    ∃ s1 d1 s2 d2, make_rooms 11 7 (init 11 7 s_blank) small_draws = outcome.ok (s1, d1) ∧
      make_maze 11 7 s1 d1 = outcome.ok (s2, d2) ∧
      ((s1.tiles 3 2).room ≠ -1 → s2.tiles 3 2 = s1.tiles 3 2) ∧
      ((s1.tiles 6 2).room ≠ -1 → s2.tiles 6 2 = s1.tiles 6 2) := by
  obtain ⟨s1, d1, s2, d2, _, _, _, h1, h2, _, _⟩ := small_run
  have h := (make_maze_writes_room_free 11 7 (by decide) (by decide) s_blank small_draws
    s1 d1 h1).2 s2 d2 h2
  exact ⟨s1, d1, s2, d2, h1, h2, (h 3 2 (by decide)).2.1, (h 6 2 (by decide)).2.1⟩

/-! ## `select` returns a pushed item -/

/-- C21: for every selector built by at least one `push_back`, all with positive
weights whose sum is at most 2147483646 (so that `weight_sum` and
`weight_sum + 1` are computed without `int` overflow), `weight_sum` is the sum of
the weights, the value `select` draws lies in `0 … weight_sum`, for every value `r`
in that range the loop of `select` returns one of the pushed items instead of
reaching `assert(false)`, and so `select` returns a pushed item for every value of
`rand()`.  The selector of `walk`, the only one the program builds, is of this
kind: at most four `push_back` calls of weight 1. -/
theorem select_returns_pushed_item {T : Type} (l : List (T × Int)) (hne : l ≠ [])
    (hpos : ∀ p ∈ l, 0 < p.2) (hsum : (l.map Prod.snd).sum ≤ 2147483646) :
    (push_all l).empty = false ∧
      (push_all l).weight_sum = (l.map Prod.snd).sum ∧
      (∀ rnd : Nat, 0 ≤ randrange ⟨0, (push_all l).weight_sum⟩ rnd ∧
        randrange ⟨0, (push_all l).weight_sum⟩ rnd ≤ (push_all l).weight_sum) ∧
      (∀ r : Int, 0 ≤ r → r ≤ (push_all l).weight_sum →
        ∃ a, select_loop (push_all l).items (push_all l).weights r = some a ∧
          a ∈ l.map Prod.fst) ∧
      (∀ rnd : Nat, ∃ a, (push_all l).select rnd = some a ∧ a ∈ l.map Prod.fst) ∧
      ∀ (W H : Int) (g : grid) (x y dx dy : Int),
        walk_neighbours W H g x y dx dy = push_all (walk_pushes W H g x y dx dy dirs) ∧
          (∀ p ∈ walk_pushes W H g x y dx dy dirs, 0 < p.2) ∧
          ((walk_pushes W H g x y dx dy dirs).map Prod.snd).sum ≤ 2147483646 := by
  obtain ⟨he, _, hr, hl⟩ := push_all_select l hne hpos hsum
  refine ⟨he, (push_all_fields l hpos (by omega)).2.2, hr, fun r _ h => hl r h,
    fun rnd => hl _ (hr rnd).2, fun W H g x y dx dy => ?_⟩
  obtain ⟨h1, h2, _, h4⟩ := walk_neighbours_pushes W H g x y dx dy
  refine ⟨h1, fun p hp => ?_, by omega⟩
  rw [h2 p hp]
  decide

/-- Witness of C21: the selector with the items `(3, 1)` and `(1, 3)` of weight 1 each,
as `walk` builds it at `(1, 1)`, returns `(3, 1)` for the draw 1 and `(1, 3)` for the
draw 2, and some pushed item for every draw. -/
theorem select_returns_pushed_item_witness :
    (push_all [((⟨3, 1⟩ : xy_t), (1 : Int)), (⟨1, 3⟩, 1)]).select 1 = some ⟨3, 1⟩ ∧
      (push_all [((⟨3, 1⟩ : xy_t), (1 : Int)), (⟨1, 3⟩, 1)]).select 2 = some ⟨1, 3⟩ ∧
      ∀ rnd : Nat, ∃ a, (push_all [((⟨3, 1⟩ : xy_t), (1 : Int)), (⟨1, 3⟩, 1)]).select rnd = some a ∧
        a ∈ [((⟨3, 1⟩ : xy_t), (1 : Int)), (⟨1, 3⟩, 1)].map Prod.fst :=
  ⟨by decide, by decide,
    (select_returns_pushed_item [((⟨3, 1⟩ : xy_t), (1 : Int)), (⟨1, 3⟩, 1)] (by decide)
      (by decide) (by decide)).2.2.2.2.1⟩

end Mazegen
